import Mathlib

/-!
# Search core of the `integral` chess engine

A shallow embedding of `src/search.cpp` (`should_exit_search`, `quiesce`,
`negamax`, `find_best_move`) and of
`src/engine/search/history/continuation_history.h` (`ContinuationHistory`),
together with theorems about them.

Conventions of the embedding.

* The external collaborators of the search (board representation, move
  generation, evaluation, transposition table, move orderer, clock) are the
  fields of `Engine`; the search is written once, for every engine.
* The file-scope variables of `search::detail`, the board and the tables are
  the fields of `SearchState`, threaded through every function.
* `SearchState.trace` is a ghost log: every call that makes or unmakes a move,
  saves a transposition entry or updates a killer move appends one `Event`,
  and so does every root call of `find_best_move`.
  `Result.path` is a ghost label naming the `return` statement that was taken.
* C++ `int` is modelled by `Int`; `INT_MIN` is the literal value of
  `std::numeric_limits<int>::min()`.  Statements that depend on the absence of
  signed overflow carry explicit range hypotheses (`IsScore`).
* Recursion that the source does not bound (check extensions, capture chains)
  is bounded by a fuel argument; running out of fuel is `none`.
-/

namespace Integral

/-! ## Data model -/

/-- Side to move. -/
inductive Color where
  | kWhite
  | kBlack
  deriving DecidableEq, Repr

/-- The colour of the other side. -/
def flip_color : Color → Color
  | Color.kWhite => Color.kBlack
  | Color.kBlack => Color.kWhite

/-- The colour picked by the source's `turn == Color::kWhite ? kBlack... : kWhite...`
when it indexes `state.pieces`. -/
def opponent_of (turn : Color) : Color :=
  if turn = Color.kWhite then Color.kBlack else Color.kWhite

/-- Mode tag handed to the move orderer. -/
inductive MoveType where
  | kCaptures
  | kAll
  deriving DecidableEq, Repr

/-- Bound flag of a transposition entry (`TranspositionTable::Entry::Flag`). -/
inductive Flag where
  | kExact
  | kLowerBound
  | kUpperBound
  deriving DecidableEq, Repr

/-- A transposition-table entry, with the fields `negamax` reads and writes. -/
structure Entry (Move : Type) where
  key : Nat
  evaluation : Int
  depth : Int
  best_move : Move
  flag : Flag
  deriving DecidableEq, Repr

/-- Ghost events: the side effects of the search on board and tables, in order. -/
inductive Event (Move : Type) where
  | make (m : Move)
  | makeNull
  | undo
  | save (e : Entry Move) (ply : Int)
  | killer (m : Move) (depth : Int)
  /-- The root call of line 230, with its depth and the value
  `can_do_null_move` has when it is made. -/
  | root (depth : Int) (null_allowed : Bool)
  deriving DecidableEq, Repr

/-- Modelled from the spec: `eval::kMateScore` is declared outside the given
sources; the constants table gives MATE = 32000. -/
def kMateScore : Int := 32000

/-- Modelled from the spec: `eval::kDrawScore` is declared outside the given
sources; the constants table gives DRAW = 0. -/
def kDrawScore : Int := 0

/-- Modelled from the spec: `eval::kPieceValues[PieceType::kQueen]` is declared
outside the given sources; the constants table gives QUEEN_VALUE = 900. -/
def kQueenValue : Int := 900

/-- Modelled from the spec: `kMaxDepth` is declared outside the given sources;
the constants table gives MAX_DEPTH = 64. -/
def kMaxDepth : Nat := 64

/-- The value of `std::numeric_limits<int>::min()` for a 32-bit `int`. -/
def INT_MIN : Int := -2147483648

/-- A score whose negation is again a C++ `int`: strictly between `INT_MIN`
and `-INT_MIN`. -/
def IsScore (x : Int) : Prop := INT_MIN < x ∧ x < -INT_MIN

instance (x : Int) : Decidable (IsScore x) := by
  unfold IsScore; infer_instance

/-- The external collaborators of the search core.  `Board` is the board with
its make/undo history, `TT` the transposition table, `Killers` the killer
table of the move orderer. -/
structure Engine (Board Move TT Killers : Type) where
  /-- Side to move: `state.turn`. -/
  turn : Board → Color
  /-- Hash of the position: `state.zobrist_key`. -/
  zobrist_key : Board → Nat
  /-- Static evaluation from the side to move: `eval::evaluate(state)`. -/
  evaluate : Board → Int
  /-- Whether the king of the colour is attacked: `king_in_check(color, state)`. -/
  king_in_check : Color → Board → Bool
  /-- Whether the king bitboard of the colour is empty:
  `state.pieces[k<Color>King] == 0ULL`. -/
  king_missing : Color → Board → Bool
  /-- Whether the colour has a piece on the square:
  `state.pieces[k<Color>Pieces].is_set(square)`. -/
  has_piece : Color → Board → Nat → Bool
  generate_moves : Board → List Move
  generate_capture_moves : Board → List Move
  make_move : Board → Move → Board
  make_null_move : Board → Board
  undo_move : Board → Board
  /-- Destination square: `move.get_to()`. -/
  get_to : Move → Nat
  /-- The default-constructed `Move`. -/
  no_move : Move
  /-- Slot of the table for a key: `transpo.probe(key)`. -/
  probe : TT → Nat → Entry Move
  /-- Table after `transpo.save(entry, ply)`. -/
  save : TT → Entry Move → Int → TT
  /-- The moves in the order `MoveOrderer::get_move(0), get_move(1), ...`
  delivers them, for an orderer built from the board (which owns the
  transposition table), the generated moves and the mode; the killer table
  is static state of the orderer. -/
  order : MoveType → Board → TT → Killers → List Move → List Move
  /-- Killer table after `MoveOrderer::update_killer_move(move, depth)`. -/
  update_killer_move : Killers → Move → Int → Killers
  /-- The clock: `now i` is the value of the `i`-th reading of
  `std::chrono::steady_clock::now()`, in ticks. -/
  now : Nat → Int
  /-- The time budget `kMaxSearchTime`, in ticks. -/
  kMaxSearchTime : Int

/-- The mutable state of a search: board, tables, the variables of
`search::detail`, the number of clock readings taken so far, and the ghost
trace. -/
structure SearchState (Board Move TT Killers : Type) where
  board : Board
  transpo : TT
  killers : Killers
  start_time : Int
  best_move_this_iteration : Option Move
  best_eval_this_iteration : Int
  search_cancelled : Bool
  can_do_null_move : Bool
  nodes_searched : Int
  clock_reads : Nat
  trace : List (Event Move)

/-- Ghost label of the `return` statement by which `negamax` left. -/
inductive Exit where
  /-- Line 89: exact transposition hit. -/
  | ttExact
  /-- Line 104: the bound of the slot closed the window. -/
  | ttCutoff
  /-- Line 109: cancellation seen on entry. -/
  | cancelledEntry
  /-- Line 120: the result of `quiesce`. -/
  | horizon
  /-- Line 135: cancellation seen after the null-move search. -/
  | cancelledNull
  /-- Line 137: null-move cutoff. -/
  | nullCutoff
  /-- Line 165: cancellation seen after a child search. -/
  | cancelledChild
  /-- Line 195: no legal move was tried. -/
  | gameOver
  /-- Line 213: after storing the transposition entry. -/
  | stored
  deriving DecidableEq, Repr

/-- The three `return 0` of `negamax` after a cancellation. -/
def Exit.isCancelled : Exit → Bool
  | Exit.cancelledEntry => true
  | Exit.cancelledNull => true
  | Exit.cancelledChild => true
  | _ => false

/-- What a `negamax` call hands back: the returned value, the ghost label of
the return statement, and the state it leaves behind. -/
structure Result (Board Move TT Killers : Type) where
  value : Int
  path : Exit
  state : SearchState Board Move TT Killers

section Search

variable {Board Move TT Killers : Type}

/-- Shape of `quiesce`: state, alpha, beta. -/
abbrev QSearch (Board Move TT Killers : Type) :=
  SearchState Board Move TT Killers → Int → Int →
    Option (Int × SearchState Board Move TT Killers)

/-- Shape of `negamax`: state, depth, ply, alpha, beta. -/
abbrev NSearch (Board Move TT Killers : Type) :=
  SearchState Board Move TT Killers → Int → Int → Int → Int →
    Option (Result Board Move TT Killers)

/-! ## Board operations on the state -/

/-- State after `board.make_move(m)`. -/
def do_make (E : Engine Board Move TT Killers) (s : SearchState Board Move TT Killers)
    (m : Move) : SearchState Board Move TT Killers :=
  { s with board := E.make_move s.board m, trace := s.trace ++ [Event.make m] }

/-- State after `board.make_null_move()`. -/
def do_make_null (E : Engine Board Move TT Killers) (s : SearchState Board Move TT Killers) :
    SearchState Board Move TT Killers :=
  { s with board := E.make_null_move s.board, trace := s.trace ++ [Event.makeNull] }

/-- State after `board.undo_move()`. -/
def do_undo (E : Engine Board Move TT Killers) (s : SearchState Board Move TT Killers) :
    SearchState Board Move TT Killers :=
  { s with board := E.undo_move s.board, trace := s.trace ++ [Event.undo] }

/-- State after the assignment `detail::can_do_null_move = b`. -/
def setNullFlag (s : SearchState Board Move TT Killers) (b : Bool) :
    SearchState Board Move TT Killers :=
  { s with can_do_null_move := b }

/-! ## `should_exit_search` -/

/-- The elapsed time a call of `should_exit_search` would compute in state `s`. -/
def elapsed (E : Engine Board Move TT Killers) (s : SearchState Board Move TT Killers) : Int :=
  E.now s.clock_reads - s.start_time

/-- `should_exit_search()`: the clock is read only when the search is already
cancelled or the node counter is a multiple of 500000; the answer is `true`,
and `search_cancelled` is set, only when that reading exceeds the budget. -/
def should_exit_search (E : Engine Board Move TT Killers)
    (s : SearchState Board Move TT Killers) : Bool × SearchState Board Move TT Killers :=
  if s.search_cancelled || s.nodes_searched % 500000 == 0 then
    if elapsed E s ≥ E.kMaxSearchTime then
      (true, { s with clock_reads := s.clock_reads + 1, search_cancelled := true })
    else
      (false, { s with clock_reads := s.clock_reads + 1 })
  else
    (false, s)

/-! ## `quiesce` -/

/-- The test of lines 55-56, on the board after the capture was made: the
mover's king is gone or attacked. -/
def capture_leaves_check (E : Engine Board Move TT Killers) (b : Board) : Bool :=
  E.king_missing (opponent_of (E.turn b)) b || E.king_in_check (flip_color (E.turn b)) b

/-- The test of line 154, on the board after the move was made: the mover's
king is attacked. -/
def move_leaves_check (E : Engine Board Move TT Killers) (b : Board) : Bool :=
  E.king_in_check (flip_color (E.turn b)) b

/-- The capture loop of `quiesce` (lines 52-71) over the remaining moves, with
the current `alpha`; `rec` is the recursive call. -/
def quiesceLoop (E : Engine Board Move TT Killers) (rec : QSearch Board Move TT Killers)
    (beta : Int) :
    List Move → Int → SearchState Board Move TT Killers →
      Option (Int × SearchState Board Move TT Killers)
  | [], alpha, s => some (alpha, s)
  | m :: ms, alpha, s =>
    let s1 := do_make E s m
    let in_check := capture_leaves_check E s1.board
    if in_check then
      quiesceLoop E rec beta ms alpha (do_undo E s1)
    else
      match rec s1 (-beta) (-alpha) with
      | none => none
      | some (v, s2) =>
        let score := -v
        let s3 := do_undo E s2
        if score ≥ beta then some (beta, s3)
        else quiesceLoop E rec beta ms (max alpha score) s3

/-- The body of `quiesce` (lines 36-72) with the recursive call abstracted. -/
def quiesceBody (E : Engine Board Move TT Killers) (rec : QSearch Board Move TT Killers) :
    QSearch Board Move TT Killers := fun s alpha beta =>
  let stand_pat := E.evaluate s.board
  if stand_pat ≥ beta then some (beta, s)
  else if stand_pat + kQueenValue < alpha then some (alpha, s)
  else
    let alpha := if alpha < stand_pat then stand_pat else alpha
    quiesceLoop E rec beta
      (E.order MoveType.kCaptures s.board s.transpo s.killers
        (E.generate_capture_moves s.board))
      alpha s

/-- `quiesce(board, alpha, beta)` with at most `fuel` nested calls. -/
def quiesce (E : Engine Board Move TT Killers) : Nat → QSearch Board Move TT Killers
  | 0 => fun _ _ _ => none
  | fuel + 1 => quiesceBody E (quiesce E fuel)

/-! ## `negamax` -/

/-- How the move loop of `negamax` ends. -/
inductive LoopOut (Board Move TT Killers : Type) where
  /-- Line 165: `return 0` after `should_exit_search()`. -/
  | cancelled (s : SearchState Board Move TT Killers)
  /-- The loop ran out of moves or hit `break`; the local variables then. -/
  | finished (alpha best_eval : Int) (best_move : Move) (moves_tried : Nat)
      (s : SearchState Board Move TT Killers)

/-- How one iteration of the move loop of `negamax` ends. -/
inductive StepOut (Board Move TT Killers : Type) where
  /-- Line 156: `continue`, the move left the own king in check. -/
  | skipped (s : SearchState Board Move TT Killers)
  /-- Line 165: `return 0` after `should_exit_search()`. -/
  | cancelled (s : SearchState Board Move TT Killers)
  /-- Line 188: `break`, with the local variables then. -/
  | cutoff (alpha best_eval : Int) (best_move : Move) (moves_tried : Nat)
      (s : SearchState Board Move TT Killers)
  /-- The end of the loop body, with the local variables then. -/
  | next (alpha best_eval : Int) (best_move : Move) (moves_tried : Nat)
      (s : SearchState Board Move TT Killers)

/-- Lines 172-175: at ply 0 an improved move becomes the iteration-best. -/
def rootBest (s : SearchState Board Move TT Killers) (ply : Int) (best_move : Move)
    (best_eval : Int) : SearchState Board Move TT Killers :=
  if ply = 0 then
    { s with best_move_this_iteration := some best_move,
             best_eval_this_iteration := best_eval }
  else s

/-- Lines 182-186: a cutoff move that does not land on an enemy piece becomes
a killer move. -/
def cutoffKiller (E : Engine Board Move TT Killers) (s : SearchState Board Move TT Killers)
    (m : Move) (depth : Int) : SearchState Board Move TT Killers :=
  let is_capture_move := E.has_piece (opponent_of (E.turn s.board)) s.board (E.get_to m)
  if !is_capture_move then
    { s with killers := E.update_killer_move s.killers m depth,
             trace := s.trace ++ [Event.killer m depth] }
  else s

/-- Lines 178-189: raise alpha to the best score and test for the cutoff;
`best_eval`, `best_move`, `moves_tried` are the values after lines 160-176. -/
def stepTail (E : Engine Board Move TT Killers) (depth beta : Int) (m : Move)
    (alpha best_eval : Int) (best_move : Move) (moves_tried : Nat)
    (s : SearchState Board Move TT Killers) : StepOut Board Move TT Killers :=
  let alpha1 := max alpha best_eval
  if alpha1 ≥ beta then
    StepOut.cutoff alpha1 best_eval best_move moves_tried (cutoffKiller E s m depth)
  else
    StepOut.next alpha1 best_eval best_move moves_tried s

/-- One iteration of the move loop of `negamax` (lines 149-189) for the move
`m`, with the current values of `alpha`, `best_eval`, `best_move`,
`moves_tried`; `rec` is the recursive call. -/
def negamaxStep (E : Engine Board Move TT Killers) (rec : NSearch Board Move TT Killers)
    (depth ply beta : Int) (m : Move) (alpha best_eval : Int) (best_move : Move)
    (moves_tried : Nat) (s : SearchState Board Move TT Killers) :
    Option (StepOut Board Move TT Killers) :=
  let s1 := do_make E s m
  if move_leaves_check E s1.board then
    some (StepOut.skipped (do_undo E s1))
  else
    match rec s1 (depth - 1) (ply + 1) (-beta) (-alpha) with
    | none => none
    | some r =>
      let score := -r.value
      let x := should_exit_search E (do_undo E r.state)
      if x.1 then some (StepOut.cancelled x.2)
      else if score > best_eval then
        some (stepTail E depth beta m alpha score m (moves_tried + 1) (rootBest x.2 ply m score))
      else
        some (stepTail E depth beta m alpha best_eval best_move (moves_tried + 1) x.2)

/-- The move loop of `negamax` (lines 148-190) over the remaining moves, with
the current values of `alpha`, `best_eval`, `best_move`, `moves_tried`;
`rec` is the recursive call. -/
def negamaxLoop (E : Engine Board Move TT Killers) (rec : NSearch Board Move TT Killers)
    (depth ply beta : Int) :
    List Move → Int → Int → Move → Nat → SearchState Board Move TT Killers →
      Option (LoopOut Board Move TT Killers)
  | [], alpha, best_eval, best_move, moves_tried, s =>
    some (LoopOut.finished alpha best_eval best_move moves_tried s)
  | m :: ms, alpha, best_eval, best_move, moves_tried, s =>
    match negamaxStep E rec depth ply beta m alpha best_eval best_move moves_tried s with
    | none => none
    | some (StepOut.skipped s1) =>
      negamaxLoop E rec depth ply beta ms alpha best_eval best_move moves_tried s1
    | some (StepOut.cancelled s1) => some (LoopOut.cancelled s1)
    | some (StepOut.cutoff alpha1 best_eval1 best_move1 moves_tried1 s1) =>
      some (LoopOut.finished alpha1 best_eval1 best_move1 moves_tried1 s1)
    | some (StepOut.next alpha1 best_eval1 best_move1 moves_tried1 s1) =>
      negamaxLoop E rec depth ply beta ms alpha1 best_eval1 best_move1 moves_tried1 s1

/-- The state in which one iteration of the move loop ended. -/
def StepOut.state : StepOut Board Move TT Killers → SearchState Board Move TT Killers
  | StepOut.skipped s => s
  | StepOut.cancelled s => s
  | StepOut.cutoff _ _ _ _ s => s
  | StepOut.next _ _ _ _ s => s

/-- The state in which the move loop ended. -/
def LoopOut.state : LoopOut Board Move TT Killers → SearchState Board Move TT Killers
  | LoopOut.cancelled s => s
  | LoopOut.finished _ _ _ _ s => s

/-- The bound flag of lines 204-209. -/
def boundFlag (original_alpha beta best_eval : Int) : Flag :=
  if best_eval ≤ original_alpha then Flag.kUpperBound
  else if best_eval ≥ beta then Flag.kLowerBound
  else Flag.kExact

/-- The entry built in lines 198-209. -/
def storedEntry (E : Engine Board Move TT Killers) (s : SearchState Board Move TT Killers)
    (depth original_alpha beta best_eval : Int) (best_move : Move) : Entry Move :=
  { key := E.zobrist_key s.board, evaluation := best_eval, depth := depth,
    best_move := best_move, flag := boundFlag original_alpha beta best_eval }

/-- State after `transpo.save(entry, ply)` (line 211). -/
def do_save (E : Engine Board Move TT Killers) (s : SearchState Board Move TT Killers)
    (entry : Entry Move) (ply : Int) : SearchState Board Move TT Killers :=
  { s with transpo := E.save s.transpo entry ply,
           trace := s.trace ++ [Event.save entry ply] }

/-- Line 141: the moves of the position, in the order of the move orderer. -/
def orderedMoves (E : Engine Board Move TT Killers) (s : SearchState Board Move TT Killers) :
    List Move :=
  E.order MoveType.kAll s.board s.transpo s.killers (E.generate_moves s.board)

/-- Lines 141-213 of `negamax`: the move loop, the game-over return and the
store; `depth` is the depth after the check extension. -/
def negamaxMoves (E : Engine Board Move TT Killers) (rec : NSearch Board Move TT Killers)
    (in_check : Bool) (original_alpha : Int)
    (s : SearchState Board Move TT Killers) (depth ply alpha beta : Int) :
    Option (Result Board Move TT Killers) :=
  match negamaxLoop E rec depth ply beta (orderedMoves E s) alpha INT_MIN E.no_move 0 s with
  | none => none
  | some (LoopOut.cancelled s1) => some ⟨0, Exit.cancelledChild, s1⟩
  | some (LoopOut.finished _ best_eval best_move moves_tried s1) =>
    if moves_tried = 0 then
      some ⟨if in_check then -kMateScore + ply else kDrawScore, Exit.gameOver, s1⟩
    else
      some ⟨best_eval, Exit.stored,
        do_save E s1 (storedEntry E s1 depth original_alpha beta best_eval best_move) ply⟩

/-- Lines 123-213 of `negamax`: the null-move heuristic, then the moves;
`depth` is the depth after the check extension. -/
def negamaxNull (E : Engine Board Move TT Killers) (rec : NSearch Board Move TT Killers)
    (in_check : Bool) (original_alpha : Int)
    (s : SearchState Board Move TT Killers) (depth ply alpha beta : Int) :
    Option (Result Board Move TT Killers) :=
  if s.can_do_null_move && decide (depth > 2) && !in_check then
    let s1 := do_make_null E (setNullFlag s false)
    let reduction : Int := if depth > 6 then 3 else 2
    match rec s1 (depth - reduction) (ply + 1) (-beta) (-alpha) with
    | none => none
    | some r =>
      let null_move_score := -r.value
      let s2 := (setNullFlag (do_undo E r.state) true)
      let x := should_exit_search E s2
      if x.1 then some ⟨0, Exit.cancelledNull, x.2⟩
      else if null_move_score ≥ beta then some ⟨beta, Exit.nullCutoff, x.2⟩
      else negamaxMoves E rec in_check original_alpha x.2 depth ply alpha beta
  else
    negamaxMoves E rec in_check original_alpha s depth ply alpha beta

/-- Lines 113-116: the check extension. -/
def extendDepth (in_check : Bool) (depth : Int) : Int :=
  if in_check then depth + 1 else depth

/-- Line 119: `++detail::nodes_searched`. -/
def countNode (s : SearchState Board Move TT Killers) : SearchState Board Move TT Killers :=
  { s with nodes_searched := s.nodes_searched + 1 }

/-- Lines 108-213 of `negamax`: everything after the transposition probe, for
the window `alpha`, `beta` the probe left. -/
def negamaxSearch (E : Engine Board Move TT Killers) (q : QSearch Board Move TT Killers)
    (rec : NSearch Board Move TT Killers) (original_alpha : Int)
    (s : SearchState Board Move TT Killers) (depth ply alpha beta : Int) :
    Option (Result Board Move TT Killers) :=
  let x := should_exit_search E s
  if x.1 then some ⟨0, Exit.cancelledEntry, x.2⟩
  else
    let in_check := E.king_in_check (E.turn x.2.board) x.2.board
    let depth := extendDepth in_check depth
    if depth ≤ 0 then
      match q (countNode x.2) alpha beta with
      | none => none
      | some (v, s1) => some ⟨v, Exit.horizon, s1⟩
    else
      negamaxNull E rec in_check original_alpha x.2 depth ply alpha beta

/-- State after an immediate return on a transposition hit (lines 84-87 and
99-102): at ply 0 the iteration-best move and score are taken from the slot. -/
def ttReturnState (s : SearchState Board Move TT Killers) (ply : Int) (e : Entry Move) :
    SearchState Board Move TT Killers :=
  if ply = 0 then
    { s with best_move_this_iteration := some e.best_move,
             best_eval_this_iteration := e.evaluation }
  else s

/-- The slot `transpo.probe(state.zobrist_key)` of line 80. -/
def probeSlot (E : Engine Board Move TT Killers) (s : SearchState Board Move TT Killers) :
    Entry Move :=
  E.probe s.transpo (E.zobrist_key s.board)

/-- The body of `negamax` (lines 74-214) with the calls of `quiesce` and of
`negamax` itself abstracted. -/
def negamaxBody (E : Engine Board Move TT Killers) (q : QSearch Board Move TT Killers)
    (rec : NSearch Board Move TT Killers) : NSearch Board Move TT Killers :=
  fun s depth ply alpha beta =>
  let original_alpha := alpha
  let tt_entry := probeSlot E s
  if tt_entry.key = E.zobrist_key s.board ∧ tt_entry.depth ≥ depth then
    match tt_entry.flag with
    | Flag.kExact => some ⟨tt_entry.evaluation, Exit.ttExact, ttReturnState s ply tt_entry⟩
    | Flag.kLowerBound =>
      let alpha := max alpha tt_entry.evaluation
      if alpha ≥ beta then
        some ⟨tt_entry.evaluation, Exit.ttCutoff, ttReturnState s ply tt_entry⟩
      else negamaxSearch E q rec original_alpha s depth ply alpha beta
    | Flag.kUpperBound =>
      let beta := min beta tt_entry.evaluation
      if alpha ≥ beta then
        some ⟨tt_entry.evaluation, Exit.ttCutoff, ttReturnState s ply tt_entry⟩
      else negamaxSearch E q rec original_alpha s depth ply alpha beta
  else
    negamaxSearch E q rec original_alpha s depth ply alpha beta

/-- `negamax(board, depth, ply, alpha, beta)` with at most `fuel` nested calls
(of `negamax` and `quiesce` together). -/
def negamax (E : Engine Board Move TT Killers) : Nat → NSearch Board Move TT Killers
  | 0 => fun _ _ _ _ _ => none
  | fuel + 1 => negamaxBody E (quiesce E fuel) (negamax E fuel)

/-! ## `find_best_move` -/

/-- The iterative-deepening loop of `find_best_move` (lines 226-244): `n` is
the number of iterations left, `depth` the depth of the next one and
`best_move` the local variable of that name. -/
def deepenLoop (E : Engine Board Move TT Killers) (fuel : Nat) :
    Nat → Int → Move → SearchState Board Move TT Killers →
      Option (Move × SearchState Board Move TT Killers)
  | 0, _, best_move, s => some (best_move, s)
  | n + 1, depth, best_move, s =>
    let s1 := { s with best_move_this_iteration := none,
                       best_eval_this_iteration := INT_MIN,
                       trace := s.trace ++ [Event.root depth s.can_do_null_move] }
    match negamax E fuel s1 depth 0 (-kMateScore) kMateScore with
    | none => none
    | some r =>
      let best_move1 :=
        match r.state.best_move_this_iteration with
        | some m => m
        | none => best_move
      let x := should_exit_search E r.state
      if x.1 then some (best_move1, x.2)
      else deepenLoop E fuel n (depth + 1) best_move1 x.2

/-- State after lines 217-220 of `find_best_move`. -/
def searchStart (E : Engine Board Move TT Killers) (s : SearchState Board Move TT Killers) :
    SearchState Board Move TT Killers :=
  { s with search_cancelled := false, can_do_null_move := true, nodes_searched := 0,
           start_time := E.now s.clock_reads, clock_reads := s.clock_reads + 1 }

/-- `find_best_move(board)`: the returned move and the state left behind; the
console output is not modelled, the clock reading of line 246 is. -/
def find_best_move (E : Engine Board Move TT Killers) (fuel : Nat)
    (s : SearchState Board Move TT Killers) :
    Option (Move × SearchState Board Move TT Killers) :=
  match deepenLoop E fuel kMaxDepth 1 E.no_move (searchStart E s) with
  | none => none
  | some (m, s1) => some (m, { s1 with clock_reads := s1.clock_reads + 1 })

/-! ## Reference notions of the specification -/

/-- The clamp of the specification: `clamp x a b = min b (max a x)`. -/
def clamp (x a b : Int) : Int := min b (max a x)

/-- The legal moves of a position: the generated moves that do not leave the
mover's king in check. -/
def legalMoves (E : Engine Board Move TT Killers) (b : Board) : List Move :=
  (E.generate_moves b).filter (fun m => !move_leaves_check E (E.make_move b m))

/-- The maximum over the moves of the negated child value `f m`: `some none`
for no move, `none` when a child value is missing. -/
def plainBest (f : Move → Option Int) : List Move → Option (Option Int)
  | [] => some none
  | m :: ms =>
    match f m, plainBest f ms with
    | some w, some none => some (some (-w))
    | some w, some (some v) => some (some (max (-w) v))
    | _, _ => none

/-- The plain negamax value `N(pos, depth, ply)` of the specification, with at
most `fuel` nested levels: the depth is extended by one in check; at depth
`≤ 0` the value is the static evaluation; without a legal move it is
`-MATE + ply` in check and DRAW otherwise; else it is the maximum over the
legal moves of the negated value of the child at depth minus one. -/
def plainNegamax (E : Engine Board Move TT Killers) : Nat → Board → Int → Int → Option Int
  | 0, _, _, _ => none
  | fuel + 1, b, depth, ply =>
    let in_check := E.king_in_check (E.turn b) b
    let depth1 := extendDepth in_check depth
    if depth1 ≤ 0 then some (E.evaluate b)
    else
      match plainBest (fun m => plainNegamax E fuel (E.make_move b m) (depth1 - 1) (ply + 1))
          (legalMoves E b) with
      | none => none
      | some none => some (if in_check then -kMateScore + ply else kDrawScore)
      | some (some v) => some v

/-- Every horizon position of the plain negamax tree has no legal capture:
where the extended depth is `≤ 0`, every generated capture leaves the mover's
king in check. -/
def horizonQuiet (E : Engine Board Move TT Killers) : Nat → Board → Int → Bool
  | 0, _, _ => true
  | fuel + 1, b, depth =>
    let in_check := E.king_in_check (E.turn b) b
    let depth1 := extendDepth in_check depth
    if depth1 ≤ 0 then
      (E.generate_capture_moves b).all (fun m => capture_leaves_check E (E.make_move b m))
    else
      (legalMoves E b).all (fun m => horizonQuiet E fuel (E.make_move b m) (depth1 - 1))

/-- What a fail-soft alpha-beta value `v` says about the true value `n` for
the window `(alpha, beta)`: inside the window it is exact, at or below alpha
it is an upper bound, at or above beta a lower bound. -/
def FailSoft (v n alpha beta : Int) : Prop :=
  (alpha < v → v < beta → v = n) ∧ (v ≤ alpha → n ≤ v) ∧ (beta ≤ v → v ≤ n)

/-! ## The window after the probe, and the run of the move loop -/

/-- The value of `alpha` after lines 81-96: raised to the slot score by a
matching LowerBound slot of sufficient depth. -/
def probedAlpha (E : Engine Board Move TT Killers) (s : SearchState Board Move TT Killers)
    (depth alpha : Int) : Int :=
  if (probeSlot E s).key = E.zobrist_key s.board ∧ (probeSlot E s).depth ≥ depth ∧
      (probeSlot E s).flag = Flag.kLowerBound then
    max alpha (probeSlot E s).evaluation
  else alpha

/-- The value of `beta` after lines 81-96: lowered to the slot score by a
matching UpperBound slot of sufficient depth. -/
def probedBeta (E : Engine Board Move TT Killers) (s : SearchState Board Move TT Killers)
    (depth beta : Int) : Int :=
  if (probeSlot E s).key = E.zobrist_key s.board ∧ (probeSlot E s).depth ≥ depth ∧
      (probeSlot E s).flag = Flag.kUpperBound then
    min beta (probeSlot E s).evaluation
  else beta

/-- The local variables of the move loop of `negamax` (`alpha` and lines
143-146), together with the state. -/
structure LoopPoint (Board Move TT Killers : Type) where
  alpha : Int
  best_eval : Int
  best_move : Move
  moves_tried : Nat
  state : SearchState Board Move TT Killers

/-- The loop variables on entry to the move loop (lines 143-146). -/
def loopEntry (E : Engine Board Move TT Killers) (alpha : Int)
    (s : SearchState Board Move TT Killers) : LoopPoint Board Move TT Killers :=
  ⟨alpha, INT_MIN, E.no_move, 0, s⟩

/-- The loop variables when the move loop has run through the moves `ms` and
goes on to the next iteration; `none` when it left on the way (cancelled at
line 165 or cut off at line 188) or a child search gave no result. -/
def loopBefore (E : Engine Board Move TT Killers) (rec : NSearch Board Move TT Killers)
    (depth ply beta : Int) :
    List Move → LoopPoint Board Move TT Killers → Option (LoopPoint Board Move TT Killers)
  | [], p => some p
  | m :: ms, p =>
    match negamaxStep E rec depth ply beta m p.alpha p.best_eval p.best_move p.moves_tried
        p.state with
    | some (StepOut.skipped s1) => loopBefore E rec depth ply beta ms { p with state := s1 }
    | some (StepOut.next a b bm k s1) => loopBefore E rec depth ply beta ms ⟨a, b, bm, k, s1⟩
    | _ => none

/-- The score (line 159) of the move at position `i` of the move loop over
`all` entered with the variables `p0`, when that move was fully searched: the
loop reached it, the move was legal, its child search returned and the
cancellation check after it (line 164) was negative; `none` otherwise. -/
def scoreAt (E : Engine Board Move TT Killers) (rec : NSearch Board Move TT Killers)
    (depth ply beta : Int) (all : List Move) (p0 : LoopPoint Board Move TT Killers)
    (i : Nat) : Option Int :=
  match all[i]?, loopBefore E rec depth ply beta (all.take i) p0 with
  | some m, some p =>
    if move_leaves_check E (do_make E p.state m).board then none
    else
      match rec (do_make E p.state m) (depth - 1) (ply + 1) (-beta) (-p.alpha) with
      | none => none
      | some rc =>
        if (should_exit_search E (do_undo E rc.state)).1 then none else some (-rc.value)
  | _, _ => none

/-- The state in which `negamax`, past the probe with the window `alpha`,
`beta`, enters the move loop (line 141); `none` when it returns before
(lines 109, 120, 135, 137) or the null-move search gave no result. -/
def searchLoopStart (E : Engine Board Move TT Killers) (rec : NSearch Board Move TT Killers)
    (s : SearchState Board Move TT Killers) (depth ply alpha beta : Int) :
    Option (SearchState Board Move TT Killers) :=
  let x := should_exit_search E s
  if x.1 then none
  else
    let in_check := E.king_in_check (E.turn x.2.board) x.2.board
    let depth := extendDepth in_check depth
    if depth ≤ 0 then none
    else if x.2.can_do_null_move && decide (depth > 2) && !in_check then
      match rec (do_make_null E (setNullFlag x.2 false))
          (depth - (if depth > 6 then 3 else 2)) (ply + 1) (-beta) (-alpha) with
      | none => none
      | some r =>
        let y := should_exit_search E (setNullFlag (do_undo E r.state) true)
        if y.1 then none
        else if -r.value ≥ beta then none
        else some y.2
    else some x.2

/-- Whether `negamax` returns at the probe (lines 89 and 104): the slot
matches the key, is deep enough and is exact or closes the window. -/
def ttReturns (E : Engine Board Move TT Killers) (s : SearchState Board Move TT Killers)
    (depth alpha beta : Int) : Bool :=
  decide ((probeSlot E s).key = E.zobrist_key s.board ∧ (probeSlot E s).depth ≥ depth) &&
    (decide ((probeSlot E s).flag = Flag.kExact) ||
      decide (probedAlpha E s depth alpha ≥ probedBeta E s depth beta))

/-- The state in which the call `negamax(board, depth, ply, alpha, beta)`
entered in state `s` reaches its move loop (line 141); `none` when it returns
before. -/
def loopStart (E : Engine Board Move TT Killers) (rec : NSearch Board Move TT Killers)
    (s : SearchState Board Move TT Killers) (depth ply alpha beta : Int) :
    Option (SearchState Board Move TT Killers) :=
  if ttReturns E s depth alpha beta then none
  else searchLoopStart E rec s depth ply (probedAlpha E s depth alpha)
    (probedBeta E s depth beta)

/-- The score of the move at position `i` of the move loop of the call
`negamax(board, depth, ply, alpha, beta)` entered in state `s`, when that
move was fully searched in the call; `none` otherwise. -/
def searchedScore (E : Engine Board Move TT Killers) (rec : NSearch Board Move TT Killers)
    (s : SearchState Board Move TT Killers) (depth ply alpha beta : Int) (i : Nat) :
    Option Int :=
  match loopStart E rec s depth ply alpha beta with
  | none => none
  | some s1 =>
    scoreAt E rec (extendDepth (E.king_in_check (E.turn s.board) s.board) depth) ply
      (probedBeta E s depth beta) (orderedMoves E s1)
      (loopEntry E (probedAlpha E s depth alpha) s1) i

/-- After the first `n` positions of the move loop: `be` bounds the scores of
the moves fully searched among them, and either it is still the initial
`best_eval` with the initial `best_move`, or `bm` is the first of these moves
that scored `be`. -/
def BestUpTo (E : Engine Board Move TT Killers) (rec : NSearch Board Move TT Killers)
    (depth ply beta : Int) (all : List Move) (p0 : LoopPoint Board Move TT Killers)
    (n : Nat) (be : Int) (bm : Move) : Prop :=
  (∀ j < n, ∀ v, scoreAt E rec depth ply beta all p0 j = some v → v ≤ be) ∧
    ((be = p0.best_eval ∧ bm = p0.best_move) ∨
      ∃ i < n, all[i]? = some bm ∧ scoreAt E rec depth ply beta all p0 i = some be ∧
        ∀ j < i, ∀ v, scoreAt E rec depth ply beta all p0 j = some v → v < be)

/-- At the end of the move loop: `be` bounds the scores of all moves fully
searched, and either it is still the initial `best_eval` with the initial
`best_move`, or `bm` is the first move that scored `be`. -/
def BestOfLoop (E : Engine Board Move TT Killers) (rec : NSearch Board Move TT Killers)
    (depth ply beta : Int) (all : List Move) (p0 : LoopPoint Board Move TT Killers)
    (be : Int) (bm : Move) : Prop :=
  (∀ j v, scoreAt E rec depth ply beta all p0 j = some v → v ≤ be) ∧
    ((be = p0.best_eval ∧ bm = p0.best_move) ∨
      ∃ i, all[i]? = some bm ∧ scoreAt E rec depth ply beta all p0 i = some be ∧
        ∀ j < i, ∀ v, scoreAt E rec depth ply beta all p0 j = some v → v < be)

/-- What one iteration of the move loop, taken at position `n` with the loop
variables `p`, means for the score at `n`, for the loop beyond `n` and for
the best score and move. -/
def StepRun (E : Engine Board Move TT Killers) (rec : NSearch Board Move TT Killers)
    (depth ply beta : Int) (all : List Move) (p0 p : LoopPoint Board Move TT Killers)
    (n : Nat) (m : Move) : StepOut Board Move TT Killers → Prop
  | StepOut.skipped s1 =>
    scoreAt E rec depth ply beta all p0 n = none ∧
      loopBefore E rec depth ply beta (all.take (n + 1)) p0 = some { p with state := s1 }
  | StepOut.cancelled _ =>
    scoreAt E rec depth ply beta all p0 n = none ∧
      loopBefore E rec depth ply beta (all.take (n + 1)) p0 = none
  | StepOut.cutoff _ b bm _ _ =>
    loopBefore E rec depth ply beta (all.take (n + 1)) p0 = none ∧
      ∃ v, scoreAt E rec depth ply beta all p0 n = some v ∧
        ((p.best_eval < v ∧ b = v ∧ bm = m) ∨
          (v ≤ p.best_eval ∧ b = p.best_eval ∧ bm = p.best_move))
  | StepOut.next a b bm k s1 =>
    loopBefore E rec depth ply beta (all.take (n + 1)) p0 = some ⟨a, b, bm, k, s1⟩ ∧
      ∃ v, scoreAt E rec depth ply beta all p0 n = some v ∧
        ((p.best_eval < v ∧ b = v ∧ bm = m) ∨
          (v ≤ p.best_eval ∧ b = p.best_eval ∧ bm = p.best_move))

/-- The trace of `t` continues that of `s`, and every table save in between
was made at ply `p` or deeper. -/
def SavedFrom (p : Int) (s t : SearchState Board Move TT Killers) : Prop :=
  ∃ ext, t.trace = s.trace ++ ext ∧ ∀ e q, Event.save e q ∈ ext → p ≤ q

/-! ## Invariants of the move loop for the value -/

/-- The value invariant of the move loop after the moves `pre`, for the
window `(alpha0, beta)` of the node and the true scores `tv` of the legal
moves: the loop has not cut off, and either no move was legal so far, or
`best_eval` bounds the true scores of the legal moves so far from above and,
when it exceeds `alpha0`, is the true score of one of them. -/
def LoopVal (alpha0 beta : Int) (legal : Move → Prop) (tv : Move → Int) (pre : List Move)
    (alpha best_eval : Int) (moves_tried : Nat) : Prop :=
  alpha < beta ∧ IsScore alpha ∧
    ((moves_tried = 0 ∧ best_eval = INT_MIN ∧ alpha = alpha0 ∧ ∀ m ∈ pre, ¬ legal m) ∨
      (0 < moves_tried ∧ alpha = max alpha0 best_eval ∧ IsScore best_eval ∧
        (∃ m ∈ pre, legal m) ∧ (∀ m ∈ pre, legal m → tv m ≤ best_eval) ∧
        (alpha0 < best_eval → ∃ m ∈ pre, legal m ∧ tv m = best_eval)))

/-- What the move loop has established when it ends after the moves `all`
with `best_eval = v`: no move was legal; or `v` is below beta, bounds all
true scores from above and, when above `alpha0`, is one of them; or `v` is at
least beta and some true score is at least `v`. -/
def LoopFinal (alpha0 beta : Int) (legal : Move → Prop) (tv : Move → Int) (all : List Move)
    (v : Int) (moves_tried : Nat) : Prop :=
  (moves_tried = 0 ∧ ∀ m ∈ all, ¬ legal m) ∨
    (0 < moves_tried ∧ (∃ m ∈ all, legal m) ∧
      ((v < beta ∧ (∀ m ∈ all, legal m → tv m ≤ v) ∧
          (alpha0 < v → ∃ m ∈ all, legal m ∧ tv m = v)) ∨
        (beta ≤ v ∧ ∃ m ∈ all, legal m ∧ v ≤ tv m)))

/-- The value invariant after one iteration of the move loop for the move
`m`, started after the moves `pre`. -/
def StepVal (alpha0 beta : Int) (legal : Move → Prop) (tv : Move → Int) (pre : List Move)
    (m : Move) (alpha best_eval : Int) (moves_tried : Nat) :
    StepOut Board Move TT Killers → Prop
  | StepOut.skipped _ => LoopVal alpha0 beta legal tv (pre ++ [m]) alpha best_eval moves_tried
  | StepOut.cancelled _ => False
  | StepOut.cutoff _ b _ k _ => 0 < k ∧ beta ≤ b ∧ legal m ∧ b ≤ tv m
  | StepOut.next a b _ k _ => LoopVal alpha0 beta legal tv (pre ++ [m]) a b k

/-! ## Scores and tables of `int` -/

/-- A predicate on transposition tables that the engine keeps and under which
every matching slot holds a score in the range of `int`: saving such a score
keeps it, and a slot whose key matches holds such a score. -/
structure TableInt (E : Engine Board Move TT Killers) (Inv : TT → Prop) : Prop where
  save : ∀ t e p, Inv t → IsScore e.evaluation → Inv (E.save t e p)
  probe : ∀ t k, Inv t → (E.probe t k).key = k → IsScore (E.probe t k).evaluation

/-- The loop variables of `negamax` hold scores in the range of `int`:
`alpha` does, the table does, and `best_eval` is `INT_MIN` as long as no move
was tried and a score afterwards. -/
def LoopInv (Inv : TT → Prop) (alpha best_eval : Int) (moves_tried : Nat)
    (s : SearchState Board Move TT Killers) : Prop :=
  IsScore alpha ∧ Inv s.transpo ∧
    ((moves_tried = 0 ∧ best_eval = INT_MIN) ∨ (0 < moves_tried ∧ IsScore best_eval))

/-- The range invariant after one iteration of the move loop that started
with `alpha`, `best_eval`, `moves_tried`. -/
def StepPost (Inv : TT → Prop) (alpha best_eval : Int) (moves_tried : Nat) :
    StepOut Board Move TT Killers → Prop
  | StepOut.skipped t => LoopInv Inv alpha best_eval moves_tried t
  | StepOut.cancelled t => Inv t.transpo
  | StepOut.cutoff a b _ k t => LoopInv Inv a b k t ∧ 0 < k
  | StepOut.next a b _ k t => LoopInv Inv a b k t ∧ 0 < k

/-- The range invariant at the end of the move loop. -/
def LoopPost (Inv : TT → Prop) : LoopOut Board Move TT Killers → Prop
  | LoopOut.cancelled t => Inv t.transpo
  | LoopOut.finished a b _ k t => LoopInv Inv a b k t

/-! ## Reading the ghost trace -/

/-- The events of a run of the move loop in which every move is made, found
to leave the own king in check, and undone. -/
def skipTrace : List Move → List (Event Move)
  | [] => []
  | m :: ms => Event.make m :: Event.undo :: skipTrace ms

/-- Number of moves still made after running the events from a board with `d`
moves made; `none` when an undo finds nothing to undo. -/
def unwind : Nat → List (Event Move) → Option Nat
  | d, [] => some d
  | d, Event.make _ :: es => unwind (d + 1) es
  | d, Event.makeNull :: es => unwind (d + 1) es
  | 0, Event.undo :: _ => none
  | d + 1, Event.undo :: es => unwind d es
  | d, Event.save _ _ :: es => unwind d es
  | d, Event.killer _ _ :: es => unwind d es
  | d, Event.root _ _ :: es => unwind d es

/-- Runs the events from a board with `d` moves made on which a null move is
open (made and not yet undone) at height `o`, or none is; the result is the
number of moves made and the open null move at the end, and `none` when an
undo finds nothing to undo or a null move is made while another is open. -/
def nullNesting : Nat → Option Nat → List (Event Move) → Option (Nat × Option Nat)
  | d, o, [] => some (d, o)
  | d, o, Event.make _ :: es => nullNesting (d + 1) o es
  | d, none, Event.makeNull :: es => nullNesting (d + 1) (some d) es
  | _, some _, Event.makeNull :: _ => none
  | 0, _, Event.undo :: _ => none
  | d + 1, o, Event.undo :: es => nullNesting d (if o = some d then none else o) es
  | d, o, Event.save _ _ :: es => nullNesting d o es
  | d, o, Event.killer _ _ :: es => nullNesting d o es
  | d, o, Event.root _ _ :: es => nullNesting d o es

/-- The events of one call of `quiesce` or `negamax`: every make is undone by
a later undo of the same call, no null move is made while another is open,
and no root call is among them. -/
structure Tidy (ext : List (Event Move)) : Prop where
  balanced : ∀ d, unwind d ext = some d
  nested : ∀ d, nullNesting d none ext = some (d, none)
  inner : ∀ dp f, Event.root dp f ∉ ext

/-- What a call of `quiesce` or `negamax` that starts in `s` and returns in
`t` preserves: the null-move flag and the start time are the same, a
cancellation stays, clock readings and node counter do not go back, the board
is the same provided `undo_move` reverses `make_move` and `make_null_move`,
and the trace grows by tidy events, without a null move when the null-move
flag was off. -/
structure Frame (E : Engine Board Move TT Killers)
    (s t : SearchState Board Move TT Killers) : Prop where
  flag : t.can_do_null_move = s.can_do_null_move
  start : t.start_time = s.start_time
  cancelled : s.search_cancelled = true → t.search_cancelled = true
  reads : s.clock_reads ≤ t.clock_reads
  nodes : s.nodes_searched ≤ t.nodes_searched
  board : (∀ b m, E.undo_move (E.make_move b m) = b) →
    (∀ b, E.undo_move (E.make_null_move b) = b) → t.board = s.board
  trace : ∃ ext, t.trace = s.trace ++ ext ∧ Tidy ext ∧
    (s.can_do_null_move = false → Event.makeNull ∉ ext)

/-! ## Replaying the ghost trace on a board -/

/-- The board after the moves of the events are made and undone, in order, on
the board `b`. -/
def boardAfter (E : Engine Board Move TT Killers) : Board → List (Event Move) → Board
  | b, [] => b
  | b, Event.make m :: es => boardAfter E (E.make_move b m) es
  | b, Event.makeNull :: es => boardAfter E (E.make_null_move b) es
  | b, Event.undo :: es => boardAfter E (E.undo_move b) es
  | b, Event.save _ _ :: es => boardAfter E b es
  | b, Event.killer _ _ :: es => boardAfter E b es
  | b, Event.root _ _ :: es => boardAfter E b es

/-- The events, replayed from the board `b`, only make and undo moves, and
every move made is one that `generate_capture_moves` gives for the board on
which it is made. -/
def capturesOnly [DecidableEq Move] (E : Engine Board Move TT Killers) :
    Board → List (Event Move) → Bool
  | _, [] => true
  | b, Event.make m :: es =>
    decide (m ∈ E.generate_capture_moves b) && capturesOnly E (E.make_move b m) es
  | b, Event.undo :: es => capturesOnly E (E.undo_move b) es
  | _, Event.makeNull :: _ => false
  | _, Event.save _ _ :: _ => false
  | _, Event.killer _ _ :: _ => false
  | _, Event.root _ _ :: _ => false

/-- The largest number of moves that are made and not yet undone at any point
while the events are replayed, starting with `d` such moves. -/
def openPeak : Nat → List (Event Move) → Nat
  | d, [] => d
  | d, Event.make _ :: es => max d (openPeak (d + 1) es)
  | d, Event.makeNull :: es => max d (openPeak (d + 1) es)
  | d, Event.undo :: es => max d (openPeak (d - 1) es)
  | d, Event.save _ _ :: es => openPeak d es
  | d, Event.killer _ _ :: es => openPeak d es
  | d, Event.root _ _ :: es => openPeak d es

/-- The state with the transposition table and the killer table replaced. -/
def retable (s : SearchState Board Move TT Killers) (t : TT) (k : Killers) :
    SearchState Board Move TT Killers :=
  { s with transpo := t, killers := k }

/-- The engine with other table operations: another `probe`, another `save`
and another `update_killer_move`. -/
def withTableOps (E : Engine Board Move TT Killers) (probe : TT → Nat → Entry Move)
    (save : TT → Entry Move → Int → TT)
    (update_killer_move : Killers → Move → Int → Killers) : Engine Board Move TT Killers :=
  { E with probe := probe, save := save, update_killer_move := update_killer_move }

/-! ## The search over another quiescence search -/

/-- `negamax` with the quiescence search `q` in the place of `quiesce`. -/
def negamaxOver (E : Engine Board Move TT Killers) (q : Nat → QSearch Board Move TT Killers) :
    Nat → NSearch Board Move TT Killers
  | 0 => fun _ _ _ _ _ => none
  | fuel + 1 => negamaxBody E (q fuel) (negamaxOver E q fuel)

/-- A quiescence search that fails when it is entered with the side to move in
check, and is `quiesce` otherwise. -/
def quiesceOffCheck (E : Engine Board Move TT Killers) (fuel : Nat) :
    QSearch Board Move TT Killers := fun s alpha beta =>
  if E.king_in_check (E.turn s.board) s.board then none else quiesce E fuel s alpha beta

/-! ## The iterations of `find_best_move` -/

/-- State after lines 227-228, with the ghost event of the root call that
follows. -/
def iterStart (s : SearchState Board Move TT Killers) (depth : Int) :
    SearchState Board Move TT Killers :=
  { s with best_move_this_iteration := none,
           best_eval_this_iteration := INT_MIN,
           trace := s.trace ++ [Event.root depth s.can_do_null_move] }

/-- The root calls `negamax(board, depth, 0, -kMateScore, kMateScore)` that the
loop of lines 226-244 makes, in order, each with its depth and its result; `n`
is the number of iterations left and `depth` the depth of the next one. -/
def rootSearches (E : Engine Board Move TT Killers) (fuel : Nat) :
    Nat → Int → SearchState Board Move TT Killers →
      Option (List (Int × Result Board Move TT Killers))
  | 0, _, _ => some []
  | n + 1, depth, s =>
    match negamax E fuel (iterStart s depth) depth 0 (-kMateScore) kMateScore with
    | none => none
    | some r =>
      let x := should_exit_search E r.state
      if x.1 then some [(depth, r)]
      else
        match rootSearches E fuel n (depth + 1) x.2 with
        | none => none
        | some rs => some ((depth, r) :: rs)

/-- The iteration-best move of the last of the root calls that left one, and
`best_move` when none did. -/
def lastBest (best_move : Move) : List (Int × Result Board Move TT Killers) → Move
  | [] => best_move
  | r :: rs =>
    lastBest (match r.2.state.best_move_this_iteration with
      | some m => m
      | none => best_move) rs

/-- What bounds the search tree below every position: `pieces` counts the
pieces on a board, `crank` ranks the positions in which the side to move is
in check.  Every capture that `quiesce` searches lowers the piece count, no
move and no null move raises it, and a run of consecutive positions in check
has at most `K` positions: the rank is at most `K` and drops with every legal
move from a position in check to a position in check. -/
structure SearchBounds (E : Engine Board Move TT Killers) (pieces crank : Board → Nat)
    (K : Nat) : Prop where
  captures : ∀ b t k, ∀ m ∈ E.order MoveType.kCaptures b t k (E.generate_capture_moves b),
    capture_leaves_check E (E.make_move b m) = false → pieces (E.make_move b m) < pieces b
  moves : ∀ b t k, ∀ m ∈ E.order MoveType.kAll b t k (E.generate_moves b),
    pieces (E.make_move b m) ≤ pieces b
  pass : ∀ b, pieces (E.make_null_move b) ≤ pieces b
  cap : ∀ b, crank b ≤ K
  chain : ∀ b t k, ∀ m ∈ E.order MoveType.kAll b t k (E.generate_moves b),
    E.king_in_check (E.turn b) b = true →
    move_leaves_check E (E.make_move b m) = false →
    E.king_in_check (E.turn (E.make_move b m)) (E.make_move b m) = true →
      crank (E.make_move b m) < crank b

/-- Fuel that is enough for `negamax` on the board `b` with depth `depth`:
the nesting of calls is at most `K + 2` per unit of depth (one call not in
check and a run of calls in check), plus the run of checks the board is in,
plus the captures of `quiesce` at the horizon. -/
def fuelNeed (E : Engine Board Move TT Killers) (pieces crank : Board → Nat) (K : Nat)
    (b : Board) (depth : Int) : Nat :=
  pieces b + 2 + (K + 2) * depth.toNat +
    (if E.king_in_check (E.turn b) b then crank b + 1 else 0)

/-- The budget is used up for good: every reading of the clock from the next
one on is at least `kMaxSearchTime` after the start time. -/
def Overdue (E : Engine Board Move TT Killers) (s : SearchState Board Move TT Killers) : Prop :=
  ∀ j, s.clock_reads ≤ j → E.kMaxSearchTime ≤ E.now j - s.start_time

/-- What a call of `negamax` that was entered before any cancellation and
returns after one has done: it returns 0 through one of the cancellation
exits, and the budget is used up for good. -/
def CancelSeen (E : Engine Board Move TT Killers) (s : SearchState Board Move TT Killers)
    (r : Result Board Move TT Killers) : Prop :=
  s.search_cancelled = false → r.state.search_cancelled = true →
    r.value = 0 ∧ r.path.isCancelled = true ∧ Overdue E r.state

/-- The cancellation invariant after one iteration of the move loop: it ends
cancelled, with the budget used up for good, or the search is not cancelled. -/
def StepCalm (E : Engine Board Move TT Killers) : StepOut Board Move TT Killers → Prop
  | StepOut.skipped t => t.search_cancelled = false
  | StepOut.cancelled t => t.search_cancelled = true ∧ Overdue E t
  | StepOut.cutoff _ _ _ _ t => t.search_cancelled = false
  | StepOut.next _ _ _ _ t => t.search_cancelled = false

/-- The cancellation invariant at the end of the move loop. -/
def LoopCalm (E : Engine Board Move TT Killers) : LoopOut Board Move TT Killers → Prop
  | LoopOut.cancelled t => t.search_cancelled = true ∧ Overdue E t
  | LoopOut.finished _ _ _ _ t => t.search_cancelled = false

/-! ## Concrete engines

Small engines on which the search can be evaluated.  A board is the list of
the moves played so far, latest first; making a move prepends it, the null
move prepends `0`, undoing drops the head. -/

/-- An engine without moves, checks or table hits whose clock never reaches
the budget; the other concrete engines override some of its fields. -/
def bareEngine : Engine (List Nat) Nat (List (Entry Nat)) Unit where
  turn := fun b => if b.length % 2 = 0 then Color.kWhite else Color.kBlack
  zobrist_key := fun b => b.length
  evaluate := fun _ => 0
  king_in_check := fun _ _ => false
  king_missing := fun _ _ => false
  has_piece := fun _ _ _ => false
  generate_moves := fun _ => []
  generate_capture_moves := fun _ => []
  make_move := fun b m => m :: b
  make_null_move := fun b => 0 :: b
  undo_move := fun b => b.tail
  get_to := fun m => m
  no_move := 0
  probe := fun t k => (t.find? (fun e => e.key == k)).getD ⟨k + 1, 0, 0, 0, Flag.kExact⟩
  save := fun t e _ => e :: t
  order := fun _ _ _ _ ms => ms
  update_killer_move := fun k _ _ => k
  now := fun _ => 0
  kMaxSearchTime := 1

/-- The state at the root of a fresh search on the empty board. -/
def bareState : SearchState (List Nat) Nat (List (Entry Nat)) Unit where
  board := []
  transpo := []
  killers := ()
  start_time := 0
  best_move_this_iteration := none
  best_eval_this_iteration := 0
  search_cancelled := false
  can_do_null_move := true
  nodes_searched := 1
  clock_reads := 0
  trace := []

/-- An engine whose clock is past the budget at every reading. -/
def lateEngine : Engine (List Nat) Nat (List (Entry Nat)) Unit :=
  { bareEngine with now := fun _ => 10, kMaxSearchTime := 5 }

/-- A root state whose table holds an exact entry for the root position
(key 0), searched to depth 4 with score 37 and best move 2. -/
def hitState : SearchState (List Nat) Nat (List (Entry Nat)) Unit :=
  { bareState with transpo := [⟨0, 37, 4, 2, Flag.kExact⟩] }

/-- A root state at which the node counter is a multiple of 500000, so that
the clock is consulted. -/
def sampledState : SearchState (List Nat) Nat (List (Entry Nat)) Unit :=
  { bareState with nodes_searched := 0 }

/-- A game tree of height two with three moves at every inner node.  A
position reached by move 2 has its side to move in check; move 3 leaves the
mover's own king in check (it is illegal); positions of height two and three
have the captures 1 and 3. -/
def treeEngine : Engine (List Nat) Nat (List (Entry Nat)) Unit :=
  { bareEngine with
    generate_moves := fun b => if b.length < 2 then [1, 2, 3] else []
    generate_capture_moves := fun b => if 2 ≤ b.length ∧ b.length < 4 then [1, 3] else []
    evaluate := fun b => ((b.foldl (fun a m => 3 * a + m) 0 % 7 : Nat) : Int) - 3
    king_in_check := fun c b =>
      (decide (c = bareEngine.turn b) && decide (b.head? = some 2)) ||
        (decide (c = flip_color (bareEngine.turn b)) && decide (b.head? = some 3)) }

/-- The engine with three moves whose clock is past the budget at every
reading. -/
def lateTreeEngine : Engine (List Nat) Nat (List (Entry Nat)) Unit :=
  { treeEngine with now := fun _ => 10, kMaxSearchTime := 5 }

/-- Number of moves that can still be played on a board of `treeEngine` in a
capture sequence: captures end at height four. -/
def treeRank (b : List Nat) : Nat := 4 - b.length

/-- The three-move tree without captures and with a transposition table that
never matches: a slot always carries another key than the one asked for. -/
def plainEngine : Engine (List Nat) Nat Unit Unit where
  turn := fun b => if b.length % 2 = 0 then Color.kWhite else Color.kBlack
  zobrist_key := fun b => b.length
  evaluate := fun b => ((b.foldl (fun a m => 3 * a + m) 0 % 7 : Nat) : Int) - 3
  king_in_check := fun c b =>
    (decide (c = (if b.length % 2 = 0 then Color.kWhite else Color.kBlack)) &&
        decide (b.head? = some 2)) ||
      (decide (c = flip_color (if b.length % 2 = 0 then Color.kWhite else Color.kBlack)) &&
        decide (b.head? = some 3))
  king_missing := fun _ _ => false
  has_piece := fun _ _ _ => false
  generate_moves := fun b => if b.length < 2 then [1, 2, 3] else []
  generate_capture_moves := fun _ => []
  make_move := fun b m => m :: b
  make_null_move := fun b => 0 :: b
  undo_move := fun b => b.tail
  get_to := fun m => m
  no_move := 0
  probe := fun _ k => ⟨k + 1, 0, 0, 0, Flag.kExact⟩
  save := fun _ _ _ => ()
  order := fun _ _ _ _ ms => ms
  update_killer_move := fun k _ _ => k
  now := fun _ => 0
  kMaxSearchTime := 1

/-- The state at the root of a fresh search of `plainEngine`, with null-move
pruning off. -/
def plainState : SearchState (List Nat) Nat Unit Unit where
  board := []
  transpo := ()
  killers := ()
  start_time := 0
  best_move_this_iteration := none
  best_eval_this_iteration := 0
  search_cancelled := false
  can_do_null_move := false
  nodes_searched := 1
  clock_reads := 0
  trace := []

/-- The three-move tree with a clock that advances by one tick at every
reading and a budget of two ticks. -/
def tickEngine : Engine (List Nat) Nat (List (Entry Nat)) Unit :=
  { treeEngine with now := fun i => (i : Int), kMaxSearchTime := 2 }

/-- The three-move tree with a budget of 40 ticks on the ticking clock. -/
def slowTickEngine : Engine (List Nat) Nat (List (Entry Nat)) Unit :=
  { treeEngine with now := fun i => (i : Int), kMaxSearchTime := 40 }

/-- An engine with the moves 1, 2, 3 at the root, each giving check to a side
that then has no move, so that no search reaches the horizon and the node
counter stays 0; the orderer reverses the moves once the transposition table
holds an entry; the clock advances by one tick at every reading and the
budget is `budget` ticks. -/
def checkEngine (budget : Int) : Engine (List Nat) Nat (List (Entry Nat)) Unit :=
  { bareEngine with
    generate_moves := fun b => if b.length < 1 then [1, 2, 3] else []
    king_in_check := fun c b => decide (c = bareEngine.turn b) && decide (0 < b.length)
    order := fun _ _ t _ ms => if t.isEmpty then ms else ms.reverse
    now := fun i => (i : Int)
    kMaxSearchTime := budget }

/-- Number of moves that can still be played on a board of `checkEngine`. -/
def checkRank (b : List Nat) : Nat := 1 - b.length

/-- An engine with one move per position whose positions recur after two
plies: the key of a board is that of the board two plies earlier. -/
def cycleEngine : Engine (List Nat) Nat (List (Entry Nat)) Unit :=
  { bareEngine with
    zobrist_key := fun b => b.length % 2
    generate_moves := fun b => if b.length < 2 then [1] else [] }

/-- A root state of `cycleEngine` whose table holds an exact entry for the
root position (key 0) of depth 1, score 500 and best move 1. -/
def cycleState : SearchState (List Nat) Nat (List (Entry Nat)) Unit :=
  { bareState with transpo := [⟨0, 500, 1, 1, Flag.kExact⟩] }

/-- An engine with one move at the root, after which the static evaluation
is -7 for the side to move. -/
def boundEngine : Engine (List Nat) Nat (List (Entry Nat)) Unit :=
  { bareEngine with
    generate_moves := fun b => if b.length < 1 then [1] else []
    evaluate := fun b => if b.length = 1 then -7 else 0 }

/-- A root state of `boundEngine` whose table holds an UpperBound entry for
the root position (key 0) of depth 3 and score 5. -/
def boundState : SearchState (List Nat) Nat (List (Entry Nat)) Unit :=
  { bareState with transpo := [⟨0, 5, 3, 1, Flag.kUpperBound⟩] }

/-! ## The transposition table of the specification -/

/-- Modelled from the spec: `kMaxPly` is declared outside the given sources;
the constants table gives MAX_PLY = 256. -/
def kMaxPly : Int := 256

/-- Modelled from the spec: the constants table gives
MATE_THRESHOLD = MATE - MAX_PLY. -/
def kMateThreshold : Int := kMateScore - kMaxPly

/-- Modelled from the spec: `TranspositionTable::save` (`transpo.h`) is not
among the given sources.  Section 4.5: a mate-adjacent score
(`|score| ≥ MATE_THRESHOLD`) is stored normalised, `stored = score ± ply`, `+`
for the losing side, `-` for the winning side. -/
def toTableScore (score ply : Int) : Int :=
  if score ≥ kMateThreshold then score - ply
  else if score ≤ -kMateThreshold then score + ply
  else score

/-- Modelled from the spec: section 4.5, "on probe the symmetric adjustment is
reversed before use": the adjustment of `toTableScore` undone for the ply of
the probing node. -/
def fromTableScore (stored ply : Int) : Int :=
  if stored ≥ kMateThreshold then stored + ply
  else if stored ≤ -kMateThreshold then stored - ply
  else stored

/-- Modelled from the spec: the table of section 3 with `N = 16` slots,
`probe(key)` returning the slot at `key mod N` and `save(entry, ply)` always
replacing that slot with the entry, its score normalised by `toTableScore`. -/
def specEngine : Engine (List Nat) Nat (Nat → Entry Nat) Unit where
  turn := fun b => if b.length % 2 = 0 then Color.kWhite else Color.kBlack
  zobrist_key := fun b => b.length + 7
  evaluate := fun _ => 0
  king_in_check := fun _ _ => false
  king_missing := fun _ _ => false
  has_piece := fun _ _ _ => false
  generate_moves := fun _ => []
  generate_capture_moves := fun _ => []
  make_move := fun b m => m :: b
  make_null_move := fun b => 0 :: b
  undo_move := fun b => b.tail
  get_to := fun m => m
  no_move := 0
  probe := fun t k => t (k % 16)
  save := fun t e ply => fun i =>
    if i = e.key % 16 then { e with evaluation := toTableScore e.evaluation ply } else t i
  order := fun _ _ _ _ ms => ms
  update_killer_move := fun k _ _ => k
  now := fun _ => 0
  kMaxSearchTime := 1

/-- The empty table of the specification: every slot has key 0. -/
def emptyTable : Nat → Entry Nat := fun _ => ⟨0, 0, 0, 0, Flag.kExact⟩

/-- A node at ply 2 (key 7) whose table holds the entry that a search at ply 4
saved for the same key: score `MATE - 10 = 31990`, depth 5, Exact. -/
def mateState : SearchState (List Nat) Nat (Nat → Entry Nat) Unit where
  board := []
  transpo := specEngine.save emptyTable ⟨7, 31990, 5, 1, Flag.kExact⟩ 4
  killers := ()
  start_time := 0
  best_move_this_iteration := none
  best_eval_this_iteration := 0
  search_cancelled := false
  can_do_null_move := true
  nodes_searched := 1
  clock_reads := 0
  trace := []

/-! ## Continuation history

The embedding of `engine/search/history/continuation_history.h`.  A
`MultiArray<_, kNumColors, kNumPieceTypes, kSquareCount>` is a function of an
`Index`; a pointer to a `ContinuationEntry` of `table_` is the `Index` of that
entry, the null pointer is `none`; the pointer `stack` is the function that
gives the entry at `stack + k` for every offset `k`; a `MoveList` is the list
of its moves in order.  `I32` cells and `int` locals are mathematical
integers: the arithmetic is that of C++ wherever the C++ does not overflow. -/

/-- Modelled from the spec: the gravity constant of `bonus.h`, which is not
among the given sources; the constants table gives SCORE_CAP = 16384. -/
def SCORE_CAP : Int := 16384

/-- Modelled from the spec: `HistoryBonus` of `bonus.h`, which is not among the
given sources.  Section 4.1: `b = min(1896, 4·d² + 120·d − 120)`. -/
def HistoryBonus (depth : Int) : Int :=
  min 1896 (4 * depth * depth + 120 * depth - 120)

/-- Modelled from the spec: `ScaleBonus` of `bonus.h`, which is not among the
given sources.  Section 4.1: `bonus − current_score · |bonus| / SCORE_CAP`,
with the truncating division of C++. -/
def ScaleBonus (score bonus : Int) : Int :=
  bonus - (score * |bonus|).tdiv SCORE_CAP

/-- Index of a `MultiArray<_, kNumColors, kNumPieceTypes, kSquareCount>`:
colour, piece type and square. -/
structure Index where
  color : Color
  piece : Nat
  square : Nat
  deriving DecidableEq, Repr

/-- `ContinuationEntry`: one `I32` cell for every index. -/
abbrev ContinuationEntry := Index → Int

/-- The part of `BoardState` the continuation history reads: the side to move
and the piece type on a square. -/
structure BoardState where
  turn : Color
  GetPieceType : Nat → Nat

/-- `SearchStackEntry` (`stack.h`, not among the given sources), with the two
fields the continuation history reads: the move and the pointer to a
continuation entry, `none` for the null pointer. -/
structure SearchStackEntry (Move : Type) where
  move : Move
  continuation_entry : Option Index

/-- `ContinuationHistory`: the board state it refers to and its table of
continuation entries; `GetFrom` and `GetTo` are the accessors of `Move`. -/
structure ContinuationHistory (Move : Type) where
  GetFrom : Move → Nat
  GetTo : Move → Nat
  state_ : BoardState
  table_ : Index → ContinuationEntry

/-- The index `[state_.turn][state_.GetPieceType(move.GetFrom())][move.GetTo()]`
by which lines 41, 54 and 69 address a move. -/
def ContinuationHistory.cell (h : ContinuationHistory Move) (move : Move) : Index :=
  ⟨h.state_.turn, h.state_.GetPieceType (h.GetFrom move), h.GetTo move⟩

/-- `GetEntry(move)`: the pointer to the entry of `table_` for the move. -/
def ContinuationHistory.GetEntry (h : ContinuationHistory Move) (move : Move) : Option Index :=
  some (h.cell move)

/-- `GetScore(move, stack)` (lines 44-55), for the stack entry pointed to. -/
def ContinuationHistory.GetScore (h : ContinuationHistory Move) (move : Move)
    (stack : SearchStackEntry Move) : Int :=
  match stack.continuation_entry with
  | none => 0
  | some e => h.table_ e (h.cell move)

/-- `UpdateIndividualScore(move, scaled_bonus, stack)` (lines 58-71), for the
stack entry pointed to. -/
def ContinuationHistory.UpdateIndividualScore (h : ContinuationHistory Move) (move : Move)
    (scaled_bonus : Int) (stack : SearchStackEntry Move) : ContinuationHistory Move :=
  match stack.continuation_entry with
  | none => h
  | some e =>
    { h with table_ := fun e1 x =>
        if e1 = e ∧ x = h.cell move then h.table_ e1 x + scaled_bonus else h.table_ e1 x }

/-- The sum of lines 21 and 31: the scores of the move behind the entries at
`stack - 1`, `stack - 2` and `stack - 4`. -/
def ContinuationHistory.combinedScore (h : ContinuationHistory Move) (move : Move)
    (stack : Int → SearchStackEntry Move) : Int :=
  h.GetScore move (stack (-1)) + h.GetScore move (stack (-2)) + h.GetScore move (stack (-4))

/-- The three calls of lines 24-26 and 33-35: the same amount is added behind
`stack - 1`, `stack - 2` and `stack - 4`, in this order. -/
def ContinuationHistory.updateOffsets (h : ContinuationHistory Move) (move : Move)
    (scaled_bonus : Int) (stack : Int → SearchStackEntry Move) : ContinuationHistory Move :=
  ((h.UpdateIndividualScore move scaled_bonus (stack (-1))).UpdateIndividualScore
    move scaled_bonus (stack (-2))).UpdateIndividualScore move scaled_bonus (stack (-4))

/-- The loop of lines 29-36 over the remaining quiets. -/
def ContinuationHistory.penalizeQuiets (stack : Int → SearchStackEntry Move) (bonus : Int) :
    List Move → ContinuationHistory Move → ContinuationHistory Move
  | [], h => h
  | q :: qs, h =>
    let malus_score := h.combinedScore q stack
    let scaled_malus := ScaleBonus malus_score bonus
    ContinuationHistory.penalizeQuiets stack bonus qs (h.updateOffsets q (-scaled_malus) stack)

/-- `UpdateScore(stack, depth, quiets)` (lines 17-37). -/
def ContinuationHistory.UpdateScore (h : ContinuationHistory Move)
    (stack : Int → SearchStackEntry Move) (depth : Int) (quiets : List Move) :
    ContinuationHistory Move :=
  let move := (stack 0).move
  let bonus := HistoryBonus depth
  let score := h.combinedScore move stack
  let scaled_bonus := ScaleBonus score bonus
  ContinuationHistory.penalizeQuiets stack bonus quiets (h.updateOffsets move scaled_bonus stack)

/-- The history after `n` successive calls `UpdateScore(stack, depth, quiets)`. -/
def ContinuationHistory.repeatUpdate (h : ContinuationHistory Move)
    (stack : Int → SearchStackEntry Move) (depth : Int) (quiets : List Move) :
    Nat → ContinuationHistory Move
  | 0 => h
  | n + 1 =>
    (ContinuationHistory.repeatUpdate h stack depth quiets n).UpdateScore stack depth quiets

/-- How many of the entries at `stack - 1`, `stack - 2`, `stack - 4` point to
the continuation entry `e`. -/
def refCount (stack : Int → SearchStackEntry Move) (e : Index) : Int :=
  (if (stack (-1)).continuation_entry = some e then 1 else 0) +
  (if (stack (-2)).continuation_entry = some e then 1 else 0) +
  (if (stack (-4)).continuation_entry = some e then 1 else 0)

/-- The weight of the combined score: the sum, over the non-null pointers at
`stack - 1`, `stack - 2`, `stack - 4`, of the number of the three pointers that
point to the same entry. -/
def refWeight (stack : Int → SearchStackEntry Move) : Int :=
  (match (stack (-1)).continuation_entry with
    | none => 0
    | some e => refCount stack e) +
  (match (stack (-2)).continuation_entry with
    | none => 0
    | some e => refCount stack e) +
  (match (stack (-4)).continuation_entry with
    | none => 0
    | some e => refCount stack e)

/-- The amounts added so far by `n` successive bonuses of size `bonus` when the
combined score is `K` times the amount added so far. -/
def gravitySeq (K bonus : Int) : Nat → Int
  | 0 => 0
  | n + 1 => gravitySeq K bonus n + ScaleBonus (K * gravitySeq K bonus n) bonus

/-- None of the entries at `stack - 1`, `stack - 2`, `stack - 4` holds a
continuation pointer. -/
def noRef (stack : Int → SearchStackEntry Move) : Prop :=
  (stack (-1)).continuation_entry = none ∧ (stack (-2)).continuation_entry = none ∧
    (stack (-4)).continuation_entry = none

/-- Exactly one of the entries at `stack - 1`, `stack - 2`, `stack - 4` holds a
continuation pointer, and it points to the entry `e0`. -/
def soleRef (stack : Int → SearchStackEntry Move) (e0 : Index) : Prop :=
  ((stack (-1)).continuation_entry = some e0 ∧ (stack (-2)).continuation_entry = none ∧
      (stack (-4)).continuation_entry = none) ∨
    ((stack (-1)).continuation_entry = none ∧ (stack (-2)).continuation_entry = some e0 ∧
      (stack (-4)).continuation_entry = none) ∨
    ((stack (-1)).continuation_entry = none ∧ (stack (-2)).continuation_entry = none ∧
      (stack (-4)).continuation_entry = some e0)

/-- A history over moves that are their own from- and to-square, on a board
with White to move and piece type `sq % 6` on square `sq`. -/
def plainHistory (table : Index → ContinuationEntry) : ContinuationHistory Nat where
  GetFrom := fun m => m
  GetTo := fun m => m
  state_ := ⟨Color.kWhite, fun sq => sq % 6⟩
  table_ := table

/-- The all-zero table of a fresh `ContinuationHistory`. -/
def zeroTable : Index → ContinuationEntry := fun _ _ => 0

/-- A stack whose current entry holds the move `m` and whose entries at
offsets -1, -2, -4 hold the given continuation pointers. -/
def stackOf (m : Nat) (r1 r2 r4 : Option Index) : Int → SearchStackEntry Nat := fun k =>
  ⟨if k = 0 then m else 0,
    if k = -1 then r1 else if k = -2 then r2 else if k = -4 then r4 else none⟩

/-- A table with all cells in `[-SCORE_CAP, SCORE_CAP]`: `SCORE_CAP` in the
entry `(White, 1, 1)` and `-SCORE_CAP` in every other entry. -/
def skewTable : Index → ContinuationEntry :=
  fun e _ => if e = ⟨Color.kWhite, 1, 1⟩ then 16384 else -16384

/-- A table with 0 in the entry `(White, 1, 1)` and 16383 in every other
entry. -/
def unevenTable : Index → ContinuationEntry :=
  fun e _ => if e = ⟨Color.kWhite, 1, 1⟩ then 0 else 16383

/-- A table with -16383 in every cell. -/
def lowTable : Index → ContinuationEntry := fun _ _ => -16383

/-- A stack with the cutoff move 9 and three different entries behind the
offsets -1, -2, -4. -/
def threeRefs : Int → SearchStackEntry Nat :=
  stackOf 9 (some ⟨Color.kWhite, 1, 1⟩) (some ⟨Color.kBlack, 2, 2⟩)
    (some ⟨Color.kWhite, 4, 4⟩)

/-- A stack with the cutoff move 9 and the entry `(White, 1, 1)` behind the
offset -1 only. -/
def oneRef : Int → SearchStackEntry Nat :=
  stackOf 9 (some ⟨Color.kWhite, 1, 1⟩) none none

/-! ## Theorems -/

/-! ### `should_exit_search` -/

/-- C7, as stated, fails: with the budget exceeded (elapsed 10, budget 5) but a
node counter that is not a multiple of 500000 and no earlier cancellation,
`should_exit_search` answers `false`. -/
theorem should_exit_search_unsampled :
    lateEngine.kMaxSearchTime ≤ elapsed lateEngine bareState ∧
      (should_exit_search lateEngine bareState).1 = false := by
  decide

/-- C7, amended: `should_exit_search` answers `true` exactly when the clock is
consulted (the search is already cancelled or `nodes_searched` is a multiple of
500000) and the elapsed time has reached `kMaxSearchTime`; it then leaves
`search_cancelled` set, and otherwise leaves it as it was. -/
theorem should_exit_search_iff (E : Engine Board Move TT Killers)
    (s : SearchState Board Move TT Killers) :
    ((should_exit_search E s).1 = true ↔
        (s.search_cancelled = true ∨ s.nodes_searched % 500000 = 0) ∧
          E.kMaxSearchTime ≤ elapsed E s) ∧
      ((should_exit_search E s).1 = true → (should_exit_search E s).2.search_cancelled = true) ∧
      ((should_exit_search E s).1 = false →
        (should_exit_search E s).2.search_cancelled = s.search_cancelled) := by
  unfold should_exit_search
  by_cases h1 : s.search_cancelled = true <;> by_cases h2 : s.nodes_searched % 500000 = 0 <;>
    by_cases h3 : E.kMaxSearchTime ≤ elapsed E s <;> simp [h1, h2, h3]

/-! ### Transposition probe -/

/-- C3, counterexample: a slot that is too shallow for the node still reaches
the result.  The root position recurs two plies below; the slot for its key
has depth 1, less than the depth 2 of the root search, so the root does not
use it, but the node two plies below, searched with depth 0, returns its
score: the root value is 500, and 0 with an empty table (where the slot
probed at the root has another key). -/
theorem shallow_slot_reaches_result :
    (probeSlot cycleEngine cycleState).key = cycleEngine.zobrist_key cycleState.board ∧
    (probeSlot cycleEngine cycleState).depth < 2 ∧
    (negamax cycleEngine 4 cycleState 2 0 (-1000) 1000).map (fun r => (r.value, r.path)) =
      some (500, Exit.stored) ∧
    (probeSlot cycleEngine { cycleState with transpo := [] }).key ≠
      cycleEngine.zobrist_key cycleState.board ∧
    (negamax cycleEngine 4 { cycleState with transpo := [] } 2 0 (-1000) 1000).map
      (fun r => (r.value, r.path)) = some (0, Exit.stored) := by
  decide

/-- C3: at a node whose probed slot matches the key and has sufficient depth,
an Exact slot makes `negamax` return the slot score at once; a LowerBound
slot raises alpha to `max alpha score`, an UpperBound slot lowers beta to
`min beta score`, and if the window is then empty the slot score is returned
at once, and otherwise the search continues with the adjusted window.  The
state of an immediate return is the entry state (no move made, no table
written), except that at ply 0 the iteration-best move and score are those of
the slot.  When the key differs or the slot is too shallow, the probe changes
neither alpha nor beta and does not end the call: `negamax` goes on, from
line 108, with the window it was given and the table as it is. -/
theorem negamax_tt_probe (E : Engine Board Move TT Killers) (fuel : Nat)
    (s : SearchState Board Move TT Killers) (depth ply alpha beta : Int) :
    ((probeSlot E s).key = E.zobrist_key s.board → depth ≤ (probeSlot E s).depth →
      ((probeSlot E s).flag = Flag.kExact →
        negamax E (fuel + 1) s depth ply alpha beta =
          some ⟨(probeSlot E s).evaluation, Exit.ttExact, ttReturnState s ply (probeSlot E s)⟩) ∧
      ((probeSlot E s).flag = Flag.kLowerBound →
        (beta ≤ max alpha (probeSlot E s).evaluation →
          negamax E (fuel + 1) s depth ply alpha beta =
            some ⟨(probeSlot E s).evaluation, Exit.ttCutoff,
              ttReturnState s ply (probeSlot E s)⟩) ∧
        (max alpha (probeSlot E s).evaluation < beta →
          negamax E (fuel + 1) s depth ply alpha beta =
            negamaxSearch E (quiesce E fuel) (negamax E fuel) alpha s depth ply
              (max alpha (probeSlot E s).evaluation) beta)) ∧
      ((probeSlot E s).flag = Flag.kUpperBound →
        (min beta (probeSlot E s).evaluation ≤ alpha →
          negamax E (fuel + 1) s depth ply alpha beta =
            some ⟨(probeSlot E s).evaluation, Exit.ttCutoff,
              ttReturnState s ply (probeSlot E s)⟩) ∧
        (alpha < min beta (probeSlot E s).evaluation →
          negamax E (fuel + 1) s depth ply alpha beta =
            negamaxSearch E (quiesce E fuel) (negamax E fuel) alpha s depth ply
              alpha (min beta (probeSlot E s).evaluation)))) ∧
    (((probeSlot E s).key ≠ E.zobrist_key s.board ∨ (probeSlot E s).depth < depth) →
      negamax E (fuel + 1) s depth ply alpha beta =
        negamaxSearch E (quiesce E fuel) (negamax E fuel) alpha s depth ply alpha beta) ∧
    (∀ e : Entry Move,
      (ttReturnState s ply e).board = s.board ∧
      (ttReturnState s ply e).transpo = s.transpo ∧
      (ttReturnState s ply e).killers = s.killers ∧
      (ttReturnState s ply e).trace = s.trace ∧
      (ply = 0 →
        (ttReturnState s ply e).best_move_this_iteration = some e.best_move ∧
        (ttReturnState s ply e).best_eval_this_iteration = e.evaluation) ∧
      (ply ≠ 0 → ttReturnState s ply e = s)) := by
  refine ⟨?_, ?_, ?_⟩
  · intro hk hd
    have hc : (probeSlot E s).key = E.zobrist_key s.board ∧ (probeSlot E s).depth ≥ depth :=
      ⟨hk, hd⟩
    refine ⟨?_, ?_, ?_⟩
    · intro hf
      simp only [negamax, negamaxBody, hc, hf, and_self, if_true]
    · intro hf
      constructor
      · intro h
        have h' : max alpha (probeSlot E s).evaluation ≥ beta := h
        simp only [negamax, negamaxBody, hc, hf, and_self, if_true, h']
      · intro h
        have h' : ¬ max alpha (probeSlot E s).evaluation ≥ beta := not_le.mpr h
        simp only [negamax, negamaxBody, hc, hf, and_self, if_true, h', if_false]
    · intro hf
      constructor
      · intro h
        have h' : alpha ≥ min beta (probeSlot E s).evaluation := h
        simp only [negamax, negamaxBody, hc, hf, and_self, if_true, h']
      · intro h
        have h' : ¬ alpha ≥ min beta (probeSlot E s).evaluation := not_le.mpr h
        simp only [negamax, negamaxBody, hc, hf, and_self, if_true, h', if_false]
  · intro h
    have hc : ¬ ((probeSlot E s).key = E.zobrist_key s.board ∧ (probeSlot E s).depth ≥ depth) := by
      rintro ⟨h1, h2⟩
      rcases h with h | h
      · exact h h1
      · exact absurd h2 (not_le.mpr h)
    simp only [negamax, negamaxBody, hc, if_false]
  · intro e
    unfold ttReturnState
    by_cases hp : ply = 0 <;> simp [hp]

/-- Witness for C3: on a table holding an exact entry of depth 4 for the root,
a depth-3 root search returns its score 37 and takes over its best move. -/
theorem negamax_tt_probe_witness :
    negamax bareEngine 1 hitState 3 0 (-5) 5 =
      some ⟨37, Exit.ttExact,
        { hitState with best_move_this_iteration := some 2, best_eval_this_iteration := 37 }⟩ :=
  ((negamax_tt_probe bareEngine 0 hitState 3 0 (-5) 5).1 (by decide) (by decide)).1 (by decide)

/-! ### What every call preserves -/

theorem unwind_append (d : Nat) (xs ys : List (Event Move)) :
    unwind d (xs ++ ys) = (unwind d xs).bind (fun k => unwind k ys) := by
  induction xs generalizing d with
  | nil => simp [unwind]
  | cons x xs ih =>
    cases x with
    | make m => simp [unwind, ih]
    | makeNull => simp [unwind, ih]
    | undo =>
      cases d with
      | zero => simp [unwind]
      | succ d => simp [unwind, ih]
    | save e p => simp [unwind, ih]
    | killer m p => simp [unwind, ih]
    | root dp f => simp [unwind, ih]

theorem nullNesting_append (d : Nat) (o : Option Nat) (xs ys : List (Event Move)) :
    nullNesting d o (xs ++ ys) =
      (nullNesting d o xs).bind (fun p => nullNesting p.1 p.2 ys) := by
  induction xs generalizing d o with
  | nil => simp [nullNesting]
  | cons x xs ih =>
    cases x with
    | make m => simp [nullNesting, ih]
    | makeNull =>
      cases o with
      | none => simp [nullNesting, ih]
      | some k => simp [nullNesting]
    | undo =>
      cases d with
      | zero => simp [nullNesting]
      | succ d => simp [nullNesting, ih]
    | save e p => simp [nullNesting, ih]
    | killer m p => simp [nullNesting, ih]
    | root dp f => simp [nullNesting, ih]

/-- Events without a null move run the same below an open null move, as long
as they do not undo it. -/
theorem nullNesting_under (e : List (Event Move)) (hn : Event.makeNull ∉ e) :
    ∀ (d0 d1 : Nat), nullNesting d0 none e = some (d1, none) →
      ∀ (n k : Nat), k < n → nullNesting (n + d0) (some k) e = some (n + d1, some k) := by
  induction e with
  | nil =>
    intro d0 d1 h n k _
    simp only [nullNesting, Option.some.injEq, Prod.mk.injEq] at h
    simp [nullNesting, h.1]
  | cons x xs ih =>
    have hxs : Event.makeNull ∉ xs := fun hm => hn (List.mem_cons_of_mem _ hm)
    intro d0 d1 h n k hk
    cases x with
    | make m =>
      simp only [nullNesting] at h ⊢
      exact ih hxs (d0 + 1) d1 h n k hk
    | makeNull => exact absurd (List.mem_cons_self _ _) hn
    | undo =>
      cases d0 with
      | zero => simp [nullNesting] at h
      | succ d =>
        simp only [nullNesting] at h
        have hne : ¬ (some k = some (n + d)) := by
          simp only [Option.some.injEq]
          omega
        have hne' : ¬ ((none : Option Nat) = some d) := by simp
        rw [if_neg hne'] at h
        have : n + (d + 1) = (n + d) + 1 := by omega
        rw [this]
        simp only [nullNesting]
        rw [if_neg hne]
        exact ih hxs d d1 h n k hk
    | save en p =>
      simp only [nullNesting] at h ⊢
      exact ih hxs d0 d1 h n k hk
    | killer m p =>
      simp only [nullNesting] at h ⊢
      exact ih hxs d0 d1 h n k hk
    | root dp f =>
      simp only [nullNesting] at h ⊢
      exact ih hxs d0 d1 h n k hk

theorem Tidy.nil : Tidy ([] : List (Event Move)) :=
  ⟨fun d => by simp [unwind], fun d => by simp [nullNesting], fun _ _ => by simp⟩

theorem Tidy.append {xs ys : List (Event Move)} (hx : Tidy xs) (hy : Tidy ys) :
    Tidy (xs ++ ys) := by
  refine ⟨fun d => ?_, fun d => ?_, fun dp f => ?_⟩
  · rw [unwind_append, hx.balanced d]
    exact hy.balanced d
  · rw [nullNesting_append, hx.nested d]
    exact hy.nested d
  · simp only [List.mem_append, not_or]
    exact ⟨hx.inner dp f, hy.inner dp f⟩

theorem Tidy.of_save (e : Entry Move) (p : Int) : Tidy [Event.save e p] :=
  ⟨fun d => by simp [unwind], fun d => by simp [nullNesting], fun _ _ => by simp⟩

theorem Tidy.of_killer (m : Move) (p : Int) : Tidy [Event.killer m p] :=
  ⟨fun d => by simp [unwind], fun d => by simp [nullNesting], fun _ _ => by simp⟩

theorem Tidy.make {e : List (Event Move)} (m : Move) (h : Tidy e) :
    Tidy (Event.make m :: (e ++ [Event.undo])) := by
  refine ⟨fun d => ?_, fun d => ?_, fun dp f => ?_⟩
  · simp only [unwind]
    rw [unwind_append, h.balanced (d + 1)]
    simp [unwind]
  · simp only [nullNesting]
    rw [nullNesting_append, h.nested (d + 1)]
    simp [nullNesting]
  · have := h.inner dp f
    simp only [List.mem_cons, List.mem_append, List.mem_singleton, not_or]
    exact ⟨by simp, this, by simp, by simp⟩

theorem Tidy.null {e : List (Event Move)} (h : Tidy e) (hn : Event.makeNull ∉ e) :
    Tidy (Event.makeNull :: (e ++ [Event.undo])) := by
  refine ⟨fun d => ?_, fun d => ?_, fun dp f => ?_⟩
  · simp only [unwind]
    rw [unwind_append, h.balanced (d + 1)]
    simp [unwind]
  · simp only [nullNesting]
    have h0 := nullNesting_under e hn 0 0 (h.nested 0) (d + 1) d (Nat.lt_succ_self d)
    simp only [Nat.add_zero] at h0
    rw [nullNesting_append, h0]
    simp [nullNesting]
  · have := h.inner dp f
    simp only [List.mem_cons, List.mem_append, List.mem_singleton, not_or]
    exact ⟨by simp, this, by simp, by simp⟩

theorem Frame.refl (E : Engine Board Move TT Killers) (s : SearchState Board Move TT Killers) :
    Frame E s s :=
  ⟨rfl, rfl, id, le_refl _, le_refl _, fun _ _ => rfl,
    ⟨[], by simp, Tidy.nil, fun _ => by simp⟩⟩

theorem Frame.trans {E : Engine Board Move TT Killers}
    {s t u : SearchState Board Move TT Killers} (h1 : Frame E s t) (h2 : Frame E t u) :
    Frame E s u := by
  obtain ⟨e1, ht1, hb1, hn1⟩ := h1.trace
  obtain ⟨e2, ht2, hb2, hn2⟩ := h2.trace
  refine ⟨h2.flag.trans h1.flag, h2.start.trans h1.start,
    fun h => h2.cancelled (h1.cancelled h), le_trans h1.reads h2.reads,
    le_trans h1.nodes h2.nodes, fun hm hn => (h2.board hm hn).trans (h1.board hm hn),
    ⟨e1 ++ e2, by rw [ht2, ht1, List.append_assoc], hb1.append hb2, ?_⟩⟩
  intro hf
  have hf' : t.can_do_null_move = false := h1.flag.trans hf
  simp only [List.mem_append, not_or]
  exact ⟨hn1 hf, hn2 hf'⟩

theorem Frame.exit (E : Engine Board Move TT Killers) (s : SearchState Board Move TT Killers) :
    Frame E s (should_exit_search E s).2 := by
  unfold should_exit_search
  split
  · split
    · exact ⟨rfl, rfl, fun _ => rfl, Nat.le_succ _, le_refl _, fun _ _ => rfl,
        ⟨[], by simp, Tidy.nil, fun _ => by simp⟩⟩
    · exact ⟨rfl, rfl, id, Nat.le_succ _, le_refl _, fun _ _ => rfl,
        ⟨[], by simp, Tidy.nil, fun _ => by simp⟩⟩
  · exact Frame.refl E s

theorem Frame.bracket_make {E : Engine Board Move TT Killers}
    {s t : SearchState Board Move TT Killers} {m : Move} (h : Frame E (do_make E s m) t) :
    Frame E s (do_undo E t) := by
  obtain ⟨e, ht, hb, hn⟩ := h.trace
  refine ⟨h.flag, h.start, h.cancelled, h.reads, h.nodes, ?_,
    ⟨Event.make m :: (e ++ [Event.undo]), ?_, hb.make m, ?_⟩⟩
  · intro hm hnull
    have := h.board hm hnull
    simp only [do_undo, do_make] at this ⊢
    rw [this, hm]
  · simp only [do_undo, do_make] at ht ⊢
    rw [ht]
    simp
  · intro hf
    have hn' := hn hf
    simp only [List.mem_cons, List.mem_append, List.mem_singleton, not_or]
    exact ⟨by simp, hn', by simp, by simp⟩

theorem Frame.bracket_null {E : Engine Board Move TT Killers}
    {s t : SearchState Board Move TT Killers} (hs : s.can_do_null_move = true)
    (h : Frame E (do_make_null E (setNullFlag s false)) t) :
    Frame E s (setNullFlag (do_undo E t) true) := by
  obtain ⟨e, ht, hb, hn⟩ := h.trace
  refine ⟨hs.symm, h.start, h.cancelled, h.reads, h.nodes, ?_,
    ⟨Event.makeNull :: (e ++ [Event.undo]), ?_, hb.null (hn rfl), ?_⟩⟩
  · intro hm hnull
    have := h.board hm hnull
    simp only [do_undo, do_make_null, setNullFlag] at this ⊢
    rw [this, hnull]
  · simp only [do_undo, do_make_null, setNullFlag] at ht ⊢
    rw [ht]
    simp
  · intro hf
    rw [hs] at hf
    exact absurd hf (by simp)

theorem quiesceLoop_frame (E : Engine Board Move TT Killers)
    (rec : QSearch Board Move TT Killers)
    (hrec : ∀ s a b v t, rec s a b = some (v, t) → Frame E s t) (beta : Int) :
    ∀ (ms : List Move) (alpha : Int) (s : SearchState Board Move TT Killers) (v : Int)
      (t : SearchState Board Move TT Killers),
      quiesceLoop E rec beta ms alpha s = some (v, t) → Frame E s t := by
  intro ms
  induction ms with
  | nil =>
    intro alpha s v t h
    simp only [quiesceLoop, Option.some.injEq, Prod.mk.injEq] at h
    rw [← h.2]
    exact Frame.refl E s
  | cons m ms ih =>
    intro alpha s v t h
    simp only [quiesceLoop] at h
    split at h
    · exact (Frame.bracket_make (Frame.refl E _)).trans (ih _ _ _ _ h)
    · split at h
      · exact absurd h (by simp)
      · rename_i w s2 hr
        have hf := Frame.bracket_make (hrec _ _ _ _ _ hr)
        split at h
        · simp only [Option.some.injEq, Prod.mk.injEq] at h
          rw [← h.2]
          exact hf
        · exact hf.trans (ih _ _ _ _ h)

theorem quiesceBody_frame (E : Engine Board Move TT Killers)
    (rec : QSearch Board Move TT Killers)
    (hrec : ∀ s a b v t, rec s a b = some (v, t) → Frame E s t)
    (s : SearchState Board Move TT Killers) (alpha beta v : Int)
    (t : SearchState Board Move TT Killers)
    (h : quiesceBody E rec s alpha beta = some (v, t)) : Frame E s t := by
  simp only [quiesceBody] at h
  split at h
  · simp only [Option.some.injEq, Prod.mk.injEq] at h
    rw [← h.2]
    exact Frame.refl E s
  · split at h
    · simp only [Option.some.injEq, Prod.mk.injEq] at h
      rw [← h.2]
      exact Frame.refl E s
    · exact quiesceLoop_frame E rec hrec beta _ _ _ _ _ h

theorem quiesce_frame (E : Engine Board Move TT Killers) :
    ∀ (fuel : Nat) (s : SearchState Board Move TT Killers) (alpha beta v : Int)
      (t : SearchState Board Move TT Killers),
      quiesce E fuel s alpha beta = some (v, t) → Frame E s t := by
  intro fuel
  induction fuel with
  | zero =>
    intro s alpha beta v t h
    simp [quiesce] at h
  | succ n ih =>
    intro s alpha beta v t h
    exact quiesceBody_frame E (quiesce E n) ih s alpha beta v t h

theorem Frame.set_best (E : Engine Board Move TT Killers)
    (s : SearchState Board Move TT Killers) (m : Option Move) (v : Int) :
    Frame E s { s with best_move_this_iteration := m, best_eval_this_iteration := v } :=
  ⟨rfl, rfl, id, le_refl _, le_refl _, fun _ _ => rfl,
    ⟨[], by simp, Tidy.nil, fun _ => by simp⟩⟩

theorem Frame.after_killer (E : Engine Board Move TT Killers)
    (s : SearchState Board Move TT Killers) (k : Killers) (m : Move) (d : Int) :
    Frame E s { s with killers := k, trace := s.trace ++ [Event.killer m d] } :=
  ⟨rfl, rfl, id, le_refl _, le_refl _, fun _ _ => rfl,
    ⟨[Event.killer m d], rfl, Tidy.of_killer m d, fun _ => by simp⟩⟩

theorem Frame.after_save (E : Engine Board Move TT Killers)
    (s : SearchState Board Move TT Killers) (e : Entry Move) (p : Int) :
    Frame E s (do_save E s e p) :=
  ⟨rfl, rfl, id, le_refl _, le_refl _, fun _ _ => rfl,
    ⟨[Event.save e p], rfl, Tidy.of_save e p, fun _ => by simp⟩⟩

theorem Frame.node (E : Engine Board Move TT Killers)
    (s : SearchState Board Move TT Killers) :
    Frame E s (countNode s) :=
  ⟨rfl, rfl, id, le_refl _, by simp [countNode], fun _ _ => rfl,
    ⟨[], by simp [countNode], Tidy.nil, fun _ => by simp⟩⟩

theorem Frame.ttReturn (E : Engine Board Move TT Killers)
    (s : SearchState Board Move TT Killers) (ply : Int) (e : Entry Move) :
    Frame E s (ttReturnState s ply e) := by
  unfold ttReturnState
  split
  · exact Frame.set_best E s _ _
  · exact Frame.refl E s

theorem Frame.rootBest (E : Engine Board Move TT Killers)
    (s : SearchState Board Move TT Killers) (ply : Int) (m : Move) (v : Int) :
    Frame E s (rootBest s ply m v) := by
  unfold Integral.rootBest
  split
  · exact Frame.set_best E s _ _
  · exact Frame.refl E s

theorem Frame.cutoffKiller (E : Engine Board Move TT Killers)
    (s : SearchState Board Move TT Killers) (m : Move) (d : Int) :
    Frame E s (cutoffKiller E s m d) := by
  unfold Integral.cutoffKiller
  simp only
  split
  · exact Frame.after_killer E s _ _ _
  · exact Frame.refl E s

theorem stepTail_frame (E : Engine Board Move TT Killers) (depth beta : Int) (m : Move)
    (alpha best_eval : Int) (best_move : Move) (tried : Nat)
    (s : SearchState Board Move TT Killers) :
    Frame E s (stepTail E depth beta m alpha best_eval best_move tried s).state := by
  unfold stepTail
  simp only
  split
  · exact Frame.cutoffKiller E s m depth
  · exact Frame.refl E s

theorem negamaxStep_frame (E : Engine Board Move TT Killers)
    (rec : NSearch Board Move TT Killers)
    (hrec : ∀ s d p a b r, rec s d p a b = some r → Frame E s r.state)
    (depth ply beta : Int) (m : Move) (alpha best_eval : Int) (best_move : Move) (tried : Nat)
    (s : SearchState Board Move TT Killers) (out : StepOut Board Move TT Killers)
    (h : negamaxStep E rec depth ply beta m alpha best_eval best_move tried s = some out) :
    Frame E s out.state := by
  unfold negamaxStep at h
  simp only at h
  split at h
  · simp only [Option.some.injEq] at h
    rw [← h]
    exact Frame.bracket_make (Frame.refl E _)
  · split at h
    · exact absurd h (by simp)
    · rename_i r hr
      have hf := (Frame.bracket_make (hrec _ _ _ _ _ _ hr)).trans (Frame.exit E _)
      split at h
      · simp only [Option.some.injEq] at h
        rw [← h]
        exact hf
      · split at h
        · simp only [Option.some.injEq] at h
          rw [← h]
          exact (hf.trans (Frame.rootBest E _ _ _ _)).trans (stepTail_frame E _ _ _ _ _ _ _ _)
        · simp only [Option.some.injEq] at h
          rw [← h]
          exact hf.trans (stepTail_frame E _ _ _ _ _ _ _ _)

theorem negamaxLoop_frame (E : Engine Board Move TT Killers)
    (rec : NSearch Board Move TT Killers)
    (hrec : ∀ s d p a b r, rec s d p a b = some r → Frame E s r.state)
    (depth ply beta : Int) :
    ∀ (ms : List Move) (alpha best_eval : Int) (best_move : Move) (tried : Nat)
      (s : SearchState Board Move TT Killers) (out : LoopOut Board Move TT Killers),
      negamaxLoop E rec depth ply beta ms alpha best_eval best_move tried s = some out →
        Frame E s out.state := by
  intro ms
  induction ms with
  | nil =>
    intro alpha best_eval best_move tried s out h
    simp only [negamaxLoop, Option.some.injEq] at h
    rw [← h]
    exact Frame.refl E s
  | cons m ms ih =>
    intro alpha best_eval best_move tried s out h
    simp only [negamaxLoop] at h
    split at h
    · exact absurd h (by simp)
    · rename_i s1 hs
      exact (negamaxStep_frame E rec hrec _ _ _ _ _ _ _ _ _ _ hs).trans (ih _ _ _ _ _ _ h)
    · rename_i s1 hs
      simp only [Option.some.injEq] at h
      rw [← h]
      exact negamaxStep_frame E rec hrec _ _ _ _ _ _ _ _ _ _ hs
    · rename_i a1 b1 m1 t1 s1 hs
      simp only [Option.some.injEq] at h
      rw [← h]
      exact negamaxStep_frame E rec hrec _ _ _ _ _ _ _ _ _ _ hs
    · rename_i a1 b1 m1 t1 s1 hs
      exact (negamaxStep_frame E rec hrec _ _ _ _ _ _ _ _ _ _ hs).trans (ih _ _ _ _ _ _ h)

theorem negamaxMoves_frame (E : Engine Board Move TT Killers)
    (rec : NSearch Board Move TT Killers)
    (hrec : ∀ s d p a b r, rec s d p a b = some r → Frame E s r.state)
    (in_check : Bool) (original_alpha : Int) (s : SearchState Board Move TT Killers)
    (depth ply alpha beta : Int) (r : Result Board Move TT Killers)
    (h : negamaxMoves E rec in_check original_alpha s depth ply alpha beta = some r) :
    Frame E s r.state := by
  unfold negamaxMoves at h
  split at h
  · exact absurd h (by simp)
  · rename_i s1 hl
    simp only [Option.some.injEq] at h
    rw [← h]
    exact negamaxLoop_frame E rec hrec _ _ _ _ _ _ _ _ _ _ hl
  · rename_i a1 b1 m1 t1 s1 hl
    have hf := negamaxLoop_frame E rec hrec _ _ _ _ _ _ _ _ _ _ hl
    split at h
    · simp only [Option.some.injEq] at h
      rw [← h]
      exact hf
    · simp only [Option.some.injEq] at h
      rw [← h]
      exact hf.trans (Frame.after_save E _ _ _)

theorem negamaxNull_frame (E : Engine Board Move TT Killers)
    (rec : NSearch Board Move TT Killers)
    (hrec : ∀ s d p a b r, rec s d p a b = some r → Frame E s r.state)
    (in_check : Bool) (original_alpha : Int) (s : SearchState Board Move TT Killers)
    (depth ply alpha beta : Int) (r : Result Board Move TT Killers)
    (h : negamaxNull E rec in_check original_alpha s depth ply alpha beta = some r) :
    Frame E s r.state := by
  unfold negamaxNull at h
  split at h
  · rename_i hc
    simp only [Bool.and_eq_true] at hc
    simp only at h
    split at h
    · exact absurd h (by simp)
    · rename_i c hr
      have hf := (Frame.bracket_null hc.1.1 (hrec _ _ _ _ _ _ hr)).trans (Frame.exit E _)
      split at h
      · simp only [Option.some.injEq] at h
        rw [← h]
        exact hf
      · split at h
        · simp only [Option.some.injEq] at h
          rw [← h]
          exact hf
        · exact hf.trans (negamaxMoves_frame E rec hrec _ _ _ _ _ _ _ _ h)
  · exact negamaxMoves_frame E rec hrec _ _ _ _ _ _ _ _ h

theorem negamaxSearch_frame (E : Engine Board Move TT Killers)
    (q : QSearch Board Move TT Killers) (rec : NSearch Board Move TT Killers)
    (hq : ∀ s a b v t, q s a b = some (v, t) → Frame E s t)
    (hrec : ∀ s d p a b r, rec s d p a b = some r → Frame E s r.state)
    (original_alpha : Int) (s : SearchState Board Move TT Killers)
    (depth ply alpha beta : Int) (r : Result Board Move TT Killers)
    (h : negamaxSearch E q rec original_alpha s depth ply alpha beta = some r) :
    Frame E s r.state := by
  unfold negamaxSearch at h
  simp only at h
  split at h
  · simp only [Option.some.injEq] at h
    rw [← h]
    exact Frame.exit E s
  · split at h
    · split at h
      · exact absurd h (by simp)
      · rename_i v s1 hv
        simp only [Option.some.injEq] at h
        rw [← h]
        exact ((Frame.exit E s).trans (Frame.node E _)).trans (hq _ _ _ _ _ hv)
    · exact (Frame.exit E s).trans (negamaxNull_frame E rec hrec _ _ _ _ _ _ _ _ h)

theorem negamaxBody_frame (E : Engine Board Move TT Killers)
    (q : QSearch Board Move TT Killers) (rec : NSearch Board Move TT Killers)
    (hq : ∀ s a b v t, q s a b = some (v, t) → Frame E s t)
    (hrec : ∀ s d p a b r, rec s d p a b = some r → Frame E s r.state)
    (s : SearchState Board Move TT Killers)
    (depth ply alpha beta : Int) (r : Result Board Move TT Killers)
    (h : negamaxBody E q rec s depth ply alpha beta = some r) :
    Frame E s r.state := by
  unfold negamaxBody at h
  simp only at h
  split at h
  · split at h
    · simp only [Option.some.injEq] at h
      rw [← h]
      exact Frame.ttReturn E s _ _
    · split at h
      · simp only [Option.some.injEq] at h
        rw [← h]
        exact Frame.ttReturn E s _ _
      · exact negamaxSearch_frame E q rec hq hrec _ _ _ _ _ _ _ h
    · split at h
      · simp only [Option.some.injEq] at h
        rw [← h]
        exact Frame.ttReturn E s _ _
      · exact negamaxSearch_frame E q rec hq hrec _ _ _ _ _ _ _ h
  · exact negamaxSearch_frame E q rec hq hrec _ _ _ _ _ _ _ h

theorem negamax_frame (E : Engine Board Move TT Killers) :
    ∀ (fuel : Nat) (s : SearchState Board Move TT Killers) (depth ply alpha beta : Int)
      (r : Result Board Move TT Killers),
      negamax E fuel s depth ply alpha beta = some r → Frame E s r.state := by
  intro fuel
  induction fuel with
  | zero =>
    intro s depth ply alpha beta r h
    simp [negamax] at h
  | succ n ih =>
    intro s depth ply alpha beta r h
    exact negamaxBody_frame E (quiesce E n) (negamax E n) (quiesce_frame E n) ih _ _ _ _ _ _ h

/-! ### Undo completeness -/

/-- C9: if `undo_move` reverses the latest `make_move` or `make_null_move`,
then every call of `quiesce` and of `negamax`, on whatever path it returns,
leaves the board it was given (hence the same Zobrist key and side to move),
and the moves it made and undid in between pair up: every make is undone
before the call returns. -/
theorem undo_completeness (E : Engine Board Move TT Killers)
    (hmake : ∀ b m, E.undo_move (E.make_move b m) = b)
    (hnull : ∀ b, E.undo_move (E.make_null_move b) = b) :
    (∀ (fuel : Nat) (s : SearchState Board Move TT Killers) (alpha beta v : Int)
        (t : SearchState Board Move TT Killers),
        quiesce E fuel s alpha beta = some (v, t) →
          t.board = s.board ∧ E.zobrist_key t.board = E.zobrist_key s.board ∧
            E.turn t.board = E.turn s.board ∧
            ∃ ext, t.trace = s.trace ++ ext ∧ unwind 0 ext = some 0) ∧
    (∀ (fuel : Nat) (s : SearchState Board Move TT Killers) (depth ply alpha beta : Int)
        (r : Result Board Move TT Killers),
        negamax E fuel s depth ply alpha beta = some r →
          r.state.board = s.board ∧ E.zobrist_key r.state.board = E.zobrist_key s.board ∧
            E.turn r.state.board = E.turn s.board ∧
            ∃ ext, r.state.trace = s.trace ++ ext ∧ unwind 0 ext = some 0) := by
  constructor
  · intro fuel s alpha beta v t h
    have hf := quiesce_frame E fuel s alpha beta v t h
    have hb := hf.board hmake hnull
    obtain ⟨ext, he, ht, _⟩ := hf.trace
    exact ⟨hb, by rw [hb], by rw [hb], ext, he, ht.balanced 0⟩
  · intro fuel s depth ply alpha beta r h
    have hf := negamax_frame E fuel s depth ply alpha beta r h
    have hb := hf.board hmake hnull
    obtain ⟨ext, he, ht, _⟩ := hf.trace
    exact ⟨hb, by rw [hb], by rw [hb], ext, he, ht.balanced 0⟩

/-- Witness for C9: a depth-2 search of the three-move tree returns with the
empty board it started from. -/
theorem undo_completeness_witness :
    ∃ r, negamax treeEngine 6 bareState 2 0 (-kMateScore) kMateScore = some r ∧
      r.state.board = [] :=
  ⟨_, rfl, ((undo_completeness treeEngine (fun _ _ => rfl) (fun _ => rfl)).2
    6 bareState 2 0 (-kMateScore) kMateScore _ rfl).1⟩

/-! ### The null-move guard -/

theorem deepenLoop_roots (E : Engine Board Move TT Killers) (fuel : Nat) :
    ∀ (n : Nat) (depth : Int) (best_move : Move) (s : SearchState Board Move TT Killers)
      (out : Move × SearchState Board Move TT Killers),
      s.can_do_null_move = true → deepenLoop E fuel n depth best_move s = some out →
        out.2.can_do_null_move = true ∧
          ∃ ext, out.2.trace = s.trace ++ ext ∧
            ∀ dp f, Event.root dp f ∈ ext → f = true := by
  intro n
  induction n with
  | zero =>
    intro depth best_move s out hs h
    simp only [deepenLoop, Option.some.injEq] at h
    rw [← h]
    exact ⟨hs, [], by simp, by simp⟩
  | succ n ih =>
    intro depth best_move s out hs h
    simp only [deepenLoop] at h
    split at h
    · exact absurd h (by simp)
    · rename_i r hr
      have hf := (negamax_frame E fuel _ _ _ _ _ r hr).trans (Frame.exit E r.state)
      obtain ⟨e, he, ht, _⟩ := hf.trace
      have hflag : (should_exit_search E r.state).2.can_do_null_move = true := by
        rw [hf.flag]
        exact hs
      have hroot : ∀ dp f, Event.root dp f ∈ Event.root depth s.can_do_null_move :: e →
          f = true := by
        intro dp f hm
        rcases List.mem_cons.mp hm with h1 | h1
        · injection h1 with _ h2
          rw [h2]
          exact hs
        · exact absurd h1 (ht.inner dp f)
      split at h
      · simp only [Option.some.injEq] at h
        rw [← h]
        refine ⟨hflag, Event.root depth s.can_do_null_move :: e, ?_, hroot⟩
        rw [he]
        simp
      · obtain ⟨h1, e2, he2, hr2⟩ := ih _ _ _ out hflag h
        refine ⟨h1, (Event.root depth s.can_do_null_move :: e) ++ e2, ?_, ?_⟩
        · rw [he2, he]
          simp
        · intro dp f hm
          rcases List.mem_append.mp hm with h3 | h3
          · exact hroot dp f h3
          · exact hr2 dp f h3

/-- C10: every `negamax` call returns with `can_do_null_move` as it found it;
among the moves a call makes, no null move is made while another null move
is still on the board (never two null moves on one path), and a call entered
with the flag off, as the null-move subtree is, makes no null move at all and
returns with the flag off; and in every run of `find_best_move` each root
call of the iterative deepening is made with the flag on. -/
theorem null_move_guard (E : Engine Board Move TT Killers) :
    (∀ (fuel : Nat) (s : SearchState Board Move TT Killers) (depth ply alpha beta : Int)
        (r : Result Board Move TT Killers),
        negamax E fuel s depth ply alpha beta = some r →
          r.state.can_do_null_move = s.can_do_null_move ∧
            ∃ ext, r.state.trace = s.trace ++ ext ∧
              nullNesting 0 none ext = some (0, none) ∧
              (s.can_do_null_move = false → Event.makeNull ∉ ext)) ∧
    (∀ (s : SearchState Board Move TT Killers),
        (do_make_null E (setNullFlag s false)).can_do_null_move = false) ∧
    (∀ (fuel : Nat) (s : SearchState Board Move TT Killers) (m : Move)
        (t : SearchState Board Move TT Killers),
        find_best_move E fuel s = some (m, t) →
          ∃ ext, t.trace = s.trace ++ ext ∧ ∀ dp f, Event.root dp f ∈ ext → f = true) := by
  refine ⟨?_, fun _ => rfl, ?_⟩
  · intro fuel s depth ply alpha beta r h
    have hf := negamax_frame E fuel s depth ply alpha beta r h
    obtain ⟨ext, he, ht, hn⟩ := hf.trace
    exact ⟨hf.flag, ext, he, ht.nested 0, hn⟩
  · intro fuel s m t h
    simp only [find_best_move] at h
    split at h
    · exact absurd h (by simp)
    · rename_i m1 s1 hl
      simp only [Option.some.injEq, Prod.mk.injEq] at h
      obtain ⟨_, ext, he, hr⟩ :=
        deepenLoop_roots E fuel kMaxDepth 1 E.no_move (searchStart E s) (m1, s1) rfl hl
      refine ⟨ext, ?_, hr⟩
      rw [← h.2]
      exact he

/-- Witness for C10: a depth-3 root search on the engine without moves tries
the null move and returns with the flag on, as it found it. -/
theorem null_move_guard_witness :
    ∃ r, negamax bareEngine 3 bareState 3 0 (-kMateScore) kMateScore = some r ∧
      r.state.can_do_null_move = true ∧ r.state.trace = [Event.makeNull, Event.undo] :=
  ⟨_, rfl,
    ((null_move_guard bareEngine).1 3 bareState 3 0 (-kMateScore) kMateScore _ rfl).1, rfl⟩

/-! ### Cancellation -/

theorem should_exit_search_sets (E : Engine Board Move TT Killers)
    (s : SearchState Board Move TT Killers) (h : (should_exit_search E s).1 = true) :
    (should_exit_search E s).2.search_cancelled = true := by
  unfold should_exit_search at h ⊢
  split
  · split
    · rfl
    · rename_i h1 h2
      simp [h1, h2] at h
  · rename_i h1
    simp [h1] at h

theorem should_exit_search_keeps (E : Engine Board Move TT Killers)
    (s : SearchState Board Move TT Killers) :
    (should_exit_search E s).2.board = s.board ∧
      (should_exit_search E s).2.transpo = s.transpo ∧
      (should_exit_search E s).2.killers = s.killers ∧
      (should_exit_search E s).2.best_move_this_iteration = s.best_move_this_iteration ∧
      (should_exit_search E s).2.best_eval_this_iteration = s.best_eval_this_iteration ∧
      (should_exit_search E s).2.trace = s.trace ∧
      (should_exit_search E s).2.nodes_searched = s.nodes_searched := by
  unfold should_exit_search
  split
  · split <;> simp
  · simp

theorem negamaxStep_cancelled (E : Engine Board Move TT Killers)
    (rec : NSearch Board Move TT Killers) (depth ply beta : Int) (m : Move)
    (alpha best_eval : Int) (best_move : Move) (tried : Nat)
    (s t : SearchState Board Move TT Killers)
    (h : negamaxStep E rec depth ply beta m alpha best_eval best_move tried s =
      some (StepOut.cancelled t)) : t.search_cancelled = true := by
  unfold negamaxStep at h
  simp only at h
  split at h
  · simp at h
  · split at h
    · simp at h
    · rename_i r hr
      split at h
      · rename_i hx
        simp only [Option.some.injEq, StepOut.cancelled.injEq] at h
        rw [← h]
        exact should_exit_search_sets E _ hx
      · split at h
        · simp only [stepTail, Option.some.injEq] at h
          split at h <;> simp at h
        · simp only [stepTail, Option.some.injEq] at h
          split at h <;> simp at h

theorem negamaxLoop_cancelled (E : Engine Board Move TT Killers)
    (rec : NSearch Board Move TT Killers) (depth ply beta : Int) :
    ∀ (ms : List Move) (alpha best_eval : Int) (best_move : Move) (tried : Nat)
      (s t : SearchState Board Move TT Killers),
      negamaxLoop E rec depth ply beta ms alpha best_eval best_move tried s =
        some (LoopOut.cancelled t) → t.search_cancelled = true := by
  intro ms
  induction ms with
  | nil =>
    intro alpha best_eval best_move tried s t h
    simp [negamaxLoop] at h
  | cons m ms ih =>
    intro alpha best_eval best_move tried s t h
    simp only [negamaxLoop] at h
    split at h
    · simp at h
    · exact ih _ _ _ _ _ _ h
    · rename_i s1 hs
      simp only [Option.some.injEq, LoopOut.cancelled.injEq] at h
      rw [← h]
      exact negamaxStep_cancelled E rec _ _ _ _ _ _ _ _ _ _ hs
    · simp at h
    · exact ih _ _ _ _ _ _ h

theorem negamaxMoves_cancelled (E : Engine Board Move TT Killers)
    (rec : NSearch Board Move TT Killers)
    (in_check : Bool) (original_alpha : Int) (s : SearchState Board Move TT Killers)
    (depth ply alpha beta : Int) (r : Result Board Move TT Killers)
    (h : negamaxMoves E rec in_check original_alpha s depth ply alpha beta = some r)
    (hp : r.path.isCancelled = true) : r.value = 0 ∧ r.state.search_cancelled = true := by
  unfold negamaxMoves at h
  split at h
  · simp at h
  · rename_i s1 hl
    simp only [Option.some.injEq] at h
    rw [← h]
    exact ⟨rfl, negamaxLoop_cancelled E rec _ _ _ _ _ _ _ _ _ _ hl⟩
  · split at h
    · simp only [Option.some.injEq] at h
      rw [← h] at hp
      simp [Exit.isCancelled] at hp
    · simp only [Option.some.injEq] at h
      rw [← h] at hp
      simp [Exit.isCancelled] at hp

theorem negamaxNull_cancelled (E : Engine Board Move TT Killers)
    (rec : NSearch Board Move TT Killers)
    (in_check : Bool) (original_alpha : Int) (s : SearchState Board Move TT Killers)
    (depth ply alpha beta : Int) (r : Result Board Move TT Killers)
    (h : negamaxNull E rec in_check original_alpha s depth ply alpha beta = some r)
    (hp : r.path.isCancelled = true) : r.value = 0 ∧ r.state.search_cancelled = true := by
  unfold negamaxNull at h
  split at h
  · simp only at h
    split at h
    · simp at h
    · split at h
      · rename_i hx
        simp only [Option.some.injEq] at h
        rw [← h]
        exact ⟨rfl, should_exit_search_sets E _ hx⟩
      · split at h
        · simp only [Option.some.injEq] at h
          rw [← h] at hp
          simp [Exit.isCancelled] at hp
        · exact negamaxMoves_cancelled E rec _ _ _ _ _ _ _ _ h hp
  · exact negamaxMoves_cancelled E rec _ _ _ _ _ _ _ _ h hp

theorem negamaxSearch_cancelled (E : Engine Board Move TT Killers)
    (q : QSearch Board Move TT Killers) (rec : NSearch Board Move TT Killers)
    (original_alpha : Int) (s : SearchState Board Move TT Killers)
    (depth ply alpha beta : Int) (r : Result Board Move TT Killers)
    (h : negamaxSearch E q rec original_alpha s depth ply alpha beta = some r)
    (hp : r.path.isCancelled = true) : r.value = 0 ∧ r.state.search_cancelled = true := by
  unfold negamaxSearch at h
  simp only at h
  split at h
  · rename_i hx
    simp only [Option.some.injEq] at h
    rw [← h]
    exact ⟨rfl, should_exit_search_sets E _ hx⟩
  · split at h
    · split at h
      · simp at h
      · simp only [Option.some.injEq] at h
        rw [← h] at hp
        simp [Exit.isCancelled] at hp
    · exact negamaxNull_cancelled E rec _ _ _ _ _ _ _ _ h hp

theorem negamaxBody_cancelled (E : Engine Board Move TT Killers)
    (q : QSearch Board Move TT Killers) (rec : NSearch Board Move TT Killers)
    (s : SearchState Board Move TT Killers)
    (depth ply alpha beta : Int) (r : Result Board Move TT Killers)
    (h : negamaxBody E q rec s depth ply alpha beta = some r)
    (hp : r.path.isCancelled = true) : r.value = 0 ∧ r.state.search_cancelled = true := by
  unfold negamaxBody at h
  simp only at h
  split at h
  · split at h
    · simp only [Option.some.injEq] at h
      rw [← h] at hp
      simp [Exit.isCancelled] at hp
    · split at h
      · simp only [Option.some.injEq] at h
        rw [← h] at hp
        simp [Exit.isCancelled] at hp
      · exact negamaxSearch_cancelled E q rec _ _ _ _ _ _ _ h hp
    · split at h
      · simp only [Option.some.injEq] at h
        rw [← h] at hp
        simp [Exit.isCancelled] at hp
      · exact negamaxSearch_cancelled E q rec _ _ _ _ _ _ _ h hp
  · exact negamaxSearch_cancelled E q rec _ _ _ _ _ _ _ h hp

/-- C8: when `should_exit_search` answers `true` at one of the three check
points of `negamax` (on entry, after the null-move search, after a child
search), the frame returns 0 in exactly the state that call of
`should_exit_search` left, which differs from the state before it in neither
transposition table, killer table, iteration-best move and score, board nor
trace: nothing is saved or updated after the observation.  Conversely every
return through one of the three cancellation exits has value 0 and leaves
`search_cancelled` set. -/
theorem cancellation_in_frame (E : Engine Board Move TT Killers) :
    (∀ (q : QSearch Board Move TT Killers) (rec : NSearch Board Move TT Killers)
        (original_alpha : Int) (s : SearchState Board Move TT Killers)
        (depth ply alpha beta : Int),
        (should_exit_search E s).1 = true →
          negamaxSearch E q rec original_alpha s depth ply alpha beta =
            some ⟨0, Exit.cancelledEntry, (should_exit_search E s).2⟩) ∧
    (∀ (rec : NSearch Board Move TT Killers) (in_check : Bool) (original_alpha : Int)
        (s : SearchState Board Move TT Killers) (depth ply alpha beta : Int)
        (r : Result Board Move TT Killers),
        (s.can_do_null_move && decide (depth > 2) && !in_check) = true →
        rec (do_make_null E (setNullFlag s false))
          (depth - (if depth > 6 then 3 else 2)) (ply + 1) (-beta) (-alpha) = some r →
        (should_exit_search E (setNullFlag (do_undo E r.state) true)).1 = true →
          negamaxNull E rec in_check original_alpha s depth ply alpha beta =
            some ⟨0, Exit.cancelledNull,
              (should_exit_search E (setNullFlag (do_undo E r.state) true)).2⟩) ∧
    (∀ (rec : NSearch Board Move TT Killers) (depth ply beta : Int) (m : Move)
        (ms : List Move) (alpha best_eval : Int) (best_move : Move) (tried : Nat)
        (s : SearchState Board Move TT Killers) (r : Result Board Move TT Killers),
        move_leaves_check E (do_make E s m).board = false →
        rec (do_make E s m) (depth - 1) (ply + 1) (-beta) (-alpha) = some r →
        (should_exit_search E (do_undo E r.state)).1 = true →
          negamaxLoop E rec depth ply beta (m :: ms) alpha best_eval best_move tried s =
            some (LoopOut.cancelled (should_exit_search E (do_undo E r.state)).2)) ∧
    (∀ (rec : NSearch Board Move TT Killers) (in_check : Bool) (original_alpha : Int)
        (s t : SearchState Board Move TT Killers) (depth ply alpha beta : Int),
        negamaxLoop E rec depth ply beta (orderedMoves E s) alpha INT_MIN E.no_move 0 s =
            some (LoopOut.cancelled t) →
          negamaxMoves E rec in_check original_alpha s depth ply alpha beta =
            some ⟨0, Exit.cancelledChild, t⟩) ∧
    (∀ (s : SearchState Board Move TT Killers),
        (should_exit_search E s).2.board = s.board ∧
        (should_exit_search E s).2.transpo = s.transpo ∧
        (should_exit_search E s).2.killers = s.killers ∧
        (should_exit_search E s).2.best_move_this_iteration = s.best_move_this_iteration ∧
        (should_exit_search E s).2.best_eval_this_iteration = s.best_eval_this_iteration ∧
        (should_exit_search E s).2.trace = s.trace ∧
        (should_exit_search E s).2.nodes_searched = s.nodes_searched) ∧
    (∀ (fuel : Nat) (s : SearchState Board Move TT Killers) (depth ply alpha beta : Int)
        (r : Result Board Move TT Killers),
        negamax E fuel s depth ply alpha beta = some r → r.path.isCancelled = true →
          r.value = 0 ∧ r.state.search_cancelled = true) := by
  refine ⟨?_, ?_, ?_, ?_, should_exit_search_keeps E, ?_⟩
  · intro q rec oa s depth ply alpha beta hx
    simp only [negamaxSearch, hx, if_true]
  · intro rec in_check oa s depth ply alpha beta r hc hr hx
    simp only [negamaxNull, hc, hr, hx, if_true]
  · intro rec depth ply beta m ms alpha best_eval best_move tried s r hl hr hx
    simp [negamaxLoop, negamaxStep, hl, hr, hx]
  · intro rec in_check oa s t depth ply alpha beta hl
    simp only [negamaxMoves, hl]
  · intro fuel s depth ply alpha beta r h hp
    cases fuel with
    | zero => simp [negamax] at h
    | succ n => exact negamaxBody_cancelled E _ _ _ _ _ _ _ _ h hp

/-- Witness for C8: with the clock past the budget and the node counter at a
sampling point, the frame returns 0 on entry and leaves table and trace as
they were. -/
theorem cancellation_in_frame_witness :
    negamaxSearch lateTreeEngine (quiesce lateTreeEngine 2) (negamax lateTreeEngine 2)
        (-5) sampledState 2 0 (-5) 5 =
      some ⟨0, Exit.cancelledEntry,
        { sampledState with clock_reads := 1, search_cancelled := true }⟩ :=
  (cancellation_in_frame lateTreeEngine).1 _ _ (-5) sampledState 2 0 (-5) 5 (by decide)

/-! ### Game-over scoring -/

theorem negamaxLoop_all_illegal (E : Engine Board Move TT Killers)
    (hmake : ∀ b m, E.undo_move (E.make_move b m) = b)
    (rec : NSearch Board Move TT Killers) (depth ply beta : Int) :
    ∀ (ms : List Move) (alpha best_eval : Int) (best_move : Move) (tried : Nat)
      (s : SearchState Board Move TT Killers),
      (∀ m ∈ ms, move_leaves_check E (E.make_move s.board m) = true) →
      negamaxLoop E rec depth ply beta ms alpha best_eval best_move tried s =
        some (LoopOut.finished alpha best_eval best_move tried
          { s with trace := s.trace ++ skipTrace ms }) := by
  intro ms
  induction ms with
  | nil =>
    intro alpha best_eval best_move tried s _
    simp [negamaxLoop, skipTrace]
  | cons m ms ih =>
    intro alpha best_eval best_move tried s h
    have hm := h m (List.mem_cons_self _ _)
    have hstep : negamaxStep E rec depth ply beta m alpha best_eval best_move tried s =
        some (StepOut.skipped (do_undo E (do_make E s m))) := by
      simp only [negamaxStep, do_make, hm, if_true]
    have hrest := ih alpha best_eval best_move tried (do_undo E (do_make E s m)) (by
      intro m' hm'
      simp only [do_undo, do_make, hmake]
      exact h m' (List.mem_cons_of_mem _ hm'))
    simp only [negamaxLoop, hstep, hrest]
    simp [do_undo, do_make, hmake, skipTrace]

theorem negamaxMoves_all_illegal (E : Engine Board Move TT Killers)
    (hmake : ∀ b m, E.undo_move (E.make_move b m) = b)
    (rec : NSearch Board Move TT Killers) (in_check : Bool) (original_alpha : Int)
    (s : SearchState Board Move TT Killers) (depth ply alpha beta : Int)
    (hnone : ∀ m ∈ orderedMoves E s,
      move_leaves_check E (E.make_move s.board m) = true) :
    negamaxMoves E rec in_check original_alpha s depth ply alpha beta =
      some ⟨if in_check then -kMateScore + ply else kDrawScore, Exit.gameOver,
        { s with trace := s.trace ++ skipTrace (orderedMoves E s) }⟩ := by
  simp only [negamaxMoves, negamaxLoop_all_illegal E hmake rec depth ply beta _ _ _ _ _ s hnone,
    if_true]

theorem skipTrace_no_save (ms : List Move) (e : Entry Move) (p : Int) :
    Event.save e p ∉ skipTrace ms := by
  induction ms with
  | nil => simp [skipTrace]
  | cons m ms ih => simp [skipTrace, ih]

/-- C6, as stated, fails: on the engine without moves the root is stalemate
(no move, not in check, no table hit, no cancellation), yet a depth-3 search
with window (-10, -5) returns beta = -5 through the null-move cutoff, not
DRAW. -/
theorem game_over_null_cutoff :
    bareEngine.generate_moves bareState.board = [] ∧
      bareEngine.king_in_check (bareEngine.turn bareState.board) bareState.board = false ∧
      (should_exit_search bareEngine bareState).1 = false ∧
      (probeSlot bareEngine bareState).key ≠ bareEngine.zobrist_key bareState.board ∧
      (negamax bareEngine 3 bareState 3 0 (-10) (-5)).map (fun r => (r.value, r.path)) =
        some (-5, Exit.nullCutoff) ∧
      (-5 : Int) ≠ kDrawScore := by
  decide

/-- C6, amended: let `undo_move` reverse `make_move` and `make_null_move`, and
take a position in which every move the orderer delivers leaves the own king
in check, a depth of at least 1, no matching slot of sufficient depth and no
cancellation on entry.  If the side to move is in check, `negamax` returns
`-MATE + ply`.  If it is not in check and the null move is not tried (flag
off or depth at most 2), `negamax` returns DRAW.  In both cases the state
returned is the state after the entry check plus the make/undo events of the
skipped moves: no transposition entry is stored.  If the null move is tried
and its search returns `rc` without cancellation, `negamax` returns beta when
`-rc.value ≥ beta`, and otherwise DRAW, again without storing an entry of its
own. -/
theorem game_over_scoring (E : Engine Board Move TT Killers)
    (hmake : ∀ b m, E.undo_move (E.make_move b m) = b)
    (hnull : ∀ b, E.undo_move (E.make_null_move b) = b)
    (fuel : Nat) (s : SearchState Board Move TT Killers) (depth ply alpha beta : Int)
    (hdepth : 1 ≤ depth)
    (hmiss : (probeSlot E s).key ≠ E.zobrist_key s.board ∨ (probeSlot E s).depth < depth)
    (hrun : (should_exit_search E s).1 = false)
    (hnone : ∀ t k, ∀ m ∈ E.order MoveType.kAll s.board t k (E.generate_moves s.board),
      move_leaves_check E (E.make_move s.board m) = true) :
    (E.king_in_check (E.turn s.board) s.board = true →
      negamax E (fuel + 1) s depth ply alpha beta =
        some ⟨-kMateScore + ply, Exit.gameOver,
          { (should_exit_search E s).2 with
            trace := s.trace ++ skipTrace (orderedMoves E s) }⟩) ∧
    (E.king_in_check (E.turn s.board) s.board = false →
      (s.can_do_null_move = false ∨ depth ≤ 2) →
      negamax E (fuel + 1) s depth ply alpha beta =
        some ⟨kDrawScore, Exit.gameOver,
          { (should_exit_search E s).2 with
            trace := s.trace ++ skipTrace (orderedMoves E s) }⟩) ∧
    (E.king_in_check (E.turn s.board) s.board = false →
      s.can_do_null_move = true → 2 < depth →
      ∀ rc : Result Board Move TT Killers,
        negamax E fuel
          (do_make_null E (setNullFlag (should_exit_search E s).2 false))
          (depth - (if depth > 6 then 3 else 2)) (ply + 1) (-beta) (-alpha) = some rc →
        (should_exit_search E (setNullFlag (do_undo E rc.state) true)).1 = false →
        (beta ≤ -rc.value →
          negamax E (fuel + 1) s depth ply alpha beta =
            some ⟨beta, Exit.nullCutoff,
              (should_exit_search E (setNullFlag (do_undo E rc.state) true)).2⟩) ∧
        (-rc.value < beta →
          negamax E (fuel + 1) s depth ply alpha beta =
            some ⟨kDrawScore, Exit.gameOver,
              { (should_exit_search E (setNullFlag (do_undo E rc.state) true)).2 with
                trace := rc.state.trace ++ Event.undo :: skipTrace (orderedMoves E
                  (should_exit_search E
                    (setNullFlag (do_undo E rc.state) true)).2) }⟩)) ∧
    (∀ (ms : List Move) (e : Entry Move) (p : Int), Event.save e p ∉ skipTrace ms) := by
  have hc : ¬ ((probeSlot E s).key = E.zobrist_key s.board ∧ (probeSlot E s).depth ≥ depth) := by
    rintro ⟨h1, h2⟩
    rcases hmiss with h | h
    · exact h h1
    · exact absurd h2 (not_le.mpr h)
  obtain ⟨kb, kt, kk, _, _, ktr, _⟩ := should_exit_search_keeps E s
  have hbody : negamax E (fuel + 1) s depth ply alpha beta =
      negamaxSearch E (quiesce E fuel) (negamax E fuel) alpha s depth ply alpha beta := by
    simp only [negamax, negamaxBody, hc, if_false]
  have hom : orderedMoves E (should_exit_search E s).2 = orderedMoves E s := by
    simp only [orderedMoves, kb, kt, kk]
  have hx2 : ∀ m ∈ orderedMoves E (should_exit_search E s).2,
      move_leaves_check E (E.make_move (should_exit_search E s).2.board m) = true := by
    rw [kb, hom]
    exact hnone _ _
  refine ⟨?_, ?_, ?_, skipTrace_no_save⟩
  · intro hin
    have hd : ¬ extendDepth true depth ≤ 0 := by
      simp only [extendDepth, if_true]
      omega
    rw [hbody]
    simp only [negamaxSearch, hrun, kb, hin, hd, if_false, negamaxNull, Bool.not_true,
      Bool.and_false, Bool.false_eq_true]
    rw [negamaxMoves_all_illegal E hmake _ _ _ _ _ _ _ _ hx2]
    simp [hom, kb, ktr]
  · intro hin hoff
    have hd : ¬ extendDepth false depth ≤ 0 := by
      simp only [extendDepth, Bool.false_eq_true, if_false]
      omega
    have hno : ((should_exit_search E s).2.can_do_null_move &&
        decide (extendDepth false depth > 2) && !false) = false := by
      rcases hoff with h | h
      · have := (Frame.exit E s).flag
        rw [this, h]
        simp
      · have : ¬ extendDepth false depth > 2 := by
          simp only [extendDepth, Bool.false_eq_true, if_false]
          omega
        simp [this]
    rw [hbody]
    simp only [negamaxSearch, hrun, kb, hin, hd, if_false, negamaxNull, hno, Bool.false_eq_true]
    rw [negamaxMoves_all_illegal E hmake _ _ _ _ _ _ _ _ hx2]
    simp [hom, kb, ktr]
  · intro hin hon hdeep rc hrc hrun2
    have hd : ¬ depth ≤ 0 := by omega
    have hext : extendDepth false depth = depth := by
      simp [extendDepth]
    have hyes : ((should_exit_search E s).2.can_do_null_move &&
        decide (depth > 2) && !false) = true := by
      have := (Frame.exit E s).flag
      rw [this, hon]
      simp [hdeep]
    have hfr := negamax_frame E fuel _ _ _ _ _ rc hrc
    have hb : rc.state.board = E.make_null_move s.board := by
      have := hfr.board hmake hnull
      simp only [do_make_null, setNullFlag, kb] at this
      exact this
    obtain ⟨yb, yt, yk, _, _, ytr, _⟩ :=
      should_exit_search_keeps E (setNullFlag (do_undo E rc.state) true)
    have hyb : (should_exit_search E (setNullFlag (do_undo E rc.state) true)).2.board
        = s.board := by
      rw [yb]
      simp only [setNullFlag, do_undo, hb, hnull]
    constructor
    · intro hcut
      have hcut' : -rc.value ≥ beta := hcut
      rw [hbody]
      simp only [negamaxSearch, hrun, kb, hin, hd, if_false, negamaxNull, hext, hyes, if_true,
        hrc, hrun2, hcut', Bool.false_eq_true]
    · intro hlow
      have hlow' : ¬ -rc.value ≥ beta := not_le.mpr hlow
      have hy2 : ∀ m ∈ orderedMoves E
          (should_exit_search E (setNullFlag (do_undo E rc.state) true)).2,
          move_leaves_check E (E.make_move
            (should_exit_search E (setNullFlag (do_undo E rc.state) true)).2.board m) = true := by
        intro m hm
        simp only [orderedMoves, hyb] at hm
        rw [hyb]
        exact hnone _ _ m hm
      rw [hbody]
      simp only [negamaxSearch, hrun, kb, hin, hd, if_false, negamaxNull, hext, hyes, if_true,
        hrc, hrun2, hlow', Bool.false_eq_true]
      rw [negamaxMoves_all_illegal E hmake _ _ _ _ _ _ _ _ hy2]
      rw [ytr]
      simp [do_undo, setNullFlag]

/-- Witness for C6: on the engine without moves, with the null-move flag off,
a depth-3 search of the stalemated root returns DRAW and stores nothing. -/
theorem game_over_scoring_witness :
    negamax bareEngine 1 { bareState with can_do_null_move := false } 3 0 (-10) (-5) =
      some ⟨kDrawScore, Exit.gameOver, { bareState with can_do_null_move := false }⟩ :=
  (game_over_scoring bareEngine (fun _ _ => rfl) (fun _ => rfl) 0
    { bareState with can_do_null_move := false } 3 0 (-10) (-5) (by decide) (by decide)
    (by decide) (fun _ _ _ h => absurd h (List.not_mem_nil _))).2.1 (by decide)
    (Or.inl rfl)

/-! ### Quiescence bounds -/

theorem quiesceLoop_board (E : Engine Board Move TT Killers)
    (hmake : ∀ b m, E.undo_move (E.make_move b m) = b)
    (rec : QSearch Board Move TT Killers)
    (hrec : ∀ s a b v t, rec s a b = some (v, t) → t.board = s.board) (beta : Int) :
    ∀ (ms : List Move) (alpha : Int) (s : SearchState Board Move TT Killers) (v : Int)
      (t : SearchState Board Move TT Killers),
      quiesceLoop E rec beta ms alpha s = some (v, t) → t.board = s.board := by
  intro ms
  induction ms with
  | nil =>
    intro alpha s v t h
    simp only [quiesceLoop, Option.some.injEq, Prod.mk.injEq] at h
    rw [← h.2]
  | cons m ms ih =>
    intro alpha s v t h
    simp only [quiesceLoop] at h
    split at h
    · have := ih _ _ _ _ h
      simp only [do_undo, do_make, hmake] at this
      exact this
    · split at h
      · exact absurd h (by simp)
      · rename_i w s2 hr
        have hb : (do_undo E s2).board = s.board := by
          have := hrec _ _ _ _ _ hr
          simp only [do_undo, do_make] at this ⊢
          rw [this, hmake]
        split at h
        · simp only [Option.some.injEq, Prod.mk.injEq] at h
          rw [← h.2]
          exact hb
        · exact (ih _ _ _ _ h).trans hb

theorem quiesce_board (E : Engine Board Move TT Killers)
    (hmake : ∀ b m, E.undo_move (E.make_move b m) = b) :
    ∀ (fuel : Nat) (s : SearchState Board Move TT Killers) (alpha beta v : Int)
      (t : SearchState Board Move TT Killers),
      quiesce E fuel s alpha beta = some (v, t) → t.board = s.board := by
  intro fuel
  induction fuel with
  | zero =>
    intro s alpha beta v t h
    simp [quiesce] at h
  | succ n ih =>
    intro s alpha beta v t h
    simp only [quiesce, quiesceBody] at h
    split at h
    · simp only [Option.some.injEq, Prod.mk.injEq] at h
      rw [← h.2]
    · split at h
      · simp only [Option.some.injEq, Prod.mk.injEq] at h
        rw [← h.2]
      · exact quiesceLoop_board E hmake _ ih beta _ _ _ _ _ h

/-- Whatever the recursive calls return, the capture loop returns a value
between its current alpha and beta. -/
theorem quiesceLoop_bounds (E : Engine Board Move TT Killers)
    (rec : QSearch Board Move TT Killers) (beta : Int) :
    ∀ (ms : List Move) (alpha : Int) (s : SearchState Board Move TT Killers) (v : Int)
      (t : SearchState Board Move TT Killers),
      quiesceLoop E rec beta ms alpha s = some (v, t) → alpha ≤ beta →
        alpha ≤ v ∧ v ≤ beta := by
  intro ms
  induction ms with
  | nil =>
    intro alpha s v t h hab
    simp only [quiesceLoop, Option.some.injEq, Prod.mk.injEq] at h
    rw [← h.1]
    exact ⟨le_refl _, hab⟩
  | cons m ms ih =>
    intro alpha s v t h hab
    simp only [quiesceLoop] at h
    split at h
    · exact ih _ _ _ _ h hab
    · split at h
      · exact absurd h (by simp)
      · rename_i w s2 hr
        split at h
        · simp only [Option.some.injEq, Prod.mk.injEq] at h
          rw [← h.1]
          exact ⟨hab, le_refl _⟩
        · rename_i hlt
          have hlt' : -w < beta := not_le.mp hlt
          have := ih _ _ _ _ h (max_le hab (le_of_lt hlt'))
          exact ⟨le_trans (le_max_left _ _) this.1, this.2⟩

theorem quiesceLoop_all_illegal (E : Engine Board Move TT Killers)
    (hmake : ∀ b m, E.undo_move (E.make_move b m) = b)
    (rec : QSearch Board Move TT Killers) (beta : Int) :
    ∀ (ms : List Move) (alpha : Int) (s : SearchState Board Move TT Killers),
      (∀ m ∈ ms, capture_leaves_check E (E.make_move s.board m) = true) →
      quiesceLoop E rec beta ms alpha s =
        some (alpha, { s with trace := s.trace ++ skipTrace ms }) := by
  intro ms
  induction ms with
  | nil =>
    intro alpha s _
    simp [quiesceLoop, skipTrace]
  | cons m ms ih =>
    intro alpha s h
    have hm := h m (List.mem_cons_self _ _)
    have hm' : capture_leaves_check E (do_make E s m).board = true := hm
    have hrest := ih alpha (do_undo E (do_make E s m)) (by
      intro m' hm'
      simp only [do_undo, do_make, hmake]
      exact h m' (List.mem_cons_of_mem _ hm'))
    simp only [quiesceLoop, hm', if_true, hrest]
    simp [do_undo, do_make, hmake, skipTrace]

/-- With enough fuel for the capture tree below the board, the capture loop
returns. -/
theorem quiesceLoop_total (E : Engine Board Move TT Killers)
    (hmake : ∀ b m, E.undo_move (E.make_move b m) = b)
    (rank : Board → Nat) (n : Nat)
    (ih : ∀ (s : SearchState Board Move TT Killers) (a b : Int), rank s.board < n →
      ∃ v t, quiesce E n s a b = some (v, t))
    (beta : Int) (b0 : Board) (hb0 : rank b0 ≤ n) :
    ∀ (ms : List Move),
      (∀ m ∈ ms, capture_leaves_check E (E.make_move b0 m) = false →
        rank (E.make_move b0 m) < rank b0) →
      ∀ (alpha : Int) (s : SearchState Board Move TT Killers), s.board = b0 →
        ∃ v t, quiesceLoop E (quiesce E n) beta ms alpha s = some (v, t) := by
  intro ms
  induction ms with
  | nil =>
    intro _ alpha s _
    exact ⟨alpha, s, by simp [quiesceLoop]⟩
  | cons m ms ihl =>
    intro hr alpha s hs
    have hr' : ∀ m' ∈ ms, capture_leaves_check E (E.make_move b0 m') = false →
        rank (E.make_move b0 m') < rank b0 :=
      fun m' hm' => hr m' (List.mem_cons_of_mem _ hm')
    simp only [quiesceLoop]
    cases hc : capture_leaves_check E (do_make E s m).board
    case true =>
      simp only [if_true]
      exact ihl hr' alpha _ (by simp only [do_undo, do_make, hmake, hs])
    case false =>
      simp only [Bool.false_eq_true, if_false]
      have hc' : capture_leaves_check E (E.make_move b0 m) = false := by
        simp only [do_make, hs] at hc
        exact hc
      have hlt : rank (do_make E s m).board < n := by
        have := hr m (List.mem_cons_self _ _) hc'
        simp only [do_make, hs]
        omega
      obtain ⟨w, s2, hq⟩ := ih (do_make E s m) (-beta) (-alpha) hlt
      have hb2 : (do_undo E s2).board = b0 := by
        have := quiesce_board E hmake n _ _ _ _ _ hq
        simp only [do_undo, do_make] at this ⊢
        rw [this, hmake, hs]
      simp only [hq]
      split
      · exact ⟨_, _, rfl⟩
      · exact ihl hr' _ _ hb2

theorem quiesce_total (E : Engine Board Move TT Killers)
    (hmake : ∀ b m, E.undo_move (E.make_move b m) = b)
    (rank : Board → Nat)
    (hrank : ∀ b t k, ∀ m ∈ E.order MoveType.kCaptures b t k (E.generate_capture_moves b),
      capture_leaves_check E (E.make_move b m) = false → rank (E.make_move b m) < rank b) :
    ∀ (fuel : Nat) (s : SearchState Board Move TT Killers) (alpha beta : Int),
      rank s.board < fuel → ∃ v t, quiesce E fuel s alpha beta = some (v, t) := by
  intro fuel
  induction fuel with
  | zero =>
    intro s alpha beta h
    exact absurd h (Nat.not_lt_zero _)
  | succ n ih =>
    intro s alpha beta h
    simp only [quiesce, quiesceBody]
    split
    · exact ⟨_, _, rfl⟩
    · split
      · exact ⟨_, _, rfl⟩
      · exact quiesceLoop_total E hmake rank n ih beta s.board (Nat.lt_succ_iff.mp h) _
          (hrank s.board s.transpo s.killers) _ s rfl

/-- C2: `quiesce` is fail-hard and dominated by stand-pat.  If `undo_move`
reverses `make_move` and the capture tree is finite (a rank on boards drops
with every legal capture the orderer delivers), then for every window
`alpha ≤ beta` a call with more fuel than the rank of the board returns a
value `v` with `clamp stand_pat alpha beta ≤ v ≤ beta`, in particular
`alpha ≤ v ≤ beta`, and `v = clamp stand_pat alpha beta` when every capture
leaves the mover's king in check. -/
theorem quiesce_fail_hard (E : Engine Board Move TT Killers)
    (hmake : ∀ b m, E.undo_move (E.make_move b m) = b)
    (rank : Board → Nat)
    (hrank : ∀ b t k, ∀ m ∈ E.order MoveType.kCaptures b t k (E.generate_capture_moves b),
      capture_leaves_check E (E.make_move b m) = false → rank (E.make_move b m) < rank b)
    (fuel : Nat) (s : SearchState Board Move TT Killers) (alpha beta : Int)
    (hfuel : rank s.board < fuel) (hab : alpha ≤ beta) :
    ∃ v t, quiesce E fuel s alpha beta = some (v, t) ∧
      clamp (E.evaluate s.board) alpha beta ≤ v ∧ v ≤ beta ∧ alpha ≤ v ∧
      ((∀ m ∈ E.order MoveType.kCaptures s.board s.transpo s.killers
          (E.generate_capture_moves s.board),
          capture_leaves_check E (E.make_move s.board m) = true) →
        v = clamp (E.evaluate s.board) alpha beta) := by
  obtain ⟨v, t, h⟩ := quiesce_total E hmake rank hrank fuel s alpha beta hfuel
  refine ⟨v, t, h, ?_⟩
  cases fuel with
  | zero => simp [quiesce] at h
  | succ n =>
    have hq : (900 : Int) = kQueenValue := rfl
    simp only [quiesce, quiesceBody] at h
    split at h
    · rename_i h1
      simp only [Option.some.injEq, Prod.mk.injEq] at h
      rw [← h.1]
      simp only [clamp]
      refine ⟨?_, le_refl _, hab, fun _ => ?_⟩ <;> omega
    · rename_i h1
      split at h
      · rename_i h2
        simp only [Option.some.injEq, Prod.mk.injEq] at h
        rw [← h.1]
        simp only [clamp]
        rw [← hq] at h2
        refine ⟨?_, hab, le_refl _, fun _ => ?_⟩ <;> omega
      · rename_i h2
        have h0 : (if alpha < E.evaluate s.board then E.evaluate s.board else alpha) ≤ beta := by
          split <;> omega
        have hb := quiesceLoop_bounds E _ beta _ _ _ _ _ h h0
        refine ⟨?_, hb.2, ?_, ?_⟩
        · simp only [clamp]
          split at hb <;> omega
        · split at hb <;> omega
        · intro hall
          rw [quiesceLoop_all_illegal E hmake _ beta _ _ s hall] at h
          simp only [Option.some.injEq, Prod.mk.injEq] at h
          rw [← h.1]
          simp only [clamp]
          split <;> omega

/-- Witness for C2: on the three-move tree, at the board `[1, 1]` (static
evaluation 1, with one legal capture) and window (-50, 50), `quiesce` returns
a value between the clamped stand-pat and beta. -/
theorem quiesce_fail_hard_witness :
    ∃ v t, quiesce treeEngine 3 { bareState with board := [1, 1] } (-50) 50 = some (v, t) ∧
      clamp 1 (-50) 50 ≤ v ∧ v ≤ 50 := by
  obtain ⟨v, t, h, h1, h2, _⟩ := quiesce_fail_hard treeEngine (fun _ _ => rfl) treeRank
    (by
      intro b t k m hm _
      simp only [treeEngine, bareEngine] at hm ⊢
      split at hm
      · simp only [treeRank, List.length_cons]
        omega
      · exact absurd hm (List.not_mem_nil _))
    3 { bareState with board := [1, 1] } (-50) 50 (by decide) (by decide)
  exact ⟨v, t, h, h1, h2⟩

/-! ### Scores stay in the range of `int` -/

/-- The capture loop returns a value between the smaller and the larger of
its current alpha and beta, whatever the recursive calls return. -/
theorem quiesceLoop_between (E : Engine Board Move TT Killers)
    (rec : QSearch Board Move TT Killers) (beta : Int) :
    ∀ (ms : List Move) (alpha : Int) (s : SearchState Board Move TT Killers) (v : Int)
      (t : SearchState Board Move TT Killers),
      quiesceLoop E rec beta ms alpha s = some (v, t) →
        min alpha beta ≤ v ∧ v ≤ max alpha beta := by
  intro ms
  induction ms with
  | nil =>
    intro alpha s v t h
    simp only [quiesceLoop, Option.some.injEq, Prod.mk.injEq] at h
    rw [← h.1]
    exact ⟨min_le_left _ _, le_max_left _ _⟩
  | cons m ms ih =>
    intro alpha s v t h
    simp only [quiesceLoop] at h
    split at h
    · exact ih _ _ _ _ h
    · split at h
      · exact absurd h (by simp)
      · rename_i w s2 hr
        split at h
        · simp only [Option.some.injEq, Prod.mk.injEq] at h
          rw [← h.1]
          exact ⟨min_le_right _ _, le_max_right _ _⟩
        · rename_i hlt
          have := ih _ _ _ _ h
          omega

theorem quiesce_between (E : Engine Board Move TT Killers) (fuel : Nat)
    (s : SearchState Board Move TT Killers) (alpha beta v : Int)
    (t : SearchState Board Move TT Killers)
    (h : quiesce E fuel s alpha beta = some (v, t)) :
    min alpha beta ≤ v ∧ v ≤ max alpha beta := by
  cases fuel with
  | zero => simp [quiesce] at h
  | succ n =>
    simp only [quiesce, quiesceBody] at h
    split at h
    · simp only [Option.some.injEq, Prod.mk.injEq] at h
      rw [← h.1]
      exact ⟨min_le_right _ _, le_max_right _ _⟩
    · split at h
      · simp only [Option.some.injEq, Prod.mk.injEq] at h
        rw [← h.1]
        exact ⟨min_le_left _ _, le_max_left _ _⟩
      · have := quiesceLoop_between E _ beta _ _ _ _ _ h
        split at this <;> omega

/-- The fields of the state `quiesce` never writes: everything but board and
trace. -/
theorem quiesceLoop_keeps (E : Engine Board Move TT Killers)
    (rec : QSearch Board Move TT Killers)
    (hrec : ∀ s a b v t, rec s a b = some (v, t) →
      t = { s with board := t.board, trace := t.trace }) (beta : Int) :
    ∀ (ms : List Move) (alpha : Int) (s : SearchState Board Move TT Killers) (v : Int)
      (t : SearchState Board Move TT Killers),
      quiesceLoop E rec beta ms alpha s = some (v, t) →
        t = { s with board := t.board, trace := t.trace } := by
  intro ms
  induction ms with
  | nil =>
    intro alpha s v t h
    simp only [quiesceLoop, Option.some.injEq, Prod.mk.injEq] at h
    rw [← h.2]
  | cons m ms ih =>
    intro alpha s v t h
    simp only [quiesceLoop] at h
    split at h
    · have := ih _ _ _ _ h
      rw [this]
      simp [do_undo, do_make]
    · split at h
      · exact absurd h (by simp)
      · rename_i w s2 hr
        have h2 := hrec _ _ _ _ _ hr
        split at h
        · simp only [Option.some.injEq, Prod.mk.injEq] at h
          rw [← h.2, h2]
          simp [do_undo, do_make]
        · have := ih _ _ _ _ h
          rw [this, h2]
          simp [do_undo, do_make]

theorem quiesce_keeps (E : Engine Board Move TT Killers) :
    ∀ (fuel : Nat) (s : SearchState Board Move TT Killers) (alpha beta v : Int)
      (t : SearchState Board Move TT Killers),
      quiesce E fuel s alpha beta = some (v, t) →
        t = { s with board := t.board, trace := t.trace } := by
  intro fuel
  induction fuel with
  | zero =>
    intro s alpha beta v t h
    simp [quiesce] at h
  | succ n ih =>
    intro s alpha beta v t h
    simp only [quiesce, quiesceBody] at h
    split at h
    · simp only [Option.some.injEq, Prod.mk.injEq] at h
      rw [← h.2]
    · split at h
      · simp only [Option.some.injEq, Prod.mk.injEq] at h
        rw [← h.2]
      · exact quiesceLoop_keeps E _ ih beta _ _ _ _ _ h

theorem IsScore.neg {x : Int} (h : IsScore x) : IsScore (-x) := by
  simp only [IsScore, INT_MIN] at h ⊢
  omega

theorem rootBest_transpo (s : SearchState Board Move TT Killers) (ply : Int) (m : Move)
    (v : Int) : (rootBest s ply m v).transpo = s.transpo := by
  unfold rootBest
  split <;> rfl

theorem cutoffKiller_transpo (E : Engine Board Move TT Killers)
    (s : SearchState Board Move TT Killers) (m : Move) (d : Int) :
    (cutoffKiller E s m d).transpo = s.transpo := by
  unfold cutoffKiller
  simp only
  split <;> rfl

theorem stepTail_range (E : Engine Board Move TT Killers) (Inv : TT → Prop)
    (depth beta : Int) (m : Move) (alpha best_eval : Int) (best_move : Move) (tried : Nat)
    (s : SearchState Board Move TT Killers) (a0 b0 : Int) (k0 : Nat)
    (ha : IsScore alpha) (hs : Inv s.transpo) (hb : IsScore best_eval) :
    StepPost Inv a0 b0 k0 (stepTail E depth beta m alpha best_eval best_move (tried + 1) s) := by
  have hmax : IsScore (max alpha best_eval) := by
    simp only [IsScore, INT_MIN] at ha hb ⊢
    omega
  unfold stepTail
  simp only
  split
  · simp only [StepPost, LoopInv]
    exact ⟨⟨hmax, by rw [cutoffKiller_transpo]; exact hs, Or.inr ⟨Nat.succ_pos _, hb⟩⟩,
      Nat.succ_pos _⟩
  · simp only [StepPost, LoopInv]
    exact ⟨⟨hmax, hs, Or.inr ⟨Nat.succ_pos _, hb⟩⟩, Nat.succ_pos _⟩

theorem negamaxStep_range (E : Engine Board Move TT Killers) (Inv : TT → Prop)
    (rec : NSearch Board Move TT Killers) (depth ply beta : Int) (hbeta : IsScore beta)
    (hrec : ∀ s d a b r, rec s d (ply + 1) a b = some r → Inv s.transpo → IsScore a →
      IsScore b → IsScore r.value ∧ Inv r.state.transpo)
    (m : Move) (alpha best_eval : Int) (best_move : Move) (tried : Nat)
    (s : SearchState Board Move TT Killers) (out : StepOut Board Move TT Killers)
    (hinv : LoopInv Inv alpha best_eval tried s)
    (h : negamaxStep E rec depth ply beta m alpha best_eval best_move tried s = some out) :
    StepPost Inv alpha best_eval tried out := by
  obtain ⟨ha, hs, hbe⟩ := hinv
  unfold negamaxStep at h
  simp only at h
  split at h
  · simp only [Option.some.injEq] at h
    rw [← h]
    exact ⟨ha, hs, hbe⟩
  · split at h
    · exact absurd h (by simp)
    · rename_i r hr
      obtain ⟨hv, hi⟩ := hrec _ _ _ _ _ hr hs hbeta.neg ha.neg
      have hx : Inv (should_exit_search E (do_undo E r.state)).2.transpo := by
        rw [(should_exit_search_keeps E _).2.1]
        exact hi
      split at h
      · simp only [Option.some.injEq] at h
        rw [← h]
        exact hx
      · split at h
        · simp only [Option.some.injEq] at h
          rw [← h]
          exact stepTail_range E Inv _ _ _ _ _ _ _ _ _ _ _ ha
            (by rw [rootBest_transpo]; exact hx) hv.neg
        · rename_i hle
          simp only [Option.some.injEq] at h
          rw [← h]
          have hb' : IsScore best_eval := by
            rcases hbe with ⟨_, h0⟩ | ⟨_, h1⟩
            · have := hv.neg
              simp only [IsScore, INT_MIN] at this
              rw [h0] at hle
              simp only [INT_MIN] at hle
              omega
            · exact h1
          exact stepTail_range E Inv _ _ _ _ _ _ _ _ _ _ _ ha hx hb'

theorem negamaxLoop_range (E : Engine Board Move TT Killers) (Inv : TT → Prop)
    (rec : NSearch Board Move TT Killers) (depth ply beta : Int) (hbeta : IsScore beta)
    (hrec : ∀ s d a b r, rec s d (ply + 1) a b = some r → Inv s.transpo → IsScore a →
      IsScore b → IsScore r.value ∧ Inv r.state.transpo) :
    ∀ (ms : List Move) (alpha best_eval : Int) (best_move : Move) (tried : Nat)
      (s : SearchState Board Move TT Killers) (out : LoopOut Board Move TT Killers),
      LoopInv Inv alpha best_eval tried s →
      negamaxLoop E rec depth ply beta ms alpha best_eval best_move tried s = some out →
        LoopPost Inv out := by
  intro ms
  induction ms with
  | nil =>
    intro alpha best_eval best_move tried s out hinv h
    simp only [negamaxLoop, Option.some.injEq] at h
    rw [← h]
    exact hinv
  | cons m ms ih =>
    intro alpha best_eval best_move tried s out hinv h
    simp only [negamaxLoop] at h
    split at h
    · exact absurd h (by simp)
    · rename_i s1 hs
      have := negamaxStep_range E Inv rec depth ply beta hbeta hrec _ _ _ _ _ _ _ hinv hs
      exact ih _ _ _ _ _ _ this h
    · rename_i s1 hs
      have := negamaxStep_range E Inv rec depth ply beta hbeta hrec _ _ _ _ _ _ _ hinv hs
      simp only [Option.some.injEq] at h
      rw [← h]
      exact this
    · rename_i a1 b1 m1 t1 s1 hs
      have := negamaxStep_range E Inv rec depth ply beta hbeta hrec _ _ _ _ _ _ _ hinv hs
      simp only [Option.some.injEq] at h
      rw [← h]
      exact this.1
    · rename_i a1 b1 m1 t1 s1 hs
      have := negamaxStep_range E Inv rec depth ply beta hbeta hrec _ _ _ _ _ _ _ hinv hs
      exact ih _ _ _ _ _ _ this.1 h

theorem negamaxMoves_range (E : Engine Board Move TT Killers) (Inv : TT → Prop)
    (hT : TableInt E Inv) (rec : NSearch Board Move TT Killers)
    (in_check : Bool) (original_alpha : Int) (s : SearchState Board Move TT Killers)
    (depth ply alpha beta : Int) (r : Result Board Move TT Killers)
    (hrec : ∀ s d a b r, rec s d (ply + 1) a b = some r → Inv s.transpo → IsScore a →
      IsScore b → IsScore r.value ∧ Inv r.state.transpo)
    (hs : Inv s.transpo) (ha : IsScore alpha) (hbeta : IsScore beta)
    (hp0 : 0 ≤ ply) (hp1 : ply ≤ 2147483647)
    (h : negamaxMoves E rec in_check original_alpha s depth ply alpha beta = some r) :
    IsScore r.value ∧ Inv r.state.transpo := by
  unfold negamaxMoves at h
  split at h
  · exact absurd h (by simp)
  · rename_i s1 hl
    have := negamaxLoop_range E Inv rec depth ply beta hbeta hrec _ _ _ _ _ _ _
      ⟨ha, hs, Or.inl ⟨rfl, rfl⟩⟩ hl
    simp only [Option.some.injEq] at h
    rw [← h]
    exact ⟨by simp [IsScore, INT_MIN], this⟩
  · rename_i a1 b1 m1 t1 s1 hl
    have := negamaxLoop_range E Inv rec depth ply beta hbeta hrec _ _ _ _ _ _ _
      ⟨ha, hs, Or.inl ⟨rfl, rfl⟩⟩ hl
    obtain ⟨_, hs1, hb1⟩ := this
    split at h
    · simp only [Option.some.injEq] at h
      rw [← h]
      refine ⟨?_, hs1⟩
      simp only [IsScore, INT_MIN, kMateScore, kDrawScore]
      split <;> omega
    · rename_i hne
      simp only [Option.some.injEq] at h
      rw [← h]
      have hb : IsScore b1 := by
        rcases hb1 with ⟨h0, _⟩ | ⟨_, h1⟩
        · exact absurd h0 hne
        · exact h1
      exact ⟨hb, hT.save _ _ _ hs1 hb⟩

theorem negamaxNull_range (E : Engine Board Move TT Killers) (Inv : TT → Prop)
    (hT : TableInt E Inv) (rec : NSearch Board Move TT Killers)
    (in_check : Bool) (original_alpha : Int) (s : SearchState Board Move TT Killers)
    (depth ply alpha beta : Int) (r : Result Board Move TT Killers)
    (hrec : ∀ s d a b r, rec s d (ply + 1) a b = some r → Inv s.transpo → IsScore a →
      IsScore b → IsScore r.value ∧ Inv r.state.transpo)
    (hs : Inv s.transpo) (ha : IsScore alpha) (hbeta : IsScore beta)
    (hp0 : 0 ≤ ply) (hp1 : ply ≤ 2147483647)
    (h : negamaxNull E rec in_check original_alpha s depth ply alpha beta = some r) :
    IsScore r.value ∧ Inv r.state.transpo := by
  unfold negamaxNull at h
  split at h
  · simp only at h
    split at h
    · exact absurd h (by simp)
    · rename_i rc hr
      have hs0 : Inv (do_make_null E (setNullFlag s false)).transpo := hs
      obtain ⟨_, hi⟩ := hrec _ _ _ _ _ hr hs0 hbeta.neg ha.neg
      have hx : Inv (should_exit_search E (setNullFlag (do_undo E rc.state) true)).2.transpo := by
        rw [(should_exit_search_keeps E _).2.1]
        exact hi
      split at h
      · simp only [Option.some.injEq] at h
        rw [← h]
        exact ⟨by simp [IsScore, INT_MIN], hx⟩
      · split at h
        · simp only [Option.some.injEq] at h
          rw [← h]
          exact ⟨hbeta, hx⟩
        · exact negamaxMoves_range E Inv hT rec _ _ _ _ _ _ _ _ hrec hx ha hbeta hp0 hp1 h
  · exact negamaxMoves_range E Inv hT rec _ _ _ _ _ _ _ _ hrec hs ha hbeta hp0 hp1 h

theorem negamaxSearch_range (E : Engine Board Move TT Killers) (Inv : TT → Prop)
    (hT : TableInt E Inv) (q : QSearch Board Move TT Killers)
    (rec : NSearch Board Move TT Killers)
    (original_alpha : Int) (s : SearchState Board Move TT Killers)
    (depth ply alpha beta : Int) (r : Result Board Move TT Killers)
    (hq : ∀ s a b v t, q s a b = some (v, t) →
      (min a b ≤ v ∧ v ≤ max a b) ∧ t.transpo = s.transpo)
    (hrec : ∀ s d a b r, rec s d (ply + 1) a b = some r → Inv s.transpo → IsScore a →
      IsScore b → IsScore r.value ∧ Inv r.state.transpo)
    (hs : Inv s.transpo) (ha : IsScore alpha) (hbeta : IsScore beta)
    (hp0 : 0 ≤ ply) (hp1 : ply ≤ 2147483647)
    (h : negamaxSearch E q rec original_alpha s depth ply alpha beta = some r) :
    IsScore r.value ∧ Inv r.state.transpo := by
  have hx : Inv (should_exit_search E s).2.transpo := by
    rw [(should_exit_search_keeps E _).2.1]
    exact hs
  unfold negamaxSearch at h
  simp only at h
  split at h
  · simp only [Option.some.injEq] at h
    rw [← h]
    exact ⟨by simp [IsScore, INT_MIN], hx⟩
  · split at h
    · split at h
      · exact absurd h (by simp)
      · rename_i v s1 hv
        obtain ⟨hbd, htr⟩ := hq _ _ _ _ _ hv
        simp only [Option.some.injEq] at h
        rw [← h]
        refine ⟨?_, ?_⟩
        · simp only [IsScore, INT_MIN] at ha hbeta ⊢
          omega
        · show Inv s1.transpo
          rw [htr]
          exact hx
    · exact negamaxNull_range E Inv hT rec _ _ _ _ _ _ _ _ hrec hx ha hbeta hp0 hp1 h

theorem negamaxBody_range (E : Engine Board Move TT Killers) (Inv : TT → Prop)
    (hT : TableInt E Inv) (q : QSearch Board Move TT Killers)
    (rec : NSearch Board Move TT Killers)
    (s : SearchState Board Move TT Killers)
    (depth ply alpha beta : Int) (r : Result Board Move TT Killers)
    (hq : ∀ s a b v t, q s a b = some (v, t) →
      (min a b ≤ v ∧ v ≤ max a b) ∧ t.transpo = s.transpo)
    (hrec : ∀ s d a b r, rec s d (ply + 1) a b = some r → Inv s.transpo → IsScore a →
      IsScore b → IsScore r.value ∧ Inv r.state.transpo)
    (hs : Inv s.transpo) (ha : IsScore alpha) (hbeta : IsScore beta)
    (hp0 : 0 ≤ ply) (hp1 : ply ≤ 2147483647)
    (h : negamaxBody E q rec s depth ply alpha beta = some r) :
    IsScore r.value ∧ Inv r.state.transpo := by
  have hret : ∀ e : Entry Move, Inv (ttReturnState s ply e).transpo := by
    intro e
    unfold ttReturnState
    split <;> exact hs
  unfold negamaxBody at h
  simp only at h
  split at h
  · rename_i hc
    have he : IsScore (probeSlot E s).evaluation := hT.probe _ _ hs hc.1
    have hmx : IsScore (max alpha (probeSlot E s).evaluation) := by
      simp only [IsScore, INT_MIN] at ha he ⊢
      omega
    have hmn : IsScore (min beta (probeSlot E s).evaluation) := by
      simp only [IsScore, INT_MIN] at hbeta he ⊢
      omega
    split at h
    · simp only [Option.some.injEq] at h
      rw [← h]
      exact ⟨he, hret _⟩
    · split at h
      · simp only [Option.some.injEq] at h
        rw [← h]
        exact ⟨he, hret _⟩
      · exact negamaxSearch_range E Inv hT q rec _ _ _ _ _ _ _ hq hrec hs hmx hbeta hp0 hp1 h
    · split at h
      · simp only [Option.some.injEq] at h
        rw [← h]
        exact ⟨he, hret _⟩
      · exact negamaxSearch_range E Inv hT q rec _ _ _ _ _ _ _ hq hrec hs ha hmn hp0 hp1 h
  · exact negamaxSearch_range E Inv hT q rec _ _ _ _ _ _ _ hq hrec hs ha hbeta hp0 hp1 h

theorem quiesce_facts (E : Engine Board Move TT Killers) (fuel : Nat)
    (s : SearchState Board Move TT Killers) (a b v : Int)
    (t : SearchState Board Move TT Killers) (h : quiesce E fuel s a b = some (v, t)) :
    (min a b ≤ v ∧ v ≤ max a b) ∧ t.transpo = s.transpo := by
  refine ⟨quiesce_between E fuel s a b v t h, ?_⟩
  have hk := quiesce_keeps E fuel s a b v t h
  rw [hk]

/-- Scores stay in the range of `int`: with window and table in range and
plies that stay below `INT_MAX`, every value `negamax` returns is in range,
and so is the table it leaves. -/
theorem negamax_range (E : Engine Board Move TT Killers) (Inv : TT → Prop)
    (hT : TableInt E Inv) :
    ∀ (fuel : Nat) (s : SearchState Board Move TT Killers) (depth ply alpha beta : Int)
      (r : Result Board Move TT Killers),
      negamax E fuel s depth ply alpha beta = some r → Inv s.transpo → IsScore alpha →
      IsScore beta → 0 ≤ ply → ply + fuel ≤ 2147483647 →
        IsScore r.value ∧ Inv r.state.transpo := by
  intro fuel
  induction fuel with
  | zero =>
    intro s depth ply alpha beta r h
    simp [negamax] at h
  | succ n ih =>
    intro s depth ply alpha beta r h hs ha hb hp0 hp1
    have hrec : ∀ s d a b r, negamax E n s d (ply + 1) a b = some r → Inv s.transpo →
        IsScore a → IsScore b → IsScore r.value ∧ Inv r.state.transpo := by
      intro s d a b r h1 h2 h3 h4
      refine ih s d (ply + 1) a b r h1 h2 h3 h4 (by omega) ?_
      push_cast at hp1 ⊢
      omega
    refine negamaxBody_range E Inv hT (quiesce E n) (negamax E n) s depth ply alpha beta r
      (quiesce_facts E n) hrec hs ha hb hp0 ?_ h
    push_cast at hp1
    omega

/-! ### What the calls below the root leave of the iteration-best move -/

theorem stepTail_best_move (E : Engine Board Move TT Killers) (depth beta : Int) (m : Move)
    (alpha best_eval : Int) (best_move : Move) (tried : Nat)
    (s : SearchState Board Move TT Killers) :
    (stepTail E depth beta m alpha best_eval best_move tried s).state.best_move_this_iteration =
        s.best_move_this_iteration := by
  unfold stepTail
  simp only
  split
  · simp only [StepOut.state, cutoffKiller]
    split <;> rfl
  · rfl

theorem negamaxStep_keeps_best (E : Engine Board Move TT Killers)
    (rec : NSearch Board Move TT Killers)
    (hrec : ∀ s d p a b r, 1 ≤ p → rec s d p a b = some r →
      r.state.best_move_this_iteration = s.best_move_this_iteration)
    (depth ply beta : Int) (hp : 1 ≤ ply) (m : Move) (alpha best_eval : Int)
    (best_move : Move) (tried : Nat)
    (s : SearchState Board Move TT Killers) (out : StepOut Board Move TT Killers)
    (h : negamaxStep E rec depth ply beta m alpha best_eval best_move tried s = some out) :
    out.state.best_move_this_iteration = s.best_move_this_iteration := by
  unfold negamaxStep at h
  simp only at h
  split at h
  · simp only [Option.some.injEq] at h
    rw [← h]
    rfl
  · split at h
    · exact absurd h (by simp)
    · rename_i r hr
      have h1 : (should_exit_search E (do_undo E r.state)).2.best_move_this_iteration =
          s.best_move_this_iteration := by
        rw [(should_exit_search_keeps E _).2.2.2.1]
        exact hrec (do_make E s m) _ _ _ _ _ (by omega) hr
      have hp0 : ¬ ply = 0 := by omega
      split at h
      · simp only [Option.some.injEq] at h
        rw [← h]
        exact h1
      · split at h
        · simp only [Option.some.injEq] at h
          rw [← h, stepTail_best_move]
          simp only [rootBest, hp0, if_false]
          exact h1
        · simp only [Option.some.injEq] at h
          rw [← h, stepTail_best_move]
          exact h1

theorem negamaxLoop_keeps_best (E : Engine Board Move TT Killers)
    (rec : NSearch Board Move TT Killers)
    (hrec : ∀ s d p a b r, 1 ≤ p → rec s d p a b = some r →
      r.state.best_move_this_iteration = s.best_move_this_iteration)
    (depth ply beta : Int) (hp : 1 ≤ ply) :
    ∀ (ms : List Move) (alpha best_eval : Int) (best_move : Move) (tried : Nat)
      (s : SearchState Board Move TT Killers) (out : LoopOut Board Move TT Killers),
      negamaxLoop E rec depth ply beta ms alpha best_eval best_move tried s = some out →
        out.state.best_move_this_iteration = s.best_move_this_iteration := by
  intro ms
  induction ms with
  | nil =>
    intro alpha best_eval best_move tried s out h
    simp only [negamaxLoop, Option.some.injEq] at h
    rw [← h]
    rfl
  | cons m ms ih =>
    intro alpha best_eval best_move tried s out h
    simp only [negamaxLoop] at h
    split at h
    · exact absurd h (by simp)
    · rename_i s1 hs
      have := negamaxStep_keeps_best E rec hrec _ _ _ hp _ _ _ _ _ _ _ hs
      exact (ih _ _ _ _ _ _ h).trans this
    · rename_i s1 hs
      simp only [Option.some.injEq] at h
      rw [← h]
      exact negamaxStep_keeps_best E rec hrec _ _ _ hp _ _ _ _ _ _ _ hs
    · rename_i a1 b1 m1 t1 s1 hs
      simp only [Option.some.injEq] at h
      rw [← h]
      exact negamaxStep_keeps_best E rec hrec _ _ _ hp _ _ _ _ _ _ _ hs
    · rename_i a1 b1 m1 t1 s1 hs
      have := negamaxStep_keeps_best E rec hrec _ _ _ hp _ _ _ _ _ _ _ hs
      exact (ih _ _ _ _ _ _ h).trans this

theorem negamaxMoves_keeps_best (E : Engine Board Move TT Killers)
    (rec : NSearch Board Move TT Killers)
    (hrec : ∀ s d p a b r, 1 ≤ p → rec s d p a b = some r →
      r.state.best_move_this_iteration = s.best_move_this_iteration)
    (in_check : Bool) (original_alpha : Int) (s : SearchState Board Move TT Killers)
    (depth ply alpha beta : Int) (hp : 1 ≤ ply) (r : Result Board Move TT Killers)
    (h : negamaxMoves E rec in_check original_alpha s depth ply alpha beta = some r) :
    r.state.best_move_this_iteration = s.best_move_this_iteration := by
  unfold negamaxMoves at h
  split at h
  · exact absurd h (by simp)
  · rename_i s1 hl
    simp only [Option.some.injEq] at h
    rw [← h]
    exact negamaxLoop_keeps_best E rec hrec _ _ _ hp _ _ _ _ _ _ _ hl
  · rename_i a1 b1 m1 t1 s1 hl
    have hk := negamaxLoop_keeps_best E rec hrec _ _ _ hp _ _ _ _ _ _ _ hl
    split at h
    · simp only [Option.some.injEq] at h
      rw [← h]
      exact hk
    · simp only [Option.some.injEq] at h
      rw [← h]
      exact hk

theorem negamaxNull_keeps_best (E : Engine Board Move TT Killers)
    (rec : NSearch Board Move TT Killers)
    (hrec : ∀ s d p a b r, 1 ≤ p → rec s d p a b = some r →
      r.state.best_move_this_iteration = s.best_move_this_iteration)
    (in_check : Bool) (original_alpha : Int) (s : SearchState Board Move TT Killers)
    (depth ply alpha beta : Int) (hp : 0 ≤ ply) (r : Result Board Move TT Killers)
    (hm : ∀ (u : SearchState Board Move TT Killers) (r : Result Board Move TT Killers),
      negamaxMoves E rec in_check original_alpha u depth ply alpha beta = some r →
      u.best_move_this_iteration = s.best_move_this_iteration →
        r.state.best_move_this_iteration = s.best_move_this_iteration)
    (h : negamaxNull E rec in_check original_alpha s depth ply alpha beta = some r) :
    r.state.best_move_this_iteration = s.best_move_this_iteration := by
  unfold negamaxNull at h
  split at h
  · simp only at h
    split at h
    · exact absurd h (by simp)
    · rename_i c hr
      have h1 : (should_exit_search E
          (setNullFlag (do_undo E c.state) true)).2.best_move_this_iteration =
            s.best_move_this_iteration := by
        rw [(should_exit_search_keeps E _).2.2.2.1]
        exact hrec (do_make_null E (setNullFlag s false)) _ _ _ _ _ (by omega) hr
      split at h
      · simp only [Option.some.injEq] at h
        rw [← h]
        exact h1
      · split at h
        · simp only [Option.some.injEq] at h
          rw [← h]
          exact h1
        · exact hm _ _ h h1
  · exact hm _ _ h rfl

theorem negamaxSearch_keeps_best (E : Engine Board Move TT Killers)
    (q : QSearch Board Move TT Killers) (rec : NSearch Board Move TT Killers)
    (hq : ∀ s a b v t, q s a b = some (v, t) →
      t.best_move_this_iteration = s.best_move_this_iteration)
    (hrec : ∀ s d p a b r, 1 ≤ p → rec s d p a b = some r →
      r.state.best_move_this_iteration = s.best_move_this_iteration)
    (original_alpha : Int) (s : SearchState Board Move TT Killers)
    (depth ply alpha beta : Int) (hp : 1 ≤ ply) (r : Result Board Move TT Killers)
    (h : negamaxSearch E q rec original_alpha s depth ply alpha beta = some r) :
    r.state.best_move_this_iteration = s.best_move_this_iteration := by
  unfold negamaxSearch at h
  simp only at h
  have hx := (should_exit_search_keeps E s).2.2.2.1
  split at h
  · simp only [Option.some.injEq] at h
    rw [← h]
    exact hx
  · split at h
    · split at h
      · exact absurd h (by simp)
      · rename_i v s1 hq1
        simp only [Option.some.injEq] at h
        rw [← h]
        exact (hq _ _ _ _ _ hq1).trans hx
    · refine (negamaxNull_keeps_best E rec hrec _ _ _ _ _ _ _ (by omega) r ?_ h).trans hx
      intro u r1 h1 hu
      exact (negamaxMoves_keeps_best E rec hrec _ _ _ _ _ _ _ hp _ h1).trans hu

theorem negamaxBody_keeps_best (E : Engine Board Move TT Killers)
    (q : QSearch Board Move TT Killers) (rec : NSearch Board Move TT Killers)
    (hq : ∀ s a b v t, q s a b = some (v, t) →
      t.best_move_this_iteration = s.best_move_this_iteration)
    (hrec : ∀ s d p a b r, 1 ≤ p → rec s d p a b = some r →
      r.state.best_move_this_iteration = s.best_move_this_iteration)
    (s : SearchState Board Move TT Killers)
    (depth ply alpha beta : Int) (hp : 1 ≤ ply) (r : Result Board Move TT Killers)
    (h : negamaxBody E q rec s depth ply alpha beta = some r) :
    r.state.best_move_this_iteration = s.best_move_this_iteration := by
  have hp0 : ¬ ply = 0 := by omega
  have ht : ∀ e, (ttReturnState s ply e).best_move_this_iteration =
      s.best_move_this_iteration := by
    intro e
    simp only [ttReturnState, hp0, if_false]
  unfold negamaxBody at h
  simp only at h
  split at h
  · split at h
    · simp only [Option.some.injEq] at h
      rw [← h]
      exact ht _
    · split at h
      · simp only [Option.some.injEq] at h
        rw [← h]
        exact ht _
      · exact negamaxSearch_keeps_best E q rec hq hrec _ _ _ _ _ _ hp _ h
    · split at h
      · simp only [Option.some.injEq] at h
        rw [← h]
        exact ht _
      · exact negamaxSearch_keeps_best E q rec hq hrec _ _ _ _ _ _ hp _ h
  · exact negamaxSearch_keeps_best E q rec hq hrec _ _ _ _ _ _ hp _ h

theorem negamax_keeps_best (E : Engine Board Move TT Killers) :
    ∀ (fuel : Nat) (s : SearchState Board Move TT Killers) (depth ply alpha beta : Int)
      (r : Result Board Move TT Killers), 1 ≤ ply →
      negamax E fuel s depth ply alpha beta = some r →
        r.state.best_move_this_iteration = s.best_move_this_iteration := by
  intro fuel
  induction fuel with
  | zero =>
    intro s depth ply alpha beta r _ h
    exact absurd h (by simp [negamax])
  | succ n ih =>
    intro s depth ply alpha beta r hp h
    refine negamaxBody_keeps_best E (quiesce E n) (negamax E n) ?_ ?_ s depth ply alpha beta
      hp r h
    · intro s a b v t hq
      rw [quiesce_keeps E n s a b v t hq]
    · intro s d p a b r hp h
      exact ih s d p a b r hp h

/-! ### The stored entry -/

theorem negamaxMoves_stored (E : Engine Board Move TT Killers)
    (rec : NSearch Board Move TT Killers)
    (in_check : Bool) (original_alpha : Int) (s : SearchState Board Move TT Killers)
    (depth ply alpha beta : Int) (r : Result Board Move TT Killers)
    (h : negamaxMoves E rec in_check original_alpha s depth ply alpha beta = some r)
    (hp : r.path = Exit.stored) :
    ∃ a be bm k t,
      negamaxLoop E rec depth ply beta (orderedMoves E s) alpha INT_MIN E.no_move 0 s =
        some (LoopOut.finished a be bm k t) ∧ k ≠ 0 ∧
      r = ⟨be, Exit.stored,
        do_save E t (storedEntry E t depth original_alpha beta be bm) ply⟩ := by
  unfold negamaxMoves at h
  split at h
  · exact absurd h (by simp)
  · simp only [Option.some.injEq] at h
    rw [← h] at hp
    exact absurd hp (by simp)
  · rename_i a be bm k t hl
    split at h
    · simp only [Option.some.injEq] at h
      rw [← h] at hp
      exact absurd hp (by simp)
    · rename_i hk
      simp only [Option.some.injEq] at h
      exact ⟨a, be, bm, k, t, hl, hk, h.symm⟩

theorem boundFlag_cases (original_alpha beta v : Int) :
    (v ≤ original_alpha → boundFlag original_alpha beta v = Flag.kUpperBound) ∧
    (original_alpha < v → beta ≤ v → boundFlag original_alpha beta v = Flag.kLowerBound) ∧
    (original_alpha < v → v < beta → boundFlag original_alpha beta v = Flag.kExact) := by
  unfold boundFlag
  refine ⟨fun h => ?_, fun h1 h2 => ?_, fun h1 h2 => ?_⟩
  · simp [h]
  · have h1' : ¬ v ≤ original_alpha := not_le.mpr h1
    have h2' : v ≥ beta := h2
    simp [h1', h2']
  · have h1' : ¬ v ≤ original_alpha := not_le.mpr h1
    have h2' : ¬ v ≥ beta := not_le.mpr h2
    simp [h1', h2']

theorem loopBefore_append (E : Engine Board Move TT Killers)
    (rec : NSearch Board Move TT Killers) (depth ply beta : Int) :
    ∀ (xs ys : List Move) (p : LoopPoint Board Move TT Killers),
      loopBefore E rec depth ply beta (xs ++ ys) p =
        (loopBefore E rec depth ply beta xs p).bind (loopBefore E rec depth ply beta ys) := by
  intro xs
  induction xs with
  | nil =>
    intro ys p
    rfl
  | cons x xs ih =>
    intro ys p
    simp only [List.cons_append, loopBefore]
    split
    · exact ih _ _
    · exact ih _ _
    · rfl

theorem loopBefore_none_take (E : Engine Board Move TT Killers)
    (rec : NSearch Board Move TT Killers) (depth ply beta : Int)
    (all : List Move) (p0 : LoopPoint Board Move TT Killers) (n j : Nat) (hnj : n ≤ j)
    (h : loopBefore E rec depth ply beta (all.take n) p0 = none) :
    loopBefore E rec depth ply beta (all.take j) p0 = none := by
  have hs : all.take j = all.take n ++ (all.take j).drop n := by
    conv_lhs => rw [← List.take_append_drop n (all.take j)]
    rw [List.take_take, Nat.min_eq_left hnj]
  rw [hs, loopBefore_append, h]
  rfl

theorem scoreAt_of_take_none (E : Engine Board Move TT Killers)
    (rec : NSearch Board Move TT Killers) (depth ply beta : Int)
    (all : List Move) (p0 : LoopPoint Board Move TT Killers) (n j : Nat) (hnj : n ≤ j)
    (h : loopBefore E rec depth ply beta (all.take n) p0 = none) :
    scoreAt E rec depth ply beta all p0 j = none := by
  unfold scoreAt
  rw [loopBefore_none_take E rec depth ply beta all p0 n j hnj h]
  cases all[j]? <;> rfl

theorem scoreAt_of_length_le (E : Engine Board Move TT Killers)
    (rec : NSearch Board Move TT Killers) (depth ply beta : Int)
    (all : List Move) (p0 : LoopPoint Board Move TT Killers) (j : Nat)
    (h : all.length ≤ j) :
    scoreAt E rec depth ply beta all p0 j = none := by
  unfold scoreAt
  rw [List.getElem?_eq_none h]

theorem loopBefore_succ (E : Engine Board Move TT Killers)
    (rec : NSearch Board Move TT Killers) (depth ply beta : Int)
    (all : List Move) (p0 p : LoopPoint Board Move TT Killers) (n : Nat) (m : Move)
    (hm : all[n]? = some m)
    (hp : loopBefore E rec depth ply beta (all.take n) p0 = some p) :
    loopBefore E rec depth ply beta (all.take (n + 1)) p0 =
      loopBefore E rec depth ply beta [m] p := by
  rw [List.take_succ, hm, loopBefore_append, hp]
  rfl

theorem scoreAt_eq (E : Engine Board Move TT Killers)
    (rec : NSearch Board Move TT Killers) (depth ply beta : Int)
    (all : List Move) (p0 p : LoopPoint Board Move TT Killers) (n : Nat) (m : Move)
    (hm : all[n]? = some m)
    (hp : loopBefore E rec depth ply beta (all.take n) p0 = some p) :
    scoreAt E rec depth ply beta all p0 n =
      if move_leaves_check E (do_make E p.state m).board then none
      else
        match rec (do_make E p.state m) (depth - 1) (ply + 1) (-beta) (-p.alpha) with
        | none => none
        | some rc =>
          if (should_exit_search E (do_undo E rc.state)).1 then none else some (-rc.value) := by
  unfold scoreAt
  rw [hm, hp]

theorem negamaxStep_run (E : Engine Board Move TT Killers)
    (rec : NSearch Board Move TT Killers) (depth ply beta : Int)
    (all : List Move) (p0 p : LoopPoint Board Move TT Killers) (n : Nat) (m : Move)
    (hm : all[n]? = some m)
    (hp : loopBefore E rec depth ply beta (all.take n) p0 = some p)
    (out : StepOut Board Move TT Killers)
    (h : negamaxStep E rec depth ply beta m p.alpha p.best_eval p.best_move p.moves_tried
      p.state = some out) :
    StepRun E rec depth ply beta all p0 p n m out := by
  have hnext := loopBefore_succ E rec depth ply beta all p0 p n m hm hp
  have hsc := scoreAt_eq E rec depth ply beta all p0 p n m hm hp
  simp only [loopBefore, h] at hnext
  unfold negamaxStep at h
  simp only at h
  split at h
  · rename_i hc
    simp only [Option.some.injEq] at h
    subst h
    simp only [hc, if_true] at hsc
    exact ⟨hsc, hnext⟩
  · rename_i hc
    simp only [hc, if_false] at hsc
    split at h
    · exact absurd h (by simp)
    · rename_i r hr
      simp only [hr] at hsc
      split at h
      · rename_i hx
        simp only [Option.some.injEq] at h
        subst h
        simp only [hx, if_true] at hsc
        exact ⟨hsc, hnext⟩
      · rename_i hx
        simp only [hx, if_false] at hsc
        split at h
        · rename_i hgt
          simp only [Option.some.injEq] at h
          unfold stepTail at h
          simp only at h
          split at h
          · subst h
            exact ⟨hnext, -r.value, hsc, Or.inl ⟨hgt, rfl, rfl⟩⟩
          · subst h
            exact ⟨hnext, -r.value, hsc, Or.inl ⟨hgt, rfl, rfl⟩⟩
        · rename_i hgt
          simp only [Option.some.injEq] at h
          unfold stepTail at h
          simp only at h
          split at h
          · subst h
            exact ⟨hnext, -r.value, hsc, Or.inr ⟨not_lt.mp hgt, rfl, rfl⟩⟩
          · subst h
            exact ⟨hnext, -r.value, hsc, Or.inr ⟨not_lt.mp hgt, rfl, rfl⟩⟩

theorem BestUpTo.unscored {E : Engine Board Move TT Killers} {rec : NSearch Board Move TT Killers}
    {depth ply beta : Int} {all : List Move} {p0 : LoopPoint Board Move TT Killers}
    {n : Nat} {be : Int} {bm : Move}
    (h : BestUpTo E rec depth ply beta all p0 n be bm)
    (hn : scoreAt E rec depth ply beta all p0 n = none) :
    BestUpTo E rec depth ply beta all p0 (n + 1) be bm := by
  obtain ⟨h1, h2⟩ := h
  refine ⟨?_, ?_⟩
  · intro j hj v hv
    rcases Nat.lt_succ_iff_lt_or_eq.mp hj with hj | hj
    · exact h1 j hj v hv
    · rw [hj, hn] at hv
      exact absurd hv (by simp)
  · rcases h2 with h2 | ⟨i, hi, h3⟩
    · exact Or.inl h2
    · exact Or.inr ⟨i, Nat.lt_succ_of_lt hi, h3⟩

theorem BestUpTo.scored {E : Engine Board Move TT Killers} {rec : NSearch Board Move TT Killers}
    {depth ply beta : Int} {all : List Move} {p0 : LoopPoint Board Move TT Killers}
    {n : Nat} {be : Int} {bm : Move} {m : Move} {v b : Int} {bm1 : Move}
    (h : BestUpTo E rec depth ply beta all p0 n be bm)
    (hm : all[n]? = some m)
    (hv : scoreAt E rec depth ply beta all p0 n = some v)
    (hc : (be < v ∧ b = v ∧ bm1 = m) ∨ (v ≤ be ∧ b = be ∧ bm1 = bm)) :
    BestUpTo E rec depth ply beta all p0 (n + 1) b bm1 := by
  obtain ⟨h1, h2⟩ := h
  rcases hc with ⟨hlt, hb, hbm⟩ | ⟨hle, hb, hbm⟩
  · subst hb hbm
    refine ⟨?_, Or.inr ⟨n, Nat.lt_succ_self n, hm, hv, ?_⟩⟩
    · intro j hj w hw
      rcases Nat.lt_succ_iff_lt_or_eq.mp hj with hj | hj
      · exact le_of_lt (lt_of_le_of_lt (h1 j hj w hw) hlt)
      · rw [hj, hv] at hw
        simp only [Option.some.injEq] at hw
        exact le_of_eq hw.symm
    · intro j hj w hw
      exact lt_of_le_of_lt (h1 j hj w hw) hlt
  · subst hb hbm
    refine ⟨?_, ?_⟩
    · intro j hj w hw
      rcases Nat.lt_succ_iff_lt_or_eq.mp hj with hj | hj
      · exact h1 j hj w hw
      · rw [hj, hv] at hw
        simp only [Option.some.injEq] at hw
        rw [← hw]
        exact hle
    · rcases h2 with h2 | ⟨i, hi, h3⟩
      · exact Or.inl h2
      · exact Or.inr ⟨i, Nat.lt_succ_of_lt hi, h3⟩

theorem BestUpTo.whole {E : Engine Board Move TT Killers} {rec : NSearch Board Move TT Killers}
    {depth ply beta : Int} {all : List Move} {p0 : LoopPoint Board Move TT Killers}
    {n : Nat} {be : Int} {bm : Move}
    (h : BestUpTo E rec depth ply beta all p0 n be bm)
    (hn : ∀ j, n ≤ j → scoreAt E rec depth ply beta all p0 j = none) :
    BestOfLoop E rec depth ply beta all p0 be bm := by
  obtain ⟨h1, h2⟩ := h
  refine ⟨?_, ?_⟩
  · intro j v hv
    by_cases hj : j < n
    · exact h1 j hj v hv
    · rw [hn j (not_lt.mp hj)] at hv
      exact absurd hv (by simp)
  · rcases h2 with h2 | ⟨i, _, h3⟩
    · exact Or.inl h2
    · exact Or.inr ⟨i, h3⟩

/-- The move loop leaves the best score among the moves it fully searched and
the first move that scored it. -/
theorem negamaxLoop_run (E : Engine Board Move TT Killers)
    (rec : NSearch Board Move TT Killers) (depth ply beta : Int)
    (all : List Move) (p0 : LoopPoint Board Move TT Killers) :
    ∀ (rest pre : List Move) (p : LoopPoint Board Move TT Killers),
      all = pre ++ rest →
      loopBefore E rec depth ply beta pre p0 = some p →
      BestUpTo E rec depth ply beta all p0 pre.length p.best_eval p.best_move →
      ∀ a be bm k t,
        negamaxLoop E rec depth ply beta rest p.alpha p.best_eval p.best_move p.moves_tried
          p.state = some (LoopOut.finished a be bm k t) →
        BestOfLoop E rec depth ply beta all p0 be bm := by
  intro rest
  induction rest with
  | nil =>
    intro pre p hall _ hb a be bm k t h
    simp only [negamaxLoop, Option.some.injEq, LoopOut.finished.injEq] at h
    obtain ⟨_, h2, h3, _, _⟩ := h
    rw [← h2, ← h3]
    refine hb.whole ?_
    intro j hj
    refine scoreAt_of_length_le E rec depth ply beta all p0 j ?_
    rw [hall, List.append_nil]
    exact hj
  | cons m rest ih =>
    intro pre p hall hp hb a be bm k t h
    have hm : all[pre.length]? = some m := by
      rw [hall, List.getElem?_append_right (le_refl _), Nat.sub_self]
      exact List.getElem?_cons_zero
    have htake : all.take pre.length = pre := by
      rw [hall]
      exact List.take_left _ _
    have hp' : loopBefore E rec depth ply beta (all.take pre.length) p0 = some p := by
      rw [htake]
      exact hp
    have hall' : all = (pre ++ [m]) ++ rest := by
      rw [hall, List.append_assoc]
      rfl
    have htake' : all.take (pre.length + 1) = pre ++ [m] := by
      have : (pre ++ [m]).length = pre.length + 1 := by simp
      rw [hall', ← this]
      exact List.take_left _ _
    have hlen : (pre ++ [m]).length = pre.length + 1 := by simp
    simp only [negamaxLoop] at h
    split at h
    · exact absurd h (by simp)
    · rename_i s1 hs
      obtain ⟨r1, r2⟩ := negamaxStep_run E rec depth ply beta all p0 p _ m hm hp' _ hs
      rw [htake'] at r2
      refine ih (pre ++ [m]) { p with state := s1 } hall' r2 ?_ a be bm k t h
      rw [hlen]
      exact hb.unscored r1
    · exact absurd h (by simp)
    · rename_i a1 b1 m1 t1 s1 hs
      obtain ⟨r1, v, r2, r3⟩ := negamaxStep_run E rec depth ply beta all p0 p _ m hm hp' _ hs
      simp only [Option.some.injEq, LoopOut.finished.injEq] at h
      obtain ⟨_, h2, h3, _, _⟩ := h
      rw [← h2, ← h3]
      refine (hb.scored hm r2 r3).whole ?_
      intro j hj
      exact scoreAt_of_take_none E rec depth ply beta all p0 _ j hj r1
    · rename_i a1 b1 m1 t1 s1 hs
      obtain ⟨r1, v, r2, r3⟩ := negamaxStep_run E rec depth ply beta all p0 p _ m hm hp' _ hs
      rw [htake'] at r1
      refine ih (pre ++ [m]) ⟨a1, b1, m1, t1, s1⟩ hall' r1 ?_ a be bm k t h
      rw [hlen]
      exact hb.scored hm r2 r3

theorem searchedScore_eq (E : Engine Board Move TT Killers)
    (rec : NSearch Board Move TT Killers)
    (s s1 : SearchState Board Move TT Killers) (depth ply alpha beta : Int)
    (h : loopStart E rec s depth ply alpha beta = some s1) (i : Nat) :
    searchedScore E rec s depth ply alpha beta i =
      scoreAt E rec (extendDepth (E.king_in_check (E.turn s.board) s.board) depth) ply
        (probedBeta E s depth beta) (orderedMoves E s1)
        (loopEntry E (probedAlpha E s depth alpha) s1) i := by
  unfold searchedScore
  rw [h]

theorem searchedScore_none (E : Engine Board Move TT Killers)
    (rec : NSearch Board Move TT Killers)
    (s : SearchState Board Move TT Killers) (depth ply alpha beta : Int)
    (h : loopStart E rec s depth ply alpha beta = none) (i : Nat) :
    searchedScore E rec s depth ply alpha beta i = none := by
  unfold searchedScore
  rw [h]

/-- A call of `negamax` past the probe either returns before the move loop,
with the iteration-best move it was entered with, or goes through the move
loop from the state `searchLoopStart` gives. -/
theorem negamaxSearch_loop (E : Engine Board Move TT Killers)
    (q : QSearch Board Move TT Killers) (rec : NSearch Board Move TT Killers)
    (hq : ∀ s a b v t, q s a b = some (v, t) →
      t.best_move_this_iteration = s.best_move_this_iteration)
    (hrec : ∀ s d p a b r, 1 ≤ p → rec s d p a b = some r →
      r.state.best_move_this_iteration = s.best_move_this_iteration)
    (original_alpha : Int) (s : SearchState Board Move TT Killers)
    (depth ply alpha beta : Int) (r : Result Board Move TT Killers)
    (h : negamaxSearch E q rec original_alpha s depth ply alpha beta = some r) :
    (searchLoopStart E rec s depth ply alpha beta = none ∧
        (0 ≤ ply → r.state.best_move_this_iteration = s.best_move_this_iteration) ∧
        (r.path = Exit.cancelledEntry ∨ r.path = Exit.horizon ∨ r.path = Exit.cancelledNull ∨
          r.path = Exit.nullCutoff)) ∨
      ∃ s1, searchLoopStart E rec s depth ply alpha beta = some s1 ∧
        (0 ≤ ply → s1.best_move_this_iteration = s.best_move_this_iteration) ∧
        negamaxMoves E rec (E.king_in_check (E.turn s.board) s.board) original_alpha s1
          (extendDepth (E.king_in_check (E.turn s.board) s.board) depth) ply alpha beta =
            some r := by
  have kb := (should_exit_search_keeps E s).1
  have hx := (should_exit_search_keeps E s).2.2.2.1
  unfold negamaxSearch at h
  simp only at h
  split at h
  · rename_i hc
    simp only [Option.some.injEq] at h
    rw [← h]
    refine Or.inl ⟨?_, fun _ => hx, Or.inl rfl⟩
    simp [searchLoopStart, hc]
  · rename_i hc
    split at h
    · rename_i hd
      split at h
      · exact absurd h (by simp)
      · rename_i v s1 hq1
        simp only [Option.some.injEq] at h
        rw [← h]
        refine Or.inl ⟨?_, fun _ =>
          (hq (countNode (should_exit_search E s).2) _ _ _ _ hq1).trans hx, Or.inr (Or.inl rfl)⟩
        simp [searchLoopStart, hc, hd]
    · rename_i hd
      unfold negamaxNull at h
      split at h
      · rename_i hn
        simp only at h
        split at h
        · exact absurd h (by simp)
        · rename_i c hr
          have h1 : 0 ≤ ply → (should_exit_search E
              (setNullFlag (do_undo E c.state) true)).2.best_move_this_iteration =
                s.best_move_this_iteration := by
            intro hply
            rw [(should_exit_search_keeps E _).2.2.2.1]
            exact (hrec (do_make_null E (setNullFlag (should_exit_search E s).2 false))
              _ _ _ _ _ (by omega) hr).trans hx
          split at h
          · rename_i hy
            simp only [Option.some.injEq] at h
            rw [← h]
            refine Or.inl ⟨?_, h1, Or.inr (Or.inr (Or.inl rfl))⟩
            simp [searchLoopStart, hc, hd, hn, hr, hy]
          · rename_i hy
            split at h
            · rename_i hcut
              simp only [Option.some.injEq] at h
              rw [← h]
              refine Or.inl ⟨?_, h1, Or.inr (Or.inr (Or.inr rfl))⟩
              simp [searchLoopStart, hc, hd, hn, hr, hy, hcut]
            · rename_i hcut
              rw [kb] at h
              refine Or.inr ⟨_, ?_, h1, h⟩
              simp [searchLoopStart, hc, hd, hn, hr, hy, hcut]
      · rename_i hn
        rw [kb] at h
        refine Or.inr ⟨_, ?_, fun _ => hx, h⟩
        simp [searchLoopStart, hc, hd, hn]

/-- A call of `negamax` either returns at the probe or goes on past it with
the window the probe left. -/
theorem negamaxBody_probe (E : Engine Board Move TT Killers)
    (q : QSearch Board Move TT Killers) (rec : NSearch Board Move TT Killers)
    (s : SearchState Board Move TT Killers)
    (depth ply alpha beta : Int) (r : Result Board Move TT Killers)
    (h : negamaxBody E q rec s depth ply alpha beta = some r) :
    (ttReturns E s depth alpha beta = true ∧
        (r.path = Exit.ttExact ∨ r.path = Exit.ttCutoff)) ∨
      (ttReturns E s depth alpha beta = false ∧
        negamaxSearch E q rec alpha s depth ply (probedAlpha E s depth alpha)
          (probedBeta E s depth beta) = some r) := by
  unfold negamaxBody at h
  simp only at h
  split at h
  · rename_i hc
    split at h
    · rename_i hf
      simp only [Option.some.injEq] at h
      rw [← h]
      refine Or.inl ⟨?_, Or.inl rfl⟩
      simp [ttReturns, hc.1, hc.2, hf]
    · rename_i hf
      have hpa : probedAlpha E s depth alpha = max alpha (probeSlot E s).evaluation := by
        simp only [probedAlpha, hc, hf, and_self, if_true]
      have hpb : probedBeta E s depth beta = beta := by
        simp [probedBeta, hf]
      split at h
      · rename_i hcut
        simp only [Option.some.injEq] at h
        rw [← h]
        refine Or.inl ⟨?_, Or.inr rfl⟩
        simp only [ttReturns, hpa, hpb]
        simp [hc.1, hc.2, hcut]
      · rename_i hcut
        refine Or.inr ⟨?_, ?_⟩
        · simp only [ttReturns, hpa, hpb]
          simp [hf, hcut]
        · rw [hpa, hpb]
          exact h
    · rename_i hf
      have hpa : probedAlpha E s depth alpha = alpha := by
        simp [probedAlpha, hf]
      have hpb : probedBeta E s depth beta = min beta (probeSlot E s).evaluation := by
        simp only [probedBeta, hc, hf, and_self, if_true]
      split at h
      · rename_i hcut
        simp only [Option.some.injEq] at h
        rw [← h]
        refine Or.inl ⟨?_, Or.inr rfl⟩
        simp only [ttReturns, hpa, hpb]
        simp [hc.1, hc.2, hcut]
      · rename_i hcut
        refine Or.inr ⟨?_, ?_⟩
        · simp only [ttReturns, hpa, hpb]
          simp [hf, hcut]
        · rw [hpa, hpb]
          exact h
  · rename_i hc
    have h1 : ¬ ((probeSlot E s).key = E.zobrist_key s.board ∧ (probeSlot E s).depth ≥ depth ∧
        (probeSlot E s).flag = Flag.kLowerBound) := fun hh => hc ⟨hh.1, hh.2.1⟩
    have h2 : ¬ ((probeSlot E s).key = E.zobrist_key s.board ∧ (probeSlot E s).depth ≥ depth ∧
        (probeSlot E s).flag = Flag.kUpperBound) := fun hh => hc ⟨hh.1, hh.2.1⟩
    refine Or.inr ⟨?_, ?_⟩
    · simp only [ttReturns]
      simp [hc]
    · simp only [probedAlpha, probedBeta, h1, h2, if_false]
      exact h

theorem SavedFrom.same {p : Int} {s t : SearchState Board Move TT Killers}
    (h : t.trace = s.trace) : SavedFrom p s t :=
  ⟨[], by rw [h, List.append_nil], fun _ _ hm => absurd hm (List.not_mem_nil _)⟩

theorem SavedFrom.step {p : Int} {s t u : SearchState Board Move TT Killers}
    (h1 : SavedFrom p s t) (h2 : SavedFrom p t u) : SavedFrom p s u := by
  obtain ⟨e1, t1, s1⟩ := h1
  obtain ⟨e2, t2, s2⟩ := h2
  refine ⟨e1 ++ e2, by rw [t2, t1, List.append_assoc], ?_⟩
  intro e q hm
  rcases List.mem_append.mp hm with hm | hm
  · exact s1 e q hm
  · exact s2 e q hm

theorem SavedFrom.weaken {p p' : Int} {s t : SearchState Board Move TT Killers}
    (h : SavedFrom p' s t) (hp : p ≤ p') : SavedFrom p s t := by
  obtain ⟨e1, t1, s1⟩ := h
  exact ⟨e1, t1, fun e q hm => le_trans hp (s1 e q hm)⟩

theorem SavedFrom.event {p : Int} {s t : SearchState Board Move TT Killers}
    (ev : Event Move) (h : t.trace = s.trace ++ [ev])
    (hev : ∀ e q, ev = Event.save e q → p ≤ q) : SavedFrom p s t := by
  refine ⟨[ev], h, ?_⟩
  intro e q hm
  exact hev e q (List.mem_singleton.mp hm).symm

theorem SavedFrom.afterMake (E : Engine Board Move TT Killers) (p : Int)
    (s : SearchState Board Move TT Killers) (m : Move) : SavedFrom p s (do_make E s m) :=
  SavedFrom.event (Event.make m) rfl (fun _ _ h => absurd h (by simp))

theorem SavedFrom.afterNull (E : Engine Board Move TT Killers) (p : Int)
    (s : SearchState Board Move TT Killers) : SavedFrom p s (do_make_null E s) :=
  SavedFrom.event Event.makeNull rfl (fun _ _ h => absurd h (by simp))

theorem SavedFrom.afterUndo (E : Engine Board Move TT Killers) (p : Int)
    (s : SearchState Board Move TT Killers) : SavedFrom p s (do_undo E s) :=
  SavedFrom.event Event.undo rfl (fun _ _ h => absurd h (by simp))

theorem SavedFrom.afterExit (E : Engine Board Move TT Killers) (p : Int)
    (s : SearchState Board Move TT Killers) : SavedFrom p s (should_exit_search E s).2 :=
  SavedFrom.same (should_exit_search_keeps E s).2.2.2.2.2.1

theorem SavedFrom.afterKiller (E : Engine Board Move TT Killers) (p : Int)
    (s : SearchState Board Move TT Killers) (m : Move) (d : Int) :
    SavedFrom p s (cutoffKiller E s m d) := by
  unfold Integral.cutoffKiller
  simp only
  split
  · exact SavedFrom.event (Event.killer m d) rfl (fun _ _ h => absurd h (by simp))
  · exact SavedFrom.same rfl

theorem SavedFrom.afterRootBest (p : Int) (s : SearchState Board Move TT Killers) (ply : Int)
    (m : Move) (v : Int) : SavedFrom p s (rootBest s ply m v) := by
  unfold Integral.rootBest
  split
  · exact SavedFrom.same rfl
  · exact SavedFrom.same rfl

theorem stepTail_saved (E : Engine Board Move TT Killers) (p : Int) (depth beta : Int)
    (m : Move) (alpha best_eval : Int) (best_move : Move) (tried : Nat)
    (s : SearchState Board Move TT Killers) :
    SavedFrom p s (stepTail E depth beta m alpha best_eval best_move tried s).state := by
  unfold stepTail
  simp only
  split
  · exact SavedFrom.afterKiller E p s m depth
  · exact SavedFrom.same rfl

theorem quiesceLoop_saved (E : Engine Board Move TT Killers)
    (rec : QSearch Board Move TT Killers) (p : Int)
    (hrec : ∀ s a b v t, rec s a b = some (v, t) → SavedFrom p s t) (beta : Int) :
    ∀ (ms : List Move) (alpha : Int) (s : SearchState Board Move TT Killers) (v : Int)
      (t : SearchState Board Move TT Killers),
      quiesceLoop E rec beta ms alpha s = some (v, t) → SavedFrom p s t := by
  intro ms
  induction ms with
  | nil =>
    intro alpha s v t h
    simp only [quiesceLoop, Option.some.injEq, Prod.mk.injEq] at h
    rw [← h.2]
    exact SavedFrom.same rfl
  | cons m ms ih =>
    intro alpha s v t h
    simp only [quiesceLoop] at h
    split at h
    · exact ((SavedFrom.afterMake E p s m).step (SavedFrom.afterUndo E p _)).step (ih _ _ _ _ h)
    · split at h
      · exact absurd h (by simp)
      · rename_i w s2 hr
        have h1 := ((SavedFrom.afterMake E p s m).step (hrec _ _ _ _ _ hr)).step
          (SavedFrom.afterUndo E p s2)
        split at h
        · simp only [Option.some.injEq, Prod.mk.injEq] at h
          rw [← h.2]
          exact h1
        · exact h1.step (ih _ _ _ _ h)

theorem quiesce_saved (E : Engine Board Move TT Killers) (p : Int) :
    ∀ (fuel : Nat) (s : SearchState Board Move TT Killers) (alpha beta v : Int)
      (t : SearchState Board Move TT Killers),
      quiesce E fuel s alpha beta = some (v, t) → SavedFrom p s t := by
  intro fuel
  induction fuel with
  | zero =>
    intro s alpha beta v t h
    exact absurd h (by simp [quiesce])
  | succ n ih =>
    intro s alpha beta v t h
    simp only [quiesce, quiesceBody] at h
    split at h
    · simp only [Option.some.injEq, Prod.mk.injEq] at h
      rw [← h.2]
      exact SavedFrom.same rfl
    · split at h
      · simp only [Option.some.injEq, Prod.mk.injEq] at h
        rw [← h.2]
        exact SavedFrom.same rfl
      · exact quiesceLoop_saved E (quiesce E n) p ih beta _ _ _ _ _ h

theorem negamaxStep_saved (E : Engine Board Move TT Killers)
    (rec : NSearch Board Move TT Killers) (ply : Int)
    (hrec : ∀ s d a b r, rec s d (ply + 1) a b = some r → SavedFrom (ply + 1) s r.state)
    (depth beta : Int) (m : Move) (alpha best_eval : Int) (best_move : Move) (tried : Nat)
    (s : SearchState Board Move TT Killers) (out : StepOut Board Move TT Killers)
    (h : negamaxStep E rec depth ply beta m alpha best_eval best_move tried s = some out) :
    SavedFrom (ply + 1) s out.state := by
  unfold negamaxStep at h
  simp only at h
  split at h
  · simp only [Option.some.injEq] at h
    rw [← h]
    exact (SavedFrom.afterMake E _ s m).step (SavedFrom.afterUndo E _ _)
  · split at h
    · exact absurd h (by simp)
    · rename_i r hr
      have hf := (((SavedFrom.afterMake E _ s m).step (hrec _ _ _ _ _ hr)).step
        (SavedFrom.afterUndo E _ r.state)).step (SavedFrom.afterExit E _ _)
      split at h
      · simp only [Option.some.injEq] at h
        rw [← h]
        exact hf
      · split at h
        · simp only [Option.some.injEq] at h
          rw [← h]
          exact (hf.step (SavedFrom.afterRootBest _ _ _ _ _)).step (stepTail_saved E _ _ _ _ _ _ _ _ _)
        · simp only [Option.some.injEq] at h
          rw [← h]
          exact hf.step (stepTail_saved E _ _ _ _ _ _ _ _ _)

theorem negamaxLoop_saved (E : Engine Board Move TT Killers)
    (rec : NSearch Board Move TT Killers) (ply : Int)
    (hrec : ∀ s d a b r, rec s d (ply + 1) a b = some r → SavedFrom (ply + 1) s r.state)
    (depth beta : Int) :
    ∀ (ms : List Move) (alpha best_eval : Int) (best_move : Move) (tried : Nat)
      (s : SearchState Board Move TT Killers) (out : LoopOut Board Move TT Killers),
      negamaxLoop E rec depth ply beta ms alpha best_eval best_move tried s = some out →
        SavedFrom (ply + 1) s out.state := by
  intro ms
  induction ms with
  | nil =>
    intro alpha best_eval best_move tried s out h
    simp only [negamaxLoop, Option.some.injEq] at h
    rw [← h]
    exact SavedFrom.same rfl
  | cons m ms ih =>
    intro alpha best_eval best_move tried s out h
    simp only [negamaxLoop] at h
    split at h
    · exact absurd h (by simp)
    · rename_i s1 hs
      exact (negamaxStep_saved E rec ply hrec _ _ _ _ _ _ _ _ _ hs).step (ih _ _ _ _ _ _ h)
    · rename_i s1 hs
      simp only [Option.some.injEq] at h
      rw [← h]
      exact negamaxStep_saved E rec ply hrec _ _ _ _ _ _ _ _ _ hs
    · rename_i a1 b1 m1 t1 s1 hs
      simp only [Option.some.injEq] at h
      rw [← h]
      exact negamaxStep_saved E rec ply hrec _ _ _ _ _ _ _ _ _ hs
    · rename_i a1 b1 m1 t1 s1 hs
      exact (negamaxStep_saved E rec ply hrec _ _ _ _ _ _ _ _ _ hs).step (ih _ _ _ _ _ _ h)

theorem searchLoopStart_saved (E : Engine Board Move TT Killers)
    (rec : NSearch Board Move TT Killers) (ply : Int)
    (hrec : ∀ s d a b r, rec s d (ply + 1) a b = some r → SavedFrom (ply + 1) s r.state)
    (s s1 : SearchState Board Move TT Killers) (depth alpha beta : Int)
    (h : searchLoopStart E rec s depth ply alpha beta = some s1) :
    SavedFrom (ply + 1) s s1 := by
  unfold searchLoopStart at h
  simp only at h
  split at h
  · exact absurd h (by simp)
  · split at h
    · exact absurd h (by simp)
    · split at h
      · split at h
        · exact absurd h (by simp)
        · rename_i c hr
          split at h
          · exact absurd h (by simp)
          · split at h
            · exact absurd h (by simp)
            · simp only [Option.some.injEq] at h
              rw [← h]
              have h0 : SavedFrom (ply + 1) (should_exit_search E s).2
                  (setNullFlag (should_exit_search E s).2 false) := SavedFrom.same rfl
              have h1 : SavedFrom (ply + 1) (do_undo E c.state)
                  (setNullFlag (do_undo E c.state) true) := SavedFrom.same rfl
              exact ((((((SavedFrom.afterExit E _ s).step h0).step
                (SavedFrom.afterNull E _ _)).step (hrec _ _ _ _ _ hr)).step
                (SavedFrom.afterUndo E _ c.state)).step h1).step (SavedFrom.afterExit E _ _)
      · simp only [Option.some.injEq] at h
        rw [← h]
        exact SavedFrom.afterExit E _ s

theorem SavedFrom.afterSave (E : Engine Board Move TT Killers) (p : Int)
    (s : SearchState Board Move TT Killers) (e : Entry Move) :
    SavedFrom p s (do_save E s e p) :=
  SavedFrom.event (Event.save e p) rfl (fun _ q h => by
    simp only [Event.save.injEq] at h
    exact le_of_eq h.2)

theorem negamaxBody_saved (E : Engine Board Move TT Killers)
    (q : QSearch Board Move TT Killers) (rec : NSearch Board Move TT Killers) (ply : Int)
    (hq : ∀ s a b v t, q s a b = some (v, t) → SavedFrom ply s t)
    (hrec : ∀ s d a b r, rec s d (ply + 1) a b = some r → SavedFrom (ply + 1) s r.state)
    (s : SearchState Board Move TT Killers)
    (depth alpha beta : Int) (r : Result Board Move TT Killers)
    (h : negamaxBody E q rec s depth ply alpha beta = some r) :
    SavedFrom ply s r.state := by
  have hup : ∀ {u v : SearchState Board Move TT Killers}, SavedFrom (ply + 1) u v →
      SavedFrom ply u v := fun h => h.weaken (by omega)
  have hmoves : ∀ ic oa u d a b r,
      negamaxMoves E rec ic oa u d ply a b = some r → SavedFrom ply u r.state := by
    intro ic oa u d a b r h
    unfold negamaxMoves at h
    split at h
    · exact absurd h (by simp)
    · rename_i s1 hl
      simp only [Option.some.injEq] at h
      rw [← h]
      exact hup (negamaxLoop_saved E rec ply hrec _ _ _ _ _ _ _ _ _ hl)
    · rename_i a1 b1 m1 t1 s1 hl
      have hk := hup (negamaxLoop_saved E rec ply hrec _ _ _ _ _ _ _ _ _ hl)
      split at h
      · simp only [Option.some.injEq] at h
        rw [← h]
        exact hk
      · simp only [Option.some.injEq] at h
        rw [← h]
        exact hk.step (SavedFrom.afterSave E ply _ _)
  have hnull : ∀ ic oa u d a b r,
      negamaxNull E rec ic oa u d ply a b = some r → SavedFrom ply u r.state := by
    intro ic oa u d a b r h
    unfold negamaxNull at h
    split at h
    · simp only at h
      split at h
      · exact absurd h (by simp)
      · rename_i c hr
        have h0 : SavedFrom ply u (setNullFlag u false) := SavedFrom.same rfl
        have h1 : SavedFrom ply (do_undo E c.state)
            (setNullFlag (do_undo E c.state) true) := SavedFrom.same rfl
        have hf := (((((h0.step (SavedFrom.afterNull E _ _)).step
          (hup (hrec _ _ _ _ _ hr))).step (SavedFrom.afterUndo E _ c.state)).step h1).step
          (SavedFrom.afterExit E _ _))
        split at h
        · simp only [Option.some.injEq] at h
          rw [← h]
          exact hf
        · split at h
          · simp only [Option.some.injEq] at h
            rw [← h]
            exact hf
          · exact hf.step (hmoves _ _ _ _ _ _ _ h)
    · exact hmoves _ _ _ _ _ _ _ h
  have hsearch : ∀ oa a b r,
      negamaxSearch E q rec oa s depth ply a b = some r → SavedFrom ply s r.state := by
    intro oa a b r h
    unfold negamaxSearch at h
    simp only at h
    split at h
    · simp only [Option.some.injEq] at h
      rw [← h]
      exact SavedFrom.afterExit E _ s
    · split at h
      · split at h
        · exact absurd h (by simp)
        · rename_i v s1 hv
          simp only [Option.some.injEq] at h
          rw [← h]
          have h0 : SavedFrom ply (should_exit_search E s).2
              (countNode (should_exit_search E s).2) := SavedFrom.same rfl
          exact ((SavedFrom.afterExit E _ s).step h0).step (hq _ _ _ _ _ hv)
      · exact (SavedFrom.afterExit E _ s).step (hnull _ _ _ _ _ _ _ h)
  have htt : ∀ e, SavedFrom ply s (ttReturnState s ply e) := by
    intro e
    unfold ttReturnState
    split
    · exact SavedFrom.same rfl
    · exact SavedFrom.same rfl
  unfold negamaxBody at h
  simp only at h
  split at h
  · split at h
    · simp only [Option.some.injEq] at h
      rw [← h]
      exact htt _
    · split at h
      · simp only [Option.some.injEq] at h
        rw [← h]
        exact htt _
      · exact hsearch _ _ _ _ h
    · split at h
      · simp only [Option.some.injEq] at h
        rw [← h]
        exact htt _
      · exact hsearch _ _ _ _ h
  · exact hsearch _ _ _ _ h

/-- Every table save of a call of `negamax` at ply `p`, the calls below it
included, is made at ply `p` or deeper. -/
theorem negamax_saved (E : Engine Board Move TT Killers) :
    ∀ (fuel : Nat) (s : SearchState Board Move TT Killers) (depth ply alpha beta : Int)
      (r : Result Board Move TT Killers),
      negamax E fuel s depth ply alpha beta = some r → SavedFrom ply s r.state := by
  intro fuel
  induction fuel with
  | zero =>
    intro s depth ply alpha beta r h
    exact absurd h (by simp [negamax])
  | succ n ih =>
    intro s depth ply alpha beta r h
    exact negamaxBody_saved E (quiesce E n) (negamax E n) ply (quiesce_saved E ply n)
      (fun s d a b r h => ih s d (ply + 1) a b r h) s depth alpha beta r h

theorem loopStart_of_search (E : Engine Board Move TT Killers)
    (rec : NSearch Board Move TT Killers)
    (s s1 : SearchState Board Move TT Killers) (depth ply alpha beta : Int)
    (ht : ttReturns E s depth alpha beta = false)
    (h : searchLoopStart E rec s depth ply (probedAlpha E s depth alpha)
      (probedBeta E s depth beta) = some s1) :
    loopStart E rec s depth ply alpha beta = some s1 := by
  unfold loopStart
  rw [ht]
  exact h

/-- C4, counterexample: the root has a matching UpperBound slot of depth 3
and score 5, so the search of depth 1 with the window (-100, 100) runs with
beta lowered to 5.  Its only move scores 5: the value 5 lies strictly between
alpha and beta as received, yet the entry is stored as a LowerBound, because
line 206 compares with the lowered beta. -/
theorem stored_flag_uses_lowered_beta :
    (negamax boundEngine 3 boundState 1 0 (-100) 100).map
        (fun r => (r.value, r.path, r.state.transpo.head?.map (fun e => e.flag))) =
      some (5, Exit.stored, some Flag.kLowerBound) ∧
    probedBeta boundEngine boundState 1 100 = 5 ∧
    boundFlag (-100) 100 5 = Flag.kExact := by
  decide

/-- C4: when `negamax` returns through the store step, it went through its
move loop, at least one move was tried, and it has saved exactly one
entry: the state it returns is the state the move loop left plus one save at
its ply, and every other save since the call was entered was made at a
deeper ply.  The key of the entry is the Zobrist key of the board then (the
entry board, if `undo_move` is exact), its score is the returned value, its
depth is the depth after the check extension, and its flag is UpperBound if
the score is at most alpha as received, otherwise LowerBound if it is at
least beta as it stands at the store step (the received beta, lowered to the
score of a matching UpperBound slot of sufficient depth), otherwise Exact.
The score bounds the scores of all moves fully searched, and when it exceeds
`INT_MIN`, as it does when window, table and ply are in the range of `int`,
the best move of the entry is the first move of the loop that scored it. -/
theorem stored_entry (E : Engine Board Move TT Killers) (fuel : Nat)
    (s : SearchState Board Move TT Killers) (depth ply alpha beta : Int)
    (r : Result Board Move TT Killers)
    (h : negamax E (fuel + 1) s depth ply alpha beta = some r)
    (hp : r.path = Exit.stored) :
    ∃ (s1 t : SearchState Board Move TT Killers) (entry : Entry Move) (a : Int) (k : Nat),
      loopStart E (negamax E fuel) s depth ply alpha beta = some s1 ∧
      negamaxLoop E (negamax E fuel)
          (extendDepth (E.king_in_check (E.turn s.board) s.board) depth) ply
          (probedBeta E s depth beta) (orderedMoves E s1) (probedAlpha E s depth alpha)
          INT_MIN E.no_move 0 s1 =
        some (LoopOut.finished a entry.evaluation entry.best_move k t) ∧
      k ≠ 0 ∧
      r.state = do_save E t entry ply ∧
      r.state.transpo = E.save t.transpo entry ply ∧
      (∃ ext, t.trace = s.trace ++ ext ∧
        r.state.trace = s.trace ++ ext ++ [Event.save entry ply] ∧
        ∀ e q, Event.save e q ∈ ext → ply < q) ∧
      entry.key = E.zobrist_key t.board ∧
      ((∀ b m, E.undo_move (E.make_move b m) = b) →
        (∀ b, E.undo_move (E.make_null_move b) = b) → t.board = s.board) ∧
      entry.evaluation = r.value ∧
      entry.depth = extendDepth (E.king_in_check (E.turn s.board) s.board) depth ∧
      (r.value ≤ alpha → entry.flag = Flag.kUpperBound) ∧
      (alpha < r.value → probedBeta E s depth beta ≤ r.value →
        entry.flag = Flag.kLowerBound) ∧
      (alpha < r.value → r.value < probedBeta E s depth beta → entry.flag = Flag.kExact) ∧
      (∀ j v, searchedScore E (negamax E fuel) s depth ply alpha beta j = some v →
        v ≤ r.value) ∧
      (INT_MIN < r.value →
        ∃ i, (orderedMoves E s1)[i]? = some entry.best_move ∧
          searchedScore E (negamax E fuel) s depth ply alpha beta i = some r.value ∧
          ∀ j < i, ∀ v, searchedScore E (negamax E fuel) s depth ply alpha beta j = some v →
            v < r.value) ∧
      (∀ Inv : TT → Prop, TableInt E Inv → Inv s.transpo → IsScore alpha → IsScore beta →
        0 ≤ ply → ply + (fuel + 1 : Nat) ≤ 2147483647 → INT_MIN < r.value) := by
  have hfr := negamax_frame E (fuel + 1) s depth ply alpha beta r h
  have hqk : ∀ s a b v t, quiesce E fuel s a b = some (v, t) →
      t.best_move_this_iteration = s.best_move_this_iteration := by
    intro s a b v t hq
    rw [quiesce_keeps E fuel s a b v t hq]
  rcases negamaxBody_probe E _ _ s depth ply alpha beta r h with ⟨_, h0⟩ | ⟨htt, h1⟩
  · rw [hp] at h0
    rcases h0 with h0 | h0 <;> exact absurd h0 (by simp)
  rcases negamaxSearch_loop E _ _ hqk (negamax_keeps_best E fuel) _ s depth ply _ _ r h1 with
    ⟨_, _, h0⟩ | ⟨s1, hstart, _, h3⟩
  · rw [hp] at h0
    rcases h0 with h0 | h0 | h0 | h0 <;> exact absurd h0 (by simp)
  obtain ⟨a, be, bm, k, t, hl, hk, hr⟩ := negamaxMoves_stored E _ _ _ _ _ _ _ _ r h3 hp
  have hls := loopStart_of_search E (negamax E fuel) s s1 depth ply alpha beta htt hstart
  have hv : r.value = be := by rw [hr]
  have hsaved : SavedFrom (ply + 1) s t :=
    (searchLoopStart_saved E (negamax E fuel) ply
      (fun s d a b r h => negamax_saved E fuel s d (ply + 1) a b r h) s s1 depth _ _
      hstart).step
    (negamaxLoop_saved E (negamax E fuel) ply
      (fun s d a b r h => negamax_saved E fuel s d (ply + 1) a b r h) _ _ _ _ _ _ _ _ _ hl)
  have hbest := negamaxLoop_run E (negamax E fuel)
    (extendDepth (E.king_in_check (E.turn s.board) s.board) depth) ply
    (probedBeta E s depth beta) (orderedMoves E s1)
    (loopEntry E (probedAlpha E s depth alpha) s1) (orderedMoves E s1) []
    (loopEntry E (probedAlpha E s depth alpha) s1) rfl rfl
    ⟨fun j hj => absurd hj (Nat.not_lt_zero j), Or.inl ⟨rfl, rfl⟩⟩ a be bm k t hl
  have hsc : ∀ i, searchedScore E (negamax E fuel) s depth ply alpha beta i =
      scoreAt E (negamax E fuel) (extendDepth (E.king_in_check (E.turn s.board) s.board) depth)
        ply (probedBeta E s depth beta) (orderedMoves E s1)
        (loopEntry E (probedAlpha E s depth alpha) s1) i :=
    searchedScore_eq E (negamax E fuel) s s1 depth ply alpha beta hls
  obtain ⟨f1, f2, f3⟩ := boundFlag_cases alpha (probedBeta E s depth beta) r.value
  refine ⟨s1, t, storedEntry E t (extendDepth (E.king_in_check (E.turn s.board) s.board) depth)
    alpha (probedBeta E s depth beta) be bm, a, k, hls, hl, hk, ?_, ?_, ?_, rfl, ?_, hv.symm,
    rfl, ?_, ?_, ?_, ?_, ?_, ?_⟩
  · rw [hr]
  · rw [hr]
    rfl
  · obtain ⟨ext, h1, h2⟩ := hsaved
    refine ⟨ext, h1, ?_, fun e q hm => by have := h2 e q hm; omega⟩
    rw [hr]
    show t.trace ++ [Event.save _ ply] = _
    rw [h1]
  · intro hmake hnull
    have := hfr.board hmake hnull
    rw [hr] at this
    exact this
  · intro hle
    rw [hv] at hle f1
    exact f1 hle
  · intro h1 h2
    rw [hv] at h1 h2 f2
    exact f2 h1 h2
  · intro h1 h2
    rw [hv] at h1 h2 f3
    exact f3 h1 h2
  · intro j v hj
    rw [hsc] at hj
    rw [hv]
    exact hbest.1 j v hj
  · intro hlt
    rw [hv] at hlt ⊢
    rcases hbest.2 with ⟨h0, _⟩ | ⟨i, h1, h2, h3⟩
    · have h0' : be = INT_MIN := h0
      omega
    · refine ⟨i, h1, ?_, ?_⟩
      · rw [hsc]
        exact h2
      · intro j hj v hjv
        rw [hsc] at hjv
        exact h3 j hj v hjv
  · intro Inv hT hInv ha hb hp0 hp1
    exact (negamax_range E Inv hT (fuel + 1) s depth ply alpha beta r h hInv ha hb hp0 hp1).1.1

/-- Witness for C4: a depth-1 root search of the three-move tree with window
(-100, 100) returns 2 through the store step; the entry is Exact with score
2, and its best move is a move of the loop that scored 2. -/
theorem stored_entry_witness :
    ∃ r, negamax plainEngine 4 plainState 1 0 (-100) 100 = some r ∧ r.path = Exit.stored ∧
      r.value = 2 ∧
      ∃ s1 t entry, loopStart plainEngine (negamax plainEngine 3) plainState 1 0 (-100) 100 =
          some s1 ∧
        r.state = do_save plainEngine t entry 0 ∧ entry.evaluation = 2 ∧
        entry.flag = Flag.kExact ∧
        ∃ i, (orderedMoves plainEngine s1)[i]? = some entry.best_move ∧
          searchedScore plainEngine (negamax plainEngine 3) plainState 1 0 (-100) 100 i =
            some 2 := by
  obtain ⟨r, hr⟩ := Option.isSome_iff_exists.mp
    (by decide : (negamax plainEngine 4 plainState 1 0 (-100) 100).isSome = true)
  have hpath : r.path = Exit.stored := by
    have : (negamax plainEngine 4 plainState 1 0 (-100) 100).map (fun r => r.path) =
        some Exit.stored := by decide
    rw [hr] at this
    simpa using this
  have hval : r.value = 2 := by
    have : (negamax plainEngine 4 plainState 1 0 (-100) 100).map (fun r => r.value) =
        some 2 := by decide
    rw [hr] at this
    simpa using this
  obtain ⟨s1, t, entry, _, _, h1, _, _, h4, _, _, _, _, h8, _, _, _, h12, _, h14, _⟩ :=
    stored_entry plainEngine 3 plainState 1 0 (-100) 100 r hr hpath
  have hpb : probedBeta plainEngine plainState 1 100 = 100 := by decide
  rw [hval] at h8 h12 h14
  rw [hpb] at h12
  obtain ⟨i, h15, h16, _⟩ := h14 (by decide)
  exact ⟨r, hr, hpath, hval, s1, t, entry, h1, h4, h8, h12 (by decide) (by decide), i, h15, h16⟩

/-! ### Fail-soft correctness -/

theorem should_exit_search_never (E : Engine Board Move TT Killers)
    (s : SearchState Board Move TT Killers)
    (h : ∀ i, E.now i - s.start_time < E.kMaxSearchTime) :
    (should_exit_search E s).1 = false := by
  have h1 : ¬ elapsed E s ≥ E.kMaxSearchTime := by
    simp only [elapsed]
    exact not_le.mpr (h _)
  unfold should_exit_search
  split
  · simp only [h1, if_false]
  · rfl

theorem FailSoft.of_child {w rv a beta : Int}
    (h : FailSoft rv w (-beta) (-a)) : FailSoft (-rv) (-w) a beta := by
  obtain ⟨h1, h2, h3⟩ := h
  refine ⟨fun g1 g2 => ?_, fun g => ?_, fun g => ?_⟩
  · have := h1 (by omega) (by omega)
    omega
  · have := h3 (by omega)
    omega
  · have := h2 (by omega)
    omega

theorem plainBest_spec (f : Move → Option Int) :
    ∀ (l : List Move) (res : Option Int), plainBest f l = some res →
      (∀ m ∈ l, ∃ w, f m = some w) ∧ (l = [] → res = none) ∧
      (l ≠ [] → ∃ v, res = some v ∧ (∀ m ∈ l, ∀ w, f m = some w → -w ≤ v) ∧
        ∃ m ∈ l, ∃ w, f m = some w ∧ -w = v) := by
  intro l
  induction l with
  | nil =>
    intro res h
    simp only [plainBest, Option.some.injEq] at h
    exact ⟨fun m hm => absurd hm (List.not_mem_nil _), fun _ => h.symm,
      fun hne => absurd rfl hne⟩
  | cons m ms ih =>
    intro res h
    simp only [plainBest] at h
    split at h
    · rename_i w hw hrest
      obtain ⟨h1, h2, h3⟩ := ih none hrest
      have hnil : ms = [] := by
        by_contra hne
        obtain ⟨v, hv, _⟩ := h3 hne
        exact absurd hv (by simp)
      simp only [Option.some.injEq] at h
      refine ⟨?_, fun hc => absurd hc (List.cons_ne_nil _ _), fun _ => ⟨-w, h.symm, ?_, ?_⟩⟩
      · intro m' hm'
        rcases List.mem_cons.mp hm' with h0 | h0
        · exact ⟨w, by rw [h0]; exact hw⟩
        · exact h1 m' h0
      · intro m' hm' w' hw'
        rcases List.mem_cons.mp hm' with h0 | h0
        · rw [h0, hw] at hw'
          simp only [Option.some.injEq] at hw'
          omega
        · rw [hnil] at h0
          exact absurd h0 (List.not_mem_nil _)
      · exact ⟨m, List.mem_cons_self _ _, w, hw, rfl⟩
    · rename_i w v hw hrest
      obtain ⟨h1, h2, h3⟩ := ih (some v) hrest
      have hne : ms ≠ [] := by
        intro hc
        exact absurd (h2 hc) (by simp)
      obtain ⟨v', hv', hub, m0, hm0, w0, hw0, he0⟩ := h3 hne
      simp only [Option.some.injEq] at hv'
      simp only [Option.some.injEq] at h
      refine ⟨?_, fun hc => absurd hc (List.cons_ne_nil _ _),
        fun _ => ⟨max (-w) v, h.symm, ?_, ?_⟩⟩
      · intro m' hm'
        rcases List.mem_cons.mp hm' with h0 | h0
        · exact ⟨w, by rw [h0]; exact hw⟩
        · exact h1 m' h0
      · intro m' hm' w' hw'
        rcases List.mem_cons.mp hm' with h0 | h0
        · rw [h0, hw] at hw'
          simp only [Option.some.injEq] at hw'
          omega
        · have := hub m' h0 w' hw'
          omega
      · by_cases hc : v ≤ -w
        · exact ⟨m, List.mem_cons_self _ _, w, hw, by omega⟩
        · exact ⟨m0, List.mem_cons_of_mem _ hm0, w0, hw0, by omega⟩
    · exact absurd h (by simp)

theorem quiesce_quiet (E : Engine Board Move TT Killers)
    (hmake : ∀ b m, E.undo_move (E.make_move b m) = b) (n : Nat)
    (s : SearchState Board Move TT Killers) (alpha beta : Int) (hab : alpha < beta)
    (hall : ∀ m ∈ E.order MoveType.kCaptures s.board s.transpo s.killers
      (E.generate_capture_moves s.board),
      capture_leaves_check E (E.make_move s.board m) = true) :
    ∃ v t, quiesce E (n + 1) s alpha beta = some (v, t) ∧
      FailSoft v (E.evaluate s.board) alpha beta := by
  have hq : (900 : Int) = kQueenValue := rfl
  simp only [quiesce, quiesceBody]
  split
  · exact ⟨_, _, rfl, by simp only [FailSoft]; omega⟩
  · split
    · rename_i h2
      rw [← hq] at h2
      exact ⟨_, _, rfl, by simp only [FailSoft]; omega⟩
    · rw [quiesceLoop_all_illegal E hmake _ beta _ _ s hall]
      refine ⟨_, _, rfl, ?_⟩
      simp only [FailSoft]
      split <;> omega

theorem LoopVal.skip {alpha0 beta : Int} {legal : Move → Prop} {tv : Move → Int}
    {pre : List Move} {alpha best_eval : Int} {k : Nat} {m : Move}
    (h : LoopVal alpha0 beta legal tv pre alpha best_eval k) (hm : ¬ legal m) :
    LoopVal alpha0 beta legal tv (pre ++ [m]) alpha best_eval k := by
  obtain ⟨h1, h2, h3⟩ := h
  refine ⟨h1, h2, ?_⟩
  rcases h3 with ⟨g1, g2, g3, g4⟩ | ⟨g1, g2, g3, ⟨m0, hm0, hl0⟩, g5, g6⟩
  · left
    refine ⟨g1, g2, g3, ?_⟩
    intro m' hm'
    rcases List.mem_append.mp hm' with h0 | h0
    · exact g4 m' h0
    · rw [List.mem_singleton.mp h0]
      exact hm
  · right
    refine ⟨g1, g2, g3, ⟨m0, List.mem_append_left _ hm0, hl0⟩, ?_, ?_⟩
    · intro m' hm' hl'
      rcases List.mem_append.mp hm' with h0 | h0
      · exact g5 m' h0 hl'
      · rw [List.mem_singleton.mp h0] at hl'
        exact absurd hl' hm
    · intro hlt
      obtain ⟨m1, hm1, hl1, ht1⟩ := g6 hlt
      exact ⟨m1, List.mem_append_left _ hm1, hl1, ht1⟩

theorem LoopVal.improve {alpha0 beta : Int} {legal : Move → Prop} {tv : Move → Int}
    {pre : List Move} {alpha best_eval : Int} {k : Nat} {m : Move} {score : Int}
    (h : LoopVal alpha0 beta legal tv pre alpha best_eval k) (hm : legal m)
    (hfs : FailSoft score (tv m) alpha beta) (hsc : IsScore score)
    (hgt : score > best_eval) (hlt : max alpha score < beta) :
    LoopVal alpha0 beta legal tv (pre ++ [m]) (max alpha score) score (k + 1) := by
  obtain ⟨h1, h2, h3⟩ := h
  obtain ⟨f1, f2, f3⟩ := hfs
  have hmax : IsScore (max alpha score) := by
    simp only [IsScore, INT_MIN] at h2 hsc ⊢
    clear h3
    omega
  have hsb : score < beta := by
    clear h3
    omega
  have htv : tv m ≤ score := by
    by_cases hc : score ≤ alpha
    · exact f2 hc
    · have := f1 (by clear h3; omega) hsb
      clear h3
      omega
  have hal : alpha = alpha0 ∨ alpha = max alpha0 best_eval := by
    rcases h3 with ⟨_, _, g3, _⟩ | ⟨_, g2, _⟩
    · exact Or.inl g3
    · exact Or.inr g2
  have hmx : max alpha score = max alpha0 score := by
    clear h3
    omega
  have hpre : ∀ m' ∈ pre, legal m' → tv m' ≤ score := by
    intro m' h0 hl'
    rcases h3 with ⟨_, _, _, g4⟩ | ⟨_, _, _, _, g5, _⟩
    · exact absurd hl' (g4 m' h0)
    · have := g5 m' h0 hl'
      omega
  clear h3
  refine ⟨hlt, hmax, Or.inr ⟨Nat.succ_pos _, hmx, hsc,
    ⟨m, List.mem_append_right _ (List.mem_singleton.mpr rfl), hm⟩, ?_, ?_⟩⟩
  · intro m' hm' hl'
    rcases List.mem_append.mp hm' with h0 | h0
    · exact hpre m' h0 hl'
    · rw [List.mem_singleton.mp h0]
      exact htv
  · intro hlt0
    have ha : alpha < score := by
      clear hpre
      omega
    exact ⟨m, List.mem_append_right _ (List.mem_singleton.mpr rfl), hm, (f1 ha hsb).symm⟩

theorem LoopVal.keep {alpha0 beta : Int} {legal : Move → Prop} {tv : Move → Int}
    {pre : List Move} {alpha best_eval : Int} {k : Nat} {m : Move} {score : Int}
    (h : LoopVal alpha0 beta legal tv pre alpha best_eval k) (hm : legal m)
    (hfs : FailSoft score (tv m) alpha beta) (hsc : IsScore score)
    (hle : ¬ score > best_eval) :
    max alpha best_eval < beta ∧
      LoopVal alpha0 beta legal tv (pre ++ [m]) (max alpha best_eval) best_eval (k + 1) := by
  obtain ⟨h1, h2, h3⟩ := h
  obtain ⟨f1, f2, f3⟩ := hfs
  rcases h3 with ⟨_, g2, _, _⟩ | ⟨g1, g2, g3, ⟨m0, hm0, hl0⟩, g5, g6⟩
  · simp only [IsScore, INT_MIN] at hsc
    rw [g2] at hle
    simp only [INT_MIN] at hle
    omega
  · have hmx : max alpha best_eval = alpha := by
      clear g5 g6
      omega
    have htv : tv m ≤ best_eval := by
      have := f2 (by clear g5 g6; omega)
      clear g5 g6
      omega
    rw [hmx]
    refine ⟨h1, h1, h2, Or.inr ⟨Nat.succ_pos _, g2, g3,
      ⟨m0, List.mem_append_left _ hm0, hl0⟩, ?_, ?_⟩⟩
    · intro m' hm' hl'
      rcases List.mem_append.mp hm' with h0 | h0
      · exact g5 m' h0 hl'
      · rw [List.mem_singleton.mp h0]
        exact htv
    · intro hlt
      obtain ⟨m1, hm1, hl1, ht1⟩ := g6 hlt
      exact ⟨m1, List.mem_append_left _ hm1, hl1, ht1⟩

theorem negamaxStep_value (E : Engine Board Move TT Killers) (fuel : Nat)
    (depth ply alpha0 beta : Int) (b : Board) (st : Int)
    (hclock : ∀ i, E.now i - st < E.kMaxSearchTime)
    (tv : Move → Int) (pre : List Move) (m : Move)
    (alpha best_eval : Int) (best_move : Move) (tried : Nat)
    (s : SearchState Board Move TT Killers)
    (hb : s.board = b) (hst : s.start_time = st)
    (hinv : LoopVal alpha0 beta (fun m => move_leaves_check E (E.make_move b m) = false) tv pre
      alpha best_eval tried)
    (hchild : move_leaves_check E (E.make_move b m) = false →
      ∃ rc, negamax E fuel (do_make E s m) (depth - 1) (ply + 1) (-beta) (-alpha) = some rc ∧
        FailSoft rc.value (-(tv m)) (-beta) (-alpha) ∧ IsScore rc.value) :
    ∃ out, negamaxStep E (negamax E fuel) depth ply beta m alpha best_eval best_move tried s =
        some out ∧
      StepVal alpha0 beta (fun m => move_leaves_check E (E.make_move b m) = false) tv pre m
        alpha best_eval tried out := by
  have hbm : (do_make E s m).board = E.make_move b m := by
    simp only [do_make, hb]
  unfold negamaxStep
  simp only
  cases hc : move_leaves_check E (do_make E s m).board
  case true =>
    simp only [if_true]
    refine ⟨_, rfl, ?_⟩
    simp only [StepVal]
    refine hinv.skip ?_
    rw [hbm] at hc
    simp [hc]
  case false =>
    rw [hbm] at hc
    obtain ⟨rc, hrc, hfs, hsc⟩ := hchild hc
    have hfs' : FailSoft (-rc.value) (tv m) alpha beta := by
      have := hfs.of_child
      simpa using this
    have hstart : (do_undo E rc.state).start_time = st := by
      have := (negamax_frame E fuel _ _ _ _ _ rc hrc).start
      simp only [do_undo]
      rw [this]
      exact hst
    have hx : (should_exit_search E (do_undo E rc.state)).1 = false :=
      should_exit_search_never E _ (by rw [hstart]; exact hclock)
    simp only [Bool.false_eq_true, if_false, hrc, hx]
    by_cases hgt : -rc.value > best_eval
    · simp only [hgt, if_true]
      refine ⟨_, rfl, ?_⟩
      unfold stepTail
      simp only
      split
      · rename_i hcut
        simp only [StepVal]
        have hsb : beta ≤ -rc.value := by
          have := hinv.1
          omega
        exact ⟨Nat.succ_pos _, hsb, hc, hfs'.2.2 hsb⟩
      · rename_i hcut
        simp only [StepVal]
        exact hinv.improve hc hfs' hsc.neg hgt (not_le.mp hcut)
    · simp only [hgt, if_false]
      refine ⟨_, rfl, ?_⟩
      obtain ⟨hlt, hkeep⟩ := hinv.keep hc hfs' hsc.neg hgt
      unfold stepTail
      simp only
      split
      · rename_i hcut
        exact absurd hcut (not_le.mpr hlt)
      · simp only [StepVal]
        exact hkeep

theorem LoopVal.final {alpha0 beta : Int} {legal : Move → Prop} {tv : Move → Int}
    {pre : List Move} {alpha best_eval : Int} {k : Nat}
    (h : LoopVal alpha0 beta legal tv pre alpha best_eval k) :
    LoopFinal alpha0 beta legal tv pre best_eval k := by
  obtain ⟨h1, _, h3⟩ := h
  rcases h3 with ⟨g1, _, _, g4⟩ | ⟨g1, g2, _, g4, g5, g6⟩
  · exact Or.inl ⟨g1, g4⟩
  · have hlt : best_eval < beta := by
      clear g4 g5 g6
      omega
    exact Or.inr ⟨g1, g4, Or.inl ⟨hlt, g5, g6⟩⟩

theorem negamaxLoop_value (E : Engine Board Move TT Killers)
    (hmake : ∀ b m, E.undo_move (E.make_move b m) = b)
    (hnull : ∀ b, E.undo_move (E.make_null_move b) = b)
    (fuel : Nat) (depth ply alpha0 beta : Int) (b : Board) (st : Int)
    (hclock : ∀ i, E.now i - st < E.kMaxSearchTime) (tv : Move → Int) :
    ∀ (ms pre : List Move) (alpha best_eval : Int) (best_move : Move) (tried : Nat)
      (s : SearchState Board Move TT Killers),
      s.board = b → s.can_do_null_move = false → s.start_time = st →
      LoopVal alpha0 beta (fun m => move_leaves_check E (E.make_move b m) = false) tv pre
        alpha best_eval tried →
      (∀ m ∈ ms, move_leaves_check E (E.make_move b m) = false →
        ∀ (s1 : SearchState Board Move TT Killers) (a : Int), s1.board = b →
          s1.can_do_null_move = false → s1.start_time = st → a < beta → IsScore a →
          ∃ rc, negamax E fuel (do_make E s1 m) (depth - 1) (ply + 1) (-beta) (-a) = some rc ∧
            FailSoft rc.value (-(tv m)) (-beta) (-a) ∧ IsScore rc.value) →
      ∃ a1 b1 m1 k1 s1,
        negamaxLoop E (negamax E fuel) depth ply beta ms alpha best_eval best_move tried s =
          some (LoopOut.finished a1 b1 m1 k1 s1) ∧
        LoopFinal alpha0 beta (fun m => move_leaves_check E (E.make_move b m) = false) tv
          (pre ++ ms) b1 k1 := by
  intro ms
  induction ms with
  | nil =>
    intro pre alpha best_eval best_move tried s _ _ _ hinv _
    refine ⟨alpha, best_eval, best_move, tried, s, by simp [negamaxLoop], ?_⟩
    rw [List.append_nil]
    exact hinv.final
  | cons m ms ih =>
    intro pre alpha best_eval best_move tried s hb hf hst hinv hchild
    have hchild' : ∀ m' ∈ ms, move_leaves_check E (E.make_move b m') = false →
        ∀ (s1 : SearchState Board Move TT Killers) (a : Int), s1.board = b →
          s1.can_do_null_move = false → s1.start_time = st → a < beta → IsScore a →
          ∃ rc, negamax E fuel (do_make E s1 m') (depth - 1) (ply + 1) (-beta) (-a) = some rc ∧
            FailSoft rc.value (-(tv m')) (-beta) (-a) ∧ IsScore rc.value :=
      fun m' hm' => hchild m' (List.mem_cons_of_mem _ hm')
    obtain ⟨out, hstep, hval⟩ := negamaxStep_value E fuel depth ply alpha0 beta b st hclock tv
      pre m alpha best_eval best_move tried s hb hst hinv
      (fun hl => hchild m (List.mem_cons_self _ _) hl s alpha hb hf hst hinv.1 hinv.2.1)
    have hfr := negamaxStep_frame E (negamax E fuel) (negamax_frame E fuel) depth ply beta m
      alpha best_eval best_move tried s out hstep
    have hb' : out.state.board = b := (hfr.board hmake hnull).trans hb
    have hf' : out.state.can_do_null_move = false := hfr.flag.trans hf
    have hst' : out.state.start_time = st := hfr.start.trans hst
    have happ : pre ++ m :: ms = (pre ++ [m]) ++ ms := by simp
    simp only [negamaxLoop, hstep]
    cases out with
    | skipped s1 =>
      simp only [StepVal] at hval
      simp only
      rw [happ]
      exact ih (pre ++ [m]) _ _ _ _ s1 hb' hf' hst' hval hchild'
    | cancelled s1 =>
      simp only [StepVal] at hval
    | cutoff a1 b1 m1 k1 s1 =>
      simp only [StepVal] at hval
      obtain ⟨hk, hcut, hl, htv⟩ := hval
      have hmem : m ∈ pre ++ m :: ms :=
        List.mem_append_right _ (List.mem_cons_self _ _)
      exact ⟨a1, b1, m1, k1, s1, rfl,
        Or.inr ⟨hk, ⟨m, hmem, hl⟩, Or.inr ⟨hcut, m, hmem, hl, htv⟩⟩⟩
    | next a1 b1 m1 k1 s1 =>
      simp only [StepVal] at hval
      simp only
      rw [happ]
      exact ih (pre ++ [m]) _ _ _ _ s1 hb' hf' hst' hval hchild'

theorem LoopFinal.failSoft {alpha0 beta : Int} {legal : Move → Prop} {tv : Move → Int}
    {all : List Move} {v : Int} {k : Nat} {n : Int}
    (h : LoopFinal alpha0 beta legal tv all v k) (hab : alpha0 < beta)
    (hub : ∀ m ∈ all, legal m → tv m ≤ n) (hex : ∃ m ∈ all, legal m ∧ tv m = n) :
    0 < k ∧ FailSoft v n alpha0 beta := by
  obtain ⟨m0, hm0, hl0, ht0⟩ := hex
  rcases h with ⟨_, g⟩ | ⟨hk, _, g⟩
  · exact absurd hl0 (g m0 hm0)
  · refine ⟨hk, ?_⟩
    rcases g with ⟨g1, g2, g3⟩ | ⟨g1, m1, hm1, hl1, ht1⟩
    · have hn : n ≤ v := by
        have := g2 m0 hm0 hl0
        omega
      refine ⟨fun f1 _ => ?_, fun _ => hn, fun f3 => ?_⟩
      · obtain ⟨m2, hm2, hl2, ht2⟩ := g3 f1
        have := hub m2 hm2 hl2
        omega
      · omega
    · have hv : v ≤ n := by
        have := hub m1 hm1 hl1
        omega
      refine ⟨fun _ f2 => ?_, fun f => ?_, fun _ => hv⟩
      · omega
      · omega

theorem LoopFinal.none_tried {alpha0 beta : Int} {legal : Move → Prop} {tv : Move → Int}
    {all : List Move} {v : Int} {k : Nat}
    (h : LoopFinal alpha0 beta legal tv all v k) (hno : ∀ m ∈ all, ¬ legal m) : k = 0 := by
  rcases h with ⟨hk, _⟩ | ⟨_, ⟨m, hm, hl⟩, _⟩
  · exact hk
  · exact absurd hl (hno m hm)

theorem tableInt_of_miss (E : Engine Board Move TT Killers)
    (hprobe : ∀ t k, (E.probe t k).key ≠ k) : TableInt E (fun _ => True) :=
  ⟨fun _ _ _ _ _ => trivial, fun t k _ h => absurd h (hprobe t k)⟩

theorem negamaxMoves_value (E : Engine Board Move TT Killers)
    (hmake : ∀ b m, E.undo_move (E.make_move b m) = b)
    (hnull : ∀ b, E.undo_move (E.make_null_move b) = b)
    (hprobe : ∀ t k, (E.probe t k).key ≠ k)
    (hperm : ∀ ty b t k ms, (E.order ty b t k ms).Perm ms)
    (f : Nat)
    (ih : ∀ (s : SearchState Board Move TT Killers) (depth ply alpha beta n : Int),
      s.can_do_null_move = false → (∀ i, E.now i - s.start_time < E.kMaxSearchTime) →
      horizonQuiet E f s.board depth = true → plainNegamax E f s.board depth ply = some n →
      alpha < beta → IsScore alpha → IsScore beta → 0 ≤ ply →
      ply + (f + 1 : Nat) ≤ 2147483647 →
      ∃ r, negamax E (f + 1) s depth ply alpha beta = some r ∧ FailSoft r.value n alpha beta)
    (s : SearchState Board Move TT Killers) (in_check : Bool) (d1 ply alpha beta : Int)
    (res : Option Int)
    (hf : s.can_do_null_move = false)
    (hclock : ∀ i, E.now i - s.start_time < E.kMaxSearchTime)
    (hquiet : (legalMoves E s.board).all
      (fun m => horizonQuiet E f (E.make_move s.board m) (d1 - 1)) = true)
    (hN : plainBest (fun m => plainNegamax E f (E.make_move s.board m) (d1 - 1) (ply + 1))
      (legalMoves E s.board) = some res)
    (hab : alpha < beta) (ha : IsScore alpha) (hb : IsScore beta) (hp0 : 0 ≤ ply)
    (hp1 : ply + (f + 1 + 1 : Nat) ≤ 2147483647) :
    ∃ r, negamaxMoves E (negamax E (f + 1)) in_check alpha s d1 ply alpha beta = some r ∧
      FailSoft r.value
        (match res with
          | none => if in_check then -kMateScore + ply else kDrawScore
          | some v => v) alpha beta := by
  obtain ⟨hsome, hnil, hcons⟩ := plainBest_spec _ _ _ hN
  have hmem : ∀ m, m ∈ orderedMoves E s ↔ m ∈ E.generate_moves s.board := by
    intro m
    exact (hperm _ _ _ _ _).mem_iff
  have hlegal : ∀ m, m ∈ legalMoves E s.board ↔
      (m ∈ E.generate_moves s.board ∧ move_leaves_check E (E.make_move s.board m) = false) := by
    intro m
    simp [legalMoves, List.mem_filter]
  have hchild : ∀ m ∈ orderedMoves E s, move_leaves_check E (E.make_move s.board m) = false →
      ∀ (s1 : SearchState Board Move TT Killers) (a : Int), s1.board = s.board →
        s1.can_do_null_move = false → s1.start_time = s.start_time → a < beta → IsScore a →
        ∃ rc, negamax E (f + 1) (do_make E s1 m) (d1 - 1) (ply + 1) (-beta) (-a) = some rc ∧
          FailSoft rc.value
            (-(-((plainNegamax E f (E.make_move s.board m) (d1 - 1) (ply + 1)).getD 0)))
            (-beta) (-a) ∧ IsScore rc.value := by
    intro m hm hl s1 a hb1 hf1 hst1 hlt hia
    have hml : m ∈ legalMoves E s.board := (hlegal m).mpr ⟨(hmem m).mp hm, hl⟩
    obtain ⟨w, hw⟩ := hsome m hml
    have hq := List.all_eq_true.mp hquiet m hml
    have hbm : (do_make E s1 m).board = E.make_move s.board m := by
      simp only [do_make, hb1]
    have hp1' : (ply + 1) + (f + 1 : Nat) ≤ 2147483647 := by
      push_cast at hp1 ⊢
      omega
    obtain ⟨rc, hrc, hfs⟩ := ih (do_make E s1 m) (d1 - 1) (ply + 1) (-beta) (-a) w hf1
      (by
        have : (do_make E s1 m).start_time = s.start_time := hst1
        rw [this]
        exact hclock)
      (by rw [hbm]; exact hq) (by rw [hbm]; exact hw) (by omega) hb.neg hia.neg (by omega) hp1'
    have hrange := negamax_range E (fun _ => True) (tableInt_of_miss E hprobe) (f + 1) _ _ _ _ _
      rc hrc trivial hb.neg hia.neg (by omega) hp1'
    refine ⟨rc, hrc, ?_, hrange.1⟩
    rw [hw]
    simpa using hfs
  obtain ⟨a1, b1, m1, k1, s1, hloop, hfin⟩ := negamaxLoop_value E hmake hnull (f + 1) d1 ply
    alpha beta s.board s.start_time hclock
    (fun m => -((plainNegamax E f (E.make_move s.board m) (d1 - 1) (ply + 1)).getD 0))
    (orderedMoves E s) [] alpha INT_MIN E.no_move 0 s rfl hf rfl
    ⟨hab, ha, Or.inl ⟨rfl, rfl, rfl, fun m hm => absurd hm (List.not_mem_nil _)⟩⟩ hchild
  rw [List.nil_append] at hfin
  simp only [negamaxMoves, hloop]
  cases res with
  | none =>
    have hempty : legalMoves E s.board = [] := by
      by_contra hne
      obtain ⟨v, hv, _⟩ := hcons hne
      exact absurd hv (by simp)
    have hk : k1 = 0 := by
      refine hfin.none_tried ?_
      intro m hm hl
      have : m ∈ legalMoves E s.board := (hlegal m).mpr ⟨(hmem m).mp hm, hl⟩
      rw [hempty] at this
      exact absurd this (List.not_mem_nil _)
    simp only [hk, if_true]
    exact ⟨_, rfl, fun _ _ => rfl, fun _ => le_refl _, fun _ => le_refl _⟩
  | some v =>
    have hne : legalMoves E s.board ≠ [] := by
      intro hc
      exact absurd (hnil hc) (by simp)
    obtain ⟨v', hv', hub, m0, hm0, w0, hw0, he0⟩ := hcons hne
    simp only [Option.some.injEq] at hv'
    have hub' : ∀ m ∈ orderedMoves E s, move_leaves_check E (E.make_move s.board m) = false →
        -((plainNegamax E f (E.make_move s.board m) (d1 - 1) (ply + 1)).getD 0) ≤ v := by
      intro m hm hl
      have hml : m ∈ legalMoves E s.board := (hlegal m).mpr ⟨(hmem m).mp hm, hl⟩
      obtain ⟨w, hw⟩ := hsome m hml
      have := hub m hml w hw
      rw [hw]
      simp only [Option.getD_some]
      omega
    have hex' : ∃ m ∈ orderedMoves E s, move_leaves_check E (E.make_move s.board m) = false ∧
        -((plainNegamax E f (E.make_move s.board m) (d1 - 1) (ply + 1)).getD 0) = v := by
      have h0 := (hlegal m0).mp hm0
      refine ⟨m0, (hmem m0).mpr h0.1, h0.2, ?_⟩
      rw [hw0]
      simp only [Option.getD_some]
      omega
    obtain ⟨hk, hfs⟩ := hfin.failSoft hab hub' hex'
    have hk' : ¬ k1 = 0 := by omega
    simp only [hk', if_false]
    exact ⟨_, rfl, hfs⟩

theorem negamax_value (E : Engine Board Move TT Killers)
    (hmake : ∀ b m, E.undo_move (E.make_move b m) = b)
    (hnull : ∀ b, E.undo_move (E.make_null_move b) = b)
    (hprobe : ∀ t k, (E.probe t k).key ≠ k)
    (hperm : ∀ ty b t k ms, (E.order ty b t k ms).Perm ms) :
    ∀ (fuel : Nat) (s : SearchState Board Move TT Killers) (depth ply alpha beta n : Int),
      s.can_do_null_move = false → (∀ i, E.now i - s.start_time < E.kMaxSearchTime) →
      horizonQuiet E fuel s.board depth = true → plainNegamax E fuel s.board depth ply = some n →
      alpha < beta → IsScore alpha → IsScore beta → 0 ≤ ply →
      ply + (fuel + 1 : Nat) ≤ 2147483647 →
      ∃ r, negamax E (fuel + 1) s depth ply alpha beta = some r ∧
        FailSoft r.value n alpha beta := by
  intro fuel
  induction fuel with
  | zero =>
    intro s depth ply alpha beta n _ _ _ hN
    simp [plainNegamax] at hN
  | succ f ih =>
    intro s depth ply alpha beta n hf hclock hquiet hN hab ha hb hp0 hp1
    have hc : ¬ ((probeSlot E s).key = E.zobrist_key s.board ∧ (probeSlot E s).depth ≥ depth) :=
      fun h => hprobe _ _ h.1
    have hbody : negamax E (f + 1 + 1) s depth ply alpha beta =
        negamaxSearch E (quiesce E (f + 1)) (negamax E (f + 1)) alpha s depth ply alpha beta := by
      simp only [negamax, negamaxBody, hc, if_false]
    have hx := should_exit_search_never E s hclock
    have hfr := Frame.exit E s
    obtain ⟨kb, kt, kk, _, _, _, _⟩ := should_exit_search_keeps E s
    have hf2 : (should_exit_search E s).2.can_do_null_move = false := hfr.flag.trans hf
    have hst2 : (should_exit_search E s).2.start_time = s.start_time := hfr.start
    rw [hbody]
    simp only [negamaxSearch, hx, Bool.false_eq_true, if_false, kb]
    simp only [plainNegamax] at hN
    simp only [horizonQuiet] at hquiet
    by_cases hd : extendDepth (E.king_in_check (E.turn s.board) s.board) depth ≤ 0
    · simp only [hd, if_true] at hN hquiet ⊢
      simp only [Option.some.injEq] at hN
      have hall : ∀ m ∈ E.order MoveType.kCaptures (countNode (should_exit_search E s).2).board
          (countNode (should_exit_search E s).2).transpo
          (countNode (should_exit_search E s).2).killers
          (E.generate_capture_moves (countNode (should_exit_search E s).2).board),
          capture_leaves_check E
            (E.make_move (countNode (should_exit_search E s).2).board m) = true := by
        intro m hm
        have hbd : (countNode (should_exit_search E s).2).board = s.board := kb
        rw [hbd] at hm ⊢
        exact List.all_eq_true.mp hquiet m ((hperm _ _ _ _ _).mem_iff.mp hm)
      obtain ⟨v, t, hq, hfs⟩ := quiesce_quiet E hmake f _ alpha beta hab hall
      have hbd : (countNode (should_exit_search E s).2).board = s.board := kb
      rw [hbd] at hfs
      rw [hq]
      rw [← hN]
      exact ⟨_, rfl, hfs⟩
    · simp only [hd, if_false] at hN hquiet ⊢
      have hnn : negamaxNull E (negamax E (f + 1)) (E.king_in_check (E.turn s.board) s.board)
          alpha (should_exit_search E s).2
          (extendDepth (E.king_in_check (E.turn s.board) s.board) depth) ply alpha beta =
          negamaxMoves E (negamax E (f + 1)) (E.king_in_check (E.turn s.board) s.board)
            alpha (should_exit_search E s).2
            (extendDepth (E.king_in_check (E.turn s.board) s.board) depth) ply alpha beta := by
        simp only [negamaxNull, hf2, Bool.false_and, Bool.false_eq_true, if_false]
      rw [hnn]
      cases hres : plainBest (fun m => plainNegamax E f (E.make_move s.board m)
          (extendDepth (E.king_in_check (E.turn s.board) s.board) depth - 1) (ply + 1))
          (legalMoves E s.board) with
      | none =>
        rw [hres] at hN
        exact absurd hN (by simp)
      | some res =>
        rw [hres] at hN
        have hp1' : ply + (f + 1 + 1 : Nat) ≤ 2147483647 := by
          push_cast at hp1 ⊢
          omega
        obtain ⟨r, hr, hfs⟩ := negamaxMoves_value E hmake hnull hprobe hperm f ih
          (should_exit_search E s).2 (E.king_in_check (E.turn s.board) s.board)
          (extendDepth (E.king_in_check (E.turn s.board) s.board) depth) ply alpha beta res hf2
          (by rw [hst2]; exact hclock) (by rw [kb]; exact hquiet) (by rw [kb]; exact hres)
          hab ha hb hp0 hp1'
        refine ⟨r, hr, ?_⟩
        cases res with
        | none =>
          simp only [Option.some.injEq] at hN
          rw [← hN]
          exact hfs
        | some v =>
          simp only [Option.some.injEq] at hN
          rw [← hN]
          exact hfs

/-- C1: `negamax` is a correct fail-soft alpha-beta search.  Let `undo_move`
reverse `make_move` and `make_null_move`, let the probe never match, null-move
pruning be off, the clock never reach the budget and the orderer permute the
generated moves; let the plain negamax value `n = N(pos, depth, ply)` exist
with `fuel` levels (the tree is finite) and the horizon positions have no
legal capture; let window and plies be in the range of `int`.  Then for every
depth and window `alpha < beta` the call returns a value `v` with: `v = n`
if `alpha < v < beta`; `n ≤ v` if `v ≤ alpha`; `n ≥ v` if `v ≥ beta`.  In
particular the full window `(-MATE, +MATE)` returns `n` when `|n| < MATE`. -/
theorem negamax_fail_soft (E : Engine Board Move TT Killers)
    (hmake : ∀ b m, E.undo_move (E.make_move b m) = b)
    (hnull : ∀ b, E.undo_move (E.make_null_move b) = b)
    (hprobe : ∀ t k, (E.probe t k).key ≠ k)
    (hperm : ∀ ty b t k ms, (E.order ty b t k ms).Perm ms)
    (fuel : Nat) (s : SearchState Board Move TT Killers) (depth ply alpha beta n : Int)
    (hflag : s.can_do_null_move = false)
    (hclock : ∀ i, E.now i - s.start_time < E.kMaxSearchTime)
    (hquiet : horizonQuiet E fuel s.board depth = true)
    (hN : plainNegamax E fuel s.board depth ply = some n)
    (hab : alpha < beta) (ha : IsScore alpha) (hb : IsScore beta)
    (hp0 : 0 ≤ ply) (hp1 : ply + (fuel + 1 : Nat) ≤ 2147483647) :
    ∃ r, negamax E (fuel + 1) s depth ply alpha beta = some r ∧
      (alpha < r.value → r.value < beta → r.value = n) ∧
      (r.value ≤ alpha → n ≤ r.value) ∧
      (beta ≤ r.value → r.value ≤ n) ∧
      (alpha = -kMateScore → beta = kMateScore → -kMateScore < n → n < kMateScore →
        r.value = n) := by
  obtain ⟨r, hr, h1, h2, h3⟩ := negamax_value E hmake hnull hprobe hperm fuel s depth ply
    alpha beta n hflag hclock hquiet hN hab ha hb hp0 hp1
  refine ⟨r, hr, h1, h2, h3, ?_⟩
  intro hal hbe hn1 hn2
  by_cases c1 : r.value ≤ alpha
  · have := h2 c1
    omega
  · by_cases c2 : beta ≤ r.value
    · have := h3 c2
      omega
    · exact h1 (by omega) (by omega)

/-- Witness for C1: on the three-move tree without captures, whose plain
negamax value at depth 1 is 2, the depth-1 root search with window (-100, 100)
returns a value that is exact inside the window. -/
theorem negamax_fail_soft_witness :
    plainNegamax plainEngine 3 plainState.board 1 0 = some 2 ∧
      ∃ r, negamax plainEngine 4 plainState 1 0 (-100) 100 = some r ∧
        (-100 < r.value → r.value < 100 → r.value = 2) := by
  refine ⟨by decide, ?_⟩
  obtain ⟨r, hr, h1, _⟩ := negamax_fail_soft plainEngine (fun _ _ => rfl) (fun _ => rfl)
    (fun _ k => by
      show k + 1 ≠ k
      omega)
    (fun _ _ _ _ ms => List.Perm.refl ms) 3 plainState 1 0 (-100) 100 2
    rfl (fun _ => by
      show (0 : Int) - 0 < 1
      decide)
    (by decide) (by decide) (by decide) (by decide) (by decide) (by decide) (by decide)
  exact ⟨r, hr, h1⟩

/-! ### Mate scores from the table -/

/-- C5 fails on the code: a mate score saved at ply 4 is stored normalised as
31986; a node at ply 2 that hits this slot returns the stored 31986 as it is,
while the adjustment reversed for ply 2 gives 31988. -/
theorem tt_mate_score_unadjusted :
    (probeSlot specEngine mateState).key = specEngine.zobrist_key mateState.board ∧
      (probeSlot specEngine mateState).evaluation = toTableScore 31990 4 ∧
      (negamax specEngine 1 mateState 3 2 (-kMateScore) kMateScore).map
        (fun r => (r.value, r.path)) = some (31986, Exit.ttExact) ∧
      fromTableScore (probeSlot specEngine mateState).evaluation 2 = 31988 := by
  decide

/-! ### Continuation history: what one update writes -/

theorem updateIndividualScore_table (h : ContinuationHistory Move) (move : Move) (d : Int)
    (st : SearchStackEntry Move) (e x : Index) :
    (h.UpdateIndividualScore move d st).table_ e x =
      h.table_ e x + (if st.continuation_entry = some e ∧ x = h.cell move then d else 0) := by
  unfold ContinuationHistory.UpdateIndividualScore
  cases hc : st.continuation_entry with
  | none => simp
  | some e0 =>
    simp only [Option.some.injEq]
    by_cases h1 : e = e0
    · by_cases h2 : x = h.cell move
      · simp [h1, h2]
      · simp [h1, h2]
    · have h3 : ¬ e0 = e := fun h => h1 h.symm
      simp [h1, h3]

theorem updateIndividualScore_cell (h : ContinuationHistory Move) (move : Move) (d : Int)
    (st : SearchStackEntry Move) (m : Move) :
    (h.UpdateIndividualScore move d st).cell m = h.cell m := by
  unfold ContinuationHistory.UpdateIndividualScore
  cases st.continuation_entry <;> rfl

theorem updateOffsets_cell (h : ContinuationHistory Move) (move : Move) (d : Int)
    (stack : Int → SearchStackEntry Move) (m : Move) :
    (h.updateOffsets move d stack).cell m = h.cell m := by
  simp only [ContinuationHistory.updateOffsets, updateIndividualScore_cell]

/-- The three writes of lines 24-26 add the amount to the cell of the move in
an entry once for every pointer to that entry, and nothing anywhere else. -/
theorem updateOffsets_table (h : ContinuationHistory Move) (move : Move) (d : Int)
    (stack : Int → SearchStackEntry Move) (e x : Index) :
    (h.updateOffsets move d stack).table_ e x =
      h.table_ e x + (if x = h.cell move then refCount stack e * d else 0) := by
  simp only [ContinuationHistory.updateOffsets, updateIndividualScore_table,
    updateIndividualScore_cell, refCount]
  by_cases hx : x = h.cell move
  · simp only [hx, and_true, if_true]
    split_ifs <;> ring
  · simp [hx]

theorem penalizeQuiets_cell (stack : Int → SearchStackEntry Move) (bonus : Int) (m : Move) :
    ∀ (qs : List Move) (h : ContinuationHistory Move),
      (ContinuationHistory.penalizeQuiets stack bonus qs h).cell m = h.cell m := by
  intro qs
  induction qs with
  | nil => intro h; rfl
  | cons q qs ih =>
    intro h
    simp only [ContinuationHistory.penalizeQuiets]
    rw [ih, updateOffsets_cell]

theorem updateScore_cell (h : ContinuationHistory Move) (stack : Int → SearchStackEntry Move)
    (depth : Int) (quiets : List Move) (m : Move) :
    (h.UpdateScore stack depth quiets).cell m = h.cell m := by
  simp only [ContinuationHistory.UpdateScore]
  rw [penalizeQuiets_cell, updateOffsets_cell]

/-- With an empty quiets list, `UpdateScore` adds the scaled bonus to the cell
of the cutoff move in an entry once for every pointer to that entry. -/
theorem updateScore_nil_table (h : ContinuationHistory Move)
    (stack : Int → SearchStackEntry Move) (depth : Int) (e x : Index) :
    (h.UpdateScore stack depth []).table_ e x =
      h.table_ e x + (if x = h.cell (stack 0).move then
        refCount stack e *
          ScaleBonus (h.combinedScore (stack 0).move stack) (HistoryBonus depth) else 0) := by
  simp only [ContinuationHistory.UpdateScore, ContinuationHistory.penalizeQuiets]
  rw [updateOffsets_table]

/-- C12: when the entries at offsets -1, -2, -4 hold non-null, pairwise
distinct continuation pointers `e1`, `e2`, `e4` and the quiets list is empty,
`UpdateScore` adds to the cell of the cutoff move `m = stack->move` (indexed by
the side to move, the piece type on `m.from`, and `m.to`) in each of the three
entries the same amount `ScaleBonus(s, HistoryBonus(depth))`, where `s` is the
sum of the three values before the update, and leaves every other cell of the
whole table as it was. -/
theorem update_score_bonus (h : ContinuationHistory Move)
    (stack : Int → SearchStackEntry Move) (depth : Int) (e1 e2 e4 : Index)
    (h1 : (stack (-1)).continuation_entry = some e1)
    (h2 : (stack (-2)).continuation_entry = some e2)
    (h4 : (stack (-4)).continuation_entry = some e4)
    (h12 : e1 ≠ e2) (h14 : e1 ≠ e4) (h24 : e2 ≠ e4) (e x : Index) :
    (h.UpdateScore stack depth []).table_ e x =
      if (e = e1 ∨ e = e2 ∨ e = e4) ∧
          x = ⟨h.state_.turn, h.state_.GetPieceType (h.GetFrom (stack 0).move),
            h.GetTo (stack 0).move⟩ then
        h.table_ e x +
          ScaleBonus (h.table_ e1 x + h.table_ e2 x + h.table_ e4 x) (HistoryBonus depth)
      else h.table_ e x := by
  rw [updateScore_nil_table]
  have hc : h.cell (stack 0).move =
      ⟨h.state_.turn, h.state_.GetPieceType (h.GetFrom (stack 0).move),
        h.GetTo (stack 0).move⟩ := rfl
  rw [← hc]
  have hs : h.combinedScore (stack 0).move stack =
      h.table_ e1 (h.cell (stack 0).move) + h.table_ e2 (h.cell (stack 0).move) +
        h.table_ e4 (h.cell (stack 0).move) := by
    simp only [ContinuationHistory.combinedScore, ContinuationHistory.GetScore, h1, h2, h4]
  have hr : refCount stack e = if e = e1 ∨ e = e2 ∨ e = e4 then 1 else 0 := by
    simp only [refCount, h1, h2, h4, Option.some.injEq]
    by_cases a1 : e = e1
    · have b1 : ¬ e2 = e := fun g => h12 (a1.symm.trans g.symm)
      have b2 : ¬ e4 = e := fun g => h14 (a1.symm.trans g.symm)
      simp [a1, b1, b2, a1 ▸ b1, a1 ▸ b2]
    · have a1' : ¬ e1 = e := fun g => a1 g.symm
      by_cases a2 : e = e2
      · have b2 : ¬ e4 = e := fun g => h24 (a2.symm.trans g.symm)
        simp [a2, a2 ▸ a1', a2 ▸ b2, Ne.symm h12]
      · have a2' : ¬ e2 = e := fun g => a2 g.symm
        by_cases a4 : e = e4
        · simp [a4, a4 ▸ a1', a4 ▸ a2', Ne.symm h14, Ne.symm h24]
        · have a4' : ¬ e4 = e := fun g => a4 g.symm
          simp [a1, a2, a4, a1', a2', a4']
  rw [hs, hr]
  by_cases hx : x = h.cell (stack 0).move
  · subst hx
    by_cases he : e = e1 ∨ e = e2 ∨ e = e4
    · simp [he]
    · simp [he]
  · simp [hx]

/-- Witness for C12: on the all-zero table, with three distinct entries behind
the stack and the cutoff move 9 (piece type 3 on square 9) at depth 20, each
of the three entries gets `ScaleBonus(0, 1896) = 1896` in the cell of the
move. -/
theorem update_score_bonus_witness :
    ((plainHistory zeroTable).UpdateScore
        (stackOf 9 (some ⟨Color.kWhite, 1, 1⟩) (some ⟨Color.kBlack, 2, 2⟩)
          (some ⟨Color.kWhite, 4, 4⟩)) 20 []).table_ ⟨Color.kBlack, 2, 2⟩
        ⟨Color.kWhite, 3, 9⟩ = 1896 := by
  rw [update_score_bonus (plainHistory zeroTable) _ 20 ⟨Color.kWhite, 1, 1⟩
    ⟨Color.kBlack, 2, 2⟩ ⟨Color.kWhite, 4, 4⟩ rfl rfl rfl (by decide) (by decide) (by decide)]
  decide

/-! ### Continuation history: null references -/

theorem updateOffsets_untouched (h : ContinuationHistory Move) (move : Move) (d : Int)
    (stack : Int → SearchStackEntry Move) (e : Index) (he : refCount stack e = 0) (x : Index) :
    (h.updateOffsets move d stack).table_ e x = h.table_ e x := by
  rw [updateOffsets_table, he]
  simp

theorem penalizeQuiets_untouched (stack : Int → SearchStackEntry Move) (bonus : Int)
    (e : Index) (he : refCount stack e = 0) (x : Index) :
    ∀ (qs : List Move) (h : ContinuationHistory Move),
      (ContinuationHistory.penalizeQuiets stack bonus qs h).table_ e x = h.table_ e x := by
  intro qs
  induction qs with
  | nil => intro h; rfl
  | cons q qs ih =>
    intro h
    simp only [ContinuationHistory.penalizeQuiets]
    rw [ih, updateOffsets_untouched h q _ stack e he]

theorem refCount_eq_zero (stack : Int → SearchStackEntry Move) (e : Index)
    (h1 : (stack (-1)).continuation_entry ≠ some e)
    (h2 : (stack (-2)).continuation_entry ≠ some e)
    (h4 : (stack (-4)).continuation_entry ≠ some e) : refCount stack e = 0 := by
  simp [refCount, h1, h2, h4]

theorem updateOffsets_null (h : ContinuationHistory Move) (move : Move) (d : Int)
    (stack : Int → SearchStackEntry Move)
    (h1 : (stack (-1)).continuation_entry = none)
    (h2 : (stack (-2)).continuation_entry = none)
    (h4 : (stack (-4)).continuation_entry = none) :
    h.updateOffsets move d stack = h := by
  simp only [ContinuationHistory.updateOffsets, ContinuationHistory.UpdateIndividualScore,
    h1, h2, h4]

theorem penalizeQuiets_null (stack : Int → SearchStackEntry Move) (bonus : Int)
    (h1 : (stack (-1)).continuation_entry = none)
    (h2 : (stack (-2)).continuation_entry = none)
    (h4 : (stack (-4)).continuation_entry = none) :
    ∀ (qs : List Move) (h : ContinuationHistory Move),
      ContinuationHistory.penalizeQuiets stack bonus qs h = h := by
  intro qs
  induction qs with
  | nil => intro h; rfl
  | cons q qs ih =>
    intro h
    simp only [ContinuationHistory.penalizeQuiets]
    rw [updateOffsets_null h q _ stack h1 h2 h4, ih]

theorem updateScore_null (h : ContinuationHistory Move) (stack : Int → SearchStackEntry Move)
    (depth : Int) (quiets : List Move)
    (h1 : (stack (-1)).continuation_entry = none)
    (h2 : (stack (-2)).continuation_entry = none)
    (h4 : (stack (-4)).continuation_entry = none) :
    h.UpdateScore stack depth quiets = h := by
  simp only [ContinuationHistory.UpdateScore]
  rw [penalizeQuiets_null stack _ h1 h2 h4, updateOffsets_null h _ _ stack h1 h2 h4]

/-- C16: `GetScore` through a null continuation pointer is 0; `UpdateScore`
writes nothing through a null pointer: with the entries at offsets -1, -2, -4
all null the history is unchanged, whatever the depth, the cutoff move and the
quiets, and in general an entry of the table that none of the three pointers
points to is unchanged, so that only the entries behind the non-null pointers
can change; a single `UpdateIndividualScore` through a null pointer changes
nothing either. -/
theorem null_continuation_refs (h : ContinuationHistory Move) :
    (∀ (move : Move) (st : SearchStackEntry Move),
        st.continuation_entry = none → h.GetScore move st = 0) ∧
    (∀ (move : Move) (d : Int) (st : SearchStackEntry Move),
        st.continuation_entry = none → h.UpdateIndividualScore move d st = h) ∧
    (∀ (stack : Int → SearchStackEntry Move) (depth : Int) (quiets : List Move),
        (stack (-1)).continuation_entry = none →
        (stack (-2)).continuation_entry = none →
        (stack (-4)).continuation_entry = none →
          h.UpdateScore stack depth quiets = h) ∧
    (∀ (stack : Int → SearchStackEntry Move) (depth : Int) (quiets : List Move) (e : Index),
        (stack (-1)).continuation_entry ≠ some e →
        (stack (-2)).continuation_entry ≠ some e →
        (stack (-4)).continuation_entry ≠ some e →
          ∀ x, (h.UpdateScore stack depth quiets).table_ e x = h.table_ e x) := by
  refine ⟨?_, ?_, ?_, ?_⟩
  · intro move st hn
    simp only [ContinuationHistory.GetScore, hn]
  · intro move d st hn
    simp only [ContinuationHistory.UpdateIndividualScore, hn]
  · intro stack depth quiets h1 h2 h4
    exact updateScore_null h stack depth quiets h1 h2 h4
  · intro stack depth quiets e h1 h2 h4 x
    have he := refCount_eq_zero stack e h1 h2 h4
    simp only [ContinuationHistory.UpdateScore]
    rw [penalizeQuiets_untouched stack _ e he, updateOffsets_untouched h _ _ stack e he]

/-- Witness for C16: with only the pointer at offset -2 non-null, an update at
depth 20 with the quiets 3 and 5 leaves the entry `(White, 1, 1)`, which no
pointer refers to, at 7 in the cell of the cutoff move, and a read through the
null pointer at offset -1 gives 0. -/
theorem null_continuation_refs_witness :
    ((plainHistory (fun _ _ => 7)).UpdateScore
        (stackOf 9 none (some ⟨Color.kBlack, 2, 2⟩) none) 20 [3, 5]).table_
        ⟨Color.kWhite, 1, 1⟩ ⟨Color.kWhite, 3, 9⟩ = 7 ∧
      (plainHistory (fun _ _ => 7)).GetScore 9
        (stackOf 9 none (some ⟨Color.kBlack, 2, 2⟩) none (-1)) = 0 :=
  ⟨(null_continuation_refs (plainHistory (fun _ _ => 7))).2.2.2
      (stackOf 9 none (some ⟨Color.kBlack, 2, 2⟩) none) 20 [3, 5] ⟨Color.kWhite, 1, 1⟩
      (by decide) (by decide) (by decide) ⟨Color.kWhite, 3, 9⟩,
    (null_continuation_refs (plainHistory (fun _ _ => 7))).1 9 _ rfl⟩

/-! ### Continuation history: the penalised quiets -/

theorem penalizeQuiets_append (stack : Int → SearchStackEntry Move) (bonus : Int) (q : Move) :
    ∀ (qs : List Move) (h : ContinuationHistory Move),
      ContinuationHistory.penalizeQuiets stack bonus (qs ++ [q]) h =
        (ContinuationHistory.penalizeQuiets stack bonus qs h).updateOffsets q
          (-(ScaleBonus ((ContinuationHistory.penalizeQuiets stack bonus qs h).combinedScore
            q stack) bonus)) stack := by
  intro qs
  induction qs with
  | nil => intro h; rfl
  | cons p qs ih =>
    intro h
    show ContinuationHistory.penalizeQuiets stack bonus (qs ++ [q]) _ = _
    rw [ih]
    rfl

theorem penalizeQuiets_other_cell (stack : Int → SearchStackEntry Move) (bonus : Int)
    (e c : Index) :
    ∀ (qs : List Move) (h : ContinuationHistory Move), (∀ q ∈ qs, h.cell q ≠ c) →
      (ContinuationHistory.penalizeQuiets stack bonus qs h).table_ e c = h.table_ e c := by
  intro qs
  induction qs with
  | nil => intro h _; rfl
  | cons q qs ih =>
    intro h hq
    simp only [ContinuationHistory.penalizeQuiets]
    rw [ih]
    · rw [updateOffsets_table]
      have := hq q (List.mem_cons_self _ _)
      simp [Ne.symm this]
    · intro p hp
      rw [updateOffsets_cell]
      exact hq p (List.mem_cons_of_mem _ hp)

/-- C17, as stated, fails: with one entry behind the stack and the cutoff move
9 at depth 20 on the all-zero table, the quiets list `[9]`, which contains the
cutoff move, leaves the cell of the move at 219 (the bonus 1896 and then the
penalty 1677), while the list with the move removed leaves it at 1896. -/
theorem penalty_hits_cutoff_move :
    ((plainHistory zeroTable).UpdateScore (stackOf 9 (some ⟨Color.kWhite, 1, 1⟩) none none)
        20 [9]).table_ ⟨Color.kWhite, 1, 1⟩ ⟨Color.kWhite, 3, 9⟩ = 219 ∧
      ((plainHistory zeroTable).UpdateScore (stackOf 9 (some ⟨Color.kWhite, 1, 1⟩) none none)
        20 []).table_ ⟨Color.kWhite, 1, 1⟩ ⟨Color.kWhite, 3, 9⟩ = 1896 := by
  decide

/-- C17, amended: `UpdateScore` penalises every quiet of the list it is handed,
the cutoff move included when the list contains it: the last quiet `q` of a
list gets `-ScaleBonus(s_q, bonus)` in its cell once for every pointer among
the three offsets, with `s_q` the combined score after the updates before it.
The cells of the cutoff move receive the bonus `+ScaleBonus(s, bonus)` and
nothing else when no quiet of the list has the cell of the cutoff move. -/
theorem penalty_on_listed_quiets (h : ContinuationHistory Move)
    (stack : Int → SearchStackEntry Move) (depth : Int) :
    (∀ (quiets : List Move) (q : Move) (e x : Index),
        (h.UpdateScore stack depth (quiets ++ [q])).table_ e x =
          (h.UpdateScore stack depth quiets).table_ e x -
            (if x = h.cell q then
              refCount stack e *
                ScaleBonus ((h.UpdateScore stack depth quiets).combinedScore q stack)
                  (HistoryBonus depth)
            else 0)) ∧
    (∀ (quiets : List Move), (∀ q ∈ quiets, h.cell q ≠ h.cell (stack 0).move) →
        ∀ e, (h.UpdateScore stack depth quiets).table_ e (h.cell (stack 0).move) =
          h.table_ e (h.cell (stack 0).move) +
            refCount stack e *
              ScaleBonus (h.combinedScore (stack 0).move stack) (HistoryBonus depth)) := by
  constructor
  · intro quiets q e x
    have hc := updateScore_cell h stack depth quiets q
    simp only [ContinuationHistory.UpdateScore] at hc ⊢
    rw [penalizeQuiets_append, updateOffsets_table, hc]
    split
    · ring
    · ring
  · intro quiets hq e
    simp only [ContinuationHistory.UpdateScore]
    rw [penalizeQuiets_other_cell, updateOffsets_table]
    · simp
    · intro q hq1
      rw [updateOffsets_cell]
      exact hq q hq1

/-- Witness for C17, amended: with the quiets 3 and 5, neither of which has
the cell of the cutoff move 9, the cell of the cutoff move holds the bonus
1896 after the update. -/
theorem penalty_on_listed_quiets_witness :
    ((plainHistory zeroTable).UpdateScore (stackOf 9 (some ⟨Color.kWhite, 1, 1⟩) none none)
        20 [3, 5]).table_ ⟨Color.kWhite, 1, 1⟩ ⟨Color.kWhite, 3, 9⟩ = 1896 := by
  have := (penalty_on_listed_quiets (plainHistory zeroTable)
    (stackOf 9 (some ⟨Color.kWhite, 1, 1⟩) none none) 20).2 [3, 5] (by decide)
    ⟨Color.kWhite, 1, 1⟩
  rw [show (plainHistory zeroTable).cell
    (stackOf 9 (some ⟨Color.kWhite, 1, 1⟩) none none 0).move = ⟨Color.kWhite, 3, 9⟩ from rfl]
    at this
  rw [this]
  decide

/-! ### Continuation history: the arithmetic of the gravity formula -/

theorem tdiv_cap (a : Int) :
    a.tdiv SCORE_CAP = if 0 ≤ a then a / 16384 else -((-a) / 16384) := by
  unfold SCORE_CAP
  split
  · rename_i h
    exact Int.tdiv_eq_ediv h (by decide)
  · rename_i h
    have h1 : (0 : Int) ≤ -a := by omega
    have := Int.tdiv_eq_ediv h1 (by decide : (0 : Int) ≤ 16384)
    rw [Int.neg_tdiv] at this
    omega

theorem scaleBonus_eq (s b : Int) (hb : 0 ≤ b) :
    ScaleBonus s b = b - (if 0 ≤ s * b then s * b / 16384 else -((-(s * b)) / 16384)) := by
  unfold ScaleBonus
  rw [abs_of_nonneg hb, tdiv_cap]

theorem historyBonus_le (depth : Int) : HistoryBonus depth ≤ 1896 := by
  unfold HistoryBonus
  exact min_le_left _ _

theorem historyBonus_pos (depth : Int) (hd : 1 ≤ depth) : 0 < HistoryBonus depth := by
  unfold HistoryBonus
  have : 0 < 4 * depth * depth + 120 * depth - 120 := by nlinarith
  exact lt_min (by decide) this

/-- A bonus never lifts a value that is at most the cap above the cap. -/
theorem scaleBonus_upper (v b : Int) (hv : v ≤ 16384) (hb0 : 0 ≤ b) (hb1 : b ≤ 16384) :
    v + ScaleBonus v b ≤ 16384 := by
  have hp : 16384 * v + 16384 * b - 268435456 ≤ v * b := by nlinarith
  rw [scaleBonus_eq _ _ hb0]
  split <;> omega

/-- A bonus never pushes a value that is at least minus the cap below it. -/
theorem scaleBonus_lower (v b : Int) (hv : -16384 ≤ v) (hb0 : 0 ≤ b) (hb1 : b ≤ 16384) :
    -16384 ≤ v + ScaleBonus v b := by
  have hp : v * b ≤ 16384 * v - 16384 * b + 268435456 := by nlinarith
  rw [scaleBonus_eq _ _ hb0]
  split <;> omega

/-- The scaled bonus of a value at most the cap is not negative. -/
theorem scaleBonus_nonneg (v b : Int) (hv : v ≤ 16384) (hb0 : 0 ≤ b) : 0 ≤ ScaleBonus v b := by
  have hp : v * b ≤ 16384 * b := by nlinarith
  rw [scaleBonus_eq _ _ hb0]
  split <;> omega

/-- The scaled bonus of a value below the cap is positive. -/
theorem scaleBonus_pos (v b : Int) (hv : v < 16384) (hb0 : 0 < b) : 0 < ScaleBonus v b := by
  have hp : v * b ≤ 16383 * b := by nlinarith
  rw [scaleBonus_eq _ _ (le_of_lt hb0)]
  split <;> omega

/-! ### Continuation history: one reference -/

theorem soleRef_count (stack : Int → SearchStackEntry Move) (e0 : Index)
    (h0 : soleRef stack e0) (e : Index) : refCount stack e = if e = e0 then 1 else 0 := by
  have hsymm : (e0 = e) = (e = e0) := propext ⟨Eq.symm, Eq.symm⟩
  rcases h0 with ⟨a, b, c⟩ | ⟨a, b, c⟩ | ⟨a, b, c⟩ <;>
    simp [refCount, a, b, c, hsymm]

theorem soleRef_score (stack : Int → SearchStackEntry Move) (e0 : Index)
    (h0 : soleRef stack e0) (g : ContinuationHistory Move) (m : Move) :
    g.combinedScore m stack = g.table_ e0 (g.cell m) := by
  rcases h0 with ⟨a, b, c⟩ | ⟨a, b, c⟩ | ⟨a, b, c⟩ <;>
    simp [ContinuationHistory.combinedScore, ContinuationHistory.GetScore, a, b, c]

/-- With one reference, a write for a move changes the cell of the move in the
referenced entry by the amount, and nothing else. -/
theorem soleRef_write (stack : Int → SearchStackEntry Move) (e0 : Index)
    (h0 : soleRef stack e0) (g : ContinuationHistory Move) (m : Move) (d : Int)
    (e x : Index) :
    (g.updateOffsets m d stack).table_ e x =
      if e = e0 ∧ x = g.cell m then g.table_ e x + d else g.table_ e x := by
  rw [updateOffsets_table, soleRef_count stack e0 h0]
  by_cases h1 : x = g.cell m
  · by_cases h2 : e = e0
    · simp [h1, h2]
    · simp [h1, h2]
  · simp [h1]

theorem penalizeQuiets_upper (stack : Int → SearchStackEntry Move) (e0 : Index)
    (h0 : soleRef stack e0) (bonus : Int) (hb : 0 ≤ bonus) :
    ∀ (qs : List Move) (h : ContinuationHistory Move), (∀ e x, h.table_ e x ≤ 16384) →
      ∀ e x, (ContinuationHistory.penalizeQuiets stack bonus qs h).table_ e x ≤ 16384 := by
  intro qs
  induction qs with
  | nil => intro h hT; exact hT
  | cons q qs ih =>
    intro h hT
    simp only [ContinuationHistory.penalizeQuiets]
    apply ih
    intro e x
    rw [soleRef_write stack e0 h0, soleRef_score stack e0 h0]
    split
    · rename_i hc
      rw [hc.1, hc.2]
      have h1 := hT e0 (h.cell q)
      have h2 := scaleBonus_nonneg _ bonus h1 hb
      omega
    · exact hT e x

/-- C13, as stated, fails: on a table with all cells in `[-SCORE_CAP,
SCORE_CAP]`, with the cell of the cutoff move at `SCORE_CAP` in the entry
behind offset -1 and at `-SCORE_CAP` in the two other referenced entries, an
update at depth 1 (bonus 4, combined score `-SCORE_CAP`, scaled bonus 8) leaves
the first cell at 16392, above `SCORE_CAP`. -/
theorem history_exceeds_cap :
    (∀ e x, -SCORE_CAP ≤ skewTable e x ∧ skewTable e x ≤ SCORE_CAP) ∧
      ((plainHistory skewTable).UpdateScore threeRefs 1 []).table_ ⟨Color.kWhite, 1, 1⟩
        ⟨Color.kWhite, 3, 9⟩ = 16392 ∧
      ¬ (16392 ≤ SCORE_CAP) := by
  refine ⟨?_, by decide, by decide⟩
  intro e x
  simp only [SCORE_CAP, skewTable]
  split <;> omega

/-- C13, amended: when at most one of the entries at offsets -1, -2, -4 holds a
continuation pointer, all cells lie in `[-SCORE_CAP, SCORE_CAP]` and the depth
is at least 1, then after `UpdateScore`, for every cutoff move and every
quiets list, every cell of the table is at most `SCORE_CAP`, and every cell
that is not the cell of a quiet of the list is at least `-SCORE_CAP`. -/
theorem history_bounded_single_ref (h : ContinuationHistory Move)
    (stack : Int → SearchStackEntry Move) (depth : Int) (quiets : List Move)
    (hT : ∀ e x, -SCORE_CAP ≤ h.table_ e x ∧ h.table_ e x ≤ SCORE_CAP) (hd : 1 ≤ depth)
    (hone : noRef stack ∨ ∃ e0, soleRef stack e0) (e x : Index) :
    (h.UpdateScore stack depth quiets).table_ e x ≤ SCORE_CAP ∧
      ((∀ q ∈ quiets, h.cell q ≠ x) →
        -SCORE_CAP ≤ (h.UpdateScore stack depth quiets).table_ e x) := by
  simp only [SCORE_CAP] at hT ⊢
  rcases hone with hn | ⟨e0, h0⟩
  · rw [updateScore_null h stack depth quiets hn.1 hn.2.1 hn.2.2]
    exact ⟨(hT e x).2, fun _ => (hT e x).1⟩
  · have hb0 := historyBonus_pos depth hd
    have hb1 := historyBonus_le depth
    have hstep : ∀ e x,
        -16384 ≤ (h.updateOffsets (stack 0).move
            (ScaleBonus (h.combinedScore (stack 0).move stack) (HistoryBonus depth))
            stack).table_ e x ∧
          (h.updateOffsets (stack 0).move
            (ScaleBonus (h.combinedScore (stack 0).move stack) (HistoryBonus depth))
            stack).table_ e x ≤ 16384 := by
      intro e x
      rw [soleRef_write stack e0 h0, soleRef_score stack e0 h0]
      split
      · rename_i hc
        rw [hc.1, hc.2]
        have h1 := hT e0 (h.cell (stack 0).move)
        exact ⟨scaleBonus_lower _ _ h1.1 (le_of_lt hb0) (by omega),
          scaleBonus_upper _ _ h1.2 (le_of_lt hb0) (by omega)⟩
      · exact hT e x
    simp only [ContinuationHistory.UpdateScore]
    constructor
    · exact penalizeQuiets_upper stack e0 h0 _ (le_of_lt hb0) quiets _
        (fun e x => (hstep e x).2) e x
    · intro hq
      rw [penalizeQuiets_other_cell]
      · exact (hstep e x).1
      · intro q hq1
        rw [updateOffsets_cell]
        exact hq q hq1

/-- Witness for C13, amended: on the table with 16000 in every cell, with one
reference, an update at depth 20 with the quiet 3 leaves the cell of the
cutoff move 9 within `[-SCORE_CAP, SCORE_CAP]`. -/
theorem history_bounded_single_ref_witness :
    ((plainHistory (fun _ _ => 16000)).UpdateScore oneRef 20 [3]).table_
        ⟨Color.kWhite, 1, 1⟩ ⟨Color.kWhite, 3, 9⟩ ≤ SCORE_CAP ∧
      -SCORE_CAP ≤ ((plainHistory (fun _ _ => 16000)).UpdateScore oneRef 20 [3]).table_
        ⟨Color.kWhite, 1, 1⟩ ⟨Color.kWhite, 3, 9⟩ := by
  have := history_bounded_single_ref (plainHistory (fun _ _ => 16000)) oneRef 20 [3]
    (fun _ _ => (by decide : -SCORE_CAP ≤ (16000 : Int) ∧ (16000 : Int) ≤ SCORE_CAP))
    (by decide)
    (Or.inr ⟨⟨Color.kWhite, 1, 1⟩, Or.inl ⟨rfl, rfl, rfl⟩⟩)
    ⟨Color.kWhite, 1, 1⟩ ⟨Color.kWhite, 3, 9⟩
  exact ⟨this.1, this.2 (by decide)⟩

/-- With one reference and quiets that have pairwise different cells, the loop
over the quiets lowers the cell of each quiet in the referenced entry by the
scaled bonus of its value, and leaves the other cells of that entry. -/
theorem penalizeQuiets_sole (stack : Int → SearchStackEntry Move) (e0 : Index)
    (h0 : soleRef stack e0) (bonus : Int) :
    ∀ (qs : List Move) (h : ContinuationHistory Move), (qs.map h.cell).Nodup →
      ∀ x, (ContinuationHistory.penalizeQuiets stack bonus qs h).table_ e0 x =
        if x ∈ qs.map h.cell then h.table_ e0 x - ScaleBonus (h.table_ e0 x) bonus
        else h.table_ e0 x := by
  intro qs
  induction qs with
  | nil => intro h _ x; simp [ContinuationHistory.penalizeQuiets]
  | cons q qs ih =>
    intro h hnd x
    simp only [List.map_cons, List.nodup_cons] at hnd
    have hcell : (h.updateOffsets q (-ScaleBonus (h.combinedScore q stack) bonus) stack).cell =
        h.cell := funext (fun m => updateOffsets_cell h q _ stack m)
    simp only [ContinuationHistory.penalizeQuiets]
    rw [ih _ (by rw [hcell]; exact hnd.2), hcell, soleRef_write stack e0 h0,
      soleRef_score stack e0 h0]
    by_cases hx : x = h.cell q
    · subst hx
      simp only [hnd.1, if_false, List.map_cons, List.mem_cons, true_or, if_true, and_self]
      ring
    · simp only [hx, and_false, if_false, List.map_cons, List.mem_cons, false_or]

/-! ### Continuation history: gravity -/

/-- C15, as stated, fails: with three referenced entries, the cell of the
cutoff move at 0 in the first and at 16383 in the two others, an update at
depth 1 (bonus 4, combined score 32766, scaled bonus -3) lowers the first cell
from 0 to -3.  And with one referenced entry and the cell of the quiet 3 at
-16383, an update at depth 20 (bonus 1896, penalty 3791) takes that cell to
-20174, past `-SCORE_CAP` and farther from it than before. -/
theorem gravity_not_monotone :
    (0 < HistoryBonus 1 ∧
      unevenTable ⟨Color.kWhite, 1, 1⟩ ⟨Color.kWhite, 3, 9⟩ = 0 ∧
      ((plainHistory unevenTable).UpdateScore threeRefs 1 []).table_ ⟨Color.kWhite, 1, 1⟩
        ⟨Color.kWhite, 3, 9⟩ = -3) ∧
    (0 < HistoryBonus 20 ∧
      lowTable ⟨Color.kWhite, 1, 1⟩ ⟨Color.kWhite, 3, 3⟩ = -16383 ∧
      ((plainHistory lowTable).UpdateScore oneRef 20 [3]).table_ ⟨Color.kWhite, 1, 1⟩
        ⟨Color.kWhite, 3, 3⟩ = -20174 ∧
      -20174 < -SCORE_CAP) := by
  decide

/-- C15, amended: when exactly one of the entries at offsets -1, -2, -4 holds a
continuation pointer and the bonus `HistoryBonus(depth)` is positive, an
update with an empty quiets list moves the cell of the cutoff move in the
referenced entry strictly up and not above `SCORE_CAP` if its value was below
`SCORE_CAP`; and an update with quiets that have pairwise different cells,
none the cell of the cutoff move, moves the cell of each quiet whose value was
below `SCORE_CAP` strictly down. -/
theorem gravity_monotone_sole_ref (h : ContinuationHistory Move)
    (stack : Int → SearchStackEntry Move) (depth : Int) (e0 : Index)
    (h0 : soleRef stack e0) (hb : 0 < HistoryBonus depth) :
    (h.table_ e0 (h.cell (stack 0).move) < SCORE_CAP →
        h.table_ e0 (h.cell (stack 0).move) <
            (h.UpdateScore stack depth []).table_ e0 (h.cell (stack 0).move) ∧
          (h.UpdateScore stack depth []).table_ e0 (h.cell (stack 0).move) ≤ SCORE_CAP) ∧
    (∀ (quiets : List Move), (quiets.map h.cell).Nodup →
        (∀ q ∈ quiets, h.cell q ≠ h.cell (stack 0).move) →
        ∀ q ∈ quiets, h.table_ e0 (h.cell q) < SCORE_CAP →
          (h.UpdateScore stack depth quiets).table_ e0 (h.cell q) <
            h.table_ e0 (h.cell q)) := by
  have hb1 := historyBonus_le depth
  simp only [SCORE_CAP]
  constructor
  · intro hpre
    rw [updateScore_nil_table, soleRef_count stack e0 h0, soleRef_score stack e0 h0]
    simp only [if_true, one_mul]
    have h1 := scaleBonus_pos _ _ hpre hb
    have h2 := scaleBonus_upper _ _ (le_of_lt hpre) (le_of_lt hb) (by omega)
    omega
  · intro quiets hnd hq q hqm hpre
    have hcell : (h.updateOffsets (stack 0).move
        (ScaleBonus (h.combinedScore (stack 0).move stack) (HistoryBonus depth)) stack).cell =
        h.cell := funext (fun m => updateOffsets_cell h _ _ stack m)
    simp only [ContinuationHistory.UpdateScore]
    rw [penalizeQuiets_sole stack e0 h0 _ quiets _ (by rw [hcell]; exact hnd), hcell,
      soleRef_write stack e0 h0]
    have hmem : h.cell q ∈ quiets.map h.cell := List.mem_map_of_mem _ hqm
    simp only [hmem, if_true, hq q hqm, and_false, if_false]
    have h1 := scaleBonus_pos _ _ hpre hb
    omega

/-- Witness for C15, amended: with one reference, on the table with 16000 in
every cell, an update at depth 20 moves the cell of the cutoff move 9 up,
not above `SCORE_CAP`, and an update with the quiet 3 moves the cell of
that quiet down. -/
theorem gravity_monotone_sole_ref_witness :
    (16000 < ((plainHistory (fun _ _ => 16000)).UpdateScore oneRef 20 []).table_
        ⟨Color.kWhite, 1, 1⟩ ⟨Color.kWhite, 3, 9⟩ ∧
      ((plainHistory (fun _ _ => 16000)).UpdateScore oneRef 20 []).table_
        ⟨Color.kWhite, 1, 1⟩ ⟨Color.kWhite, 3, 9⟩ ≤ SCORE_CAP) ∧
    ((plainHistory (fun _ _ => 16000)).UpdateScore oneRef 20 [3]).table_
        ⟨Color.kWhite, 1, 1⟩ ⟨Color.kWhite, 3, 3⟩ < 16000 :=
  ⟨(gravity_monotone_sole_ref (plainHistory (fun _ _ => 16000)) oneRef 20
      ⟨Color.kWhite, 1, 1⟩ (Or.inl ⟨rfl, rfl, rfl⟩) (by decide)).1 (by decide),
    (gravity_monotone_sole_ref (plainHistory (fun _ _ => 16000)) oneRef 20
      ⟨Color.kWhite, 1, 1⟩ (Or.inl ⟨rfl, rfl, rfl⟩) (by decide)).2 [3] (by decide)
      (by decide) 3 (by decide) (by decide)⟩

/-! ### Continuation history: repeated bonuses -/

/-- The number of pointers to an entry is not negative, its square is at most
the weight of the combined score, the weight is at most 9, at least 1 when one
of the pointers is non-null, and 1 only when exactly one is. -/
theorem ref_facts (stack : Int → SearchStackEntry Move) (e : Index) :
    0 ≤ refCount stack e ∧ refCount stack e * refCount stack e ≤ refWeight stack ∧
      refWeight stack ≤ 9 ∧ (¬ noRef stack → 1 ≤ refWeight stack) ∧
      (refWeight stack = 1 → ∃ e0, soleRef stack e0) := by
  unfold refWeight refCount soleRef noRef
  generalize (stack (-1)).continuation_entry = r1
  generalize (stack (-2)).continuation_entry = r2
  generalize (stack (-4)).continuation_entry = r4
  rcases r1 with _ | a <;> rcases r2 with _ | b <;> rcases r4 with _ | c <;>
    simp only [Option.some.injEq, reduceCtorEq, if_false, if_true, and_self, and_true,
      true_and, false_and, and_false, or_false, false_or, not_true_eq_false, not_false_eq_true,
      exists_eq', exists_false, false_implies, true_implies, implies_true] <;>
    (try have s1 : (b = a) = (a = b) := propext eq_comm) <;>
    (try have s2 : (c = a) = (a = c) := propext eq_comm) <;>
    (try have s3 : (c = b) = (b = c) := propext eq_comm) <;>
    (try simp only [s1]) <;> (try simp only [s2]) <;> (try simp only [s3]) <;>
    (try by_cases hab : a = b) <;> (try by_cases hac : a = c) <;>
    (try by_cases hbc : b = c) <;>
    (try by_cases ha : a = e) <;> (try by_cases hb : b = e) <;> (try by_cases hc : c = e) <;>
    simp_all

/-- On a table that holds, in the cell `c` of an entry, the number of pointers
to the entry times `w`, the combined score of a move with the cell `c` is the
weight times `w`. -/
theorem combinedScore_scaled (g : ContinuationHistory Move)
    (stack : Int → SearchStackEntry Move) (m : Move) (w : Int)
    (hT : ∀ e, g.table_ e (g.cell m) = refCount stack e * w) :
    g.combinedScore m stack = refWeight stack * w := by
  unfold ContinuationHistory.combinedScore ContinuationHistory.GetScore refWeight
  cases h1 : (stack (-1)).continuation_entry <;>
    cases h2 : (stack (-2)).continuation_entry <;>
    cases h4 : (stack (-4)).continuation_entry <;>
    simp only [hT] <;> ring

theorem repeatUpdate_cell (h : ContinuationHistory Move) (stack : Int → SearchStackEntry Move)
    (depth : Int) (quiets : List Move) (m : Move) :
    ∀ n, (h.repeatUpdate stack depth quiets n).cell m = h.cell m := by
  intro n
  induction n with
  | zero => rfl
  | succ n ih =>
    simp only [ContinuationHistory.repeatUpdate]
    rw [updateScore_cell, ih]

/-- From the all-zero table, after `n` updates with an empty quiets list the
cell of the cutoff move in an entry holds the number of pointers to the entry
times the `n`-th amount of the scalar recurrence, and all other cells are 0. -/
theorem repeatUpdate_table (h : ContinuationHistory Move) (hz : ∀ e x, h.table_ e x = 0)
    (stack : Int → SearchStackEntry Move) (depth : Int) :
    ∀ n e x, (h.repeatUpdate stack depth [] n).table_ e x =
      if x = h.cell (stack 0).move then
        refCount stack e * gravitySeq (refWeight stack) (HistoryBonus depth) n
      else 0 := by
  intro n
  induction n with
  | zero =>
    intro e x
    simp [ContinuationHistory.repeatUpdate, hz, gravitySeq]
  | succ n ih =>
    intro e x
    have hc := repeatUpdate_cell h stack depth [] (stack 0).move n
    have hs := combinedScore_scaled (h.repeatUpdate stack depth [] n) stack (stack 0).move
      (gravitySeq (refWeight stack) (HistoryBonus depth) n) (fun e => by
        rw [ih, hc]
        simp)
    simp only [ContinuationHistory.repeatUpdate, gravitySeq]
    rw [updateScore_nil_table, hs, hc, ih]
    split
    · ring
    · ring

theorem gravitySeq_bound (K : Int) (h1 : 1 ≤ K) (h9 : K ≤ 9) :
    ∀ n, 0 ≤ gravitySeq K 1896 n ∧ (K ≤ 8 → K * gravitySeq K 1896 n < 16384 + K) ∧
      (K = 9 → gravitySeq K 1896 n ≤ 1896) := by
  intro n
  induction n with
  | zero =>
    simp only [gravitySeq]
    omega
  | succ n ih =>
    simp only [gravitySeq]
    rw [scaleBonus_eq _ _ (by decide)]
    interval_cases K <;> split <;> omega

theorem gravitySeq_settles (K : Int) (h1 : 1 ≤ K) (h9 : K ≤ 9) :
    ∀ n, 66 ≤ n → gravitySeq K 1896 n = gravitySeq K 1896 66 := by
  intro n hn
  induction n, hn using Nat.le_induction with
  | base => rfl
  | succ n _ ih =>
    have step : gravitySeq K 1896 (n + 1) =
        gravitySeq K 1896 n + ScaleBonus (K * gravitySeq K 1896 n) 1896 := rfl
    rw [step, ih]
    interval_cases K <;> decide

/-- A cell that holds `c` times the amount `w`, with `c * c` at most the weight
`K`, is within the cap, and below it when the weight is at least 2. -/
theorem cell_bound (K c w : Int) (h1 : 1 ≤ K) (h9 : K ≤ 9) (hc0 : 0 ≤ c) (hcc : c * c ≤ K)
    (hw0 : 0 ≤ w) (hw8 : K ≤ 8 → K * w < 16384 + K) (hw9 : K = 9 → w ≤ 1896) :
    0 ≤ c * w ∧ c * w ≤ 16384 ∧ (2 ≤ K → c * w < 16384) := by
  have hc3 : c ≤ 3 := by nlinarith
  interval_cases c <;> interval_cases K <;> omega

/-- C14, as stated, fails: from the all-zero table, with one entry behind the
stack, after 66 updates at depth 20 for the cutoff move 9 with an empty quiets
list the cell of the move holds exactly `SCORE_CAP`, not less. -/
theorem gravity_reaches_cap :
    ((plainHistory zeroTable).repeatUpdate oneRef 20 [] 66).table_ ⟨Color.kWhite, 1, 1⟩
        ⟨Color.kWhite, 3, 9⟩ = SCORE_CAP := by
  rw [repeatUpdate_table _ (fun _ _ => rfl)]
  decide

/-- C14, amended: from the all-zero table, for every stack with at least one
non-null pointer at the offsets -1, -2, -4 (whether or not two of them point to
the same entry), after `n` successive updates at depth 20 for the same cutoff
move with an empty quiets list every cell of the move is at least 0 and at
most `SCORE_CAP`, for every `n`; it is strictly below `SCORE_CAP` unless exactly
one of the three pointers is non-null; and from the 66th update on the whole
table no longer changes. -/
theorem gravity_saturation (h : ContinuationHistory Move) (hz : ∀ e x, h.table_ e x = 0)
    (stack : Int → SearchStackEntry Move) (hne : ¬ noRef stack) :
    (∀ n e, 0 ≤ (h.repeatUpdate stack 20 [] n).table_ e (h.cell (stack 0).move) ∧
        (h.repeatUpdate stack 20 [] n).table_ e (h.cell (stack 0).move) ≤ SCORE_CAP) ∧
    ((¬ ∃ e0, soleRef stack e0) →
      ∀ n e, (h.repeatUpdate stack 20 [] n).table_ e (h.cell (stack 0).move) < SCORE_CAP) ∧
    (∀ n, 66 ≤ n → ∀ e x, (h.repeatUpdate stack 20 [] n).table_ e x =
      (h.repeatUpdate stack 20 [] 66).table_ e x) := by
  have hb : HistoryBonus 20 = 1896 := by decide
  have hK1 : 1 ≤ refWeight stack := (ref_facts stack ⟨Color.kWhite, 0, 0⟩).2.2.2.1 hne
  have hK9 : refWeight stack ≤ 9 := (ref_facts stack ⟨Color.kWhite, 0, 0⟩).2.2.1
  have hcell : ∀ n e, 0 ≤ refCount stack e * gravitySeq (refWeight stack) 1896 n ∧
      refCount stack e * gravitySeq (refWeight stack) 1896 n ≤ 16384 ∧
      (2 ≤ refWeight stack → refCount stack e * gravitySeq (refWeight stack) 1896 n < 16384) := by
    intro n e
    have hf := ref_facts stack e
    have hg := gravitySeq_bound (refWeight stack) hK1 hK9 n
    exact cell_bound _ _ _ hK1 hK9 hf.1 hf.2.1 hg.1 hg.2.1 hg.2.2
  simp only [SCORE_CAP]
  refine ⟨?_, ?_, ?_⟩
  · intro n e
    rw [repeatUpdate_table h hz, if_pos rfl, hb]
    exact ⟨(hcell n e).1, (hcell n e).2.1⟩
  · intro hsole n e
    rw [repeatUpdate_table h hz, if_pos rfl, hb]
    apply (hcell n e).2.2
    by_contra hlt
    have h1 : refWeight stack = 1 := by omega
    exact hsole ((ref_facts stack e).2.2.2.2 h1)
  · intro n hn e x
    rw [repeatUpdate_table h hz, repeatUpdate_table h hz, hb,
      gravitySeq_settles _ hK1 hK9 n hn]

/-- Witness for C14, amended: with three different entries behind the stack,
after 100 updates the cell of the cutoff move in the entry behind offset -2 is
below `SCORE_CAP` and the same as after 66 updates. -/
theorem gravity_saturation_witness :
    ((plainHistory zeroTable).repeatUpdate threeRefs 20 [] 100).table_ ⟨Color.kBlack, 2, 2⟩
        ⟨Color.kWhite, 3, 9⟩ < SCORE_CAP ∧
      ((plainHistory zeroTable).repeatUpdate threeRefs 20 [] 100).table_ ⟨Color.kBlack, 2, 2⟩
        ⟨Color.kWhite, 3, 9⟩ =
      ((plainHistory zeroTable).repeatUpdate threeRefs 20 [] 66).table_ ⟨Color.kBlack, 2, 2⟩
        ⟨Color.kWhite, 3, 9⟩ := by
  have hn : ¬ noRef threeRefs := by
    unfold noRef
    decide
  have hs : ¬ ∃ e0, soleRef threeRefs e0 := by
    rintro ⟨e0, h0⟩
    rcases h0 with ⟨_, h2, _⟩ | ⟨h1, _, _⟩ | ⟨h1, _, _⟩
    · exact absurd h2 (by decide)
    · exact absurd h1 (by decide)
    · exact absurd h1 (by decide)
  have hc : (plainHistory zeroTable).cell (threeRefs 0).move = ⟨Color.kWhite, 3, 9⟩ := rfl
  obtain ⟨_, h2, h3⟩ := gravity_saturation (plainHistory zeroTable) (fun _ _ => rfl) threeRefs hn
  have h4 := h2 hs 100 ⟨Color.kBlack, 2, 2⟩
  rw [hc] at h4
  exact ⟨h4, h3 100 (by decide) ⟨Color.kBlack, 2, 2⟩ ⟨Color.kWhite, 3, 9⟩⟩

/-! ### Quiescence makes captures only -/

theorem boardAfter_append (E : Engine Board Move TT Killers) :
    ∀ (xs ys : List (Event Move)) (b : Board),
      boardAfter E b (xs ++ ys) = boardAfter E (boardAfter E b xs) ys := by
  intro xs
  induction xs with
  | nil => intro ys b; rfl
  | cons x xs ih =>
    intro ys b
    cases x <;> exact ih ys _

theorem capturesOnly_append [DecidableEq Move] (E : Engine Board Move TT Killers) :
    ∀ (xs ys : List (Event Move)) (b : Board),
      capturesOnly E b (xs ++ ys) =
        (capturesOnly E b xs && capturesOnly E (boardAfter E b xs) ys) := by
  intro xs
  induction xs with
  | nil => intro ys b; simp [capturesOnly, boardAfter]
  | cons x xs ih =>
    intro ys b
    cases x with
    | make m =>
      show (decide (m ∈ E.generate_capture_moves b) &&
        capturesOnly E (E.make_move b m) (xs ++ ys)) = _
      rw [ih]
      simp only [capturesOnly, boardAfter, Bool.and_assoc]
    | undo => exact ih ys _
    | makeNull => rfl
    | save e p => rfl
    | killer m d => rfl
    | root d f => rfl

/-- The events of a capture that is made and, after a call whose events are
captures only and which returns on the board it was given, undone. -/
theorem capturesOnly_bracket [DecidableEq Move] (E : Engine Board Move TT Killers)
    (hmake : ∀ b m, E.undo_move (E.make_move b m) = b) (b : Board) (m : Move)
    (hm : m ∈ E.generate_capture_moves b) (ext : List (Event Move))
    (h1 : capturesOnly E (E.make_move b m) ext = true)
    (h2 : boardAfter E (E.make_move b m) ext = E.make_move b m) :
    capturesOnly E b (Event.make m :: (ext ++ [Event.undo])) = true ∧
      boardAfter E b (Event.make m :: (ext ++ [Event.undo])) = b := by
  constructor
  · simp only [capturesOnly, capturesOnly_append, h1, h2, hm, decide_True, Bool.and_self]
  · simp only [boardAfter, boardAfter_append, h2, hmake]

theorem quiesceLoop_captures [DecidableEq Move] (E : Engine Board Move TT Killers)
    (hmake : ∀ b m, E.undo_move (E.make_move b m) = b)
    (rec : QSearch Board Move TT Killers)
    (hrec : ∀ s a b v t, rec s a b = some (v, t) →
      ∃ ext, t.trace = s.trace ++ ext ∧ capturesOnly E s.board ext = true ∧
        boardAfter E s.board ext = s.board ∧ t.board = s.board)
    (beta : Int) (b0 : Board) :
    ∀ (ms : List Move), (∀ m ∈ ms, m ∈ E.generate_capture_moves b0) →
      ∀ (alpha : Int) (s : SearchState Board Move TT Killers) (v : Int)
        (t : SearchState Board Move TT Killers), s.board = b0 →
        quiesceLoop E rec beta ms alpha s = some (v, t) →
          ∃ ext, t.trace = s.trace ++ ext ∧ capturesOnly E b0 ext = true ∧
            boardAfter E b0 ext = b0 ∧ t.board = b0 := by
  intro ms
  induction ms with
  | nil =>
    intro _ alpha s v t hs h
    simp only [quiesceLoop, Option.some.injEq, Prod.mk.injEq] at h
    rw [← h.2]
    exact ⟨[], by simp, rfl, rfl, hs⟩
  | cons m ms ih =>
    intro hms alpha s v t hs h
    have hm := hms m (List.mem_cons_self _ _)
    have hms' : ∀ m' ∈ ms, m' ∈ E.generate_capture_moves b0 :=
      fun m' hm' => hms m' (List.mem_cons_of_mem _ hm')
    simp only [quiesceLoop] at h
    split at h
    · obtain ⟨e2, ht, hc, hb, hbd⟩ := ih hms' _ _ _ _
        (by simp only [do_undo, do_make, hs, hmake]) h
      have hk := capturesOnly_bracket E hmake b0 m hm [] rfl rfl
      refine ⟨Event.make m :: ([] ++ [Event.undo]) ++ e2, ?_, ?_, ?_, hbd⟩
      · rw [ht]
        simp [do_undo, do_make]
      · rw [capturesOnly_append, hk.1, hk.2, hc]
        rfl
      · rw [boardAfter_append, hk.2, hb]
    · split at h
      · exact absurd h (by simp)
      · rename_i w s2 hr
        obtain ⟨e1, ht1, hc1, hb1, hbd1⟩ := hrec _ _ _ _ _ hr
        simp only [do_make, hs] at hc1 hb1 hbd1
        have hk := capturesOnly_bracket E hmake b0 m hm e1 hc1 hb1
        have hbu : (do_undo E s2).board = b0 := by
          simp only [do_undo, hbd1, hmake]
        have htu : (do_undo E s2).trace = s.trace ++ Event.make m :: (e1 ++ [Event.undo]) := by
          simp only [do_undo, ht1, do_make]
          simp
        split at h
        · simp only [Option.some.injEq, Prod.mk.injEq] at h
          rw [← h.2]
          exact ⟨_, htu, hk.1, hk.2, hbu⟩
        · obtain ⟨e2, ht, hc, hb, hbd⟩ := ih hms' _ _ _ _ hbu h
          refine ⟨Event.make m :: (e1 ++ [Event.undo]) ++ e2, ?_, ?_, ?_, hbd⟩
          · rw [ht, htu]
            simp
          · rw [capturesOnly_append, hk.1, hk.2, hc]
            rfl
          · rw [boardAfter_append, hk.2, hb]

theorem quiesce_captures [DecidableEq Move] (E : Engine Board Move TT Killers)
    (hmake : ∀ b m, E.undo_move (E.make_move b m) = b)
    (hsub : ∀ b t k ms, ∀ m ∈ E.order MoveType.kCaptures b t k ms, m ∈ ms) :
    ∀ (fuel : Nat) (s : SearchState Board Move TT Killers) (alpha beta v : Int)
      (t : SearchState Board Move TT Killers),
      quiesce E fuel s alpha beta = some (v, t) →
        ∃ ext, t.trace = s.trace ++ ext ∧ capturesOnly E s.board ext = true ∧
          boardAfter E s.board ext = s.board ∧ t.board = s.board := by
  intro fuel
  induction fuel with
  | zero =>
    intro s alpha beta v t h
    simp [quiesce] at h
  | succ n ih =>
    intro s alpha beta v t h
    simp only [quiesce, quiesceBody] at h
    split at h
    · simp only [Option.some.injEq, Prod.mk.injEq] at h
      rw [← h.2]
      exact ⟨[], by simp, rfl, rfl, rfl⟩
    · split at h
      · simp only [Option.some.injEq, Prod.mk.injEq] at h
        rw [← h.2]
        exact ⟨[], by simp, rfl, rfl, rfl⟩
      · exact quiesceLoop_captures E hmake _ ih beta s.board _
          (fun m hm => hsub _ _ _ _ m hm) _ s v t rfl h

theorem unwind_nil (d : Nat) : unwind d ([] : List (Event Move)) = some d := by
  cases d <;> rfl

theorem le_openPeak : ∀ (xs : List (Event Move)) (d : Nat), d ≤ openPeak d xs := by
  intro xs
  induction xs with
  | nil => intro d; exact le_refl _
  | cons x xs ih =>
    intro d
    cases x <;> simp only [openPeak] <;> first | exact le_max_left _ _ | exact ih d

theorem openPeak_shift : ∀ (xs : List (Event Move)) (a k d : Nat), unwind a xs = some k →
    openPeak (a + d) xs = openPeak a xs + d := by
  intro xs
  induction xs with
  | nil => intro a k d _; rfl
  | cons x xs ih =>
    intro a k d h
    cases x with
    | make m =>
      simp only [unwind] at h
      simp only [openPeak]
      have := ih (a + 1) k d h
      rw [show a + d + 1 = a + 1 + d by omega, this]
      omega
    | makeNull =>
      simp only [unwind] at h
      simp only [openPeak]
      have := ih (a + 1) k d h
      rw [show a + d + 1 = a + 1 + d by omega, this]
      omega
    | undo =>
      cases a with
      | zero => simp [unwind] at h
      | succ a =>
        simp only [unwind] at h
        simp only [openPeak]
        have := ih a k d h
        rw [show a + 1 + d - 1 = a + d by omega, show a + 1 - 1 = a by omega, this]
        omega
    | save e p =>
      simp only [unwind] at h
      simp only [openPeak]
      exact ih a k d h
    | killer m p =>
      simp only [unwind] at h
      simp only [openPeak]
      exact ih a k d h
    | root p f =>
      simp only [unwind] at h
      simp only [openPeak]
      exact ih a k d h

theorem openPeak_append : ∀ (xs ys : List (Event Move)) (a k : Nat), unwind a xs = some k →
    openPeak a (xs ++ ys) = max (openPeak a xs) (openPeak k ys) := by
  intro xs
  induction xs with
  | nil =>
    intro ys a k h
    simp only [unwind, Option.some.injEq] at h
    rw [← h]
    simp only [List.nil_append, openPeak]
    exact (max_eq_right (le_openPeak ys a)).symm
  | cons x xs ih =>
    intro ys a k h
    cases x with
    | make m =>
      simp only [unwind] at h
      show max a (openPeak (a + 1) (xs ++ ys)) = _
      rw [ih ys (a + 1) k h]
      simp only [openPeak, max_assoc]
    | makeNull =>
      simp only [unwind] at h
      show max a (openPeak (a + 1) (xs ++ ys)) = _
      rw [ih ys (a + 1) k h]
      simp only [openPeak, max_assoc]
    | undo =>
      cases a with
      | zero => simp [unwind] at h
      | succ a =>
        simp only [unwind] at h
        show max (a + 1) (openPeak (a + 1 - 1) (xs ++ ys)) = _
        rw [show a + 1 - 1 = a by omega, ih ys a k h]
        simp only [openPeak, max_assoc, show a + 1 - 1 = a by omega]
    | save e p =>
      simp only [unwind] at h
      exact ih ys a k h
    | killer m p =>
      simp only [unwind] at h
      exact ih ys a k h
    | root p f =>
      simp only [unwind] at h
      exact ih ys a k h

/-- The events of a move that is made and, after a balanced run of events that
never has more than `n` moves open, undone: never more than `n + 1` moves are
open. -/
theorem openPeak_bracket (m : Move) (ext : List (Event Move)) (n : Nat)
    (hb : ∀ d, unwind d ext = some d) (hp : openPeak 0 ext ≤ n) :
    (∀ d, unwind d (Event.make m :: (ext ++ [Event.undo])) = some d) ∧
      openPeak 0 (Event.make m :: (ext ++ [Event.undo])) ≤ n + 1 := by
  constructor
  · intro d
    simp only [unwind]
    rw [unwind_append, hb]
    simp [unwind]
  · have h1 : openPeak 1 ext = openPeak 0 ext + 1 := openPeak_shift ext 0 0 1 (hb 0)
    have h2 : openPeak 1 (ext ++ [Event.undo]) = max (openPeak 1 ext) (openPeak 1 [Event.undo]) :=
      openPeak_append ext [Event.undo] 1 1 (hb 1)
    show max 0 (openPeak 1 (ext ++ [Event.undo])) ≤ n + 1
    rw [h2, h1]
    simp only [openPeak]
    omega

theorem quiesceLoop_peak (E : Engine Board Move TT Killers)
    (hmake : ∀ b m, E.undo_move (E.make_move b m) = b)
    (pieces : Board → Nat)
    (hp : ∀ b, ∀ m ∈ E.generate_capture_moves b, pieces (E.make_move b m) < pieces b)
    (rec : QSearch Board Move TT Killers)
    (hrec : ∀ s a b v t, rec s a b = some (v, t) →
      ∃ ext, t.trace = s.trace ++ ext ∧ (∀ d, unwind d ext = some d) ∧
        openPeak 0 ext ≤ pieces s.board ∧ t.board = s.board)
    (beta : Int) (b0 : Board) :
    ∀ (ms : List Move), (∀ m ∈ ms, m ∈ E.generate_capture_moves b0) →
      ∀ (alpha : Int) (s : SearchState Board Move TT Killers) (v : Int)
        (t : SearchState Board Move TT Killers), s.board = b0 →
        quiesceLoop E rec beta ms alpha s = some (v, t) →
          ∃ ext, t.trace = s.trace ++ ext ∧ (∀ d, unwind d ext = some d) ∧
            openPeak 0 ext ≤ pieces b0 ∧ t.board = b0 := by
  intro ms
  induction ms with
  | nil =>
    intro _ alpha s v t hs h
    simp only [quiesceLoop, Option.some.injEq, Prod.mk.injEq] at h
    rw [← h.2]
    exact ⟨[], by simp, fun d => unwind_nil d, Nat.zero_le _, hs⟩
  | cons m ms ih =>
    intro hms alpha s v t hs h
    have hm := hp b0 m (hms m (List.mem_cons_self _ _))
    have hms' : ∀ m' ∈ ms, m' ∈ E.generate_capture_moves b0 :=
      fun m' hm' => hms m' (List.mem_cons_of_mem _ hm')
    have join : ∀ (e1 e2 : List (Event Move)), (∀ d, unwind d e1 = some d) →
        openPeak 0 e1 ≤ pieces b0 → (∀ d, unwind d e2 = some d) →
        openPeak 0 e2 ≤ pieces b0 →
        (∀ d, unwind d (e1 ++ e2) = some d) ∧ openPeak 0 (e1 ++ e2) ≤ pieces b0 := by
      intro e1 e2 hb1 hp1 hb2 hp2
      constructor
      · intro d
        rw [unwind_append, hb1]
        exact hb2 d
      · rw [openPeak_append e1 e2 0 0 (hb1 0)]
        exact max_le hp1 hp2
    simp only [quiesceLoop] at h
    split at h
    · obtain ⟨e2, ht, hb2, hp2, hbd⟩ := ih hms' _ _ _ _
        (by simp only [do_undo, do_make, hs, hmake]) h
      have hk := openPeak_bracket m [] 0 (fun d => unwind_nil d) (le_refl _)
      have hj := join _ e2 hk.1 (by have := hk.2; omega) hb2 hp2
      refine ⟨Event.make m :: ([] ++ [Event.undo]) ++ e2, ?_, hj.1, hj.2, hbd⟩
      rw [ht]
      simp [do_undo, do_make]
    · split at h
      · exact absurd h (by simp)
      · rename_i w s2 hr
        obtain ⟨e1, ht1, hb1, hp1, hbd1⟩ := hrec _ _ _ _ _ hr
        simp only [do_make, hs] at hp1 hbd1
        have hk := openPeak_bracket m e1 (pieces (E.make_move b0 m)) hb1 hp1
        have hbu : (do_undo E s2).board = b0 := by
          simp only [do_undo, hbd1, hmake]
        have htu : (do_undo E s2).trace = s.trace ++ Event.make m :: (e1 ++ [Event.undo]) := by
          simp only [do_undo, ht1, do_make]
          simp
        split at h
        · simp only [Option.some.injEq, Prod.mk.injEq] at h
          rw [← h.2]
          exact ⟨_, htu, hk.1, by have := hk.2; omega, hbu⟩
        · obtain ⟨e2, ht, hb2, hp2, hbd⟩ := ih hms' _ _ _ _ hbu h
          have hj := join _ e2 hk.1 (by have := hk.2; omega) hb2 hp2
          refine ⟨Event.make m :: (e1 ++ [Event.undo]) ++ e2, ?_, hj.1, hj.2, hbd⟩
          rw [ht, htu]
          simp

theorem quiesce_peak (E : Engine Board Move TT Killers)
    (hmake : ∀ b m, E.undo_move (E.make_move b m) = b)
    (hsub : ∀ b t k ms, ∀ m ∈ E.order MoveType.kCaptures b t k ms, m ∈ ms)
    (pieces : Board → Nat)
    (hp : ∀ b, ∀ m ∈ E.generate_capture_moves b, pieces (E.make_move b m) < pieces b) :
    ∀ (fuel : Nat) (s : SearchState Board Move TT Killers) (alpha beta v : Int)
      (t : SearchState Board Move TT Killers),
      quiesce E fuel s alpha beta = some (v, t) →
        ∃ ext, t.trace = s.trace ++ ext ∧ (∀ d, unwind d ext = some d) ∧
          openPeak 0 ext ≤ pieces s.board ∧ t.board = s.board := by
  intro fuel
  induction fuel with
  | zero =>
    intro s alpha beta v t h
    simp [quiesce] at h
  | succ n ih =>
    intro s alpha beta v t h
    simp only [quiesce, quiesceBody] at h
    split at h
    · simp only [Option.some.injEq, Prod.mk.injEq] at h
      rw [← h.2]
      exact ⟨[], by simp, fun d => unwind_nil d, Nat.zero_le _, rfl⟩
    · split at h
      · simp only [Option.some.injEq, Prod.mk.injEq] at h
        rw [← h.2]
        exact ⟨[], by simp, fun d => unwind_nil d, Nat.zero_le _, rfl⟩
      · exact quiesceLoop_peak E hmake pieces hp _ ih beta s.board _
          (fun m hm => hsub _ _ _ _ m hm) _ s v t rfl h

theorem quiesceLoop_retable (E : Engine Board Move TT Killers)
    (rec : QSearch Board Move TT Killers) (tt : TT) (k : Killers) (tt' : TT) (k' : Killers)
    (hrec : ∀ s a b, s.transpo = tt → s.killers = k →
      rec (retable s tt' k') a b = (rec s a b).map (fun x => (x.1, retable x.2 tt' k')))
    (hkeep : ∀ s a b v t, rec s a b = some (v, t) →
      t.transpo = s.transpo ∧ t.killers = s.killers)
    (beta : Int) :
    ∀ (ms : List Move) (alpha : Int) (s : SearchState Board Move TT Killers),
      s.transpo = tt → s.killers = k →
        quiesceLoop E rec beta ms alpha (retable s tt' k') =
          (quiesceLoop E rec beta ms alpha s).map (fun x => (x.1, retable x.2 tt' k')) := by
  intro ms
  induction ms with
  | nil =>
    intro alpha s _ _
    rfl
  | cons m ms ih =>
    intro alpha s ht hk
    have hm : do_make E (retable s tt' k') m = retable (do_make E s m) tt' k' := rfl
    simp only [quiesceLoop, hm]
    have hb : (retable (do_make E s m) tt' k').board = (do_make E s m).board := rfl
    rw [hb]
    split
    · exact ih alpha (do_undo E (do_make E s m)) ht hk
    · rw [hrec (do_make E s m) _ _ ht hk]
      cases hr : rec (do_make E s m) (-beta) (-alpha) with
      | none => rfl
      | some x =>
        obtain ⟨v, s2⟩ := x
        obtain ⟨h1, h2⟩ := hkeep _ _ _ _ _ hr
        simp only [Option.map_some']
        split
        · rfl
        · exact ih _ (do_undo E s2) (h1.trans ht) (h2.trans hk)

theorem quiesce_retable (E : Engine Board Move TT Killers) (tt : TT) (k : Killers)
    (tt' : TT) (k' : Killers)
    (hord : ∀ b ms, E.order MoveType.kCaptures b tt' k' ms =
      E.order MoveType.kCaptures b tt k ms) :
    ∀ (fuel : Nat) (s : SearchState Board Move TT Killers) (alpha beta : Int),
      s.transpo = tt → s.killers = k →
        quiesce E fuel (retable s tt' k') alpha beta =
          (quiesce E fuel s alpha beta).map (fun x => (x.1, retable x.2 tt' k')) := by
  intro fuel
  induction fuel with
  | zero =>
    intro s alpha beta _ _
    rfl
  | succ n ih =>
    intro s alpha beta ht hk
    have hkeep : ∀ s a b v t, quiesce E n s a b = some (v, t) →
        t.transpo = s.transpo ∧ t.killers = s.killers := by
      intro s a b v t h
      have := quiesce_keeps E n s a b v t h
      constructor
      · rw [this]
      · rw [this]
    have hl := quiesceLoop_retable E (quiesce E n) tt k tt' k' ih hkeep
    simp only [quiesce, quiesceBody]
    have hb : (retable s tt' k').board = s.board := rfl
    have h1 : (retable s tt' k').transpo = tt' := rfl
    have h2 : (retable s tt' k').killers = k' := rfl
    rw [hb, h1, h2, hord, ← ht, ← hk]
    split
    · rfl
    · split
      · rfl
      · exact hl beta _ _ s ht hk

theorem quiesceLoop_withTableOps (E : Engine Board Move TT Killers)
    (probe : TT → Nat → Entry Move) (save : TT → Entry Move → Int → TT)
    (update_killer_move : Killers → Move → Int → Killers)
    (rec rec' : QSearch Board Move TT Killers) (hrec : rec' = rec) (beta : Int) :
    ∀ (ms : List Move) (alpha : Int) (s : SearchState Board Move TT Killers),
      quiesceLoop (withTableOps E probe save update_killer_move) rec' beta ms alpha s =
        quiesceLoop E rec beta ms alpha s := by
  intro ms
  induction ms with
  | nil =>
    intro alpha s
    rfl
  | cons m ms ih =>
    intro alpha s
    subst hrec
    have hm : do_make (withTableOps E probe save update_killer_move) s m = do_make E s m := rfl
    have hc : ∀ b, capture_leaves_check (withTableOps E probe save update_killer_move) b =
        capture_leaves_check E b := fun _ => rfl
    have hu : ∀ u, do_undo (withTableOps E probe save update_killer_move) u = do_undo E u :=
      fun _ => rfl
    simp only [quiesceLoop, hm, hc, hu, ih]

theorem quiesce_withTableOps (E : Engine Board Move TT Killers)
    (probe : TT → Nat → Entry Move) (save : TT → Entry Move → Int → TT)
    (update_killer_move : Killers → Move → Int → Killers) :
    ∀ (fuel : Nat),
      quiesce (withTableOps E probe save update_killer_move) fuel = quiesce E fuel := by
  intro fuel
  induction fuel with
  | zero => rfl
  | succ n ih =>
    funext s alpha beta
    have he : (withTableOps E probe save update_killer_move).evaluate s.board =
        E.evaluate s.board := rfl
    have ho : (withTableOps E probe save update_killer_move).order MoveType.kCaptures s.board
        s.transpo s.killers
        ((withTableOps E probe save update_killer_move).generate_capture_moves s.board) =
        E.order MoveType.kCaptures s.board s.transpo s.killers
          (E.generate_capture_moves s.board) := rfl
    simp only [quiesce, quiesceBody, he, ho]
    split
    · rfl
    · split
      · rfl
      · exact quiesceLoop_withTableOps E probe save update_killer_move _ _ ih beta _ _ s

/-- C18: if `undo_move` reverses `make_move` and the orderer delivers only
moves of the list it was given, then a call of `quiesce` changes nothing but
board and trace (not the transposition table, the killer table, the node
counter, the clock or the variables of the search, which `negamax` would
touch; `search.cpp` has no history table), its events are moves made and
undone only, and every move it makes is one `generate_capture_moves` gave for
the board it is made on.  If moreover every generated capture strictly lowers
the number of pieces on the board, `quiesce` returns for every position and
window within a nesting of calls of at most the number of pieces (any fuel
of at least that number plus one, for the outermost call, is enough), and
at no point of the call are more moves made and not yet undone than there
are pieces on the board.  `quiesce` calls none of the operations of the
tables: with any other `probe`, `save` and `update_killer_move` in their
place it is the same function.  The tables are not read either, except for
what the `MoveOrderer` of line 50 does with the board it is built from (its
code is not in `search.cpp`): with any other table and killer table for which
the orderer delivers captures in the same order (all of them, when the
capture order is MVV-LVA as in section 4.4), `quiesce` makes the same moves
and returns the same value. -/
theorem quiesce_captures_terminates [DecidableEq Move] (E : Engine Board Move TT Killers)
    (hmake : ∀ b m, E.undo_move (E.make_move b m) = b)
    (hsub : ∀ b t k ms, ∀ m ∈ E.order MoveType.kCaptures b t k ms, m ∈ ms) :
    (∀ (fuel : Nat) (s : SearchState Board Move TT Killers) (alpha beta v : Int)
        (t : SearchState Board Move TT Killers),
        quiesce E fuel s alpha beta = some (v, t) →
          t = { s with board := t.board, trace := t.trace } ∧
            ∃ ext, t.trace = s.trace ++ ext ∧ capturesOnly E s.board ext = true) ∧
    (∀ (pieces : Board → Nat),
        (∀ b, ∀ m ∈ E.generate_capture_moves b, pieces (E.make_move b m) < pieces b) →
        ∀ (fuel : Nat) (s : SearchState Board Move TT Killers) (alpha beta : Int),
          pieces s.board + 1 ≤ fuel →
            ∃ v t, quiesce E fuel s alpha beta = some (v, t) ∧
              ∃ ext, t.trace = s.trace ++ ext ∧ openPeak 0 ext ≤ pieces s.board) ∧
    (∀ (fuel : Nat) (s : SearchState Board Move TT Killers) (alpha beta : Int)
        (tt' : TT) (k' : Killers),
        (∀ b ms, E.order MoveType.kCaptures b tt' k' ms =
          E.order MoveType.kCaptures b s.transpo s.killers ms) →
        quiesce E fuel (retable s tt' k') alpha beta =
          (quiesce E fuel s alpha beta).map (fun x => (x.1, retable x.2 tt' k'))) ∧
    (∀ (fuel : Nat) (probe : TT → Nat → Entry Move) (save : TT → Entry Move → Int → TT)
        (update_killer_move : Killers → Move → Int → Killers),
        quiesce (withTableOps E probe save update_killer_move) fuel = quiesce E fuel) := by
  refine ⟨?_, ?_, ?_, ?_⟩
  · intro fuel s alpha beta v t h
    obtain ⟨ext, h1, h2, _⟩ := quiesce_captures E hmake hsub fuel s alpha beta v t h
    exact ⟨quiesce_keeps E fuel s alpha beta v t h, ext, h1, h2⟩
  · intro pieces hp fuel s alpha beta hfuel
    obtain ⟨v, t, h⟩ := quiesce_total E hmake pieces
      (fun b t k m hm _ => hp b m (hsub b t k _ m hm)) fuel s alpha beta hfuel
    obtain ⟨ext, h1, _, h2, _⟩ := quiesce_peak E hmake hsub pieces hp fuel s alpha beta v t h
    exact ⟨v, t, h, ext, h1, h2⟩
  · intro fuel s alpha beta tt' k' hord
    exact quiesce_retable E s.transpo s.killers tt' k' hord fuel s alpha beta rfl rfl
  · intro fuel probe save update_killer_move
    exact quiesce_withTableOps E probe save update_killer_move fuel

/-- Witness for C18: on the three-move tree, `quiesce` at the board `[1, 1]`,
where two more captures can follow one another, returns within three nested
calls, leaves the transposition table alone, and makes captures only; with
an entry for the position in the table it returns the same value after the
same moves. -/
theorem quiesce_captures_terminates_witness :
    ∃ v t, quiesce treeEngine (treeRank [1, 1] + 1) { bareState with board := [1, 1] }
        (-50) 50 = some (v, t) ∧ t.transpo = [] ∧
      (∃ ext, t.trace = ext ∧ capturesOnly treeEngine [1, 1] ext = true) ∧
      quiesce treeEngine (treeRank [1, 1] + 1)
        { bareState with board := [1, 1], transpo := [⟨2, 40, 9, 3, Flag.kExact⟩] }
        (-50) 50 = some (v, { t with transpo := [⟨2, 40, 9, 3, Flag.kExact⟩] }) := by
  have hw := quiesce_captures_terminates treeEngine (fun _ _ => rfl) (fun _ _ _ _ _ hm => hm)
  obtain ⟨v, t, h, _⟩ := hw.2.1 treeRank (by
    intro b m hm
    simp only [treeEngine, bareEngine] at hm ⊢
    split at hm
    · simp only [treeRank, List.length_cons]
      omega
    · exact absurd hm (List.not_mem_nil _)) (treeRank [1, 1] + 1)
    { bareState with board := [1, 1] } (-50) 50 (le_refl _)
  obtain ⟨h1, ext, h2, h3⟩ := hw.1 _ _ _ _ _ _ h
  have h4 := hw.2.2.1 (treeRank [1, 1] + 1) { bareState with board := [1, 1] } (-50) 50
    [⟨2, 40, 9, 3, Flag.kExact⟩] () (fun _ _ => rfl)
  rw [h] at h4
  refine ⟨v, t, h, ?_, ⟨ext, ?_, h3⟩, h4⟩
  · rw [h1]
    rfl
  · rw [h2]
    rfl

/-! ### Depths of the recursive calls -/

theorem negamaxStep_congr (E : Engine Board Move TT Killers)
    (rec rec' : NSearch Board Move TT Killers)
    (hrec : ∀ s d p a b, 0 ≤ d → rec s d p a b = rec' s d p a b)
    (depth ply beta : Int) (hd : 1 ≤ depth) (m : Move) (alpha best_eval : Int)
    (best_move : Move) (tried : Nat) (s : SearchState Board Move TT Killers) :
    negamaxStep E rec depth ply beta m alpha best_eval best_move tried s =
      negamaxStep E rec' depth ply beta m alpha best_eval best_move tried s := by
  unfold negamaxStep
  simp only
  rw [hrec _ _ _ _ _ (by omega)]

theorem negamaxLoop_congr (E : Engine Board Move TT Killers)
    (rec rec' : NSearch Board Move TT Killers)
    (hrec : ∀ s d p a b, 0 ≤ d → rec s d p a b = rec' s d p a b)
    (depth ply beta : Int) (hd : 1 ≤ depth) :
    ∀ (ms : List Move) (alpha best_eval : Int) (best_move : Move) (tried : Nat)
      (s : SearchState Board Move TT Killers),
      negamaxLoop E rec depth ply beta ms alpha best_eval best_move tried s =
        negamaxLoop E rec' depth ply beta ms alpha best_eval best_move tried s := by
  intro ms
  induction ms with
  | nil => intro alpha best_eval best_move tried s; rfl
  | cons m ms ih =>
    intro alpha best_eval best_move tried s
    simp only [negamaxLoop]
    rw [negamaxStep_congr E rec rec' hrec depth ply beta hd]
    split <;> simp only [ih]

theorem negamaxMoves_congr (E : Engine Board Move TT Killers)
    (rec rec' : NSearch Board Move TT Killers)
    (hrec : ∀ s d p a b, 0 ≤ d → rec s d p a b = rec' s d p a b)
    (in_check : Bool) (original_alpha : Int) (s : SearchState Board Move TT Killers)
    (depth ply alpha beta : Int) (hd : 1 ≤ depth) :
    negamaxMoves E rec in_check original_alpha s depth ply alpha beta =
      negamaxMoves E rec' in_check original_alpha s depth ply alpha beta := by
  unfold negamaxMoves
  rw [negamaxLoop_congr E rec rec' hrec depth ply beta hd]

theorem negamaxNull_congr (E : Engine Board Move TT Killers)
    (rec rec' : NSearch Board Move TT Killers)
    (hrec : ∀ s d p a b, 0 ≤ d → rec s d p a b = rec' s d p a b)
    (in_check : Bool) (original_alpha : Int) (s : SearchState Board Move TT Killers)
    (depth ply alpha beta : Int) (hd : 1 ≤ depth) :
    negamaxNull E rec in_check original_alpha s depth ply alpha beta =
      negamaxNull E rec' in_check original_alpha s depth ply alpha beta := by
  unfold negamaxNull
  split
  · rename_i hc
    simp only [Bool.and_eq_true, decide_eq_true_eq] at hc
    have h0 : 0 ≤ depth - (if depth > 6 then 3 else 2) := by
      split <;> omega
    simp only
    rw [hrec _ _ _ _ _ h0]
    simp only [negamaxMoves_congr E rec rec' hrec _ _ _ _ _ _ _ hd]
  · exact negamaxMoves_congr E rec rec' hrec _ _ _ _ _ _ _ hd

theorem negamaxSearch_congr (E : Engine Board Move TT Killers)
    (q q' : QSearch Board Move TT Killers) (rec rec' : NSearch Board Move TT Killers)
    (hq : ∀ s a b, E.king_in_check (E.turn s.board) s.board = false → q s a b = q' s a b)
    (hrec : ∀ s d p a b, 0 ≤ d → rec s d p a b = rec' s d p a b)
    (original_alpha : Int) (s : SearchState Board Move TT Killers)
    (depth ply alpha beta : Int) (hd : 0 ≤ depth) :
    negamaxSearch E q rec original_alpha s depth ply alpha beta =
      negamaxSearch E q' rec' original_alpha s depth ply alpha beta := by
  unfold negamaxSearch
  simp only
  split
  · rfl
  · cases hc : E.king_in_check (E.turn (should_exit_search E s).2.board)
        (should_exit_search E s).2.board
    · simp only [extendDepth, Bool.false_eq_true, if_false]
      split
      · rw [hq (countNode (should_exit_search E s).2) _ _ hc]
      · exact negamaxNull_congr E rec rec' hrec _ _ _ _ _ _ _ (by omega)
    · have h1 : ¬ (depth + 1 ≤ 0) := by omega
      simp only [extendDepth, if_true, h1, if_false]
      exact negamaxNull_congr E rec rec' hrec _ _ _ _ _ _ _ (by omega)

theorem negamaxBody_congr (E : Engine Board Move TT Killers)
    (q q' : QSearch Board Move TT Killers) (rec rec' : NSearch Board Move TT Killers)
    (hq : ∀ s a b, E.king_in_check (E.turn s.board) s.board = false → q s a b = q' s a b)
    (hrec : ∀ s d p a b, 0 ≤ d → rec s d p a b = rec' s d p a b)
    (s : SearchState Board Move TT Killers) (depth ply alpha beta : Int) (hd : 0 ≤ depth) :
    negamaxBody E q rec s depth ply alpha beta =
      negamaxBody E q' rec' s depth ply alpha beta := by
  unfold negamaxBody
  simp only [negamaxSearch_congr E q q' rec rec' hq hrec _ _ _ _ _ _ hd]

theorem negamaxOver_eq (E : Engine Board Move TT Killers)
    (q : Nat → QSearch Board Move TT Killers)
    (hq : ∀ fuel s a b, E.king_in_check (E.turn s.board) s.board = false →
      q fuel s a b = quiesce E fuel s a b) :
    ∀ (fuel : Nat) (s : SearchState Board Move TT Killers) (depth ply alpha beta : Int),
      0 ≤ depth → negamaxOver E q fuel s depth ply alpha beta =
        negamax E fuel s depth ply alpha beta := by
  intro fuel
  induction fuel with
  | zero => intro s depth ply alpha beta _; rfl
  | succ n ih =>
    intro s depth ply alpha beta hd
    exact negamaxBody_congr E (q n) (quiesce E n) (negamaxOver E q n) (negamax E n)
      (hq n) (fun s d p a b h => ih s d p a b h) s depth ply alpha beta hd

/-- C19: in a call of `negamax` with depth at least 0 (as every call below a
root call of depth at least 1 is), the result does not depend on what
`quiesce` would do in a position with the side to move in check, nor on what
`negamax` would do at a negative depth: the body calls `quiesce` only out of
check and itself only with depths at least 0 (depth minus 1 for a child,
depth minus 2 or 3 for the null-move child).  A node in check that is not
cancelled goes on with the depth raised to at least 1 and never to `quiesce`.
Hence the whole search is the same as the search over a quiescence search
that fails in check. -/
theorem quiesce_never_in_check (E : Engine Board Move TT Killers) :
    (∀ (q q' : QSearch Board Move TT Killers) (rec rec' : NSearch Board Move TT Killers)
        (s : SearchState Board Move TT Killers) (depth ply alpha beta : Int),
        0 ≤ depth →
        (∀ s a b, E.king_in_check (E.turn s.board) s.board = false → q s a b = q' s a b) →
        (∀ s d p a b, 0 ≤ d → rec s d p a b = rec' s d p a b) →
          negamaxBody E q rec s depth ply alpha beta =
            negamaxBody E q' rec' s depth ply alpha beta) ∧
    (∀ (q : QSearch Board Move TT Killers) (rec : NSearch Board Move TT Killers)
        (original_alpha : Int) (s : SearchState Board Move TT Killers)
        (depth ply alpha beta : Int),
        0 ≤ depth → (should_exit_search E s).1 = false →
        E.king_in_check (E.turn s.board) s.board = true →
          negamaxSearch E q rec original_alpha s depth ply alpha beta =
            negamaxNull E rec true original_alpha (should_exit_search E s).2 (depth + 1) ply
              alpha beta) ∧
    (∀ (fuel : Nat) (s : SearchState Board Move TT Killers) (depth ply alpha beta : Int),
        0 ≤ depth →
          negamaxOver E (quiesceOffCheck E) fuel s depth ply alpha beta =
            negamax E fuel s depth ply alpha beta) := by
  refine ⟨?_, ?_, ?_⟩
  · intro q q' rec rec' s depth ply alpha beta hd hq hrec
    exact negamaxBody_congr E q q' rec rec' hq hrec s depth ply alpha beta hd
  · intro q rec oa s depth ply alpha beta hd hx hc
    have hb := (should_exit_search_keeps E s).1
    have h1 : ¬ (depth + 1 ≤ 0) := by omega
    simp only [negamaxSearch, hx, Bool.false_eq_true, if_false, hb, hc, extendDepth, if_true, h1]
  · intro fuel s depth ply alpha beta hd
    exact negamaxOver_eq E (quiesceOffCheck E)
      (fun fuel s a b h => by simp only [quiesceOffCheck, h, Bool.false_eq_true, if_false])
      fuel s depth ply alpha beta hd

/-- Witness for C19: the depth-2 search of the three-move tree, where the move
2 gives check, returns, and it is the same as the search whose quiescence
search fails in check. -/
theorem quiesce_never_in_check_witness :
    negamaxOver treeEngine (quiesceOffCheck treeEngine) 6 bareState 2 0 (-kMateScore)
        kMateScore = negamax treeEngine 6 bareState 2 0 (-kMateScore) kMateScore ∧
      (negamax treeEngine 6 bareState 2 0 (-kMateScore) kMateScore).isSome = true :=
  ⟨(quiesce_never_in_check treeEngine).2.2 6 bareState 2 0 (-kMateScore) kMateScore
    (by decide), by decide⟩

/-! ### Cancellation is sticky -/

theorem should_exit_search_false (E : Engine Board Move TT Killers)
    (s : SearchState Board Move TT Killers) (h : (should_exit_search E s).1 = false) :
    (should_exit_search E s).2.search_cancelled = s.search_cancelled := by
  unfold should_exit_search at h ⊢
  split
  · split
    · rename_i h1 h2
      simp [h1, h2] at h
    · rfl
  · rfl

theorem should_exit_search_overdue (E : Engine Board Move TT Killers)
    (hmono : ∀ i j, i ≤ j → E.now i ≤ E.now j)
    (s : SearchState Board Move TT Killers) (h : (should_exit_search E s).1 = true) :
    Overdue E (should_exit_search E s).2 := by
  unfold should_exit_search at h ⊢
  split
  · split
    · rename_i h2
      intro j hj
      have := hmono s.clock_reads j (by
        simp only at hj
        omega)
      simp only [elapsed] at h2 ⊢
      omega
    · rename_i h1 h2
      simp [h1, h2] at h
  · rename_i h1
    simp [h1] at h

theorem should_exit_search_again (E : Engine Board Move TT Killers)
    (s : SearchState Board Move TT Killers) (hc : s.search_cancelled = true)
    (ho : Overdue E s) : (should_exit_search E s).1 = true := by
  have h1 : E.kMaxSearchTime ≤ elapsed E s := ho s.clock_reads (le_refl _)
  simp only [should_exit_search, hc, Bool.true_or, if_true, ge_iff_le, h1]

theorem Overdue.of_frame {E : Engine Board Move TT Killers}
    {s t : SearchState Board Move TT Killers} (hf : Frame E s t) (ho : Overdue E s) :
    Overdue E t := by
  intro j hj
  rw [hf.start]
  exact ho j (le_trans hf.reads hj)

/-- After a call that was entered before any cancellation and satisfies
`CancelSeen`, a `should_exit_search` that answers `false` (on the state after
steps that leave clock and cancellation alone) finds the search not
cancelled. -/
theorem calm_after_child (E : Engine Board Move TT Killers)
    (s1 : SearchState Board Move TT Killers) (r : Result Board Move TT Killers)
    (u : SearchState Board Move TT Killers)
    (hs : s1.search_cancelled = false) (hr : CancelSeen E s1 r)
    (hc : u.search_cancelled = r.state.search_cancelled)
    (hk : u.clock_reads = r.state.clock_reads) (ht : u.start_time = r.state.start_time)
    (hx : (should_exit_search E u).1 = false) :
    (should_exit_search E u).2.search_cancelled = false := by
  rw [should_exit_search_false E u hx, hc]
  cases hcr : r.state.search_cancelled
  · rfl
  · exfalso
    have ho : Overdue E u := by
      intro j hj
      rw [ht]
      exact (hr hs hcr).2.2 j (by omega)
    have := should_exit_search_again E u (by rw [hc, hcr]) ho
    rw [this] at hx
    exact absurd hx (by simp)

theorem rootBest_cancelled (s : SearchState Board Move TT Killers) (ply : Int) (m : Move)
    (v : Int) : (rootBest s ply m v).search_cancelled = s.search_cancelled := by
  unfold rootBest
  split <;> rfl

theorem stepTail_cancelled (E : Engine Board Move TT Killers) (depth beta : Int) (m : Move)
    (alpha best_eval : Int) (best_move : Move) (tried : Nat)
    (s : SearchState Board Move TT Killers) (hs : s.search_cancelled = false) :
    StepCalm E (stepTail E depth beta m alpha best_eval best_move tried s) := by
  unfold stepTail
  simp only
  split
  · simp only [StepCalm, cutoffKiller]
    split <;> exact hs
  · exact hs

theorem negamaxStep_calm (E : Engine Board Move TT Killers)
    (hmono : ∀ i j, i ≤ j → E.now i ≤ E.now j)
    (rec : NSearch Board Move TT Killers)
    (hrec : ∀ s d p a b r, rec s d p a b = some r → CancelSeen E s r)
    (depth ply beta : Int) (m : Move) (alpha best_eval : Int) (best_move : Move) (tried : Nat)
    (s : SearchState Board Move TT Killers) (out : StepOut Board Move TT Killers)
    (hs : s.search_cancelled = false)
    (h : negamaxStep E rec depth ply beta m alpha best_eval best_move tried s = some out) :
    StepCalm E out := by
  unfold negamaxStep at h
  simp only at h
  split at h
  · simp only [Option.some.injEq] at h
    rw [← h]
    exact hs
  · split at h
    · exact absurd h (by simp)
    · rename_i r hr
      split at h
      · rename_i hx
        simp only [Option.some.injEq] at h
        rw [← h]
        exact ⟨should_exit_search_sets E _ hx, should_exit_search_overdue E hmono _ hx⟩
      · rename_i hx
        have hx' : (should_exit_search E (do_undo E r.state)).1 = false := by
          simpa using hx
        have hcalm := calm_after_child E (do_make E s m) r (do_undo E r.state) hs
          (hrec _ _ _ _ _ _ hr) rfl rfl rfl hx'
        split at h
        · simp only [Option.some.injEq] at h
          rw [← h]
          exact stepTail_cancelled E _ _ _ _ _ _ _ _ (by rw [rootBest_cancelled]; exact hcalm)
        · simp only [Option.some.injEq] at h
          rw [← h]
          exact stepTail_cancelled E _ _ _ _ _ _ _ _ hcalm

theorem negamaxLoop_calm (E : Engine Board Move TT Killers)
    (hmono : ∀ i j, i ≤ j → E.now i ≤ E.now j)
    (rec : NSearch Board Move TT Killers)
    (hrec : ∀ s d p a b r, rec s d p a b = some r → CancelSeen E s r)
    (depth ply beta : Int) :
    ∀ (ms : List Move) (alpha best_eval : Int) (best_move : Move) (tried : Nat)
      (s : SearchState Board Move TT Killers) (out : LoopOut Board Move TT Killers),
      s.search_cancelled = false →
      negamaxLoop E rec depth ply beta ms alpha best_eval best_move tried s = some out →
        LoopCalm E out := by
  intro ms
  induction ms with
  | nil =>
    intro alpha best_eval best_move tried s out hs h
    simp only [negamaxLoop, Option.some.injEq] at h
    rw [← h]
    exact hs
  | cons m ms ih =>
    intro alpha best_eval best_move tried s out hs h
    simp only [negamaxLoop] at h
    split at h
    · exact absurd h (by simp)
    · rename_i s1 hst
      exact ih _ _ _ _ _ _ (negamaxStep_calm E hmono rec hrec _ _ _ _ _ _ _ _ _ _ hs hst) h
    · rename_i s1 hst
      simp only [Option.some.injEq] at h
      rw [← h]
      exact negamaxStep_calm E hmono rec hrec _ _ _ _ _ _ _ _ _ _ hs hst
    · rename_i a1 b1 m1 t1 s1 hst
      simp only [Option.some.injEq] at h
      rw [← h]
      exact negamaxStep_calm E hmono rec hrec _ _ _ _ _ _ _ _ _ _ hs hst
    · rename_i a1 b1 m1 t1 s1 hst
      exact ih _ _ _ _ _ _ (negamaxStep_calm E hmono rec hrec _ _ _ _ _ _ _ _ _ _ hs hst) h

theorem negamaxMoves_seen (E : Engine Board Move TT Killers)
    (hmono : ∀ i j, i ≤ j → E.now i ≤ E.now j)
    (rec : NSearch Board Move TT Killers)
    (hrec : ∀ s d p a b r, rec s d p a b = some r → CancelSeen E s r)
    (in_check : Bool) (original_alpha : Int) (s : SearchState Board Move TT Killers)
    (depth ply alpha beta : Int) (r : Result Board Move TT Killers)
    (h : negamaxMoves E rec in_check original_alpha s depth ply alpha beta = some r) :
    CancelSeen E s r := by
  intro hs hc
  unfold negamaxMoves at h
  split at h
  · exact absurd h (by simp)
  · rename_i s1 hl
    have := negamaxLoop_calm E hmono rec hrec _ _ _ _ _ _ _ _ _ _ hs hl
    simp only [Option.some.injEq] at h
    rw [← h]
    exact ⟨rfl, rfl, this.2⟩
  · rename_i a1 b1 m1 t1 s1 hl
    have hcalm : s1.search_cancelled = false :=
      negamaxLoop_calm E hmono rec hrec _ _ _ _ _ _ _ _ _ _ hs hl
    split at h
    · simp only [Option.some.injEq] at h
      rw [← h] at hc
      rw [hcalm] at hc
      exact absurd hc (by simp)
    · simp only [Option.some.injEq] at h
      rw [← h] at hc
      simp only [do_save] at hc
      rw [hcalm] at hc
      exact absurd hc (by simp)

theorem negamaxNull_seen (E : Engine Board Move TT Killers)
    (hmono : ∀ i j, i ≤ j → E.now i ≤ E.now j)
    (rec : NSearch Board Move TT Killers)
    (hrec : ∀ s d p a b r, rec s d p a b = some r → CancelSeen E s r)
    (in_check : Bool) (original_alpha : Int) (s : SearchState Board Move TT Killers)
    (depth ply alpha beta : Int) (r : Result Board Move TT Killers)
    (h : negamaxNull E rec in_check original_alpha s depth ply alpha beta = some r) :
    CancelSeen E s r := by
  unfold negamaxNull at h
  split at h
  · simp only at h
    split at h
    · exact absurd h (by simp)
    · rename_i c hr
      split at h
      · rename_i hx
        simp only [Option.some.injEq] at h
        rw [← h]
        intro _ _
        exact ⟨rfl, rfl, should_exit_search_overdue E hmono _ hx⟩
      · rename_i hx
        intro hs hc
        have hx' : (should_exit_search E (setNullFlag (do_undo E c.state) true)).1 = false := by
          simpa using hx
        have hcalm := calm_after_child E (do_make_null E (setNullFlag s false)) c
          (setNullFlag (do_undo E c.state) true) hs (hrec _ _ _ _ _ _ hr) rfl rfl rfl hx'
        split at h
        · simp only [Option.some.injEq] at h
          rw [← h] at hc
          simp only at hc
          rw [hcalm] at hc
          exact absurd hc (by simp)
        · exact negamaxMoves_seen E hmono rec hrec _ _ _ _ _ _ _ _ h hcalm hc
  · exact negamaxMoves_seen E hmono rec hrec _ _ _ _ _ _ _ _ h

theorem negamaxSearch_seen (E : Engine Board Move TT Killers)
    (hmono : ∀ i j, i ≤ j → E.now i ≤ E.now j)
    (q : QSearch Board Move TT Killers) (rec : NSearch Board Move TT Killers)
    (hq : ∀ s a b v t, q s a b = some (v, t) → t.search_cancelled = s.search_cancelled)
    (hrec : ∀ s d p a b r, rec s d p a b = some r → CancelSeen E s r)
    (original_alpha : Int) (s : SearchState Board Move TT Killers)
    (depth ply alpha beta : Int) (r : Result Board Move TT Killers)
    (h : negamaxSearch E q rec original_alpha s depth ply alpha beta = some r) :
    CancelSeen E s r := by
  unfold negamaxSearch at h
  simp only at h
  split at h
  · rename_i hx
    simp only [Option.some.injEq] at h
    rw [← h]
    intro _ _
    exact ⟨rfl, rfl, should_exit_search_overdue E hmono _ hx⟩
  · rename_i hx
    intro hs hc
    have hx' : (should_exit_search E s).1 = false := by simpa using hx
    have hcalm : (should_exit_search E s).2.search_cancelled = false := by
      rw [should_exit_search_false E s hx', hs]
    split at h
    · split at h
      · exact absurd h (by simp)
      · rename_i v s1 hv
        simp only [Option.some.injEq] at h
        rw [← h] at hc
        simp only at hc
        rw [hq _ _ _ _ _ hv] at hc
        simp only [countNode] at hc
        rw [hcalm] at hc
        exact absurd hc (by simp)
    · exact negamaxNull_seen E hmono rec hrec _ _ _ _ _ _ _ _ h hcalm hc

theorem ttReturnState_cancelled (s : SearchState Board Move TT Killers) (ply : Int)
    (e : Entry Move) : (ttReturnState s ply e).search_cancelled = s.search_cancelled := by
  unfold ttReturnState
  split <;> rfl

theorem negamaxBody_seen (E : Engine Board Move TT Killers)
    (hmono : ∀ i j, i ≤ j → E.now i ≤ E.now j)
    (q : QSearch Board Move TT Killers) (rec : NSearch Board Move TT Killers)
    (hq : ∀ s a b v t, q s a b = some (v, t) → t.search_cancelled = s.search_cancelled)
    (hrec : ∀ s d p a b r, rec s d p a b = some r → CancelSeen E s r)
    (s : SearchState Board Move TT Killers)
    (depth ply alpha beta : Int) (r : Result Board Move TT Killers)
    (h : negamaxBody E q rec s depth ply alpha beta = some r) :
    CancelSeen E s r := by
  have htt : ∀ (v : Int) (p : Exit) (e : Entry Move),
      CancelSeen E s ⟨v, p, ttReturnState s ply e⟩ := by
    intro v p e hs hc
    simp only [ttReturnState_cancelled] at hc
    rw [hs] at hc
    exact absurd hc (by simp)
  unfold negamaxBody at h
  simp only at h
  split at h
  · split at h
    · simp only [Option.some.injEq] at h
      rw [← h]
      exact htt _ _ _
    · split at h
      · simp only [Option.some.injEq] at h
        rw [← h]
        exact htt _ _ _
      · exact negamaxSearch_seen E hmono q rec hq hrec _ _ _ _ _ _ _ h
    · split at h
      · simp only [Option.some.injEq] at h
        rw [← h]
        exact htt _ _ _
      · exact negamaxSearch_seen E hmono q rec hq hrec _ _ _ _ _ _ _ h
  · exact negamaxSearch_seen E hmono q rec hq hrec _ _ _ _ _ _ _ h

theorem negamax_seen (E : Engine Board Move TT Killers)
    (hmono : ∀ i j, i ≤ j → E.now i ≤ E.now j) :
    ∀ (fuel : Nat) (s : SearchState Board Move TT Killers) (depth ply alpha beta : Int)
      (r : Result Board Move TT Killers),
      negamax E fuel s depth ply alpha beta = some r → CancelSeen E s r := by
  intro fuel
  induction fuel with
  | zero =>
    intro s depth ply alpha beta r h
    simp [negamax] at h
  | succ n ih =>
    intro s depth ply alpha beta r h
    exact negamaxBody_seen E hmono (quiesce E n) (negamax E n)
      (fun s a b v t hq => by rw [quiesce_keeps E n s a b v t hq]) ih _ _ _ _ _ _ h

/-! ### The iterations of the driver -/

theorem lastBest_none (best : Move) :
    ∀ (rs : List (Int × Result Board Move TT Killers)),
      (∀ r ∈ rs, r.2.state.best_move_this_iteration = none) → lastBest best rs = best := by
  intro rs
  induction rs generalizing best with
  | nil => intro _; rfl
  | cons r rs ih =>
    intro h
    have h1 := h r (List.mem_cons_self _ _)
    simp only [lastBest, h1]
    exact ih best (fun r' hr' => h r' (List.mem_cons_of_mem _ hr'))

theorem lastBest_some (mv : Move) (r : Int × Result Board Move TT Killers)
    (hr : r.2.state.best_move_this_iteration = some mv) :
    ∀ (pre post : List (Int × Result Board Move TT Killers)) (best : Move),
      (∀ r' ∈ post, r'.2.state.best_move_this_iteration = none) →
        lastBest best (pre ++ r :: post) = mv := by
  intro pre
  induction pre with
  | nil =>
    intro post best hp
    simp only [List.nil_append, lastBest, hr]
    exact lastBest_none mv post hp
  | cons p pre ih =>
    intro post best hp
    simp only [List.cons_append, lastBest]
    exact ih post _ hp

theorem lastBest_snoc (best : Move) (r : Int × Result Board Move TT Killers) :
    ∀ (pre : List (Int × Result Board Move TT Killers)),
      lastBest best (pre ++ [r]) =
        match r.2.state.best_move_this_iteration with
        | some m => m
        | none => lastBest best pre := by
  intro pre
  induction pre generalizing best with
  | nil => rfl
  | cons p pre ih =>
    simp only [List.cons_append, lastBest]
    exact ih _

/-- The loop of `find_best_move` makes the root calls listed by `rootSearches`:
at most as many as iterations are left, at least one if one is left, the
`i`-th of them with the depth `depth + i`; and it returns the iteration-best
move of the last of them that left one. -/
theorem deepenLoop_searches (E : Engine Board Move TT Killers) (fuel : Nat) :
    ∀ (n : Nat) (depth : Int) (best : Move) (s : SearchState Board Move TT Killers)
      (out : Move × SearchState Board Move TT Killers),
      deepenLoop E fuel n depth best s = some out →
        ∃ rs, rootSearches E fuel n depth s = some rs ∧ rs.length ≤ n ∧
          (0 < n → 0 < rs.length) ∧
          (∀ (i : Nat) (d : Int) (r : Result Board Move TT Killers),
            rs[i]? = some (d, r) → d = depth + i) ∧
          out.1 = lastBest best rs := by
  intro n
  induction n with
  | zero =>
    intro depth best s out h
    simp only [deepenLoop, Option.some.injEq] at h
    rw [← h]
    exact ⟨[], rfl, le_refl _, fun h => absurd h (by decide), by simp, rfl⟩
  | succ n ih =>
    intro depth best s out h
    simp only [deepenLoop] at h
    split at h
    · exact absurd h (by simp)
    · rename_i r hr
      have hr' : negamax E fuel (iterStart s depth) depth 0 (-kMateScore) kMateScore =
          some r := hr
      split at h
      · rename_i hx
        simp only [Option.some.injEq] at h
        rw [← h]
        refine ⟨[(depth, r)], ?_, by simp, fun _ => by simp, ?_, rfl⟩
        · simp only [rootSearches, hr', hx, if_true]
        · intro i d r1 hi
          cases i with
          | zero =>
            simp only [List.getElem?_cons_zero, Option.some.injEq, Prod.mk.injEq] at hi
            rw [← hi.1]
            simp
          | succ i => simp at hi
      · rename_i hx
        obtain ⟨rs, h1, h2, _, h4, h5⟩ := ih _ _ _ _ h
        refine ⟨(depth, r) :: rs, ?_, by simp; omega, fun _ => by simp, ?_, ?_⟩
        · simp only [rootSearches, hr', hx, Bool.false_eq_true, if_false, h1]
        · intro i d r1 hi
          cases i with
          | zero =>
            simp only [List.getElem?_cons_zero, Option.some.injEq, Prod.mk.injEq] at hi
            rw [← hi.1]
            simp
          | succ i =>
            simp only [List.getElem?_cons_succ] at hi
            have := h4 i d r1 hi
            rw [this]
            push_cast
            ring
        · rw [h5]
          rfl

/-- Under a monotone clock, once a root call has returned with the search
cancelled the loop of `find_best_move` makes no further root call, and it
ends with the search cancelled. -/
theorem deepenLoop_stops (E : Engine Board Move TT Killers)
    (hmono : ∀ i j, i ≤ j → E.now i ≤ E.now j) (fuel : Nat) :
    ∀ (n : Nat) (depth : Int) (best : Move) (s : SearchState Board Move TT Killers)
      (out : Move × SearchState Board Move TT Killers)
      (rs : List (Int × Result Board Move TT Killers)),
      s.search_cancelled = false →
      deepenLoop E fuel n depth best s = some out →
      rootSearches E fuel n depth s = some rs →
        ∀ pre r post, rs = pre ++ r :: post → r.2.state.search_cancelled = true →
          post = [] ∧ out.2.search_cancelled = true := by
  intro n
  induction n with
  | zero =>
    intro depth best s out rs _ _ hrs pre r post he _
    simp only [rootSearches, Option.some.injEq] at hrs
    rw [← hrs] at he
    exact absurd he (by simp)
  | succ n ih =>
    intro depth best s out rs hs h hrs pre r post he hc
    simp only [deepenLoop] at h
    split at h
    · exact absurd h (by simp)
    · rename_i r0 hr
      have hr' : negamax E fuel (iterStart s depth) depth 0 (-kMateScore) kMateScore =
          some r0 := hr
      have hseen := negamax_seen E hmono fuel _ _ _ _ _ _ hr'
      simp only [rootSearches, hr'] at hrs
      split at h
      · rename_i hx
        simp only [hx, if_true, Option.some.injEq] at hrs
        simp only [Option.some.injEq] at h
        rw [← hrs] at he
        have hpre : pre = [] := by
          cases pre with
          | nil => rfl
          | cons p ps =>
            simp only [List.cons_append, List.cons.injEq] at he
            exact absurd he.2 (by simp)
        rw [hpre] at he
        simp only [List.nil_append, List.cons.injEq] at he
        rw [← h]
        exact ⟨he.2.symm, should_exit_search_sets E _ hx⟩
      · rename_i hx
        have hx' : (should_exit_search E r0.state).1 = false := by simpa using hx
        have hcalm := calm_after_child E (iterStart s depth) r0 r0.state hs hseen rfl rfl rfl hx'
        have hr0 : r0.state.search_cancelled = false := by
          rw [← should_exit_search_false E r0.state hx']
          exact hcalm
        simp only [hx, Bool.false_eq_true, if_false] at hrs
        split at hrs
        · exact absurd hrs (by simp)
        · rename_i rs' hrs'
          simp only [Option.some.injEq] at hrs
          rw [← hrs] at he
          cases pre with
          | nil =>
            simp only [List.nil_append, List.cons.injEq] at he
            rw [← he.1] at hc
            rw [hr0] at hc
            exact absurd hc (by simp)
          | cons p ps =>
            simp only [List.cons_append, List.cons.injEq] at he
            exact ih _ _ _ _ rs' hcalm h hrs' ps r post he.2 hc

/-! ### The search returns -/

theorem negamaxLoop_returns (E : Engine Board Move TT Killers)
    (hmake : ∀ b m, E.undo_move (E.make_move b m) = b)
    (hnull : ∀ b, E.undo_move (E.make_null_move b) = b)
    (n : Nat) (b0 : Board) (depth ply beta : Int) :
    ∀ (ms : List Move),
      (∀ m ∈ ms, move_leaves_check E (E.make_move b0 m) = false →
        ∀ (s1 : SearchState Board Move TT Killers) (a b : Int),
          s1.board = E.make_move b0 m →
            ∃ r, negamax E n s1 (depth - 1) (ply + 1) a b = some r) →
      ∀ (alpha best_eval : Int) (best_move : Move) (tried : Nat)
        (s : SearchState Board Move TT Killers), s.board = b0 →
        ∃ out, negamaxLoop E (negamax E n) depth ply beta ms alpha best_eval best_move tried s =
          some out ∧ out.state.board = b0 := by
  intro ms
  induction ms with
  | nil =>
    intro _ alpha best_eval best_move tried s hb
    exact ⟨_, rfl, hb⟩
  | cons m ms ihl =>
    intro hr alpha best_eval best_move tried s hb
    have hr' : ∀ m' ∈ ms, move_leaves_check E (E.make_move b0 m') = false →
        ∀ (s1 : SearchState Board Move TT Killers) (a b : Int),
          s1.board = E.make_move b0 m' →
            ∃ r, negamax E n s1 (depth - 1) (ply + 1) a b = some r :=
      fun m' hm' => hr m' (List.mem_cons_of_mem _ hm')
    have hstep : ∃ out, negamaxStep E (negamax E n) depth ply beta m alpha best_eval best_move
        tried s = some out := by
      unfold negamaxStep
      simp only
      split
      · exact ⟨_, rfl⟩
      · rename_i hc
        have hc' : move_leaves_check E (E.make_move b0 m) = false := by
          simp only [do_make, hb] at hc
          simpa using hc
        obtain ⟨r, hrr⟩ := hr m (List.mem_cons_self _ _) hc' (do_make E s m) (-beta) (-alpha)
          (by simp only [do_make, hb])
        simp only [hrr]
        split
        · exact ⟨_, rfl⟩
        · split
          · exact ⟨_, rfl⟩
          · exact ⟨_, rfl⟩
    obtain ⟨out, ho⟩ := hstep
    have hfr := negamaxStep_frame E (negamax E n) (negamax_frame E n) _ _ _ _ _ _ _ _ _ _ ho
    have hb1 : out.state.board = b0 := (hfr.board hmake hnull).trans hb
    simp only [negamaxLoop, ho]
    cases out with
    | skipped s1 => exact ihl hr' _ _ _ _ _ hb1
    | cancelled s1 => exact ⟨_, rfl, hb1⟩
    | cutoff a1 b1 m1 t1 s1 => exact ⟨_, rfl, hb1⟩
    | next a1 b1 m1 t1 s1 => exact ihl hr' _ _ _ _ _ hb1

theorem negamaxMoves_returns (E : Engine Board Move TT Killers)
    (hmake : ∀ b m, E.undo_move (E.make_move b m) = b)
    (hnull : ∀ b, E.undo_move (E.make_null_move b) = b)
    (n : Nat) (s : SearchState Board Move TT Killers) (depth ply : Int)
    (hkids : ∀ m ∈ orderedMoves E s, move_leaves_check E (E.make_move s.board m) = false →
      ∀ (s1 : SearchState Board Move TT Killers) (a b : Int),
        s1.board = E.make_move s.board m →
          ∃ r, negamax E n s1 (depth - 1) (ply + 1) a b = some r)
    (in_check : Bool) (original_alpha alpha beta : Int) :
    ∃ r, negamaxMoves E (negamax E n) in_check original_alpha s depth ply alpha beta =
      some r := by
  obtain ⟨out, ho, _⟩ := negamaxLoop_returns E hmake hnull n s.board depth ply beta
    (orderedMoves E s) hkids alpha INT_MIN E.no_move 0 s rfl
  unfold negamaxMoves
  rw [ho]
  cases out with
  | cancelled s1 => exact ⟨_, rfl⟩
  | finished a1 b1 m1 t1 s1 =>
    simp only
    split
    · exact ⟨_, rfl⟩
    · exact ⟨_, rfl⟩

theorem fuelNeed_child (E : Engine Board Move TT Killers) (pieces crank : Board → Nat)
    (K : Nat) (hB : SearchBounds E pieces crank K) (b : Board) (t : TT) (k : Killers)
    (m : Move) (hm : m ∈ E.order MoveType.kAll b t k (E.generate_moves b))
    (hl : move_leaves_check E (E.make_move b m) = false) (depth : Int) (n : Nat)
    (hd : 0 < extendDepth (E.king_in_check (E.turn b) b) depth)
    (hf : fuelNeed E pieces crank K b depth ≤ n + 1) :
    fuelNeed E pieces crank K (E.make_move b m)
      (extendDepth (E.king_in_check (E.turn b) b) depth - 1) ≤ n := by
  have h1 := hB.moves b t k m hm
  have h2 := hB.cap (E.make_move b m)
  unfold fuelNeed at hf ⊢
  cases hc : E.king_in_check (E.turn b) b
  · simp only [hc, extendDepth, Bool.false_eq_true, if_false] at hd hf ⊢
    have h3 : depth.toNat = (depth - 1).toNat + 1 := by omega
    have h4 : (K + 2) * depth.toNat = (K + 2) * (depth - 1).toNat + (K + 2) := by
      rw [h3, Nat.mul_succ]
    split <;> omega
  · simp only [hc, extendDepth, if_true] at hd hf ⊢
    have h3 : depth + 1 - 1 = depth := by omega
    rw [h3]
    split
    · rename_i hc'
      have := hB.chain b t k m hm hc hl hc'
      omega
    · omega

theorem fuelNeed_null (E : Engine Board Move TT Killers) (pieces crank : Board → Nat)
    (K : Nat) (hB : SearchBounds E pieces crank K) (b : Board) (depth : Int) (n : Nat)
    (hd : 2 < depth) (hc : E.king_in_check (E.turn b) b = false)
    (hf : fuelNeed E pieces crank K b depth ≤ n + 1) :
    fuelNeed E pieces crank K (E.make_null_move b)
      (depth - (if depth > 6 then 3 else 2)) ≤ n := by
  have h1 := hB.pass b
  have h2 := hB.cap (E.make_null_move b)
  have key : ∀ red : Int, 2 ≤ red →
      fuelNeed E pieces crank K (E.make_null_move b) (depth - red) ≤ n := by
    intro red hred
    unfold fuelNeed at hf ⊢
    simp only [hc, Bool.false_eq_true, if_false] at hf
    have h3 : (depth - red).toNat + 1 ≤ depth.toNat := by omega
    have h4 : (K + 2) * (depth - red).toNat + (K + 2) ≤ (K + 2) * depth.toNat := by
      calc (K + 2) * (depth - red).toNat + (K + 2)
          = (K + 2) * ((depth - red).toNat + 1) := by rw [Nat.mul_succ]
        _ ≤ (K + 2) * depth.toNat := Nat.mul_le_mul_left _ h3
    split <;> omega
  split
  · exact key 3 (by omega)
  · exact key 2 (by omega)

/-- With the search tree bounded as `SearchBounds` says and `undo_move`
reversing the moves, `negamax` returns when the fuel is at least `fuelNeed`. -/
theorem negamax_returns (E : Engine Board Move TT Killers)
    (hmake : ∀ b m, E.undo_move (E.make_move b m) = b)
    (hnull : ∀ b, E.undo_move (E.make_null_move b) = b)
    (pieces crank : Board → Nat) (K : Nat) (hB : SearchBounds E pieces crank K) :
    ∀ (fuel : Nat) (s : SearchState Board Move TT Killers) (depth ply alpha beta : Int),
      fuelNeed E pieces crank K s.board depth ≤ fuel →
        ∃ r, negamax E fuel s depth ply alpha beta = some r := by
  intro fuel
  induction fuel with
  | zero =>
    intro s depth ply alpha beta h
    unfold fuelNeed at h
    omega
  | succ n ih =>
    intro s depth ply alpha beta hs
    have hmoves : ∀ (u : SearchState Board Move TT Killers), u.board = s.board →
        0 < extendDepth (E.king_in_check (E.turn s.board) s.board) depth →
        ∀ ic oa a b, ∃ r, negamaxMoves E (negamax E n) ic oa u
          (extendDepth (E.king_in_check (E.turn s.board) s.board) depth) ply a b = some r := by
      intro u hu hd ic oa a b
      refine negamaxMoves_returns E hmake hnull n u _ ply ?_ ic oa a b
      intro m hm hl s1 a1 b1 hs1
      apply ih
      rw [hs1, hu]
      rw [hu] at hl
      have hm' : m ∈ E.order MoveType.kAll s.board u.transpo u.killers
          (E.generate_moves s.board) := by
        have := hm
        simp only [orderedMoves, hu] at this
        exact this
      exact fuelNeed_child E pieces crank K hB s.board _ _ m hm' hl depth n hd hs
    have hsearch : ∀ (oa a b : Int),
        ∃ r, negamaxSearch E (quiesce E n) (negamax E n) oa s depth ply a b = some r := by
      intro oa a b
      unfold negamaxSearch
      simp only
      split
      · exact ⟨_, rfl⟩
      · have hfr := Frame.exit E s
        have hb := hfr.board hmake hnull
        rw [hb]
        split
        · have hq : pieces (countNode (should_exit_search E s).2).board < n := by
            simp only [countNode, hb]
            unfold fuelNeed at hs
            omega
          obtain ⟨v, t, hv⟩ := quiesce_total E hmake pieces hB.captures n _ a b hq
          simp only [hv]
          exact ⟨_, rfl⟩
        · rename_i hd
          have hd' : 0 < extendDepth (E.king_in_check (E.turn s.board) s.board) depth :=
            not_le.mp hd
          unfold negamaxNull
          split
          · rename_i hc
            simp only [Bool.and_eq_true, decide_eq_true_eq, Bool.not_eq_true'] at hc
            have hic : E.king_in_check (E.turn s.board) s.board = false := hc.2
            have hdep : extendDepth (E.king_in_check (E.turn s.board) s.board) depth = depth := by
              simp [extendDepth, hic]
            have hflag : (should_exit_search E s).2.can_do_null_move = true := hc.1.1
            have h1 : fuelNeed E pieces crank K
                (do_make_null E (setNullFlag (should_exit_search E s).2 false)).board
                (extendDepth (E.king_in_check (E.turn s.board) s.board) depth -
                  (if extendDepth (E.king_in_check (E.turn s.board) s.board) depth > 6
                    then 3 else 2)) ≤ n := by
              have hbb : (do_make_null E (setNullFlag (should_exit_search E s).2 false)).board =
                  E.make_null_move s.board := by
                simp only [do_make_null, setNullFlag, hb]
              rw [hbb, hdep]
              have h2 : 2 < depth := by
                have := hc.1.2
                rw [hdep] at this
                exact this
              exact fuelNeed_null E pieces crank K hB s.board depth n h2 hic hs
            obtain ⟨r, hr⟩ := ih (do_make_null E (setNullFlag (should_exit_search E s).2 false))
              _ (ply + 1) (-b) (-a) h1
            simp only [hr]
            have hfr2 := (Frame.bracket_null hflag (negamax_frame E n _ _ _ _ _ _ hr)).trans
              (Frame.exit E _)
            split
            · exact ⟨_, rfl⟩
            · split
              · exact ⟨_, rfl⟩
              · exact hmoves _ ((hfr2.board hmake hnull).trans hb) hd' _ _ _ _
          · exact hmoves _ hb hd' _ _ _ _
    unfold negamax negamaxBody
    simp only
    split
    · split
      · exact ⟨_, rfl⟩
      · split
        · exact ⟨_, rfl⟩
        · exact hsearch _ _ _
      · split
        · exact ⟨_, rfl⟩
        · exact hsearch _ _ _
    · exact hsearch _ _ _

theorem fuelNeed_root (E : Engine Board Move TT Killers) (pieces crank : Board → Nat)
    (K : Nat) (hB : SearchBounds E pieces crank K) (b : Board) (depth : Int) (fuel : Nat)
    (hd : depth ≤ kMaxDepth)
    (hfuel : pieces b + (K + 2) * (kMaxDepth + 1) + 1 ≤ fuel) :
    fuelNeed E pieces crank K b depth ≤ fuel := by
  have h2 := hB.cap b
  unfold fuelNeed
  have hk : (kMaxDepth : Int) = 64 := rfl
  have hk' : kMaxDepth = 64 := rfl
  rw [hk] at hd
  rw [hk'] at hfuel
  have h3 : depth.toNat ≤ 64 := by omega
  have h4 : (K + 2) * depth.toNat ≤ (K + 2) * 64 := Nat.mul_le_mul_left _ h3
  have h5 : (K + 2) * (64 + 1) = (K + 2) * 64 + (K + 2) := Nat.mul_succ _ _
  split <;> omega

theorem deepenLoop_returns (E : Engine Board Move TT Killers)
    (hmake : ∀ b m, E.undo_move (E.make_move b m) = b)
    (hnull : ∀ b, E.undo_move (E.make_null_move b) = b)
    (pieces crank : Board → Nat) (K : Nat) (hB : SearchBounds E pieces crank K)
    (fuel : Nat) (b0 : Board)
    (hfuel : pieces b0 + (K + 2) * (kMaxDepth + 1) + 1 ≤ fuel) :
    ∀ (n : Nat) (depth : Int) (best : Move) (s : SearchState Board Move TT Killers),
      s.board = b0 → depth + n ≤ kMaxDepth + 1 →
        ∃ out, deepenLoop E fuel n depth best s = some out := by
  intro n
  induction n with
  | zero =>
    intro depth best s _ _
    exact ⟨_, rfl⟩
  | succ n ih =>
    intro depth best s hb hd
    obtain ⟨r, hr⟩ := negamax_returns E hmake hnull pieces crank K hB fuel
      (iterStart s depth) depth 0 (-kMateScore) kMateScore (by
        refine fuelNeed_root E pieces crank K hB _ depth fuel ?_ ?_
        · push_cast at hd
          omega
        · simp only [iterStart, hb]
          exact hfuel)
    have hr' : negamax E fuel
        { s with best_move_this_iteration := none, best_eval_this_iteration := INT_MIN,
                 trace := s.trace ++ [Event.root depth s.can_do_null_move] }
        depth 0 (-kMateScore) kMateScore = some r := hr
    have hfr := (negamax_frame E fuel _ _ _ _ _ _ hr).trans (Frame.exit E r.state)
    have hb1 : (should_exit_search E r.state).2.board = b0 := by
      rw [hfr.board hmake hnull]
      exact hb
    simp only [deepenLoop, hr']
    split
    · exact ⟨_, rfl⟩
    · refine ih _ _ _ hb1 ?_
      push_cast at hd ⊢
      omega

/-! ### Where the iteration-best move comes from -/

theorem negamaxStep_iterBest (E : Engine Board Move TT Killers)
    (rec : NSearch Board Move TT Killers)
    (hrec : ∀ s d p a b r, 1 ≤ p → rec s d p a b = some r →
      r.state.best_move_this_iteration = s.best_move_this_iteration)
    (depth beta : Int)
    (all : List Move) (p0 p : LoopPoint Board Move TT Killers) (n : Nat) (m : Move)
    (hm : all[n]? = some m)
    (hp : loopBefore E rec depth 0 beta (all.take n) p0 = some p)
    (out : StepOut Board Move TT Killers)
    (h : negamaxStep E rec depth 0 beta m p.alpha p.best_eval p.best_move p.moves_tried
      p.state = some out) :
    out.state.best_move_this_iteration = p.state.best_move_this_iteration ∨
      (out.state.best_move_this_iteration = some m ∧
        (scoreAt E rec depth 0 beta all p0 n).isSome = true) := by
  have hsc := scoreAt_eq E rec depth 0 beta all p0 p n m hm hp
  unfold negamaxStep at h
  simp only at h
  split at h
  · simp only [Option.some.injEq] at h
    rw [← h]
    exact Or.inl rfl
  · rename_i hc
    simp only [hc, if_false] at hsc
    split at h
    · exact absurd h (by simp)
    · rename_i r hr
      simp only [hr] at hsc
      have h1 : (should_exit_search E (do_undo E r.state)).2.best_move_this_iteration =
          p.state.best_move_this_iteration := by
        rw [(should_exit_search_keeps E _).2.2.2.1]
        exact hrec (do_make E p.state m) _ _ _ _ _ (by omega) hr
      split at h
      · simp only [Option.some.injEq] at h
        rw [← h]
        exact Or.inl h1
      · rename_i hx
        simp only [hx, if_false] at hsc
        split at h
        · simp only [Option.some.injEq] at h
          refine Or.inr ⟨?_, ?_⟩
          · rw [← h, stepTail_best_move]
            simp only [rootBest, if_true]
          · rw [hsc]
            rfl
        · simp only [Option.some.injEq] at h
          rw [← h, stepTail_best_move]
          exact Or.inl h1

/-- At ply 0, an iteration-best move in the state the move loop leaves was
there on entry or is a move the loop fully searched. -/
theorem negamaxLoop_iterBest (E : Engine Board Move TT Killers)
    (rec : NSearch Board Move TT Killers)
    (hrec : ∀ s d p a b r, 1 ≤ p → rec s d p a b = some r →
      r.state.best_move_this_iteration = s.best_move_this_iteration)
    (depth beta : Int)
    (all : List Move) (p0 : LoopPoint Board Move TT Killers) :
    ∀ (rest pre : List Move) (p : LoopPoint Board Move TT Killers)
      (out : LoopOut Board Move TT Killers),
      all = pre ++ rest →
      loopBefore E rec depth 0 beta pre p0 = some p →
      (∀ mv, p.state.best_move_this_iteration = some mv →
        p0.state.best_move_this_iteration = some mv ∨
          ∃ i, all[i]? = some mv ∧ (scoreAt E rec depth 0 beta all p0 i).isSome = true) →
      negamaxLoop E rec depth 0 beta rest p.alpha p.best_eval p.best_move p.moves_tried
        p.state = some out →
      ∀ mv, out.state.best_move_this_iteration = some mv →
        p0.state.best_move_this_iteration = some mv ∨
          ∃ i, all[i]? = some mv ∧ (scoreAt E rec depth 0 beta all p0 i).isSome = true := by
  intro rest
  induction rest with
  | nil =>
    intro pre p out _ _ hinv h
    simp only [negamaxLoop, Option.some.injEq] at h
    rw [← h]
    exact hinv
  | cons m rest ih =>
    intro pre p out hall hp hinv h
    have hm : all[pre.length]? = some m := by
      rw [hall, List.getElem?_append_right (le_refl _), Nat.sub_self]
      exact List.getElem?_cons_zero
    have htake : all.take pre.length = pre := by
      rw [hall]
      exact List.take_left _ _
    have hp' : loopBefore E rec depth 0 beta (all.take pre.length) p0 = some p := by
      rw [htake]
      exact hp
    have hall' : all = (pre ++ [m]) ++ rest := by
      rw [hall, List.append_assoc]
      rfl
    have htake' : all.take (pre.length + 1) = pre ++ [m] := by
      have : (pre ++ [m]).length = pre.length + 1 := by simp
      rw [hall', ← this]
      exact List.take_left _ _
    have hstep : ∀ o, negamaxStep E rec depth 0 beta m p.alpha p.best_eval p.best_move
        p.moves_tried p.state = some o →
        ∀ mv, o.state.best_move_this_iteration = some mv →
          p0.state.best_move_this_iteration = some mv ∨
            ∃ i, all[i]? = some mv ∧ (scoreAt E rec depth 0 beta all p0 i).isSome = true := by
      intro o ho mv hmv
      rcases negamaxStep_iterBest E rec hrec depth beta all p0 p _ m hm hp' o ho with hk | hk
      · exact hinv mv (hk.symm.trans hmv)
      · have : m = mv := by
          have := hk.1.symm.trans hmv
          simpa using this
        rw [← this]
        exact Or.inr ⟨pre.length, hm, hk.2⟩
    simp only [negamaxLoop] at h
    split at h
    · exact absurd h (by simp)
    · rename_i s1 hs
      obtain ⟨_, r2⟩ := negamaxStep_run E rec depth 0 beta all p0 p _ m hm hp' _ hs
      rw [htake'] at r2
      exact ih (pre ++ [m]) { p with state := s1 } out hall' r2 (hstep _ hs) h
    · rename_i s1 hs
      simp only [Option.some.injEq] at h
      rw [← h]
      exact hstep _ hs
    · rename_i a1 b1 m1 t1 s1 hs
      simp only [Option.some.injEq] at h
      rw [← h]
      exact hstep _ hs
    · rename_i a1 b1 m1 t1 s1 hs
      obtain ⟨r1, _⟩ := negamaxStep_run E rec depth 0 beta all p0 p _ m hm hp' _ hs
      rw [htake'] at r1
      exact ih (pre ++ [m]) ⟨a1, b1, m1, t1, s1⟩ out hall' r1 (hstep _ hs) h

theorem negamaxMoves_loop_best (E : Engine Board Move TT Killers)
    (rec : NSearch Board Move TT Killers)
    (in_check : Bool) (original_alpha : Int) (s : SearchState Board Move TT Killers)
    (depth ply alpha beta : Int) (r : Result Board Move TT Killers)
    (h : negamaxMoves E rec in_check original_alpha s depth ply alpha beta = some r) :
    ∃ out, negamaxLoop E rec depth ply beta (orderedMoves E s) alpha INT_MIN E.no_move 0 s =
        some out ∧
      r.state.best_move_this_iteration = out.state.best_move_this_iteration := by
  unfold negamaxMoves at h
  split at h
  · exact absurd h (by simp)
  · rename_i s1 hl
    simp only [Option.some.injEq] at h
    rw [← h]
    exact ⟨_, hl, rfl⟩
  · rename_i a1 b1 m1 t1 s1 hl
    split at h
    · simp only [Option.some.injEq] at h
      rw [← h]
      exact ⟨_, hl, rfl⟩
    · simp only [Option.some.injEq] at h
      rw [← h]
      exact ⟨_, hl, rfl⟩

/-- A root call entered without an iteration-best move leaves one only by
returning at the probe or for a move of its loop that it fully searched. -/
theorem negamax_root_scored (E : Engine Board Move TT Killers) (k : Nat)
    (e : SearchState Board Move TT Killers) (depth alpha beta : Int)
    (r : Result Board Move TT Killers) (hn : e.best_move_this_iteration = none)
    (h : negamax E (k + 1) e depth 0 alpha beta = some r)
    (mv : Move) (hmv : r.state.best_move_this_iteration = some mv) :
    r.path = Exit.ttExact ∨ r.path = Exit.ttCutoff ∨
      ∃ s1 i, loopStart E (negamax E k) e depth 0 alpha beta = some s1 ∧
        (orderedMoves E s1)[i]? = some mv ∧
        (searchedScore E (negamax E k) e depth 0 alpha beta i).isSome = true := by
  have hqk : ∀ s a b v t, quiesce E k s a b = some (v, t) →
      t.best_move_this_iteration = s.best_move_this_iteration := by
    intro s a b v t hq
    rw [quiesce_keeps E k s a b v t hq]
  rcases negamaxBody_probe E _ _ e depth 0 alpha beta r h with ⟨_, h0⟩ | ⟨htt, h1⟩
  · rcases h0 with h0 | h0
    · exact Or.inl h0
    · exact Or.inr (Or.inl h0)
  refine Or.inr (Or.inr ?_)
  rcases negamaxSearch_loop E _ _ hqk (negamax_keeps_best E k) _ e depth 0 _ _ r h1 with
    ⟨_, h0, _⟩ | ⟨s1, hstart, hs1, h3⟩
  · rw [h0 (le_refl _), hn] at hmv
    exact absurd hmv (by simp)
  have hls := loopStart_of_search E (negamax E k) e s1 depth 0 alpha beta htt hstart
  obtain ⟨out, hl, ho⟩ := negamaxMoves_loop_best E _ _ _ _ _ _ _ _ r h3
  have hrun := negamaxLoop_iterBest E (negamax E k) (negamax_keeps_best E k)
    (extendDepth (E.king_in_check (E.turn e.board) e.board) depth)
    (probedBeta E e depth beta) (orderedMoves E s1)
    (loopEntry E (probedAlpha E e depth alpha) s1) (orderedMoves E s1) []
    (loopEntry E (probedAlpha E e depth alpha) s1) out rfl rfl (fun mv h => Or.inl h) hl mv
    (ho.symm.trans hmv)
  rcases hrun with h0 | ⟨i, h4, h5⟩
  · have h0' : s1.best_move_this_iteration = some mv := h0
    rw [hs1 (le_refl _), hn] at h0'
    exact absurd h0' (by simp)
  · refine ⟨s1, i, hls, h4, ?_⟩
    rw [searchedScore_eq E (negamax E k) e s1 depth 0 alpha beta hls]
    exact h5

theorem rootSearches_chain (E : Engine Board Move TT Killers) (fuel : Nat) :
    ∀ (n : Nat) (depth : Int) (s : SearchState Board Move TT Killers)
      (rs : List (Int × Result Board Move TT Killers)),
      rootSearches E fuel n depth s = some rs →
        (∀ x, rs[0]? = some x →
          negamax E fuel (iterStart s x.1) x.1 0 (-kMateScore) kMateScore = some x.2) ∧
        (∀ i y x, rs[i]? = some y → rs[i + 1]? = some x →
          negamax E fuel (iterStart (should_exit_search E y.2.state).2 x.1) x.1 0
            (-kMateScore) kMateScore = some x.2) := by
  intro n
  induction n with
  | zero =>
    intro depth s rs h
    simp only [rootSearches, Option.some.injEq] at h
    rw [← h]
    exact ⟨fun x hx => absurd hx (by simp), fun i y x hy _ => absurd hy (by simp)⟩
  | succ n ih =>
    intro depth s rs h
    simp only [rootSearches] at h
    split at h
    · exact absurd h (by simp)
    · rename_i r hr
      split at h
      · simp only [Option.some.injEq] at h
        rw [← h]
        refine ⟨?_, ?_⟩
        · intro x hx
          simp only [List.getElem?_cons_zero, Option.some.injEq] at hx
          rw [← hx]
          exact hr
        · intro i y x _ hx
          simp at hx
      · split at h
        · exact absurd h (by simp)
        · rename_i rs1 hrs
          simp only [Option.some.injEq] at h
          rw [← h]
          obtain ⟨h1, h2⟩ := ih _ _ _ hrs
          refine ⟨?_, ?_⟩
          · intro x hx
            simp only [List.getElem?_cons_zero, Option.some.injEq] at hx
            rw [← hx]
            exact hr
          · intro i y x hy hx
            cases i with
            | zero =>
              simp only [List.getElem?_cons_zero, Option.some.injEq] at hy
              simp only [zero_add, List.getElem?_cons_succ] at hx
              rw [← hy]
              exact h1 x hx
            | succ j =>
              simp only [List.getElem?_cons_succ] at hy hx
              exact h2 j y x hy hx

/-- C11: a run of `find_best_move` makes the root calls `negamax(board, d, 0,
-MATE, MATE)` for `d = 1, 2, ...`, at least one and at most `kMaxDepth`, the
first entered in the state after lines 217-220 and each later one in the
state the call before it left, past the check of line 241, always with the
iteration-best move reset; it returns the iteration-best move that the last
of these calls to leave one left, and when no call left one it returns the
default-constructed move.  In particular, when the last call,
cancelled or not, left none, the result is the one the calls before it
determine, and when it left one, that move is returned, also when the call
was cancelled.  A root call leaves an iteration-best move only by returning
at the probe or for a move of its move loop that it fully searched (the loop
reached the move, its child search returned and the cancellation check after
it was negative); so when the last call is cancelled before any move of its
loop was fully searched, it leaves none and the move of the calls before it
is returned.  With the search tree bounded as `SearchBounds` says (captures
lower the piece count, runs of checks are bounded), `undo_move` reversing
the moves and fuel for the depth `kMaxDepth`, `find_best_move` returns. -/
theorem driver_result (E : Engine Board Move TT Killers) (fuel : Nat)
    (s : SearchState Board Move TT Killers) :
    (∀ (m : Move) (t : SearchState Board Move TT Killers),
        find_best_move E fuel s = some (m, t) →
          ∃ rs, rootSearches E fuel kMaxDepth 1 (searchStart E s) = some rs ∧
            0 < rs.length ∧ rs.length ≤ kMaxDepth ∧
            (∀ (i : Nat) (d : Int) (r : Result Board Move TT Killers),
              rs[i]? = some (d, r) → d = i + 1) ∧
            (∀ x, rs[0]? = some x →
              negamax E fuel (iterStart (searchStart E s) x.1) x.1 0 (-kMateScore)
                kMateScore = some x.2) ∧
            (∀ i y x, rs[i]? = some y → rs[i + 1]? = some x →
              negamax E fuel (iterStart (should_exit_search E y.2.state).2 x.1) x.1 0
                (-kMateScore) kMateScore = some x.2) ∧
            (∀ pre r post mv, rs = pre ++ r :: post →
              r.2.state.best_move_this_iteration = some mv →
              (∀ r' ∈ post, r'.2.state.best_move_this_iteration = none) → m = mv) ∧
            ((∀ r ∈ rs, r.2.state.best_move_this_iteration = none) → m = E.no_move) ∧
            (∀ pre r, rs = pre ++ [r] → r.2.state.best_move_this_iteration = none →
              m = lastBest E.no_move pre) ∧
            (∀ pre r mv, rs = pre ++ [r] → r.2.state.best_move_this_iteration = some mv →
              m = mv) ∧
            (∀ pre x u k, rs = pre ++ [x] → fuel = k + 1 →
              negamax E fuel (iterStart u x.1) x.1 0 (-kMateScore) kMateScore = some x.2 →
              x.2.path.isCancelled = true →
              (∀ i, searchedScore E (negamax E k) (iterStart u x.1) x.1 0 (-kMateScore)
                kMateScore i = none) →
                x.2.state.best_move_this_iteration = none ∧ m = lastBest E.no_move pre)) ∧
    (∀ (k : Nat) (e : SearchState Board Move TT Killers) (d : Int)
        (r : Result Board Move TT Killers) (mv : Move),
        fuel = k + 1 → e.best_move_this_iteration = none →
        negamax E fuel e d 0 (-kMateScore) kMateScore = some r →
        r.state.best_move_this_iteration = some mv →
          r.path = Exit.ttExact ∨ r.path = Exit.ttCutoff ∨
            ∃ s1 i, loopStart E (negamax E k) e d 0 (-kMateScore) kMateScore = some s1 ∧
              (orderedMoves E s1)[i]? = some mv ∧
              (searchedScore E (negamax E k) e d 0 (-kMateScore) kMateScore i).isSome = true) ∧
    (∀ (pieces crank : Board → Nat) (K : Nat),
        (∀ b m, E.undo_move (E.make_move b m) = b) →
        (∀ b, E.undo_move (E.make_null_move b) = b) →
        SearchBounds E pieces crank K →
        pieces s.board + (K + 2) * (kMaxDepth + 1) + 1 ≤ fuel →
          ∃ m t, find_best_move E fuel s = some (m, t)) := by
  have hroot : ∀ (k : Nat) (e : SearchState Board Move TT Killers) (d : Int)
      (r : Result Board Move TT Killers) (mv : Move),
      fuel = k + 1 → e.best_move_this_iteration = none →
      negamax E fuel e d 0 (-kMateScore) kMateScore = some r →
      r.state.best_move_this_iteration = some mv →
        r.path = Exit.ttExact ∨ r.path = Exit.ttCutoff ∨
          ∃ s1 i, loopStart E (negamax E k) e d 0 (-kMateScore) kMateScore = some s1 ∧
            (orderedMoves E s1)[i]? = some mv ∧
            (searchedScore E (negamax E k) e d 0 (-kMateScore) kMateScore i).isSome = true := by
    intro k e d r mv hk he hr hmv
    subst hk
    exact negamax_root_scored E k e d _ _ r he hr mv hmv
  refine ⟨?_, hroot, ?_⟩
  · intro m t h
    simp only [find_best_move] at h
    split at h
    · exact absurd h (by simp)
    · rename_i m1 s1 hl
      simp only [Option.some.injEq, Prod.mk.injEq] at h
      obtain ⟨rs, h1, h2, h3, h4, h5⟩ := deepenLoop_searches E fuel _ _ _ _ _ hl
      have hm : m = lastBest E.no_move rs := by
        rw [← h.1]
        exact h5
      have hnone : ∀ pre r, rs = pre ++ [r] → r.2.state.best_move_this_iteration = none →
          m = lastBest E.no_move pre := by
        intro pre r he hr
        rw [hm, he, lastBest_snoc, hr]
      refine ⟨rs, h1, h3 (by decide), h2, ?_, (rootSearches_chain E fuel _ _ _ rs h1).1,
        (rootSearches_chain E fuel _ _ _ rs h1).2, ?_, ?_, hnone, ?_, ?_⟩
      · intro i d r hi
        have := h4 i d r hi
        omega
      · intro pre r post mv he hr hp
        rw [hm, he]
        exact lastBest_some mv r hr pre post _ hp
      · intro hn
        rw [hm]
        exact lastBest_none _ rs hn
      · intro pre r mv he hr
        rw [hm, he, lastBest_snoc, hr]
      · intro pre x u k he hk hx hc hsc
        have hb : x.2.state.best_move_this_iteration = none := by
          cases hbm : x.2.state.best_move_this_iteration with
          | none => rfl
          | some mv =>
            rcases hroot k (iterStart u x.1) x.1 x.2 mv hk rfl hx hbm with h0 | h0 | ⟨_, i, _, _, h0⟩
            · rw [h0] at hc
              exact absurd hc (by decide)
            · rw [h0] at hc
              exact absurd hc (by decide)
            · rw [hsc i] at h0
              exact absurd h0 (by decide)
        exact ⟨hb, hnone pre x he hb⟩
  · intro pieces crank K hmake hnull hB hfuel
    obtain ⟨out, ho⟩ := deepenLoop_returns E hmake hnull pieces crank K hB fuel s.board
      hfuel kMaxDepth 1 E.no_move (searchStart E s) rfl (by
        have : (kMaxDepth : Int) = 64 := rfl
        omega)
    refine ⟨out.1, { out.2 with clock_reads := out.2.clock_reads + 1 }, ?_⟩
    simp only [find_best_move, ho]

set_option maxHeartbeats 4000000 in
/-- Witness for C11: with a budget of 12 ticks the first iteration completes
with the move 1 and the second is cancelled after its first root move, 3, was
searched; `find_best_move` returns the partial move 3.  With a budget of 10
ticks the second iteration is cancelled before a root move was fully
searched, and the move 1 of the first iteration is returned.  The last two
parts give, for the second iteration under either budget, its exit, the
iteration-best move it leaves and the scores of the moves at the positions
0 to 3 of its loop. -/
theorem driver_result_witness :
    (∃ m t, find_best_move (checkEngine 12) 131 bareState = some (m, t) ∧ m = 3 ∧
      ∃ rs, rootSearches (checkEngine 12) 131 kMaxDepth 1
          (searchStart (checkEngine 12) bareState) = some rs ∧ rs.length ≤ kMaxDepth) ∧
    (find_best_move (checkEngine 10) 131 bareState).map Prod.fst = some 1 ∧
    (rootSearches (checkEngine 10) 131 kMaxDepth 1 (searchStart (checkEngine 10) bareState)).map
        (fun rs => rs.map (fun x => (x.2.state.best_move_this_iteration, x.2.path))) =
      some [(some 1, Exit.stored), (none, Exit.cancelledChild)] ∧
    ((negamax (checkEngine 10) 131 (iterStart (searchStart (checkEngine 10) bareState) 1) 1 0
        (-kMateScore) kMateScore).bind (fun r1 =>
      (negamax (checkEngine 10) 131
        (iterStart (should_exit_search (checkEngine 10) r1.state).2 2) 2 0
        (-kMateScore) kMateScore).map (fun r2 =>
          (r2.path, r2.state.best_move_this_iteration,
            [0, 1, 2, 3].map (searchedScore (checkEngine 10) (negamax (checkEngine 10) 130)
              (iterStart (should_exit_search (checkEngine 10) r1.state).2 2) 2 0
              (-kMateScore) kMateScore))))) =
      some (Exit.cancelledChild, none, [none, none, none, none]) ∧
    ((negamax (checkEngine 12) 131 (iterStart (searchStart (checkEngine 12) bareState) 1) 1 0
        (-kMateScore) kMateScore).bind (fun r1 =>
      (negamax (checkEngine 12) 131
        (iterStart (should_exit_search (checkEngine 12) r1.state).2 2) 2 0
        (-kMateScore) kMateScore).map (fun r2 =>
          (r2.path, r2.state.best_move_this_iteration,
            [0, 1, 2, 3].map (searchedScore (checkEngine 12) (negamax (checkEngine 12) 130)
              (iterStart (should_exit_search (checkEngine 12) r1.state).2 2) 2 0
              (-kMateScore) kMateScore))))) =
      some (Exit.cancelledChild, some 3, [some 31999, none, none, none]) := by
  refine ⟨?_, by decide, by decide, by decide, by decide⟩
  obtain ⟨m, t, h⟩ := (driver_result (checkEngine 12) 131 bareState).2.2
    (fun _ => 0) (fun _ => 0) 0 (fun _ _ => rfl) (fun _ => rfl)
    { captures := by
        intro b t k m hm _
        have hm2 : m ∈ (if t.isEmpty then ([] : List Nat) else ([] : List Nat).reverse) := hm
        split at hm2 <;> simp at hm2
      moves := fun _ _ _ _ _ => le_refl _
      pass := fun _ => le_refl _
      cap := fun _ => le_refl _
      chain := by
        intro b t k m hm hc _ _
        have hb : 0 < b.length := by
          have hc2 : (decide (bareEngine.turn b = bareEngine.turn b) &&
              decide (0 < b.length)) = true := hc
          simpa using hc2
        have hm2 : m ∈ (if t.isEmpty then (if b.length < 1 then [1, 2, 3] else ([] : List Nat))
            else (if b.length < 1 then [1, 2, 3] else ([] : List Nat)).reverse) := hm
        have hn : ¬ b.length < 1 := by omega
        simp only [hn, if_false, List.reverse_nil, ite_self] at hm2
        exact absurd hm2 (List.not_mem_nil _) }
    (by decide)
  obtain ⟨rs, h1, _, h3, _⟩ := (driver_result (checkEngine 12) 131 bareState).1 m t h
  have hm : m = 3 := by
    have : (find_best_move (checkEngine 12) 131 bareState).map Prod.fst = some 3 := by decide
    rw [h] at this
    simpa using this
  exact ⟨m, t, h, hm, rs, h1, h3⟩

/-- C20: with a monotone clock, a `should_exit_search` that answers `true`
leaves `search_cancelled` set and the budget used up for good; in every later
state (same start time, no fewer clock readings, `search_cancelled` still set)
`should_exit_search` answers `true` again, and every call of `quiesce` and
`negamax` that is entered with `search_cancelled` set returns with it set.  Hence every call of
`negamax` that was entered before the cancellation and returns after it (the
call that saw it first and every call around that one) returns 0 through a
cancellation exit, and after a root call that returned with the search
cancelled `find_best_move` makes no further root call and ends with
`search_cancelled` set. -/
theorem cancellation_sticky (E : Engine Board Move TT Killers)
    (hmono : ∀ i j, i ≤ j → E.now i ≤ E.now j) :
    (∀ (s : SearchState Board Move TT Killers), (should_exit_search E s).1 = true →
        (should_exit_search E s).2.search_cancelled = true ∧
          Overdue E (should_exit_search E s).2) ∧
    (∀ (s t : SearchState Board Move TT Killers), Overdue E s →
        t.start_time = s.start_time → s.clock_reads ≤ t.clock_reads →
        t.search_cancelled = true →
          (should_exit_search E t).1 = true ∧
            (should_exit_search E t).2.search_cancelled = true ∧
            Overdue E (should_exit_search E t).2) ∧
    (∀ (fuel : Nat) (s : SearchState Board Move TT Killers) (alpha beta v : Int)
        (t : SearchState Board Move TT Killers),
        quiesce E fuel s alpha beta = some (v, t) → s.search_cancelled = true →
        Overdue E s → t.search_cancelled = true ∧ Overdue E t) ∧
    (∀ (fuel : Nat) (s : SearchState Board Move TT Killers) (depth ply alpha beta : Int)
        (r : Result Board Move TT Killers),
        negamax E fuel s depth ply alpha beta = some r → s.search_cancelled = true →
        Overdue E s → r.state.search_cancelled = true ∧ Overdue E r.state) ∧
    (∀ (fuel : Nat) (s : SearchState Board Move TT Killers) (depth ply alpha beta : Int)
        (r : Result Board Move TT Killers),
        negamax E fuel s depth ply alpha beta = some r → s.search_cancelled = false →
        r.state.search_cancelled = true →
          r.value = 0 ∧ r.path.isCancelled = true ∧ Overdue E r.state) ∧
    (∀ (fuel : Nat) (s : SearchState Board Move TT Killers) (m : Move)
        (t : SearchState Board Move TT Killers)
        (rs : List (Int × Result Board Move TT Killers)),
        find_best_move E fuel s = some (m, t) →
        rootSearches E fuel kMaxDepth 1 (searchStart E s) = some rs →
        ∀ pre r post, rs = pre ++ r :: post → r.2.state.search_cancelled = true →
          post = [] ∧ t.search_cancelled = true) := by
  refine ⟨?_, ?_, ?_, ?_, ?_, ?_⟩
  · intro s hx
    exact ⟨should_exit_search_sets E s hx, should_exit_search_overdue E hmono s hx⟩
  · intro s t ho hst hrd hc
    have hot : Overdue E t := by
      intro j hj
      rw [hst]
      exact ho j (le_trans hrd hj)
    have hf := Frame.exit E t
    exact ⟨should_exit_search_again E t hc hot, hf.cancelled hc, Overdue.of_frame hf hot⟩
  · intro fuel s alpha beta v t h hc ho
    have hf := quiesce_frame E fuel s alpha beta v t h
    exact ⟨hf.cancelled hc, Overdue.of_frame hf ho⟩
  · intro fuel s depth ply alpha beta r h hc ho
    have hf := negamax_frame E fuel s depth ply alpha beta r h
    exact ⟨hf.cancelled hc, Overdue.of_frame hf ho⟩
  · intro fuel s depth ply alpha beta r h hs hc
    exact negamax_seen E hmono fuel s depth ply alpha beta r h hs hc
  · intro fuel s m t rs h hrs pre r post he hc
    simp only [find_best_move] at h
    split at h
    · exact absurd h (by simp)
    · rename_i m1 s1 hl
      simp only [Option.some.injEq, Prod.mk.injEq] at h
      have := deepenLoop_stops E hmono fuel _ _ _ _ _ rs rfl hl hrs pre r post he hc
      refine ⟨this.1, ?_⟩
      rw [← h.2]
      exact this.2

/-- Witness for C20: with a budget of three ticks, the first root call is
entered before the cancellation, its first child sees the cancellation on
entry, and the root call returns 0 through a cancellation exit. -/
theorem cancellation_sticky_witness :
    ∃ r, negamax (checkEngine 3) 4 (iterStart (searchStart (checkEngine 3) bareState) 1) 1 0
        (-kMateScore) kMateScore = some r ∧
      r.state.search_cancelled = true ∧ r.value = 0 ∧ r.path.isCancelled = true := by
  obtain ⟨r, hr⟩ := Option.isSome_iff_exists.mp
    (by decide : (negamax (checkEngine 3) 4 (iterStart (searchStart (checkEngine 3) bareState) 1)
      1 0 (-kMateScore) kMateScore).isSome = true)
  have hc : r.state.search_cancelled = true := by
    have : (negamax (checkEngine 3) 4 (iterStart (searchStart (checkEngine 3) bareState) 1)
        1 0 (-kMateScore) kMateScore).map (fun r => r.state.search_cancelled) = some true := by
      decide
    rw [hr] at this
    simpa using this
  have h := (cancellation_sticky (checkEngine 3) (fun i j hij => by
    show (i : Int) ≤ (j : Int)
    exact_mod_cast hij)).2.2.2.2.1 4 _ 1 0 (-kMateScore) kMateScore r hr rfl hc
  exact ⟨r, hr, hc, h.1, h.2.1⟩

end Search

end Integral
